import Mathlib

/-! The file smart-queue.c : the CFS red-black run-queue and the timed ring

Shallow embedding of `src/smart-queue.c`.

Memory model.  A C pointer is a natural number, `NULL` is `0`.  The memory
holding the `struct rb_node`s is kept field by field: `rb_left a` is the value
of `((struct rb_node *) a)->rb_left`, and so on.  The packed word
`rb_parent_color` is kept as its two components, the parent pointer
(`rb_parent`, the macro `rb_parent(r)`) and the colour bit (`rb_color`, the
macro `rb_color(r)`).  `run_node` is the first member of `struct cfs_task`,
so a task and its `run_node` have the same address and `rb_entry` is the
identity on addresses.

Loops are given fuel; a loop that runs out of fuel yields `none`.
-/

namespace SmartQueue

/-- One store into a memory of words: `upd f a v` is `f` with `f[a] = v`. -/
def upd (f : Nat → Nat) (a v : Nat) : Nat → Nat :=
  fun x => if x = a then v else f x

/-- Macro `#define RB_RED 0` -/
def RB_RED : Nat := 0

/-- Macro `#define RB_BLACK 1` -/
def RB_BLACK : Nat := 1

/-- The memory of all `struct rb_node`s together with one `struct rb_root`. -/
structure Heap where
  /-- Holds `rb_parent(r)`: the pointer part of `r->rb_parent_color`. -/
  rb_parent : Nat → Nat
  /-- Holds `rb_color(r)`: the colour bit of `r->rb_parent_color`. -/
  rb_color : Nat → Nat
  /-- Holds `r->rb_right` -/
  rb_right : Nat → Nat
  /-- Holds `r->rb_left` -/
  rb_left : Nat → Nat
  /-- Holds `root->rb_node` -/
  rb_node : Nat

/-- Macro `#define rb_is_red(r) (!rb_color(r))` -/
def rb_is_red (h : Heap) (r : Nat) : Prop := h.rb_color r = 0

/-- Macro `#define rb_is_black(r) rb_color(r)` -/
def rb_is_black (h : Heap) (r : Nat) : Prop := h.rb_color r ≠ 0

instance (h : Heap) (r : Nat) : Decidable (rb_is_red h r) :=
  inferInstanceAs (Decidable (h.rb_color r = 0))

instance (h : Heap) (r : Nat) : Decidable (rb_is_black h r) :=
  inferInstanceAs (Decidable (h.rb_color r ≠ 0))

/-- Macro `#define rb_set_red(r) do { (r)->rb_parent_color &= ~1; } while (0)` -/
def rb_set_red (r : Nat) (h : Heap) : Heap :=
  { h with rb_color := upd h.rb_color r RB_RED }

/-- Macro `#define rb_set_black(r) do { (r)->rb_parent_color |= 1; } while (0)` -/
def rb_set_black (r : Nat) (h : Heap) : Heap :=
  { h with rb_color := upd h.rb_color r RB_BLACK }

/-- Holds `rb_set_parent(rb, p)`: replaces the pointer part, keeps the colour. -/
def rb_set_parent (rb p : Nat) (h : Heap) : Heap :=
  { h with rb_parent := upd h.rb_parent rb p }

/-- Holds `rb_set_color(rb, color)`: replaces the colour bit, keeps the pointer. -/
def rb_set_color (rb color : Nat) (h : Heap) : Heap :=
  { h with rb_color := upd h.rb_color rb color }

/-- The store `r->rb_left = v`. -/
def set_left (r v : Nat) (h : Heap) : Heap :=
  { h with rb_left := upd h.rb_left r v }

/-- The store `r->rb_right = v`. -/
def set_right (r v : Nat) (h : Heap) : Heap :=
  { h with rb_right := upd h.rb_right r v }

/-- The store `root->rb_node = v`. -/
def set_root (v : Nat) (h : Heap) : Heap :=
  { h with rb_node := v }

/-- A `struct rb_node **`: the address of the root pointer, of some node's
`rb_left` or of some node's `rb_right`. -/
inductive rb_link where
  | root : rb_link
  | left : Nat → rb_link
  | right : Nat → rb_link
  deriving DecidableEq, Repr

/-- The load `*link`. -/
def deref (h : Heap) : rb_link → Nat
  | .root => h.rb_node
  | .left p => h.rb_left p
  | .right p => h.rb_right p

/-- The store `*link = v`. -/
def store (l : rb_link) (v : Nat) (h : Heap) : Heap :=
  match l with
  | .root => set_root v h
  | .left p => set_left p v h
  | .right p => set_right p v h

/-- Holds `rb_link_node(node, parent, rb_link)` -/
def rb_link_node (node parent : Nat) (link : rb_link) (h : Heap) : Heap :=
  -- node->rb_parent_color = (unsigned long) parent;
  let h := rb_set_color node RB_RED (rb_set_parent node parent h)
  -- node->rb_left = node->rb_right = NULL;
  let h := set_right node 0 h
  let h := set_left node 0 h
  -- *rb_link = node;
  store link node h

/-- Holds `__rb_rotate_left(node, root)` -/
def __rb_rotate_left (node : Nat) (h : Heap) : Heap :=
  let right := h.rb_right node
  let parent := h.rb_parent node
  -- if ((node->rb_right = right->rb_left)) rb_set_parent(right->rb_left, node);
  let h := set_right node (h.rb_left right) h
  let h := if h.rb_right node ≠ 0 then rb_set_parent (h.rb_left right) node h else h
  -- right->rb_left = node;
  let h := set_left right node h
  let h := rb_set_parent right parent h
  let h :=
    if parent ≠ 0 then
      if node = h.rb_left parent then set_left parent right h
      else set_right parent right h
    else set_root right h
  rb_set_parent node right h

/-- Holds `__rb_rotate_right(node, root)` -/
def __rb_rotate_right (node : Nat) (h : Heap) : Heap :=
  let left := h.rb_left node
  let parent := h.rb_parent node
  -- if ((node->rb_left = left->rb_right)) rb_set_parent(left->rb_right, node);
  let h := set_left node (h.rb_right left) h
  let h := if h.rb_left node ≠ 0 then rb_set_parent (h.rb_right left) node h else h
  -- left->rb_right = node;
  let h := set_right left node h
  let h := rb_set_parent left parent h
  let h :=
    if parent ≠ 0 then
      if node = h.rb_right parent then set_right parent left h
      else set_left parent left h
    else set_root left h
  rb_set_parent node left h

/-- The `while` loop of `rb_insert_color`; `none` when the fuel runs out. -/
def rb_insert_color_loop : Nat → Nat → Heap → Option Heap
  | 0, _, _ => none
  | fuel + 1, node, h =>
    let parent := h.rb_parent node
    if parent ≠ 0 ∧ rb_is_red h parent then
      let gparent := h.rb_parent parent
      if parent = h.rb_left gparent then
        let uncle := h.rb_right gparent
        if uncle ≠ 0 ∧ rb_is_red h uncle then
          let h := rb_set_black uncle h
          let h := rb_set_black parent h
          let h := rb_set_red gparent h
          rb_insert_color_loop fuel gparent h
        else
          -- if (parent->rb_right == node) { rotate; tmp = parent; parent = node; node = tmp; }
          let r := if h.rb_right parent = node then (__rb_rotate_left parent h, node, parent)
                   else (h, parent, node)
          let h := rb_set_black r.2.1 r.1
          let h := rb_set_red gparent h
          let h := __rb_rotate_right gparent h
          rb_insert_color_loop fuel r.2.2 h
      else
        let uncle := h.rb_left gparent
        if uncle ≠ 0 ∧ rb_is_red h uncle then
          let h := rb_set_black uncle h
          let h := rb_set_black parent h
          let h := rb_set_red gparent h
          rb_insert_color_loop fuel gparent h
        else
          -- if (parent->rb_left == node) { rotate; tmp = parent; parent = node; node = tmp; }
          let r := if h.rb_left parent = node then (__rb_rotate_right parent h, node, parent)
                   else (h, parent, node)
          let h := rb_set_black r.2.1 r.1
          let h := rb_set_red gparent h
          let h := __rb_rotate_left gparent h
          rb_insert_color_loop fuel r.2.2 h
    else some h

/-- Holds `rb_insert_color(node, root)` -/
def rb_insert_color (fuel : Nat) (node : Nat) (h : Heap) : Option Heap :=
  match rb_insert_color_loop fuel node h with
  | none => none
  | some h => some (rb_set_black h.rb_node h)

/-- The `while` loop of `__rb_erase_color`: yields the final value
of the variable `node` and the memory; `none` when the fuel runs out. -/
def __rb_erase_color_loop : Nat → Nat → Nat → Heap → Option (Nat × Heap)
  | 0, _, _, _ => none
  | fuel + 1, node, parent, h =>
    if (node = 0 ∨ rb_is_black h node) ∧ node ≠ h.rb_node then
      if h.rb_left parent = node then
        let other := h.rb_right parent
        let r :=
          if rb_is_red h other then
            let h := rb_set_black other h
            let h := rb_set_red parent h
            let h := __rb_rotate_left parent h
            (h, h.rb_right parent)
          else (h, other)
        let h := r.1
        let other := r.2
        if (h.rb_left other = 0 ∨ rb_is_black h (h.rb_left other)) ∧
            (h.rb_right other = 0 ∨ rb_is_black h (h.rb_right other)) then
          let h := rb_set_red other h
          -- node = parent; parent = rb_parent(node);
          __rb_erase_color_loop fuel parent (h.rb_parent parent) h
        else
          let r :=
            if h.rb_right other = 0 ∨ rb_is_black h (h.rb_right other) then
              let o_left := h.rb_left other
              let h := if o_left ≠ 0 then rb_set_black o_left h else h
              let h := rb_set_red other h
              let h := __rb_rotate_right other h
              (h, h.rb_right parent)
            else (h, other)
          let h := r.1
          let other := r.2
          let h := rb_set_color other (h.rb_color parent) h
          let h := rb_set_black parent h
          let h := if h.rb_right other ≠ 0 then rb_set_black (h.rb_right other) h else h
          let h := __rb_rotate_left parent h
          -- node = root->rb_node; break;
          some (h.rb_node, h)
      else
        let other := h.rb_left parent
        let r :=
          if rb_is_red h other then
            let h := rb_set_black other h
            let h := rb_set_red parent h
            let h := __rb_rotate_right parent h
            (h, h.rb_left parent)
          else (h, other)
        let h := r.1
        let other := r.2
        if (h.rb_left other = 0 ∨ rb_is_black h (h.rb_left other)) ∧
            (h.rb_right other = 0 ∨ rb_is_black h (h.rb_right other)) then
          let h := rb_set_red other h
          -- node = parent; parent = rb_parent(node);
          __rb_erase_color_loop fuel parent (h.rb_parent parent) h
        else
          let r :=
            if h.rb_left other = 0 ∨ rb_is_black h (h.rb_left other) then
              let o_right := h.rb_right other
              let h := if o_right ≠ 0 then rb_set_black o_right h else h
              let h := rb_set_red other h
              let h := __rb_rotate_left other h
              (h, h.rb_left parent)
            else (h, other)
          let h := r.1
          let other := r.2
          let h := rb_set_color other (h.rb_color parent) h
          let h := rb_set_black parent h
          let h := if h.rb_left other ≠ 0 then rb_set_black (h.rb_left other) h else h
          let h := __rb_rotate_right parent h
          -- node = root->rb_node; break;
          some (h.rb_node, h)
    else some (node, h)

/-- Holds `__rb_erase_color(node, parent, root)` -/
def __rb_erase_color (fuel : Nat) (node parent : Nat) (h : Heap) : Option Heap :=
  match __rb_erase_color_loop fuel node parent h with
  | none => none
  | some (node, h) => some (if node ≠ 0 then rb_set_black node h else h)

/-- The loop `while (n->rb_left) n = n->rb_left;` of `rb_first`, which is also
the inner loop of `rb_next` and of `rb_erase`. -/
def descend_left (h : Heap) : Nat → Nat → Option Nat
  | 0, _ => none
  | fuel + 1, n => if h.rb_left n ≠ 0 then descend_left h fuel (h.rb_left n) else some n

/-- The part of `rb_erase` up to the label `color`: yields `child`, `parent`,
`color` and the memory. -/
def rb_erase_unlink (fuel : Nat) (node : Nat) (h : Heap) : Option (Nat × Nat × Nat × Heap) :=
  if h.rb_left node = 0 ∨ h.rb_right node = 0 then
    let child := if h.rb_left node = 0 then h.rb_right node else h.rb_left node
    let parent := h.rb_parent node
    let color := h.rb_color node
    let h := if child ≠ 0 then rb_set_parent child parent h else h
    let h :=
      if parent ≠ 0 then
        if h.rb_left parent = node then set_left parent child h
        else set_right parent child h
      else set_root child h
    some (child, parent, color, h)
  else
    let old := node
    match descend_left h fuel (h.rb_right node) with
    | none => none
    | some node =>
      let child := h.rb_right node
      let parent := h.rb_parent node
      let color := h.rb_color node
      let h := if child ≠ 0 then rb_set_parent child parent h else h
      let r :=
        if parent = old then (set_right parent child h, node)
        else (set_left parent child h, parent)
      let h := r.1
      let parent := r.2
      -- node->rb_parent_color = old->rb_parent_color;
      let h := rb_set_color node (h.rb_color old) (rb_set_parent node (h.rb_parent old) h)
      let h := set_right node (h.rb_right old) h
      let h := set_left node (h.rb_left old) h
      let h :=
        if h.rb_parent old ≠ 0 then
          if h.rb_left (h.rb_parent old) = old then set_left (h.rb_parent old) node h
          else set_right (h.rb_parent old) node h
        else set_root node h
      let h := rb_set_parent (h.rb_left old) node h
      let h := if h.rb_right old ≠ 0 then rb_set_parent (h.rb_right old) node h else h
      some (child, parent, color, h)

/-- Holds `rb_erase(node, root)` -/
def rb_erase (fuel : Nat) (node : Nat) (h : Heap) : Option Heap :=
  match rb_erase_unlink fuel node h with
  | none => none
  | some (child, parent, color, h) =>
    if color = RB_BLACK then __rb_erase_color fuel child parent h else some h

/-- Holds `rb_first(root)` -/
def rb_first (fuel : Nat) (h : Heap) : Option Nat :=
  let n := h.rb_node
  if n = 0 then some 0 else descend_left h fuel n

/-- The last loop of `rb_next`:
`while ((parent = rb_parent(node)) && node == parent->rb_right) node = parent;`
yields the final `parent`. -/
def rb_next_up (h : Heap) : Nat → Nat → Option Nat
  | 0, _ => none
  | fuel + 1, node =>
    let parent := h.rb_parent node
    if parent ≠ 0 ∧ node = h.rb_right parent then rb_next_up h fuel parent else some parent

/-- Holds `rb_next(node)` -/
def rb_next (fuel : Nat) (h : Heap) (node : Nat) : Option Nat :=
  if h.rb_parent node = node then some 0
  else if h.rb_right node ≠ 0 then descend_left h fuel (h.rb_right node)
  else rb_next_up h fuel node

/-! ## CFS code -/

/-- The memory seen by the CFS run-queue code: the `rb_node`s and the root
(`rq->tasks_timeline`), the field `t` of every `struct cfs_task`, and
`rq->rb_leftmost`. -/
structure cfs_state where
  /-- The `run_node`s of all tasks and `rq->tasks_timeline`. -/
  heap : Heap
  /-- Holds `tsk->t` for the task at each address. -/
  t : Nat → Nat
  /-- Holds `rq->rb_leftmost` -/
  rb_leftmost : Nat

/-- Holds `cfs_rqinit(rq)` -/
def cfs_rqinit (s : cfs_state) : cfs_state :=
  { s with rb_leftmost := 0, heap := set_root 0 s.heap }

/-- The descent loop of `cfs_queue`: yields the final `link`, `parent` and
`leftmost`. -/
def cfs_queue_loop (s : cfs_state) (t : Nat) : Nat → rb_link → Nat → Nat → Option (rb_link × Nat × Nat)
  | 0, _, _, _ => none
  | fuel + 1, link, parent, leftmost =>
    if deref s.heap link ≠ 0 then
      let parent := deref s.heap link
      -- entry = rb_entry(parent, struct cfs_task, run_node);
      if t < s.t parent then
        cfs_queue_loop s t fuel (.left (deref s.heap link)) parent leftmost
      else
        cfs_queue_loop s t fuel (.right (deref s.heap link)) parent 0
    else some (link, parent, leftmost)

/-- Holds `cfs_queue(tsk, rq, t)` -/
def cfs_queue (fuel : Nat) (tsk : Nat) (t : Nat) (s : cfs_state) : Option cfs_state :=
  -- tsk->t = t;
  let s := { s with t := upd s.t tsk t }
  match cfs_queue_loop s t fuel .root 0 1 with
  | none => none
  | some (link, parent, leftmost) =>
    let s := if leftmost ≠ 0 then { s with rb_leftmost := tsk } else s
    let h := rb_link_node tsk parent link s.heap
    match rb_insert_color fuel tsk h with
    | none => none
    | some h => some { s with heap := h }

/-- Holds `__dequeue_task_fair(rq, p)` -/
def __dequeue_task_fair (fuel : Nat) (p : Nat) (s : cfs_state) : Option cfs_state :=
  let s := if s.rb_leftmost = p then { s with rb_leftmost := 0 } else s
  match rb_erase fuel p s.heap with
  | none => none
  | some h => some { s with heap := h }

/-- Holds `first_fair(rq)` -/
def first_fair (fuel : Nat) (s : cfs_state) : Option Nat :=
  if s.rb_leftmost ≠ 0 then some s.rb_leftmost else rb_first fuel s.heap

/-- Holds `cfs_dequeue(rq)`: yields the returned task pointer (`0` for `NULL`) and
the memory. -/
def cfs_dequeue (fuel : Nat) (s : cfs_state) : Option (Nat × cfs_state) :=
  match first_fair fuel s with
  | none => none
  | some first =>
    let next := first
    if next ≠ 0 then
      match __dequeue_task_fair fuel next s with
      | none => none
      | some s => some (next, s)
    else some (next, s)

/-! ## The shape of the memory: trees and tree contexts -/

/-- A binary tree of node addresses with their colours: the shape that the
pointers in memory are meant to spell out. -/
inductive Tree where
  | nil : Tree
  | node (a c : Nat) (l r : Tree) : Tree
  deriving DecidableEq, Repr

/-- The addresses of a tree in sort order (left subtree, node, right subtree). -/
def Tree.inorder : Tree → List Nat
  | .nil => []
  | .node a _ l r => l.inorder ++ a :: r.inorder

/-- The pointer to a tree: `NULL` for the empty tree, else the root's address. -/
def Tree.ptr : Tree → Nat
  | .nil => 0
  | .node a _ _ _ => a

/-- The memory `h` spells out the tree below a node whose parent pointer must be
`par`: every node is non-NULL, its colour bit, its child pointers and its
parent pointer are the ones of the tree. -/
def Shape (h : Heap) : Tree → Nat → Prop
  | .nil, _ => True
  | .node a c l r, par =>
    a ≠ 0 ∧ h.rb_parent a = par ∧ h.rb_color a = c ∧
    h.rb_left a = l.ptr ∧ h.rb_right a = r.ptr ∧ Shape h l a ∧ Shape h r a

/-- One step of a path from a hole up to the root: the hole is the left child
of `a` (whose right subtree is `r`), or the right child of `a` (whose left
subtree is `l`). -/
inductive Frame where
  | L (a c : Nat) (r : Tree) : Frame
  | R (a c : Nat) (l : Tree) : Frame
  deriving DecidableEq, Repr

/-- A tree with a hole: the frames from the hole up to the root. -/
abbrev Ctx := List Frame

/-- Fill the hole of a context. -/
def plug : Ctx → Tree → Tree
  | [], t => t
  | .L a c r :: k, t => plug k (.node a c t r)
  | .R a c l :: k, t => plug k (.node a c l t)

/-- The node whose child the hole is (`NULL` at the root). -/
def parOf : Ctx → Nat
  | [] => 0
  | .L a _ _ :: _ => a
  | .R a _ _ :: _ => a

/-- The pointer variable that holds the hole. -/
def linkOf : Ctx → rb_link
  | [] => .root
  | .L a _ _ :: _ => .left a
  | .R a _ _ :: _ => .right a

/-- The addresses in sort order before the hole. -/
def ctxBefore : Ctx → List Nat
  | [] => []
  | .L _ _ _ :: k => ctxBefore k
  | .R a _ l :: k => ctxBefore k ++ (l.inorder ++ [a])

/-- The addresses in sort order after the hole. -/
def ctxAfter : Ctx → List Nat
  | [] => []
  | .L a _ r :: k => (a :: r.inorder) ++ ctxAfter k
  | .R _ _ _ :: k => ctxAfter k

/-- The memory spells out a context (all but the pointer that holds the hole). -/
def ShapeC (h : Heap) : Ctx → Prop
  | [] => True
  | .L a c r :: k =>
    a ≠ 0 ∧ h.rb_parent a = parOf k ∧ h.rb_color a = c ∧ h.rb_right a = r.ptr ∧
    Shape h r a ∧ deref h (linkOf k) = a ∧ ShapeC h k
  | .R a c l :: k =>
    a ≠ 0 ∧ h.rb_parent a = parOf k ∧ h.rb_color a = c ∧ h.rb_left a = l.ptr ∧
    Shape h l a ∧ deref h (linkOf k) = a ∧ ShapeC h k

/-- The memory holds the tree `T` at `root->rb_node`, all nodes distinct. -/
def Rep (h : Heap) (T : Tree) : Prop :=
  h.rb_node = T.ptr ∧ Shape h T 0 ∧ T.inorder.Nodup

/-- Two memories hold the same node at address `a`. -/
def SameAt (h h' : Heap) (a : Nat) : Prop :=
  h'.rb_parent a = h.rb_parent a ∧ h'.rb_color a = h.rb_color a ∧
  h'.rb_left a = h.rb_left a ∧ h'.rb_right a = h.rb_right a

/-- Two memories hold the same nodes outside the addresses `S`. -/
def SameOff (S : List Nat) (h h' : Heap) : Prop := ∀ a, a ∉ S → SameAt h h' a

/-! ## The red-black properties -/

/-- The number of black nodes on the leftmost path of a tree. -/
def Tree.bh : Tree → Nat
  | .nil => 0
  | .node _ c l _ => l.bh + c

/-- Every colour is `RB_RED` or `RB_BLACK` and at every node the two subtrees
have the same black height. -/
def Tree.Bal : Tree → Prop
  | .nil => True
  | .node _ c l r => c ≤ 1 ∧ l.bh = r.bh ∧ l.Bal ∧ r.Bal

/-- The tree is empty or its root is black (`rb_is_black`: colour bit not `0`). -/
def Tree.isBlack : Tree → Prop
  | .nil => True
  | .node _ c _ _ => c ≠ 0

/-- No red node has a red child. -/
def Tree.NoRR : Tree → Prop
  | .nil => True
  | .node _ c l r => (c = 0 → l.isBlack ∧ r.isBlack) ∧ l.NoRR ∧ r.NoRR

/-- The red-black properties: the root is black, no red node has a red child,
and all paths from a node down to the leaves hold the same number of black
nodes. -/
def Tree.RB (T : Tree) : Prop := T.isBlack ∧ T.NoRR ∧ T.Bal

/-- The colours met on each path from the root down to a leaf (`NULL`). -/
def Tree.paths : Tree → List (List Nat)
  | .nil => [[]]
  | .node _ c l r => (l.paths ++ r.paths).map (fun p => c :: p)

/-- All the subtrees of a tree (the tree below each node, and the empty ones). -/
def Tree.subtrees : Tree → List Tree
  | .nil => [.nil]
  | .node a c l r => .node a c l r :: (l.subtrees ++ r.subtrees)

/-- The number of nodes. -/
def Tree.size : Tree → Nat
  | .nil => 0
  | .node _ _ l r => l.size + 1 + r.size

/-- The colour of a frame's node. -/
def Frame.color : Frame → Nat
  | .L _ c _ => c
  | .R _ c _ => c

/-- The context is not the empty one and the node above the hole is black. -/
def topBlack : Ctx → Prop
  | [] => False
  | F :: _ => F.color ≠ 0

/-- The part of "root black, no red node with a red child" that a context
holds on its own: it says nothing on the colour of the filling. -/
def ctxNoRR : Ctx → Prop
  | [] => True
  | .L _ c r :: k => r.NoRR ∧ (c = 0 → r.isBlack ∧ topBlack k) ∧ ctxNoRR k
  | .R _ c l :: k => l.NoRR ∧ (c = 0 → l.isBlack ∧ topBlack k) ∧ ctxNoRR k

/-- The context is balanced for a filling of black height `n`. -/
def ctxBal : Ctx → Nat → Prop
  | [], _ => True
  | .L _ c r :: k, n => c ≤ 1 ∧ r.bh = n ∧ r.Bal ∧ ctxBal k (n + c)
  | .R _ c l :: k, n => c ≤ 1 ∧ l.bh = n ∧ l.Bal ∧ ctxBal k (n + c)

/-- The invariant of the CFS run-queue: the memory holds a red-black tree `T`
at `rq->tasks_timeline`, the keys `t` of the tasks are non-decreasing in the
sort order of the tree, and `rq->rb_leftmost` is `NULL` or the first node. -/
def Inv (s : cfs_state) (T : Tree) : Prop :=
  Rep s.heap T ∧ T.RB ∧ (T.inorder.map s.t).Pairwise (· ≤ ·) ∧
  (s.rb_leftmost = 0 ∨ T.inorder.head? = some s.rb_leftmost)

/-- The tree with its root made black. -/
def Tree.blacken : Tree → Tree
  | .nil => .nil
  | .node a _ l r => .node a 1 l r

/-- What the loop of `__rb_erase_color` achieves when it is entered at a
subtree `x` that lacks one black node on every path, hanging in the context
`k`: it ends, the memory then holds the same nodes in the same order, and the
final `if (node) rb_set_black(node)` makes the tree red-black. -/
def EraseSpec (k : Ctx) : Prop :=
  ∀ (x : Tree) (h : Heap) (fuel : Nat), k.length + 2 ≤ fuel → Rep h (plug k x) →
    ctxNoRR k → ctxBal k (x.bh + 1) → x.blacken.NoRR → x.Bal →
    ∃ h' k' y, __rb_erase_color_loop fuel x.ptr (parOf k) h = some (y.ptr, h') ∧
      Rep h' (plug k' y) ∧ (plug k' y).inorder = (plug k x).inorder ∧
      (plug k' y.blacken).RB

/-! ## Runs of the CFS run-queue -/

/-- Holds `cfs_queue` called for each `(task, key)` of a list, in order. -/
def queue_all (fuel : Nat) : List (Nat × Nat) → cfs_state → Option cfs_state
  | [], s => some s
  | (tsk, key) :: rest, s =>
    match cfs_queue fuel tsk key s with
    | none => none
    | some s' => queue_all fuel rest s'

/-- Holds `cfs_dequeue` called `n` times: the returned tasks, each with its key
`tsk->t` as read when it is returned, and the final memory. -/
def dequeue_n (fuel : Nat) : Nat → cfs_state → Option (List (Nat × Nat) × cfs_state)
  | 0, s => some ([], s)
  | n + 1, s =>
    match cfs_dequeue fuel s with
    | none => none
    | some (a, s') =>
      match dequeue_n fuel n s' with
      | none => none
      | some (out, s'') => some ((a, s'.t a) :: out, s'')

/-- The states of the run-queue that a caller can reach from `cfs_rqinit` by
`cfs_queue` and `cfs_dequeue`, together with the tasks that are queued in
them (those passed to `cfs_queue` and not yet returned by `cfs_dequeue`).
A caller queues only tasks that are not `NULL` and not queued already.  Each
call is given more fuel than there are queued tasks. -/
inductive Reach : cfs_state → List Nat → Prop where
  | init (s0 : cfs_state) : Reach (cfs_rqinit s0) []
  | queue {s s' : cfs_state} {q : List Nat} (fuel tsk key : Nat) :
      Reach s q → tsk ≠ 0 → tsk ∉ q → q.length < fuel →
      cfs_queue fuel tsk key s = some s' → Reach s' (tsk :: q)
  | dequeue {s s' : cfs_state} {q : List Nat} (fuel a : Nat) :
      Reach s q → q.length < fuel →
      cfs_dequeue fuel s = some (a, s') → Reach s' (q.erase a)

/-- The binary-search-tree property for the keys `key`: at every node the
keys in the left subtree are `≤` the node's key and the keys in the right
subtree are `≥` it. -/
def Tree.BST (key : Nat → Nat) : Tree → Prop
  | .nil => True
  | .node a _ l r =>
    (∀ b ∈ l.inorder, key b ≤ key a) ∧ (∀ b ∈ r.inorder, key a ≤ key b) ∧
    l.BST key ∧ r.BST key

/-- Parent links are consistent with child links: the parent pointer of the
root is `NULL`, and the parent pointer of every child is its parent. -/
def ParentLinks (h : Heap) (nodes : List Nat) : Prop :=
  (h.rb_node ≠ 0 → h.rb_parent h.rb_node = 0) ∧
  ∀ a ∈ nodes,
    (h.rb_left a ≠ 0 → h.rb_left a ∈ nodes ∧ h.rb_parent (h.rb_left a) = a) ∧
    (h.rb_right a ≠ 0 → h.rb_right a ∈ nodes ∧ h.rb_parent (h.rb_right a) = a)

/-- The walk `for (n = start; n; n = rb_next(n))`: the nodes visited. -/
def rb_walk (fuel : Nat) (h : Heap) : Nat → Nat → Option (List Nat)
  | 0, _ => none
  | steps + 1, n =>
    if n = 0 then some []
    else
      match rb_next fuel h n with
      | none => none
      | some n' =>
        match rb_walk fuel h steps n' with
        | none => none
        | some l => some (n :: l)

/-- The full traversal: `rb_first`, then `rb_next` until `NULL`. -/
def rb_traverse (fuel : Nat) (h : Heap) : Option (List Nat) :=
  match rb_first fuel h with
  | none => none
  | some n => rb_walk fuel h fuel n

/-! ## Timed ring code

The timed ring is compiled for `__x86_64__`: `long` has 64 bits.  The `lnk`
member is the first member of `struct tr_task`, so `list_entry` is the
identity on addresses.  A `struct list_head *` is `NULL`, the address of one
of the slot heads `rq->tsks[i]`, or the address of a task. -/

/-- Macro `#define BITS_X_LONG (8 * sizeof(long))` -/
def BITS_X_LONG : Nat := 64

/-- Macro `#define MAX_RQ (1 << 8)` -/
def MAX_RQ : Nat := 256

/-- Macro `#define RQ_MASK (MAX_RQ - 1)` -/
def RQ_MASK : Nat := MAX_RQ - 1

/-- Macro `#define MAP_LONGS (MAX_RQ / BITS_X_LONG)` -/
def MAP_LONGS : Nat := MAX_RQ / BITS_X_LONG

/-- Macro `#define NS_SLOT (5 * 1000000UL)` -/
def NS_SLOT : Nat := 5 * 1000000

/-- A `struct list_head *`. -/
inductive lptr where
  | null : lptr
  | head (i : Nat) : lptr
  | task (a : Nat) : lptr
  deriving DecidableEq, Repr

/-- One store into a memory of list pointers. -/
def lupd (f : lptr → lptr) (a v : lptr) : lptr → lptr :=
  fun x => if x = a then v else f x

/-- The memory seen by the timed ring code: `struct tr_rq` and the tasks. -/
structure tr_state where
  /-- Holds `rq->ibase` (`unsigned int`) -/
  ibase : Nat
  /-- Holds `rq->tbase` (`nstime_t`, 64 bits) -/
  tbase : Nat
  /-- the member `next` of every `struct list_head` -/
  next : lptr → lptr
  /-- the member `prev` of every `struct list_head` -/
  prev : lptr → lptr
  /-- Holds `rq->map[i]` (`unsigned long`) -/
  map : Nat → Nat
  /-- Holds `tsk->t` for the task at each address -/
  t : Nat → Nat

/-- Holds `INIT_LIST_HEAD(list)` -/
def INIT_LIST_HEAD (list : lptr) (s : tr_state) : tr_state :=
  let s := { s with next := lupd s.next list list }
  { s with prev := lupd s.prev list list }

/-- Holds `__list_add(new, prev, next)` -/
def __list_add (new prev next : lptr) (s : tr_state) : tr_state :=
  let s := { s with prev := lupd s.prev next new }
  let s := { s with next := lupd s.next new next }
  let s := { s with prev := lupd s.prev new prev }
  { s with next := lupd s.next prev new }

/-- Holds `list_add_tail(new, head)` -/
def list_add_tail (new head : lptr) (s : tr_state) : tr_state :=
  __list_add new (s.prev head) head s

/-- Holds `__list_del(prev, next)` -/
def __list_del (prev next : lptr) (s : tr_state) : tr_state :=
  let s := { s with prev := lupd s.prev next prev }
  { s with next := lupd s.next prev next }

/-- Holds `list_del(entry)` -/
def list_del (entry : lptr) (s : tr_state) : tr_state :=
  let s := __list_del (s.prev entry) (s.next entry) s
  let s := { s with next := lupd s.next entry .null }
  { s with prev := lupd s.prev entry .null }

/-- Holds `list_empty(head)` -/
def list_empty (head : lptr) (s : tr_state) : Prop := s.next head = head

instance (head : lptr) (s : tr_state) : Decidable (list_empty head s) :=
  inferInstanceAs (Decidable (s.next head = head))

/-- The operator `~` on an `unsigned long`. -/
def lnot (x : Nat) : Nat := x ^^^ (2 ^ BITS_X_LONG - 1)

/-- Holds `__set_bit(nr, addr)` -/
def __set_bit (nr : Nat) (addr : Nat → Nat) : Nat → Nat :=
  upd addr (nr / BITS_X_LONG) (addr (nr / BITS_X_LONG) ||| (1 <<< (nr % BITS_X_LONG)))

/-- Holds `__clear_bit(nr, addr)` -/
def __clear_bit (nr : Nat) (addr : Nat → Nat) : Nat → Nat :=
  upd addr (nr / BITS_X_LONG) (addr (nr / BITS_X_LONG) &&& lnot (1 <<< (nr % BITS_X_LONG)))

/-- The search of `bsfq` from bit `i` upwards, over `n` bits. -/
def ffs_from (word : Nat) : Nat → Nat → Nat
  | 0, i => i
  | n + 1, i => if word.testBit i then i else ffs_from word n (i + 1)

/-- Holds `__ffs(word)`: the instruction `bsfq`, the index of the least significant
set bit of a 64-bit word that is not `0`. -/
def __ffs (word : Nat) : Nat := ffs_from word BITS_X_LONG 0

/-- Holds `tr_rqinit(rq)`: the loop `for (i = 0; i < MAX_RQ; i++) INIT_LIST_HEAD(&rq->tsks[i]);`
over the slots `i, i+1, ...` still to do. -/
def tr_rqinit_loop : Nat → Nat → tr_state → tr_state
  | 0, _, s => s
  | n + 1, i, s => tr_rqinit_loop n (i + 1) (INIT_LIST_HEAD (.head i) s)

/-- Holds `tr_rqinit(rq)` -/
def tr_rqinit (s : tr_state) : tr_state :=
  let s := { s with ibase := 0 }
  let s := { s with tbase := 0 }
  let s := tr_rqinit_loop MAX_RQ 0 s
  -- memset(rq->map, 0, sizeof(rq->map));
  { s with map := fun i => if i < MAP_LONGS then 0 else s.map i }

/-- The loop of `rel_ffs`: `n` words still to scan, the next one is `map[i]`
under `mask`. -/
def rel_ffs_loop (s : tr_state) : Nat → Nat → Nat → Nat
  | 0, _, _ => MAX_RQ
  | n + 1, i, mask =>
    let v := s.map i &&& mask
    if v ≠ 0 then i * BITS_X_LONG + __ffs v
    else rel_ffs_loop s n ((i + 1) % MAP_LONGS) (lnot 0)

/-- Holds `rel_ffs(rq)` -/
def rel_ffs (s : tr_state) : Nat :=
  let i := s.ibase / BITS_X_LONG
  let b := s.ibase % BITS_X_LONG
  let mask := lnot ((1 <<< b) - 1)
  rel_ffs_loop s MAP_LONGS i mask

/-- Holds `tr_dequeue(rq)`: yields the returned pointer and the memory. -/
def tr_dequeue (s : tr_state) : lptr × tr_state :=
  let idx := rel_ffs s
  if idx = MAX_RQ then (.null, { s with tbase := 0 })
  else
    let tsk := s.next (.head idx)
    let s := list_del tsk s
    let s := if list_empty (.head idx) s then { s with map := __clear_bit idx s.map } else s
    -- d = (idx - rq->ibase) & RQ_MASK;  (unsigned int)
    let d := ((idx + 2 ^ 32 - s.ibase) % 2 ^ 32) &&& RQ_MASK
    let s := { s with ibase := idx }
    -- rq->tbase += NS_SLOT * d;  (64 bits)
    let s := { s with tbase := (s.tbase + NS_SLOT * d) % 2 ^ 64 }
    (tsk, s)

/-- Holds `tr_queue(tsk, rq, t)` -/
def tr_queue (tsk : Nat) (t : Nat) (s : tr_state) : tr_state :=
  let s := if s.tbase = 0 then { s with tbase := s.t tsk } else s
  let s := { s with t := upd s.t tsk t }
  -- idx = (unsigned int) ((t - rq->tbase) / NS_SLOT);
  let idx := (((t + 2 ^ 64 - s.tbase) % 2 ^ 64) / NS_SLOT) % 2 ^ 32
  let idx := if idx ≥ MAX_RQ then MAX_RQ - 1 else idx
  let idx := ((idx + s.ibase) % 2 ^ 32) &&& RQ_MASK
  let s := list_add_tail (.task tsk) (.head idx) s
  { s with map := __set_bit idx s.map }

/-- Bit `nr` of the bitmap `addr` is set. -/
def test_bit (nr : Nat) (addr : Nat → Nat) : Bool :=
  (addr (nr / BITS_X_LONG)).testBit (nr % BITS_X_LONG)

/-- The list from `p` to `e` in memory: `p->next` is the first task of `l`, each
task's `next` is the following task, the last one's `next` is `e`, and the
`prev` pointers lead back the same way. -/
def Chain (s : tr_state) : lptr → List Nat → lptr → Prop
  | p, [], e => s.next p = e ∧ s.prev e = p
  | p, a :: l, e => s.next p = .task a ∧ s.prev (.task a) = p ∧ Chain s (.task a) l e

/-- The invariant of the timed ring: `L i` is the list of the tasks in slot
`i`, in the order of the list in memory; no task is in two places; the bit of
a slot is set exactly when its list holds a task. -/
def TrInv (s : tr_state) (L : Nat → List Nat) : Prop :=
  s.ibase < MAX_RQ ∧ s.tbase < 2 ^ 64 ∧ (∀ a, s.t a < 2 ^ 64) ∧
  (∀ w, w < MAP_LONGS → s.map w < 2 ^ 64) ∧
  (∀ i, i < MAX_RQ → Chain s (.head i) (L i) (.head i)) ∧
  (∀ i, i < MAX_RQ → (test_bit i s.map = true ↔ L i ≠ [])) ∧
  (∀ i, (L i).Nodup) ∧ (∀ i j, i ≠ j → List.Disjoint (L i) (L j)) ∧
  (∀ i, MAX_RQ ≤ i → L i = [])

/-- The tasks queued after a call of `tr_dequeue` that returned `r`. -/
def tr_unqueue (r : lptr) (q : List Nat) : List Nat :=
  match r with
  | .task a => q.erase a
  | _ => q

/-- The states of the timed ring that a caller can reach from `tr_rqinit` by
`tr_queue` and `tr_dequeue`, together with the tasks that are queued in them.
A caller queues only tasks that are not queued already; keys and the tasks'
fields `t` are 64-bit values. -/
inductive TrReach : tr_state → List Nat → Prop where
  | init (s0 : tr_state) : (∀ a, s0.t a < 2 ^ 64) → TrReach (tr_rqinit s0) []
  | queue {s : tr_state} {q : List Nat} (tsk key : Nat) :
      TrReach s q → tsk ∉ q → key < 2 ^ 64 → TrReach (tr_queue tsk key s) (tsk :: q)
  | dequeue {s : tr_state} {q : List Nat} :
      TrReach s q → TrReach (tr_dequeue s).2 (tr_unqueue (tr_dequeue s).1 q)

/-- The pointer to the last element of the list from `p`. -/
def lastPtr : lptr → List Nat → lptr
  | p, [] => p
  | _, a :: l => lastPtr (.task a) l

/-- The slot index that `tr_queue(tsk, rq, t)` computes: the value of `idx`
passed to `list_add_tail` and `__set_bit`. -/
def tr_queue_idx (tsk : Nat) (t : Nat) (s : tr_state) : Nat :=
  let tbase := if s.tbase = 0 then s.t tsk else s.tbase
  let idx := (((t + 2 ^ 64 - tbase) % 2 ^ 64) / NS_SLOT) % 2 ^ 32
  let idx := if idx ≥ MAX_RQ then MAX_RQ - 1 else idx
  ((idx + s.ibase) % 2 ^ 32) &&& RQ_MASK

/-- Calls of `tr_queue` for each `(task, key)` of a list, in order. -/
def tr_queue_all : List (Nat × Nat) → tr_state → tr_state
  | [], s => s
  | (tsk, key) :: rest, s => tr_queue_all rest (tr_queue tsk key s)

/-- Calls of `tr_dequeue`, `n` times: the returned pointers and the final memory. -/
def tr_dequeue_n : Nat → tr_state → List lptr × tr_state
  | 0, s => ([], s)
  | n + 1, s =>
    let r := tr_dequeue s
    let rest := tr_dequeue_n n r.2
    (r.1 :: rest.1, rest.2)

/-- A memory of the timed ring in which every field holds `0` (`NULL`). -/
def tr_zero : tr_state :=
  { ibase := 0, tbase := 0, next := fun _ => .null, prev := fun _ => .null,
    map := fun _ => 0, t := fun _ => 0 }

/-- A memory of the run-queue in which every field holds `0` (`NULL`). -/
def cfs_zero : cfs_state :=
  { heap := { rb_parent := fun _ => 0, rb_color := fun _ => 0, rb_right := fun _ => 0,
              rb_left := fun _ => 0, rb_node := 0 },
    t := fun _ => 0, rb_leftmost := 0 }

/-- The ring after `tr_rqinit`, `tr_queue` of task `1` with key `10 * NS_SLOT`
and one `tr_dequeue` (which returns task `1`): `ibase = 10`, `tbase = 50000000`. -/
def tr_base10 : tr_state :=
  (tr_dequeue (tr_queue 1 (10 * NS_SLOT) (tr_rqinit tr_zero))).2

/-- The ring `tr_base10` after `tr_queue` of task `2` with the key
`tbase + 251 * NS_SLOT`, which is below the horizon. -/
def tr_wrapped : tr_state :=
  tr_queue 2 (50000000 + 251 * NS_SLOT) tr_base10

/-- The run-queue after `cfs_rqinit` and `cfs_queue` of task `1` with key `50`. -/
def cfs_one : cfs_state := (cfs_queue 2 1 50 (cfs_rqinit cfs_zero)).getD cfs_zero

/-- The run-queue `cfs_one` after `cfs_queue` of task `2` with key `10`. -/
def cfs_two : cfs_state := (cfs_queue 3 2 10 cfs_one).getD cfs_zero

/-- The ring `tr_base10` after one more `tr_dequeue`, which finds it empty
and sets `tbase` to `0`. -/
def tr_drained : tr_state := (tr_dequeue tr_base10).2

/-- Five tasks with the keys `50, 10, 30, 20, 40`. -/
def cfs_tasks5 : List (Nat × Nat) := [(1, 50), (2, 10), (3, 30), (4, 20), (5, 40)]

/-- Three tasks for the timed ring; the keys of tasks `1` and `3` fall into
slot `1`, the key of task `2` into slot `0`. -/
def tr_tasks3 : List (Nat × Nat) := [(1, NS_SLOT + 7), (2, 12), (3, NS_SLOT + 3)]

/-- The run-queue `cfs_one` after `cfs_dequeue`, which returns task `1`. -/
def cfs_emptied : cfs_state := ((cfs_dequeue 2 cfs_one).getD (0, cfs_zero)).2

/-- The ring after `tr_rqinit` and `tr_queue` of task `1` with key `10 * NS_SLOT`. -/
def tr_queued1 : tr_state := tr_queue 1 (10 * NS_SLOT) (tr_rqinit tr_zero)

/-- The ring `tr_wrapped` (task `2` in slot `5`, `ibase = 10`) after `tr_queue`
of task `3` with key `tbase + 60 * NS_SLOT`, which goes to slot `70`. -/
def tr_wrapped2 : tr_state := tr_queue 3 (50000000 + 60 * NS_SLOT) tr_wrapped

/-- The key of task `a`, queued in ring slot `slot`, lies in the window of that
slot: in `[tbase + r * NS_SLOT, tbase + (r + 1) * NS_SLOT)` for
`r = (slot - ibase) mod MAX_RQ`. -/
def tr_in_window (s : tr_state) (slot a : Nat) : Prop :=
  s.tbase + ((slot + MAX_RQ - s.ibase) % MAX_RQ) * NS_SLOT ≤ s.t a ∧
  s.t a < s.tbase + ((slot + MAX_RQ - s.ibase) % MAX_RQ + 1) * NS_SLOT

instance (s : tr_state) (slot a : Nat) : Decidable (tr_in_window s slot a) :=
  inferInstanceAs (Decidable (_ ∧ _))

/-- Three distinct tasks with keys of any size. -/
def tr_tasks_any : List (Nat × Nat) := [(1, 2 ^ 40), (2, 7), (3, 2 ^ 63)]

/-- The stable bucket sort of a list of `(task, key)` by the window index
`key / NS_SLOT`: for the windows `0, 1, ..., MAX_RQ - 1` in this order, the
tasks of the list whose key lies in the window, in the order of the list. -/
def stable_bucket_sort (tasks : List (Nat × Nat)) : List (Nat × Nat) :=
  (List.range MAX_RQ).flatMap (fun j => tasks.filter (fun p => p.2 / NS_SLOT = j))

/-- The height of a tree: the number of nodes on the longest path from the
root down to a leaf. -/
def Tree.height : Tree → Nat
  | .nil => 0
  | .node _ _ l r => max l.height r.height + 1

/-! ## The file memiszero.c

The memory is a function from addresses to bytes; pointers and `unsigned long`
values are 64 bits wide. -/

/-- A run of `k` statements `z |= *(__u8 const *) p++;` from the values `z`
and `p`: yields the final `z` and `p`. -/
def or_bytes (mem : Nat → Nat) : Nat → Nat × Nat → Nat × Nat
  | 0, zp => zp
  | k + 1, zp => or_bytes mem k (zp.1 ||| mem zp.2, zp.2 + 1)

/-- The load `*(__u64 const *) p` (little endian). -/
def read_u64 (mem : Nat → Nat) (p : Nat) : Nat :=
  mem p + mem (p + 1) * 2 ^ 8 + mem (p + 2) * 2 ^ 16 + mem (p + 3) * 2 ^ 24 +
  mem (p + 4) * 2 ^ 32 + mem (p + 5) * 2 ^ 40 + mem (p + 6) * 2 ^ 48 + mem (p + 7) * 2 ^ 56

/-- The load `*(__u32 const *) p` (little endian). -/
def read_u32 (mem : Nat → Nat) (p : Nat) : Nat :=
  mem p + mem (p + 1) * 2 ^ 8 + mem (p + 2) * 2 ^ 16 + mem (p + 3) * 2 ^ 24

/-- The loop `for (; p < t; p += 8) if (*(__u64 const *) p) return 0;` of
`memiszero`: `some none` when the function returns `0` from inside the loop,
`some (some p)` when the loop ends with the pointer `p`, `none` when the fuel
runs out. -/
def memiszero_words (mem : Nat → Nat) (t : Nat) : Nat → Nat → Option (Option Nat)
  | 0, _ => none
  | fuel + 1, p =>
    if p < t then
      if read_u64 mem p ≠ 0 then some none else memiszero_words mem t fuel (p + 8)
    else some (some p)

/-- The label `bytes_loop` of `memiszero`: the `switch (n)` whose cases
`7, 6, ..., 1` fall through to the end, and `return !z`. -/
def memiszero_bytes (mem : Nat → Nat) (n : Nat) (z p : Nat) : Nat :=
  let zp := match n with
    | 7 => or_bytes mem 7 (z, p)
    | 6 => or_bytes mem 6 (z, p)
    | 5 => or_bytes mem 5 (z, p)
    | 4 => or_bytes mem 4 (z, p)
    | 3 => or_bytes mem 3 (z, p)
    | 2 => or_bytes mem 2 (z, p)
    | 1 => or_bytes mem 1 (z, p)
    | _ => (z, p)
  if zp.1 = 0 then 1 else 0

/-- The word loop of `memiszero` and what follows it. -/
def memiszero_rest (mem : Nat → Nat) (fuel t n z p : Nat) : Option Nat :=
  match memiszero_words mem t fuel p with
  | none => none
  | some none => some 0
  | some (some p) => some (memiszero_bytes mem n z p)

/-- Holds `memiszero(p, n)`: in the `switch (p & 7)` the case `a` falls through the
`8 - a` byte statements down to the test `if (z) return 0;` of case `7`. -/
def memiszero (mem : Nat → Nat) (fuel : Nat) (p n : Nat) : Option Nat :=
  let z := 0
  if n < 8 then some (memiszero_bytes mem n z p)
  else
    let t := ((p + n) % 2 ^ 64) &&& lnot 7
    let n := ((p + n) % 2 ^ 64) &&& 7
    let hd : Option (Nat × Nat) := match p &&& 7 with
      | 1 => some (or_bytes mem 7 (z, p))
      | 2 => some (or_bytes mem 6 (z, p))
      | 3 => some (or_bytes mem 5 (z, p))
      | 4 => some (or_bytes mem 4 (z, p))
      | 5 => some (or_bytes mem 3 (z, p))
      | 6 => some (or_bytes mem 2 (z, p))
      | 7 => some (or_bytes mem 1 (z, p))
      | _ => none
    match hd with
    | some zp => if zp.1 ≠ 0 then some 0 else memiszero_rest mem fuel t n zp.1 zp.2
    | none => memiszero_rest mem fuel t n z p

/-- The loop `for (; p < t; p += 4) if (*(__u32 const *) p) return 0;` of
`memiszero_32`, with the results as for `memiszero_words`. -/
def memiszero_words_32 (mem : Nat → Nat) (t : Nat) : Nat → Nat → Option (Option Nat)
  | 0, _ => none
  | fuel + 1, p =>
    if p < t then
      if read_u32 mem p ≠ 0 then some none else memiszero_words_32 mem t fuel (p + 4)
    else some (some p)

/-- The label `bytes_loop` of `memiszero_32`: the `switch (n)` with the cases
`3, 2, 1`, and `return !z`. -/
def memiszero_bytes_32 (mem : Nat → Nat) (n : Nat) (z p : Nat) : Nat :=
  let zp := match n with
    | 3 => or_bytes mem 3 (z, p)
    | 2 => or_bytes mem 2 (z, p)
    | 1 => or_bytes mem 1 (z, p)
    | _ => (z, p)
  if zp.1 = 0 then 1 else 0

/-- The word loop of `memiszero_32` and what follows it. -/
def memiszero_rest_32 (mem : Nat → Nat) (fuel t n z p : Nat) : Option Nat :=
  match memiszero_words_32 mem t fuel p with
  | none => none
  | some none => some 0
  | some (some p) => some (memiszero_bytes_32 mem n z p)

/-- Holds `memiszero_32(p, n)` -/
def memiszero_32 (mem : Nat → Nat) (fuel : Nat) (p n : Nat) : Option Nat :=
  let z := 0
  if n < 4 then some (memiszero_bytes_32 mem n z p)
  else
    let t := ((p + n) % 2 ^ 64) &&& lnot 3
    let n := ((p + n) % 2 ^ 64) &&& 3
    let hd : Option (Nat × Nat) := match p &&& 3 with
      | 1 => some (or_bytes mem 3 (z, p))
      | 2 => some (or_bytes mem 2 (z, p))
      | 3 => some (or_bytes mem 1 (z, p))
      | _ => none
    match hd with
    | some zp => if zp.1 ≠ 0 then some 0 else memiszero_rest_32 mem fuel t n zp.1 zp.2
    | none => memiszero_rest_32 mem fuel t n z p

/-- The loop of `memiszero_loop`, up to the address `t`. -/
def memiszero_loop_go (mem : Nat → Nat) (t : Nat) : Nat → Nat → Option Nat
  | 0, _ => none
  | fuel + 1, p =>
    if p < t then
      if mem p ≠ 0 then some 0 else memiszero_loop_go mem t fuel (p + 1)
    else some 1

/-- Holds `memiszero_loop(p, n)`, the byte-wise reference. -/
def memiszero_loop (mem : Nat → Nat) (fuel : Nat) (p n : Nat) : Option Nat :=
  let t := p + n
  memiszero_loop_go mem t fuel p

/-- What the three functions are to compute: `1` if the `n` bytes from `p`
are all zero, else `0`. -/
def all_zero (mem : Nat → Nat) (p n : Nat) : Nat :=
  if ∀ i, i < n → mem (p + i) = 0 then 1 else 0

/-- The buffer of the self-check in `main`: `size` bytes at `p`, zero except
for the last one, which is `1`. -/
def last_byte_set (p size : Nat) : Nat → Nat :=
  fun a => if a = p + size - 1 then 1 else 0

/-- The first loop of `tr_test`, with `n` tasks still to queue from index `i`:
`tasks[i].t = 0; tr_queue(&tasks[i], &rq, (nstime_t) (rand() % times) * NS_SLOT);`
Task `i` of the array is the task `tasks + i`, and `rnd i` is what the call of
`rand()` for it returns. -/
def tr_test_fill (tasks times : Nat) (rnd : Nat → Nat) : Nat → Nat → tr_state → tr_state
  | 0, _, s => s
  | n + 1, i, s =>
    let s := { s with t := upd s.t (tasks + i) 0 }
    let s := tr_queue (tasks + i) (((rnd i % times) * NS_SLOT) % 2 ^ 64) s
    tr_test_fill tasks times rnd n (i + 1) s

/-- One round of the second loop of `tr_test`:
`tsk = tr_dequeue(&rq); tr_queue(tsk, &rq, tsk->t + (nstime_t) (times / 7) * NS_SLOT);`
The result is `none` when `tr_dequeue` returned no task, as `tsk->t` is then
read through a pointer that is not a task. -/
def tr_test_round (times : Nat) (s : tr_state) : Option tr_state :=
  let r := tr_dequeue s
  match r.1 with
  | .task tsk =>
    some (tr_queue tsk ((r.2.t tsk + ((times / 7) * NS_SLOT) % 2 ^ 64) % 2 ^ 64) r.2)
  | _ => none

/-- The second loop of `tr_test`, `n` rounds. -/
def tr_test_loop (times : Nat) : Nat → tr_state → Option tr_state
  | 0, s => some s
  | n + 1, s =>
    match tr_test_round times s with
    | some s' => tr_test_loop times n s'
    | none => none

/-- Holds `tr_test(ntasks, times, loops)`: the memory of the ring after the two
loops, `none` when a round went wrong. -/
def tr_test (tasks ntasks times loops : Nat) (rnd : Nat → Nat) (s0 : tr_state) :
    Option tr_state :=
  tr_test_loop times loops (tr_test_fill tasks times rnd ntasks 0 (tr_rqinit s0))

/-- The number of tasks in the slot lists `L` of the ring. -/
def tr_nr_queued (L : Nat → List Nat) : Nat :=
  ((List.range MAX_RQ).map (fun i => (L i).length)).sum

/-- The invariant of the first loop of `tr_test` after `i` tasks: both bases
are `0`, the queued tasks are among the first `i` of the array, and a task in
slot `j` has the key `j * NS_SLOT`. -/
def TrFillInv (tasks : Nat) (s : tr_state) (L : Nat → List Nat) (i : Nat) : Prop :=
  TrInv s L ∧ s.tbase = 0 ∧ s.ibase = 0 ∧
  (∀ j a, a ∈ L j → (∃ k, k < i ∧ a = tasks + k) ∧ s.t a = j * NS_SLOT ∧ j < MAX_RQ) ∧
  tr_nr_queued L = i ∧ (0 < i → ∃ j a, a ∈ L j)

/-- The invariant of the second loop of `tr_test` after `n` rounds, for the
ring at the absolute slot `B` (`tbase = B * NS_SLOT`): each queued task has a
key `A * NS_SLOT` with `B ≤ A < B + MAX_RQ` and sits in slot `A % MAX_RQ`, and
one task is in a slot that the scan of `rel_ffs` covers. -/
def TrLoopInv (s : tr_state) (L : Nat → List Nat) (B n : Nat) : Prop :=
  TrInv s L ∧ s.tbase = B * NS_SLOT ∧ s.ibase = B % MAX_RQ ∧ B ≤ 255 + 36 * n ∧
  (∀ j a, a ∈ L j → ∃ A, s.t a = A * NS_SLOT ∧ B ≤ A ∧ A < B + MAX_RQ ∧
    A ≤ 255 + 36 * n ∧ j = A % MAX_RQ) ∧
  (∃ j a A, a ∈ L j ∧ s.t a = A * NS_SLOT ∧ A + B % 64 < B + MAX_RQ)

/-- The run-queue `cfs_two` after `cfs_queue` of task `3` with key `70`: task
`1` is the root, with the two children `2` and `3`. -/
def cfs_three : cfs_state := (cfs_queue 4 3 70 cfs_two).getD cfs_zero

/-- The run-queue `cfs_one` after `cfs_queue` of task `2` with the key `50`
that task `1` has as well. -/
def cfs_tied : cfs_state := (cfs_queue 3 2 50 cfs_one).getD cfs_zero

/-- The tree of the run-queue `cfs_three`. -/
def tree_three : Tree :=
  .node 1 1 (.node 2 0 .nil .nil) (.node 3 0 .nil .nil)

/-! ## Stores and loads -/

@[simp] theorem upd_same (f : Nat → Nat) (a v : Nat) : upd f a v a = v := by
  simp [upd]

theorem upd_of_ne (f : Nat → Nat) {a x : Nat} (v : Nat) (hx : x ≠ a) : upd f a v x = f x := by
  simp [upd, hx]

theorem SameOff.trans {S : List Nat} {h h1 h2 : Heap} (p : SameOff S h h1)
    (q : SameOff S h1 h2) : SameOff S h h2 := fun a ha =>
  ⟨(q a ha).1.trans (p a ha).1, (q a ha).2.1.trans (p a ha).2.1,
    (q a ha).2.2.1.trans (p a ha).2.2.1, (q a ha).2.2.2.trans (p a ha).2.2.2⟩

/-! ## Trees in memory -/

@[simp] theorem ptr_nil : Tree.nil.ptr = 0 := rfl
@[simp] theorem ptr_node (a c : Nat) (l r : Tree) : (Tree.node a c l r).ptr = a := rfl
@[simp] theorem parOf_nil : parOf [] = 0 := rfl
@[simp] theorem parOf_L (a c : Nat) (r : Tree) (k : Ctx) : parOf (.L a c r :: k) = a := rfl
@[simp] theorem parOf_R (a c : Nat) (l : Tree) (k : Ctx) : parOf (.R a c l :: k) = a := rfl
@[simp] theorem linkOf_nil : linkOf [] = .root := rfl
@[simp] theorem linkOf_L (a c : Nat) (r : Tree) (k : Ctx) :
    linkOf (.L a c r :: k) = .left a := rfl
@[simp] theorem linkOf_R (a c : Nat) (l : Tree) (k : Ctx) :
    linkOf (.R a c l :: k) = .right a := rfl
@[simp] theorem deref_root (h : Heap) : deref h .root = h.rb_node := rfl
@[simp] theorem deref_left (h : Heap) (a : Nat) : deref h (.left a) = h.rb_left a := rfl
@[simp] theorem deref_right (h : Heap) (a : Nat) : deref h (.right a) = h.rb_right a := rfl
@[simp] theorem plug_nil (t : Tree) : plug [] t = t := rfl
@[simp] theorem plug_L (a c : Nat) (r : Tree) (k : Ctx) (t : Tree) :
    plug (.L a c r :: k) t = plug k (.node a c t r) := rfl
@[simp] theorem plug_R (a c : Nat) (l : Tree) (k : Ctx) (t : Tree) :
    plug (.R a c l :: k) t = plug k (.node a c l t) := rfl

theorem inorder_plug (k : Ctx) : ∀ t : Tree,
    (plug k t).inorder = ctxBefore k ++ t.inorder ++ ctxAfter k := by
  induction k with
  | nil => intro t; simp [ctxBefore, ctxAfter]
  | cons F k ih =>
    intro t
    cases F with
    | L a c r => simp [ctxBefore, ctxAfter, ih, Tree.inorder]
    | R a c l => simp [ctxBefore, ctxAfter, ih, Tree.inorder]

theorem Shape_congr {h h' : Heap} : ∀ (t : Tree) (par : Nat),
    (∀ a ∈ t.inorder, SameAt h h' a) → Shape h t par → Shape h' t par := by
  intro t
  induction t with
  | nil => intro _ _ _; trivial
  | node a c l r ihl ihr =>
    intro par hs hsh
    obtain ⟨h0, h1, h2, h3, h4, h5, h6⟩ := hsh
    have ha := hs a (by simp [Tree.inorder])
    refine ⟨h0, ha.1.trans h1, ha.2.1.trans h2, ha.2.2.1.trans h3, ha.2.2.2.trans h4, ?_, ?_⟩
    · exact ihl a (fun b hb => hs b (by simp [Tree.inorder, hb])) h5
    · exact ihr a (fun b hb => hs b (by simp [Tree.inorder, hb])) h6

theorem Shape_off {h h' : Heap} {S : List Nat} (t : Tree) (par : Nat)
    (hs : SameOff S h h') (hd : List.Disjoint S t.inorder) (hsh : Shape h t par) :
    Shape h' t par :=
  Shape_congr t par (fun a ha => hs a (fun hm => hd hm ha)) hsh

/-- Every address of a tree in memory is non-NULL. -/
theorem Shape_ne_zero {h : Heap} : ∀ (t : Tree) (par : Nat), Shape h t par →
    0 ∉ t.inorder := by
  intro t
  induction t with
  | nil => intro _ _ ha; simp [Tree.inorder] at ha
  | node b c l r ihl ihr =>
    intro par hsh ha
    obtain ⟨h0, _, _, _, _, h5, h6⟩ := hsh
    simp only [Tree.inorder, List.mem_append, List.mem_cons] at ha
    rcases ha with ha | rfl | ha
    · exact ihl b h5 ha
    · exact h0 rfl
    · exact ihr b h6 ha

/-- The parent pointer of the root of a subtree may be redirected. -/
theorem Shape_reparent {h : Heap} (t : Tree) (par par' : Nat)
    (hnd : t.inorder.Nodup) (hsh : Shape h t par) (ht : t ≠ .nil) :
    Shape (rb_set_parent t.ptr par' h) t par' := by
  cases t with
  | nil => exact absurd rfl ht
  | node a c l r =>
    obtain ⟨h0, h1, h2, h3, h4, h5, h6⟩ := hsh
    simp only [Tree.inorder, List.nodup_append, List.nodup_cons, List.disjoint_cons_right]
      at hnd
    have hoff : SameOff [a] h (rb_set_parent a par' h) := by
      intro b hb
      simp only [List.mem_singleton] at hb
      simp [SameAt, rb_set_parent, upd, hb]
    refine ⟨h0, by simp [rb_set_parent, Tree.ptr], h2, h3, h4, ?_, ?_⟩
    · exact Shape_off l a hoff (by simp; tauto) h5
    · exact Shape_off r a hoff (by simp; tauto) h6

theorem ShapeC_off {h h' : Heap} {S : List Nat} : ∀ (k : Ctx),
    SameOff S h h' → h'.rb_node = h.rb_node →
    List.Disjoint S (ctxBefore k ++ ctxAfter k) → ShapeC h k → ShapeC h' k := by
  intro k
  induction k with
  | nil => intro _ _ _ _; trivial
  | cons F k ih =>
    intro hs hroot hd hsh
    have hlink : deref h' (linkOf k) = deref h (linkOf k) := by
      cases k with
      | nil => exact hroot
      | cons G k =>
        cases G with
        | L b cb rb =>
          have hb : b ∉ S := fun hm => hd hm (by cases F <;> simp [ctxBefore, ctxAfter])
          exact (hs b hb).2.2.1
        | R b cb lb =>
          have hb : b ∉ S := fun hm => hd hm (by cases F <;> simp [ctxBefore, ctxAfter])
          exact (hs b hb).2.2.2
    cases F with
    | L a c r =>
      obtain ⟨h0, h1, h2, h3, h4, h5, h6⟩ := hsh
      have ha : a ∉ S := fun hm => hd hm (by simp [ctxBefore, ctxAfter])
      have hsa := hs a ha
      refine ⟨h0, hsa.1.trans h1, hsa.2.1.trans h2, hsa.2.2.2.trans h3, ?_, hlink.trans h5, ?_⟩
      · exact Shape_off r a hs (fun x hx hm => hd hx (by simp [ctxBefore, ctxAfter, hm])) h4
      · exact ih hs hroot (fun x hx hm => hd hx (by
          simp only [ctxBefore, ctxAfter, List.mem_append, List.mem_cons] at hm ⊢; tauto)) h6
    | R a c l =>
      obtain ⟨h0, h1, h2, h3, h4, h5, h6⟩ := hsh
      have ha : a ∉ S := fun hm => hd hm (by simp [ctxBefore, ctxAfter])
      have hsa := hs a ha
      refine ⟨h0, hsa.1.trans h1, hsa.2.1.trans h2, hsa.2.2.1.trans h3, ?_, hlink.trans h5, ?_⟩
      · exact Shape_off l a hs (fun x hx hm => hd hx (by simp [ctxBefore, ctxAfter, hm])) h4
      · exact ih hs hroot (fun x hx hm => hd hx (by
          simp only [ctxBefore, ctxAfter, List.mem_append, List.mem_cons] at hm ⊢; tauto)) h6

/-- A tree with a hole filled is in memory exactly when the context is, the
pointer that holds the hole points to the filling, and the filling is in
memory below the hole's parent. -/
theorem Shape_plug {h : Heap} : ∀ (k : Ctx) (t : Tree),
    (h.rb_node = (plug k t).ptr ∧ Shape h (plug k t) 0) ↔
    (ShapeC h k ∧ deref h (linkOf k) = t.ptr ∧ Shape h t (parOf k)) := by
  intro k
  induction k with
  | nil => intro t; simp [ShapeC]
  | cons F k ih =>
    intro t
    cases F with
    | L a c r =>
      simp only [plug_L, ih, ShapeC, Shape, linkOf_L, parOf_L, deref_left, ptr_node]
      tauto
    | R a c l =>
      simp only [plug_R, ih, ShapeC, Shape, linkOf_R, parOf_R, deref_right, ptr_node]
      tauto

theorem Rep_plug {h : Heap} (k : Ctx) (t : Tree) :
    Rep h (plug k t) ↔
    (ShapeC h k ∧ deref h (linkOf k) = t.ptr ∧ Shape h t (parOf k) ∧
      (ctxBefore k ++ t.inorder ++ ctxAfter k).Nodup) := by
  unfold Rep
  rw [← inorder_plug, ← and_assoc, Shape_plug]
  tauto

/-- Storing into the pointer that holds the hole leaves the context in memory. -/
theorem ShapeC_store {h : Heap} (k : Ctx) (v : Nat)
    (hnd : (ctxBefore k ++ ctxAfter k).Nodup) (hsh : ShapeC h k) :
    ShapeC (store (linkOf k) v h) k := by
  cases k with
  | nil => trivial
  | cons F k =>
    cases F with
    | L a c r =>
      obtain ⟨h0, h1, h2, h3, h4, h5, h6⟩ := hsh
      simp only [ctxBefore, ctxAfter, List.nodup_append, List.nodup_cons, List.mem_append,
        List.cons_append, List.disjoint_cons_right, List.disjoint_append_right, not_or] at hnd
      have hoff : SameOff [a] h (store (linkOf (Frame.L a c r :: k)) v h) := by
        intro b hb
        simp only [List.mem_singleton] at hb
        simp [SameAt, store, linkOf, set_left, upd, hb]
      refine ⟨h0, h1, h2, h3, ?_, ?_, ?_⟩
      · exact Shape_off r a hoff (by simp; tauto) h4
      · rw [← h5]
        cases k with
        | nil => rfl
        | cons G k =>
          have : parOf (G :: k) ≠ a := by
            cases G <;> simp [parOf, ctxBefore, ctxAfter] at hnd ⊢ <;> omega
          cases G <;> simp_all [store, linkOf, deref, set_left, upd, parOf]
      · exact ShapeC_off k hoff rfl (by simp; tauto) h6
    | R a c l =>
      obtain ⟨h0, h1, h2, h3, h4, h5, h6⟩ := hsh
      simp only [ctxBefore, ctxAfter, List.nodup_append, List.nodup_cons, List.mem_append,
        List.cons_append, List.disjoint_cons_right, List.disjoint_append_right,
        List.disjoint_cons_left, List.disjoint_append_left, List.nodup_nil, List.not_mem_nil,
        List.disjoint_singleton, List.singleton_disjoint, List.mem_singleton, List.append_assoc,
        List.nil_append, List.disjoint_nil_left, List.disjoint_nil_right, not_or] at hnd
      have hoff : SameOff [a] h (store (linkOf (Frame.R a c l :: k)) v h) := by
        intro b hb
        simp only [List.mem_singleton] at hb
        simp [SameAt, store, linkOf, set_right, upd, hb]
      refine ⟨h0, h1, h2, h3, ?_, ?_, ?_⟩
      · exact Shape_off l a hoff (by simp; tauto) h4
      · rw [← h5]
        cases k with
        | nil => rfl
        | cons G k =>
          have : parOf (G :: k) ≠ a := by
            cases G <;> simp [parOf, ctxBefore, ctxAfter] at hnd ⊢ <;> omega
          cases G <;> simp_all [store, linkOf, deref, set_right, upd, parOf]
      · exact ShapeC_off k hoff rfl (by simp; tauto) h6

/-! ## Single stores -/

@[simp] theorem rb_parent_set_left (a v : Nat) (h : Heap) :
    (set_left a v h).rb_parent = h.rb_parent := rfl
@[simp] theorem rb_color_set_left (a v : Nat) (h : Heap) :
    (set_left a v h).rb_color = h.rb_color := rfl
@[simp] theorem rb_right_set_left (a v : Nat) (h : Heap) :
    (set_left a v h).rb_right = h.rb_right := rfl
@[simp] theorem rb_left_set_left (a v : Nat) (h : Heap) :
    (set_left a v h).rb_left = upd h.rb_left a v := rfl
@[simp] theorem rb_node_set_left (a v : Nat) (h : Heap) :
    (set_left a v h).rb_node = h.rb_node := rfl
@[simp] theorem rb_parent_set_right (a v : Nat) (h : Heap) :
    (set_right a v h).rb_parent = h.rb_parent := rfl
@[simp] theorem rb_color_set_right (a v : Nat) (h : Heap) :
    (set_right a v h).rb_color = h.rb_color := rfl
@[simp] theorem rb_right_set_right (a v : Nat) (h : Heap) :
    (set_right a v h).rb_right = upd h.rb_right a v := rfl
@[simp] theorem rb_left_set_right (a v : Nat) (h : Heap) :
    (set_right a v h).rb_left = h.rb_left := rfl
@[simp] theorem rb_node_set_right (a v : Nat) (h : Heap) :
    (set_right a v h).rb_node = h.rb_node := rfl
@[simp] theorem rb_parent_rb_set_parent (a v : Nat) (h : Heap) :
    (rb_set_parent a v h).rb_parent = upd h.rb_parent a v := rfl
@[simp] theorem rb_color_rb_set_parent (a v : Nat) (h : Heap) :
    (rb_set_parent a v h).rb_color = h.rb_color := rfl
@[simp] theorem rb_right_rb_set_parent (a v : Nat) (h : Heap) :
    (rb_set_parent a v h).rb_right = h.rb_right := rfl
@[simp] theorem rb_left_rb_set_parent (a v : Nat) (h : Heap) :
    (rb_set_parent a v h).rb_left = h.rb_left := rfl
@[simp] theorem rb_node_rb_set_parent (a v : Nat) (h : Heap) :
    (rb_set_parent a v h).rb_node = h.rb_node := rfl
@[simp] theorem rb_parent_rb_set_color (a v : Nat) (h : Heap) :
    (rb_set_color a v h).rb_parent = h.rb_parent := rfl
@[simp] theorem rb_color_rb_set_color (a v : Nat) (h : Heap) :
    (rb_set_color a v h).rb_color = upd h.rb_color a v := rfl
@[simp] theorem rb_right_rb_set_color (a v : Nat) (h : Heap) :
    (rb_set_color a v h).rb_right = h.rb_right := rfl
@[simp] theorem rb_left_rb_set_color (a v : Nat) (h : Heap) :
    (rb_set_color a v h).rb_left = h.rb_left := rfl
@[simp] theorem rb_node_rb_set_color (a v : Nat) (h : Heap) :
    (rb_set_color a v h).rb_node = h.rb_node := rfl
@[simp] theorem rb_parent_set_root (v : Nat) (h : Heap) :
    (set_root v h).rb_parent = h.rb_parent := rfl
@[simp] theorem rb_color_set_root (v : Nat) (h : Heap) :
    (set_root v h).rb_color = h.rb_color := rfl
@[simp] theorem rb_right_set_root (v : Nat) (h : Heap) :
    (set_root v h).rb_right = h.rb_right := rfl
@[simp] theorem rb_left_set_root (v : Nat) (h : Heap) :
    (set_root v h).rb_left = h.rb_left := rfl
@[simp] theorem rb_node_set_root (v : Nat) (h : Heap) : (set_root v h).rb_node = v := rfl
theorem rb_set_black_eq (a : Nat) (h : Heap) : rb_set_black a h = rb_set_color a 1 h := rfl
theorem rb_set_red_eq (a : Nat) (h : Heap) : rb_set_red a h = rb_set_color a 0 h := rfl

theorem SameOff.append {S1 S2 : List Nat} {h h1 h2 : Heap} (p : SameOff S1 h h1)
    (q : SameOff S2 h1 h2) : SameOff (S1 ++ S2) h h2 := by
  intro a ha
  simp only [List.mem_append, not_or] at ha
  have p' := p a ha.1
  have q' := q a ha.2
  exact ⟨q'.1.trans p'.1, q'.2.1.trans p'.2.1, q'.2.2.1.trans p'.2.2.1,
    q'.2.2.2.trans p'.2.2.2⟩

theorem SameOff.refl (h : Heap) : SameOff [] h h := fun _ _ => ⟨rfl, rfl,rfl, rfl⟩

theorem sameOff_set_left (a v : Nat) (h : Heap) : SameOff [a] h (set_left a v h) := by
  intro b hb
  simp only [List.mem_singleton] at hb
  simp [SameAt, set_left, upd, hb]

theorem sameOff_set_right (a v : Nat) (h : Heap) : SameOff [a] h (set_right a v h) := by
  intro b hb
  simp only [List.mem_singleton] at hb
  simp [SameAt, set_right, upd, hb]

theorem sameOff_set_parent (a v : Nat) (h : Heap) : SameOff [a] h (rb_set_parent a v h) := by
  intro b hb
  simp only [List.mem_singleton] at hb
  simp [SameAt, rb_set_parent, upd, hb]

theorem sameOff_set_color (a v : Nat) (h : Heap) : SameOff [a] h (rb_set_color a v h) := by
  intro b hb
  simp only [List.mem_singleton] at hb
  simp [SameAt, rb_set_color, upd, hb]

theorem sameOff_set_root (v : Nat) (h : Heap) : SameOff [] h (set_root v h) :=
  fun _ _ => ⟨rfl, rfl, rfl, rfl⟩

theorem sameOff_store (k : Ctx) (v : Nat) (h : Heap) :
    SameOff [parOf k] h (store (linkOf k) v h) := by
  cases k with
  | nil => intro b _; exact ⟨rfl, rfl, rfl, rfl⟩
  | cons F k =>
    cases F with
    | L a c r => exact sameOff_set_left a v h
    | R a c l => exact sameOff_set_right a v h

theorem deref_store (k : Ctx) (v : Nat) (h : Heap) : deref (store (linkOf k) v h) (linkOf k) = v := by
  cases k with
  | nil => rfl
  | cons F k => cases F <;> simp [store, set_left, set_right]

/-- The node above the hole is not a node of a list that is disjoint from the
context and does not hold `NULL`. -/
theorem parOf_not_mem (k : Ctx) (L : List Nat) (h0 : 0 ∉ L)
    (hd : List.Disjoint (ctxBefore k ++ ctxAfter k) L) : parOf k ∉ L := by
  cases k with
  | nil => exact h0
  | cons F k =>
    intro hm
    cases F <;> exact hd (by simp [ctxBefore, ctxAfter]) hm

theorem ptr_not_mem (t : Tree) (L : List Nat) (h0 : 0 ∉ L)
    (hd : List.Disjoint t.inorder L) : t.ptr ∉ L := by
  cases t with
  | nil => exact h0
  | node a c l r => intro hm; exact hd (by simp [Tree.inorder]) hm

/-- The three-way choice `if (parent) { if (node == parent->rb_left) ... else ... } else root->rb_node = ...`
is the store into the pointer that holds the hole. -/
theorem link_choice {g : Heap} (k : Ctx) (n v : Nat) (hk : ShapeC g k)
    (hl : deref g (linkOf k) = n) (hn0 : n ≠ 0) (hn : n ∉ ctxBefore k ++ ctxAfter k) :
    (if parOf k ≠ 0 then
      (if n = g.rb_left (parOf k) then set_left (parOf k) v g else set_right (parOf k) v g)
     else set_root v g) = store (linkOf k) v g := by
  cases k with
  | nil => simp [store]
  | cons F k =>
    cases F with
    | L a c r =>
      obtain ⟨h0, -, -, -, -, -, -⟩ := hk
      simp only [linkOf_L, deref_left] at hl
      simp [store, h0, hl]
    | R a c l =>
      obtain ⟨h0, -, -, h3, -, -, -⟩ := hk
      have : n ≠ l.ptr := by
        cases l with
        | nil => simpa using hn0
        | node b cb bl br =>
          simp only [ctxBefore, ctxAfter, Tree.inorder, List.mem_append, List.mem_cons,
            not_or, ptr_node] at hn ⊢
          tauto
      simp [store, h0, h3, this]

theorem link_choice_r {g : Heap} (k : Ctx) (n v : Nat) (hk : ShapeC g k)
    (hl : deref g (linkOf k) = n) (hn0 : n ≠ 0) (hn : n ∉ ctxBefore k ++ ctxAfter k) :
    (if parOf k ≠ 0 then
      (if n = g.rb_right (parOf k) then set_right (parOf k) v g else set_left (parOf k) v g)
     else set_root v g) = store (linkOf k) v g := by
  cases k with
  | nil => simp [store]
  | cons F k =>
    cases F with
    | R a c r =>
      obtain ⟨h0, -, -, -, -, -, -⟩ := hk
      simp only [linkOf_R, deref_right] at hl
      simp [store, h0, hl]
    | L a c l =>
      obtain ⟨h0, -, -, h3, -, -, -⟩ := hk
      have : n ≠ l.ptr := by
        cases l with
        | nil => simpa using hn0
        | node b cb bl br =>
          simp only [ctxBefore, ctxAfter, Tree.inorder, List.mem_append, List.mem_cons,
            not_or, ptr_node] at hn ⊢
          tauto
      simp [store, h0, h3, this]

theorem Rep_ne_zero {h : Heap} {T : Tree} (hrep : Rep h T) : 0 ∉ T.inorder :=
  Shape_ne_zero T 0 hrep.2.1

theorem parOf_ne_ptr (k : Ctx) (t : Tree) (hz : 0 ∉ ctxBefore k ++ ctxAfter k)
    (hz' : 0 ∉ t.inorder) (hd : List.Disjoint (ctxBefore k ++ ctxAfter k) t.inorder) :
    (k ≠ [] ∨ t ≠ .nil) → parOf k ≠ t.ptr := by
  intro hor e
  cases k with
  | nil =>
    cases t with
    | nil => simp at hor
    | node a c l r => simp [Tree.inorder] at hz' e; omega
  | cons F k =>
    have hp : parOf (F :: k) ∈ ctxBefore (F :: k) ++ ctxAfter (F :: k) := by
      cases F <;> simp [ctxBefore, ctxAfter]
    cases t with
    | nil => rw [e] at hp; exact hz hp
    | node a c l r => rw [e] at hp; exact hd hp (by simp [Tree.inorder])

/-- Redirecting the parent pointer of a subtree's root, when there is one. -/
theorem Shape_reparent_if {h : Heap} (t : Tree) (par par' : Nat)
    (hnd : t.inorder.Nodup) (hsh : Shape h t par) :
    Shape (if t.ptr ≠ 0 then rb_set_parent t.ptr par' h else h) t par' := by
  cases t with
  | nil => trivial
  | node a c l r =>
    have h0 : a ≠ 0 := hsh.1
    simp only [ptr_node, ne_eq, h0, not_false_eq_true, if_true]
    exact Shape_reparent (.node a c l r) par par' hnd hsh (by simp)

theorem sameOff_reparent_if (t : Tree) (p : Nat) (h : Heap) :
    SameOff [t.ptr] h (if t.ptr ≠ 0 then rb_set_parent t.ptr p h else h) := by
  split_ifs
  · exact sameOff_set_parent _ _ _
  · exact fun _ _ => ⟨rfl, rfl, rfl, rfl⟩

theorem rb_node_reparent_if (t : Tree) (p : Nat) (h : Heap) :
    (if t.ptr ≠ 0 then rb_set_parent t.ptr p h else h).rb_node = h.rb_node := by
  split_ifs <;> rfl

theorem deref_off {h h' : Heap} {S : List Nat} (k : Ctx) (hs : SameOff S h h')
    (hroot : h'.rb_node = h.rb_node) (hp : k ≠ [] → parOf k ∉ S) :
    deref h' (linkOf k) = deref h (linkOf k) := by
  cases k with
  | nil => exact hroot
  | cons F k =>
    cases F
    · exact (hs _ (hp (by simp))).2.2.1
    · exact (hs _ (hp (by simp))).2.2.2

theorem rotate_left_spec {h : Heap} (k : Ctx) (n c : Nat) (A : Tree) (r c' : Nat) (B C : Tree)
    (hrep : Rep h (plug k (.node n c A (.node r c' B C)))) :
    Rep (__rb_rotate_left n h) (plug k (.node r c' (.node n c A B) C)) := by
  have hz := Rep_ne_zero hrep
  rw [Rep_plug] at hrep ⊢
  obtain ⟨hk, hl, hs, hnd⟩ := hrep
  obtain ⟨n0, n1, n2, n3, n4, n5, r0, r1, r2, r3, r4, r5, r6⟩ := hs
  simp only [ptr_node] at hl n4 ⊢
  have hnd2 : (ctxBefore k ++ (Tree.node r c' (Tree.node n c A B) C).inorder ++ ctxAfter k).Nodup := by
    simpa [Tree.inorder] using hnd
  simp only [inorder_plug, Tree.inorder, List.nodup_append, List.nodup_cons, List.mem_append,
    List.mem_cons, List.cons_append, List.disjoint_cons_right, List.disjoint_cons_left,
    List.disjoint_append_right, List.disjoint_append_left, not_or, List.append_assoc] at hnd hz
  obtain ⟨dX, ⟨dA, ⟨⟨nB, nr, nC, nY⟩, dB, ⟨⟨rC, rY⟩, dC, dY, CY⟩, rB, BC, BY⟩,
    nA, AB, rA, AC, AY⟩, XA, nX, XB, rX, XC, XY⟩ := hnd
  obtain ⟨zX, zA, zn, zB, zr, zC, zY⟩ := hz
  have zk : 0 ∉ ctxBefore k ++ ctxAfter k := by simp [zX, zY]
  have hpA : parOf k ∉ A.inorder := parOf_not_mem k _ zA (by simp [XA, AY.symm])
  have hpB : parOf k ∉ B.inorder := parOf_not_mem k _ zB (by simp [XB, BY.symm])
  have hpC : parOf k ∉ C.inorder := parOf_not_mem k _ zC (by simp [XC, CY.symm])
  have hpn : parOf k ≠ n := by
    have := parOf_not_mem k [n] (by simpa using zn) (by simp [nX, nY]); simpa using this
  have hpr : parOf k ≠ r := by
    have := parOf_not_mem k [r] (by simpa using zr) (by simp [rX, rY]); simpa using this
  have hBk : B.ptr ∉ ctxBefore k ++ ctxAfter k := ptr_not_mem B _ zk (by simp [XB.symm, BY])
  have hBA : B.ptr ∉ A.inorder := ptr_not_mem B _ zA AB.symm
  have hBC : B.ptr ∉ C.inorder := ptr_not_mem B _ zC BC
  have hBn : B.ptr ≠ n := by
    have := ptr_not_mem B [n] (by simpa using zn) (by simp [nB]); simpa using this
  have hBr : B.ptr ≠ r := by
    have := ptr_not_mem B [r] (by simpa using zr) (by simp [rB]); simpa using this
  have hpBp : k ≠ [] → parOf k ≠ B.ptr := fun hk' =>
    parOf_ne_ptr k B zk zB (by simp [XB, BY.symm]) (Or.inl hk')
  have hndk : (ctxBefore k ++ ctxAfter k).Nodup := by simp [List.nodup_append, dX, dY, XY]
  have hnk : n ∉ ctxBefore k ++ ctxAfter k := by simp [nX, nY]
  have hrk : r ∉ ctxBefore k ++ ctxAfter k := by simp [rX, rY]
  -- the memory after the stores up to the choice of the link
  have o2 : SameOff ([n] ++ [B.ptr]) h
      (if B.ptr ≠ 0 then rb_set_parent B.ptr n (set_right n B.ptr h) else set_right n B.ptr h) :=
    (sameOff_set_right n B.ptr h).append (sameOff_reparent_if B n _)
  have o4 := (o2.append (sameOff_set_left r n _)).append (sameOff_set_parent r (parOf k) _)
  have hr4 : (rb_set_parent r (parOf k) (set_left r n
      (if B.ptr ≠ 0 then rb_set_parent B.ptr n (set_right n B.ptr h)
       else set_right n B.ptr h))).rb_node = h.rb_node := by
    simp only [rb_node_rb_set_parent, rb_node_set_left]
    exact rb_node_reparent_if B n _
  have hk4 := ShapeC_off k o4 hr4 (by
    simp only [List.cons_append, List.nil_append, List.disjoint_cons_left,
      List.disjoint_nil_left, and_true]
    exact ⟨hnk, hBk, hrk, hrk⟩) hk
  have hl4 := (deref_off k o4 hr4 (fun hk' => by simp [hpn, hpr, hpBp hk'])).trans hl
  have heq : __rb_rotate_left n h = rb_set_parent n r (store (linkOf k) r
      (rb_set_parent r (parOf k) (set_left r n
      (if B.ptr ≠ 0 then rb_set_parent B.ptr n (set_right n B.ptr h)
       else set_right n B.ptr h)))) := by
    unfold __rb_rotate_left
    simp only [n4, n1, r3, rb_right_set_right, rb_left_set_right, upd_same]
    rw [link_choice k n r hk4 hl4 n0 hnk]
  rw [heq]
  have hk5 := ShapeC_store k r hndk hk4
  have hl5 := deref_store k r (rb_set_parent r (parOf k) (set_left r n
      (if B.ptr ≠ 0 then rb_set_parent B.ptr n (set_right n B.ptr h)
       else set_right n B.ptr h)))
  have o5 := sameOff_store k r (rb_set_parent r (parOf k) (set_left r n
      (if B.ptr ≠ 0 then rb_set_parent B.ptr n (set_right n B.ptr h)
       else set_right n B.ptr h)))
  have o6 := sameOff_set_parent n r (store (linkOf k) r (rb_set_parent r (parOf k) (set_left r n
      (if B.ptr ≠ 0 then rb_set_parent B.ptr n (set_right n B.ptr h)
       else set_right n B.ptr h))))
  have sA : Shape (set_right n B.ptr h) A n :=
    Shape_off A n (sameOff_set_right n B.ptr h) (by simpa using nA) n5
  have sB : Shape (set_right n B.ptr h) B r :=
    Shape_off B r (sameOff_set_right n B.ptr h) (by simpa using nB) r5
  have sC : Shape (set_right n B.ptr h) C r :=
    Shape_off C r (sameOff_set_right n B.ptr h) (by simpa using nC) r6
  have sB2 := Shape_reparent_if B r n dB sB
  have o36 := (((sameOff_set_left r n (if B.ptr ≠ 0 then rb_set_parent B.ptr n
    (set_right n B.ptr h) else set_right n B.ptr h)).append
    (sameOff_set_parent r (parOf k) _)).append o5).append o6
  have o26 := (sameOff_reparent_if B n (set_right n B.ptr h)).append o36
  obtain ⟨p1, p2, p3, p4⟩ := o5 r (by simpa using hpr.symm)
  obtain ⟨q1, q2, q3, q4⟩ := o5 n (by simpa using hpn.symm)
  refine ⟨ShapeC_off k o6 rfl (by simpa using hnk) hk5, ?_, ?_, hnd2⟩
  · exact (deref_off k o6 rfl (fun _ => by simpa using hpn)).trans hl5
  · have rn : r ≠ n := Ne.symm nr
    refine ⟨r0, ?_, ?_, ?_, ?_, ⟨n0, ?_, ?_, ?_, ?_,
      Shape_off A n o26 (by simp [hBA, rA, hpA, nA]) sA,
      Shape_off B n o36 (by simp [rB, hpB, nB]) sB2⟩,
      Shape_off C r o26 (by simp [hBC, rC, hpC, nC]) sC⟩
    all_goals
      simp only [rb_parent_rb_set_parent, rb_color_rb_set_parent, rb_left_rb_set_parent,
        rb_right_rb_set_parent, upd, if_neg rn, if_true, p1, p2, p3, p4, q1, q2, q3, q4,
        rb_parent_set_left, rb_color_set_left, rb_left_set_left, rb_right_set_left,
        if_neg nr]
      try split_ifs
      all_goals simp [upd, rn, nr, r2, r4, n2, n3]

theorem rotate_right_spec {h : Heap} (k : Ctx) (n c : Nat) (l c' : Nat) (A B C : Tree)
    (hrep : Rep h (plug k (.node n c (.node l c' A B) C))) :
    Rep (__rb_rotate_right n h) (plug k (.node l c' A (.node n c B C))) := by
  have hz := Rep_ne_zero hrep
  rw [Rep_plug] at hrep ⊢
  obtain ⟨hk, hl, hs, hnd⟩ := hrep
  obtain ⟨n0, n1, n2, n3, n4, ⟨l0, l1, l2, l3, l4, l5, l6⟩, n6⟩ := hs
  simp only [ptr_node] at hl n3 ⊢
  have hnd2 : (ctxBefore k ++ (Tree.node l c' A (Tree.node n c B C)).inorder ++ ctxAfter k).Nodup := by
    simpa [Tree.inorder] using hnd
  simp only [inorder_plug, Tree.inorder, List.nodup_append, List.nodup_cons, List.mem_append,
    List.mem_cons, List.cons_append, List.disjoint_cons_right, List.disjoint_cons_left,
    List.disjoint_append_right, List.disjoint_append_left, not_or, List.append_assoc] at hnd hz
  obtain ⟨dX, ⟨dA, ⟨⟨lB, ln, lC, lY⟩, dB, ⟨⟨nC, nY⟩, dC, dY, CY⟩, nB, BC, BY⟩,
    lA, AB, nA, AC, AY⟩, XA, lX, XB, nX, XC, XY⟩ := hnd
  obtain ⟨zX, zA, zl, zB, zn, zC, zY⟩ := hz
  have zk : 0 ∉ ctxBefore k ++ ctxAfter k := by simp [zX, zY]
  have hpA : parOf k ∉ A.inorder := parOf_not_mem k _ zA (by simp [XA, AY.symm])
  have hpB : parOf k ∉ B.inorder := parOf_not_mem k _ zB (by simp [XB, BY.symm])
  have hpC : parOf k ∉ C.inorder := parOf_not_mem k _ zC (by simp [XC, CY.symm])
  have hpn : parOf k ≠ n := by
    have := parOf_not_mem k [n] (by simpa using zn) (by simp [nX, nY]); simpa using this
  have hpl : parOf k ≠ l := by
    have := parOf_not_mem k [l] (by simpa using zl) (by simp [lX, lY]); simpa using this
  have hBk : B.ptr ∉ ctxBefore k ++ ctxAfter k := ptr_not_mem B _ zk (by simp [XB.symm, BY])
  have hBA : B.ptr ∉ A.inorder := ptr_not_mem B _ zA AB.symm
  have hBC : B.ptr ∉ C.inorder := ptr_not_mem B _ zC BC
  have hpBp : k ≠ [] → parOf k ≠ B.ptr := fun hk' =>
    parOf_ne_ptr k B zk zB (by simp [XB, BY.symm]) (Or.inl hk')
  have hndk : (ctxBefore k ++ ctxAfter k).Nodup := by simp [List.nodup_append, dX, dY, XY]
  have hnk : n ∉ ctxBefore k ++ ctxAfter k := by simp [nX, nY]
  have hlk : l ∉ ctxBefore k ++ ctxAfter k := by simp [lX, lY]
  -- the memory after the stores up to the choice of the link
  have o2 : SameOff ([n] ++ [B.ptr]) h
      (if B.ptr ≠ 0 then rb_set_parent B.ptr n (set_left n B.ptr h) else set_left n B.ptr h) :=
    (sameOff_set_left n B.ptr h).append (sameOff_reparent_if B n _)
  have o4 := (o2.append (sameOff_set_right l n _)).append (sameOff_set_parent l (parOf k) _)
  have hr4 : (rb_set_parent l (parOf k) (set_right l n
      (if B.ptr ≠ 0 then rb_set_parent B.ptr n (set_left n B.ptr h)
       else set_left n B.ptr h))).rb_node = h.rb_node := by
    simp only [rb_node_rb_set_parent, rb_node_set_right]
    exact rb_node_reparent_if B n _
  have hk4 := ShapeC_off k o4 hr4 (by
    simp only [List.cons_append, List.nil_append, List.disjoint_cons_left,
      List.disjoint_nil_left, and_true]
    exact ⟨hnk, hBk, hlk, hlk⟩) hk
  have hl4 := (deref_off k o4 hr4 (fun hk' => by simp [hpn, hpl, hpBp hk'])).trans hl
  have heq : __rb_rotate_right n h = rb_set_parent n l (store (linkOf k) l
      (rb_set_parent l (parOf k) (set_right l n
      (if B.ptr ≠ 0 then rb_set_parent B.ptr n (set_left n B.ptr h)
       else set_left n B.ptr h)))) := by
    unfold __rb_rotate_right
    simp only [n3, n1, l4, rb_left_set_left, rb_right_set_left, upd_same]
    rw [link_choice_r k n l hk4 hl4 n0 hnk]
  rw [heq]
  have hk5 := ShapeC_store k l hndk hk4
  have hl5 := deref_store k l (rb_set_parent l (parOf k) (set_right l n
      (if B.ptr ≠ 0 then rb_set_parent B.ptr n (set_left n B.ptr h)
       else set_left n B.ptr h)))
  have o5 := sameOff_store k l (rb_set_parent l (parOf k) (set_right l n
      (if B.ptr ≠ 0 then rb_set_parent B.ptr n (set_left n B.ptr h)
       else set_left n B.ptr h)))
  have o6 := sameOff_set_parent n l (store (linkOf k) l (rb_set_parent l (parOf k) (set_right l n
      (if B.ptr ≠ 0 then rb_set_parent B.ptr n (set_left n B.ptr h)
       else set_left n B.ptr h))))
  have sA : Shape (set_left n B.ptr h) A l :=
    Shape_off A l (sameOff_set_left n B.ptr h) (by simpa using nA) l5
  have sB : Shape (set_left n B.ptr h) B l :=
    Shape_off B l (sameOff_set_left n B.ptr h) (by simpa using nB) l6
  have sC : Shape (set_left n B.ptr h) C n :=
    Shape_off C n (sameOff_set_left n B.ptr h) (by simpa using nC) n6
  have sB2 := Shape_reparent_if B l n dB sB
  have o36 := (((sameOff_set_right l n (if B.ptr ≠ 0 then rb_set_parent B.ptr n
    (set_left n B.ptr h) else set_left n B.ptr h)).append
    (sameOff_set_parent l (parOf k) _)).append o5).append o6
  have o26 := (sameOff_reparent_if B n (set_left n B.ptr h)).append o36
  obtain ⟨p1, p2, p3, p4⟩ := o5 l (by simpa using hpl.symm)
  obtain ⟨q1, q2, q3, q4⟩ := o5 n (by simpa using hpn.symm)
  refine ⟨ShapeC_off k o6 rfl (by simpa using hnk) hk5, ?_, ?_, hnd2⟩
  · exact (deref_off k o6 rfl (fun _ => by simpa using hpn)).trans hl5
  · have nl : n ≠ l := Ne.symm ln
    refine ⟨l0, ?_, ?_, ?_, ?_,
      Shape_off A l o26 (by simp [hBA, lA, hpA, nA]) sA,
      ⟨n0, ?_, ?_, ?_, ?_,
      Shape_off B n o36 (by simp [lB, hpB, nB]) sB2,
      Shape_off C n o26 (by simp [hBC, lC, hpC, nC]) sC⟩⟩
    all_goals
      simp only [rb_parent_rb_set_parent, rb_color_rb_set_parent, rb_left_rb_set_parent,
        rb_right_rb_set_parent, upd, if_neg ln, if_true, p1, p2, p3, p4, q1, q2, q3, q4,
        rb_parent_set_right, rb_color_set_right, rb_left_set_right, rb_right_set_right,
        if_neg nl]
      try split_ifs
      all_goals simp [upd, ln, nl, l2, l3, n2, n4]

/-- What the memory holds at a node of the tree. -/
theorem Rep_read {h : Heap} (k : Ctx) (n c : Nat) (A B : Tree)
    (hrep : Rep h (plug k (.node n c A B))) :
    n ≠ 0 ∧ h.rb_parent n = parOf k ∧ h.rb_color n = c ∧ h.rb_left n = A.ptr ∧
    h.rb_right n = B.ptr ∧ deref h (linkOf k) = n := by
  rw [Rep_plug] at hrep
  obtain ⟨-, hl, ⟨n0, n1, n2, n3, n4, -, -⟩, -⟩ := hrep
  exact ⟨n0, n1, n2, n3, n4, hl⟩

theorem set_color_spec {h : Heap} (k : Ctx) (n c c' : Nat) (A B : Tree)
    (hrep : Rep h (plug k (.node n c A B))) :
    Rep (rb_set_color n c' h) (plug k (.node n c' A B)) := by
  rw [Rep_plug] at hrep ⊢
  obtain ⟨hk, hl, hs, hnd⟩ := hrep
  obtain ⟨n0, n1, n2, n3, n4, n5, n6⟩ := hs
  have hnd2 : (ctxBefore k ++ (Tree.node n c' A B).inorder ++ ctxAfter k).Nodup := by
    simpa [Tree.inorder] using hnd
  simp only [inorder_plug, Tree.inorder, List.nodup_append, List.nodup_cons, List.mem_append,
    List.mem_cons, List.cons_append, List.disjoint_cons_right, List.disjoint_cons_left,
    List.disjoint_append_right, List.disjoint_append_left, not_or, List.append_assoc] at hnd
  obtain ⟨dX, ⟨dA, ⟨⟨nB, nY⟩, dB, dY, BY⟩, nA, AB, AY⟩, XA, nX, XB, XY⟩ := hnd
  have o := sameOff_set_color n c' h
  refine ⟨ShapeC_off k o rfl (by simp [nX, nY]) hk, ?_, ?_, hnd2⟩
  · cases k with
    | nil => exact hl
    | cons F k => cases F <;> exact hl
  · exact ⟨n0, n1, by simp, n3, n4, Shape_off A n o (by simpa using nA) n5,
      Shape_off B n o (by simpa using nB) n6⟩

theorem set_black_spec {h : Heap} (k : Ctx) (n c : Nat) (A B : Tree)
    (hrep : Rep h (plug k (.node n c A B))) :
    Rep (rb_set_black n h) (plug k (.node n 1 A B)) :=
  set_color_spec k n c 1 A B hrep

theorem set_red_spec {h : Heap} (k : Ctx) (n c : Nat) (A B : Tree)
    (hrep : Rep h (plug k (.node n c A B))) :
    Rep (rb_set_red n h) (plug k (.node n 0 A B)) :=
  set_color_spec k n c 0 A B hrep

/-- Holds `rb_link_node` hangs a new red leaf into the hole. -/
theorem link_node_spec {h : Heap} (k : Ctx) (n : Nat) (hn0 : n ≠ 0)
    (hrep : Rep h (plug k .nil)) (hn : n ∉ (plug k .nil).inorder) :
    Rep (rb_link_node n (parOf k) (linkOf k) h) (plug k (.node n 0 .nil .nil)) := by
  rw [Rep_plug] at hrep ⊢
  obtain ⟨hk, hl, -, hnd⟩ := hrep
  simp only [inorder_plug, Tree.inorder, List.append_nil, List.mem_append, not_or,
    List.nil_append] at hn hnd ⊢
  have hndk : (ctxBefore k ++ ctxAfter k).Nodup := hnd
  have hnk : n ∉ ctxBefore k ++ ctxAfter k := by simp only [List.mem_append, not_or]; exact hn
  unfold rb_link_node
  have o4 := (((sameOff_set_parent n (parOf k) h).append
    (sameOff_set_color n RB_RED _)).append (sameOff_set_right n 0 _)).append
    (sameOff_set_left n 0 _)
  have hk4 := ShapeC_off k o4 rfl (by simp; exact hn) hk
  have hk5 := ShapeC_store k n hndk hk4
  have o5 := sameOff_store k n (set_left n 0 (set_right n 0 (rb_set_color n RB_RED
    (rb_set_parent n (parOf k) h))))
  have hpn : parOf k ≠ n := by
    intro e
    cases k with
    | nil => exact hn0 e.symm
    | cons F k => exact hnk (by rw [← e]; cases F <;> simp [ctxBefore, ctxAfter])
  obtain ⟨q1, q2, q3, q4⟩ := o5 n (by simpa using hpn.symm)
  refine ⟨hk5, deref_store k n _, ⟨hn0, ?_, ?_, ?_, ?_, trivial, trivial⟩, ?_⟩
  · simp [q1]
  · rw [q2]; simp [RB_RED]
  · simp [q3]
  · simp [q4]
  · simp only [List.nodup_append, List.nodup_cons, List.disjoint_cons_right,
      List.disjoint_cons_left, List.cons_append, List.mem_append, not_or,
      List.disjoint_append_left, List.singleton_disjoint, List.nodup_nil, List.not_mem_nil,
      List.disjoint_nil_right, not_false_eq_true, and_true, true_and] at hnd ⊢
    tauto

/-! ## Red-black properties of a filled context -/

@[simp] theorem isBlack_nil : Tree.nil.isBlack = True := rfl
@[simp] theorem isBlack_node (a c : Nat) (l r : Tree) :
    (Tree.node a c l r).isBlack = (c ≠ 0) := rfl
@[simp] theorem topBlack_nil : topBlack [] = False := rfl
@[simp] theorem topBlack_L (a c : Nat) (r : Tree) (k : Ctx) :
    topBlack (.L a c r :: k) = (c ≠ 0) := rfl
@[simp] theorem topBlack_R (a c : Nat) (l : Tree) (k : Ctx) :
    topBlack (.R a c l :: k) = (c ≠ 0) := rfl

theorem NoRR_plug : ∀ (k : Ctx) (t : Tree),
    ((plug k t).isBlack ∧ (plug k t).NoRR) ↔
    (ctxNoRR k ∧ t.NoRR ∧ (¬ t.isBlack → topBlack k)) := by
  intro k
  induction k with
  | nil => intro t; simp [ctxNoRR]; tauto
  | cons F k ih =>
    intro t
    cases F with
    | L a c r =>
      simp only [plug_L, ih, Tree.NoRR, isBlack_node, ctxNoRR, topBlack_L]
      by_cases hc : c = 0 <;> by_cases ht : t.isBlack <;> simp [hc, ht] <;> tauto
    | R a c l =>
      simp only [plug_R, ih, Tree.NoRR, isBlack_node, ctxNoRR, topBlack_R]
      by_cases hc : c = 0 <;> by_cases ht : t.isBlack <;> simp [hc, ht] <;> tauto

theorem Bal_plug : ∀ (k : Ctx) (t : Tree),
    (plug k t).Bal ↔ (t.Bal ∧ ctxBal k t.bh) := by
  intro k
  induction k with
  | nil => intro t; simp [ctxBal]
  | cons F k ih =>
    intro t
    cases F with
    | L a c r =>
      simp only [plug_L, ih, Tree.Bal, Tree.bh, ctxBal]
      constructor
      · rintro ⟨⟨h1, h2, h3, h4⟩, h5⟩; exact ⟨h3, h1, h2.symm, h4, h5⟩
      · rintro ⟨h3, h1, h2, h4, h5⟩; exact ⟨⟨h1, h2.symm, h3, h4⟩, h5⟩
    | R a c l =>
      simp only [plug_R, ih, Tree.Bal, Tree.bh, ctxBal]
      constructor
      · rintro ⟨⟨h1, h2, h3, h4⟩, h5⟩; exact ⟨h4, h1, h2, h3, h2 ▸ h5⟩
      · rintro ⟨h3, h1, h2, h4, h5⟩; exact ⟨⟨h1, h2, h4, h3⟩, h2 ▸ h5⟩

/-- Blackening the root keeps the red-black properties that do not speak of
the root's colour, and makes the root black. -/
theorem RB_blacken (a c : Nat) (l r : Tree) (h1 : (Tree.node a c l r).NoRR)
    (h2 : (Tree.node a c l r).Bal) : (Tree.node a 1 l r).RB := by
  obtain ⟨-, n1, n2⟩ := h1
  obtain ⟨-, b1, b2, b3⟩ := h2
  exact ⟨by simp [Tree.isBlack], ⟨by simp, n1, n2⟩, ⟨le_refl 1, b1, b2, b3⟩⟩

/-- The two children of a node of the tree are different pointers, unless
both are `NULL`. -/
theorem Rep_children_ne {h : Heap} (k : Ctx) (a c : Nat) (A B : Tree)
    (hrep : Rep h (plug k (.node a c A B))) (hA : A ≠ .nil) : B.ptr ≠ A.ptr := by
  have hz := Rep_ne_zero hrep
  have hnd := hrep.2.2
  simp only [inorder_plug, Tree.inorder, List.nodup_append, List.nodup_cons, List.mem_append,
    List.mem_cons, List.cons_append, List.disjoint_cons_right, List.disjoint_cons_left,
    List.disjoint_append_right, List.disjoint_append_left, not_or, List.append_assoc] at hnd hz
  obtain ⟨dX, ⟨dA, ⟨⟨nB, nY⟩, dB, dY, BY⟩, nA, AB, AY⟩, XA, nX, XB, XY⟩ := hnd
  cases A with
  | nil => exact absurd rfl hA
  | node x cx xl xr =>
    intro e
    have := ptr_not_mem B (Tree.node x cx xl xr).inorder hz.2.1 AB.symm
    rw [e] at this
    exact this (by simp [Tree.inorder])

theorem Rep_children_ne' {h : Heap} (k : Ctx) (a c : Nat) (A B : Tree)
    (hrep : Rep h (plug k (.node a c A B))) (hB : B ≠ .nil) : A.ptr ≠ B.ptr := by
  have hz := Rep_ne_zero hrep
  have hnd := hrep.2.2
  simp only [inorder_plug, Tree.inorder, List.nodup_append, List.nodup_cons, List.mem_append,
    List.mem_cons, List.cons_append, List.disjoint_cons_right, List.disjoint_cons_left,
    List.disjoint_append_right, List.disjoint_append_left, not_or, List.append_assoc] at hnd hz
  obtain ⟨dX, ⟨dA, ⟨⟨nB, nY⟩, dB, dY, BY⟩, nA, AB, AY⟩, XA, nX, XB, XY⟩ := hnd
  cases B with
  | nil => exact absurd rfl hB
  | node x cx xl xr =>
    intro e
    have := ptr_not_mem A (Tree.node x cx xl xr).inorder hz.2.2.2.1 AB
    rw [e] at this
    exact this (by simp [Tree.inorder])

/-- The test `x && rb_is_red(x)` on a child pointer reads the colour of the subtree. -/
theorem Rep_red_iff {h : Heap} (k : Ctx) (t : Tree) (hrep : Rep h (plug k t)) :
    (t.ptr ≠ 0 ∧ rb_is_red h t.ptr) ↔ ¬ t.isBlack := by
  cases t with
  | nil => simp
  | node a c l r =>
    obtain ⟨a0, -, a2, -, -, -⟩ := Rep_read k a c l r hrep
    simp [rb_is_red, a0, a2]

theorem plug_ne_nil (k : Ctx) (a c : Nat) (l r : Tree) : plug k (.node a c l r) ≠ .nil := by
  intro e
  have := congrArg Tree.inorder e
  simp [inorder_plug, Tree.inorder] at this

set_option maxHeartbeats 4000000 in
theorem insert_loop_spec : ∀ (m : Nat) (k : Ctx), k.length ≤ m →
    ∀ (n : Nat) (l r : Tree) (h : Heap) (fuel : Nat), m < fuel →
    Rep h (plug k (.node n 0 l r)) → ctxNoRR k → (Tree.node n 0 l r).NoRR →
    (plug k (.node n 0 l r)).Bal →
    ∃ h' T', rb_insert_color_loop fuel n h = some h' ∧ Rep h' T' ∧
      T'.inorder = (plug k (.node n 0 l r)).inorder ∧ T'.NoRR ∧ T'.Bal ∧ T' ≠ .nil := by
  intro m
  induction m using Nat.strong_induction_on with
  | _ m ih =>
  intro k hlen n l r h fuel hfuel hrep hk hn hbal
  obtain ⟨f, rfl⟩ : ∃ f, fuel = f + 1 := ⟨fuel - 1, by omega⟩
  obtain ⟨n0, n1, n2, n3, n4, n5⟩ := Rep_read k n 0 l r hrep
  cases k with
  | nil =>
    refine ⟨h, .node n 0 l r, ?_, hrep, rfl, hn, hbal, by simp⟩
    simp [rb_insert_color_loop, n1]
  | cons F k =>
    cases F with
    | L p cp s =>
      obtain ⟨p0, p1, p2, p3, p4, p5⟩ := Rep_read k p cp (.node n 0 l r) s hrep
      simp only [parOf_L, ptr_node] at n1 p3
      by_cases hcp : cp = 0
      · -- red parent
        subst hcp
        obtain ⟨hs, himp, hk'⟩ := hk
        obtain ⟨hsb, htop⟩ := himp rfl
        cases k with
        | nil => exact absurd htop (by simp)
        | cons G k =>
          cases G with
          | L g cg u =>
            simp only [topBlack_L] at htop
            obtain ⟨g0, g1, g2, g3, g4, g5⟩ :=
              Rep_read k g cg (.node p 0 (.node n 0 l r) s) u hrep
            simp only [parOf_L, ptr_node] at p1 g3
            obtain ⟨hu, -, hk''⟩ := hk'
            have hured := Rep_red_iff (.R g cg (.node p 0 (.node n 0 l r) s) :: k) u hrep
            simp only [List.length_cons] at hlen
            by_cases hur : u.isBlack
            · -- black uncle, node is a left child: recolour, rotate the grandparent
              have hsn : s.ptr ≠ n :=
                Rep_children_ne (.L g cg u :: k) p 0 (.node n 0 l r) s hrep (by simp)
              have e1 := set_black_spec (.L g cg u :: k) p 0 (.node n 0 l r) s hrep
              have e2 := set_red_spec k g cg (.node p 1 (.node n 0 l r) s) u e1
              have e3 := rotate_right_spec k g 0 p 1 (.node n 0 l r) s u e2
              have hstep : rb_insert_color_loop (f + 1) n h = rb_insert_color_loop f n
                  (__rb_rotate_right g (rb_set_red g (rb_set_black p h))) := by
                have hpc : p ≠ 0 ∧ rb_is_red h p := ⟨p0, p2⟩
                have hcond : ¬(u.ptr ≠ 0 ∧ rb_is_red h u.ptr) := by rw [hured]; simpa using hur
                rw [rb_insert_color_loop]
                simp only [n1, p1, g3, g4, p4, hpc, hcond, hsn, and_self, if_true, if_false,
                  ne_eq, not_false_eq_true]
              obtain ⟨h', T', r1, r2, r3, r4, r5, r6⟩ := ih (k.length + 1) (by omega)
                (.L p 1 (.node g 0 s u) :: k) (by simp) n l r _ f (by omega) e3
                (by
                  simp only [ctxNoRR, Tree.NoRR]
                  simp; tauto)
                hn
                (by
                  simp only [plug_L, Bal_plug, Tree.Bal, Tree.bh, ctxBal] at hbal ⊢
                  obtain rfl : cg = 1 := by omega
                  simp at hbal ⊢
                  (repeat' apply And.intro) <;> first | omega | tauto)
              refine ⟨h', T', hstep.trans r1, r2, ?_, r4, r5, r6⟩
              rw [r3]; simp [inorder_plug, Tree.inorder]
            · -- red uncle: recolour and go on from the grandparent
              cases u with
              | nil => simp at hur
              | node ua cu ul ur =>
                simp only [isBlack_node, ne_eq, not_not] at hur
                subst hur
                obtain ⟨u0, u1, u2, u3, u4, u5⟩ :=
                  Rep_read (.R g cg (.node p 0 (.node n 0 l r) s) :: k) ua 0 ul ur hrep
                simp only [ptr_node] at g4
                have e1 := set_black_spec (.R g cg (.node p 0 (.node n 0 l r) s) :: k)
                  ua 0 ul ur hrep
                have e2 := set_black_spec (.L g cg (.node ua 1 ul ur) :: k)
                  p 0 (.node n 0 l r) s e1
                have e3 := set_red_spec k g cg (.node p 1 (.node n 0 l r) s)
                  (.node ua 1 ul ur) e2
                have hstep : rb_insert_color_loop (f + 1) n h = rb_insert_color_loop f g
                    (rb_set_red g (rb_set_black p (rb_set_black ua h))) := by
                  rw [rb_insert_color_loop]
                  simp [n1, p0, rb_is_red, p2, p1, g3, g4, u0, u2]
                obtain ⟨h', T', r1, r2, r3, r4, r5, r6⟩ := ih k.length (by omega) k le_rfl g
                  (.node p 1 (.node n 0 l r) s) (.node ua 1 ul ur) _ f (by omega) e3 hk''
                  (by
                    simp only [Tree.NoRR, isBlack_node] at hn hu ⊢
                    simp; tauto)
                  (by
                    simp only [plug_L, Bal_plug, Tree.Bal, Tree.bh, ctxBal] at hbal ⊢
                    obtain rfl : cg = 1 := by omega
                    simp at hbal ⊢
                    tauto)
                refine ⟨h', T', hstep.trans r1, r2, ?_, r4, r5, r6⟩
                rw [r3]; simp [inorder_plug, Tree.inorder]
          | R g cg u =>
            simp only [topBlack_R] at htop
            obtain ⟨g0, g1, g2, g3, g4, g5⟩ :=
              Rep_read k g cg u (.node p 0 (.node n 0 l r) s) hrep
            simp only [parOf_R, ptr_node] at p1 g4
            obtain ⟨hu, -, hk''⟩ := hk'
            have hured := Rep_red_iff (.L g cg (.node p 0 (.node n 0 l r) s) :: k) u hrep
            have hup : u.ptr ≠ p := Rep_children_ne' k g cg u _ hrep (by simp)
            have hpc : p ≠ 0 ∧ rb_is_red h p := ⟨p0, p2⟩
            simp only [List.length_cons] at hlen
            by_cases hur : u.isBlack
            · -- black uncle, node is a left child of a right child: two rotations
              have e1 := rotate_right_spec (.R g cg u :: k) p 0 n 0 l r s hrep
              have e2 := set_black_spec (.R g cg u :: k) n 0 l (.node p 0 r s) e1
              have e3 := set_red_spec k g cg u (.node n 1 l (.node p 0 r s)) e2
              have e4 := rotate_left_spec k g 0 u n 1 l (.node p 0 r s) e3
              have hstep : rb_insert_color_loop (f + 1) n h = rb_insert_color_loop f p
                  (__rb_rotate_left g (rb_set_red g (rb_set_black n
                    (__rb_rotate_right p h)))) := by
                have hcond : ¬(u.ptr ≠ 0 ∧ rb_is_red h u.ptr) := by rw [hured]; simpa using hur
                rw [rb_insert_color_loop]
                simp only [n1, p1, g3, g4, p3, hpc, hcond, Ne.symm hup, and_self, if_true,
                  if_false, ne_eq, not_false_eq_true]
              obtain ⟨h', T', r1, r2, r3, r4, r5, r6⟩ := ih (k.length + 1) (by omega)
                (.R n 1 (.node g 0 u l) :: k) (by simp) p r s _ f (by omega) e4
                (by
                  simp only [ctxNoRR, Tree.NoRR] at hn ⊢
                  simp at hn ⊢; tauto)
                (by
                  simp only [ctxNoRR, Tree.NoRR] at hn ⊢
                  simp at hn ⊢; tauto)
                (by
                  simp only [plug_L, plug_R, Bal_plug, Tree.Bal, Tree.bh, ctxBal] at hbal ⊢
                  obtain rfl : cg = 1 := by omega
                  simp at hbal ⊢
                  (repeat' apply And.intro) <;> first | omega | tauto)
              refine ⟨h', T', hstep.trans r1, r2, ?_, r4, r5, r6⟩
              rw [r3]; simp [inorder_plug, Tree.inorder]
            · -- red uncle: recolour and go on from the grandparent
              cases u with
              | nil => simp at hur
              | node ua cu ul ur =>
                simp only [isBlack_node, ne_eq, not_not] at hur
                subst hur
                obtain ⟨u0, u1, u2, u3, u4, u5⟩ :=
                  Rep_read (.L g cg (.node p 0 (.node n 0 l r) s) :: k) ua 0 ul ur hrep
                simp only [ptr_node] at g3 hup
                have e1 := set_black_spec (.L g cg (.node p 0 (.node n 0 l r) s) :: k)
                  ua 0 ul ur hrep
                have e2 := set_black_spec (.R g cg (.node ua 1 ul ur) :: k)
                  p 0 (.node n 0 l r) s e1
                have e3 := set_red_spec k g cg (.node ua 1 ul ur)
                  (.node p 1 (.node n 0 l r) s) e2
                have hstep : rb_insert_color_loop (f + 1) n h = rb_insert_color_loop f g
                    (rb_set_red g (rb_set_black p (rb_set_black ua h))) := by
                  have hcond : ua ≠ 0 ∧ rb_is_red h ua := ⟨u0, u2⟩
                  rw [rb_insert_color_loop]
                  simp only [n1, p1, g3, g4, hpc, hcond, Ne.symm hup, and_self, if_true,
                    if_false, ne_eq, not_false_eq_true]
                obtain ⟨h', T', r1, r2, r3, r4, r5, r6⟩ := ih k.length (by omega) k le_rfl g
                  (.node ua 1 ul ur) (.node p 1 (.node n 0 l r) s) _ f (by omega) e3 hk''
                  (by
                    simp only [Tree.NoRR, isBlack_node] at hn hu ⊢
                    simp; tauto)
                  (by
                  simp only [plug_L, plug_R, Bal_plug, Tree.Bal, Tree.bh, ctxBal] at hbal ⊢
                  obtain rfl : cg = 1 := by omega
                  simp at hbal ⊢
                  (repeat' apply And.intro) <;> first | omega | tauto)
                refine ⟨h', T', hstep.trans r1, r2, ?_, r4, r5, r6⟩
                rw [r3]; simp [inorder_plug, Tree.inorder]
      · -- black parent: the loop ends
        refine ⟨h, _, ?_, hrep, rfl, ?_, hbal, ?_⟩
        · simp [rb_insert_color_loop, n1, p0, rb_is_red, p2, hcp]
        · exact ((NoRR_plug _ _).2 ⟨hk, hn, fun _ => by simpa using hcp⟩).2
        · intro e
          have := congrArg Tree.inorder e
          simp [inorder_plug, Tree.inorder] at this
    | R p cp s =>
      obtain ⟨p0, p1, p2, p3, p4, p5⟩ := Rep_read k p cp s (.node n 0 l r) hrep
      simp only [parOf_R, ptr_node] at n1 p4
      by_cases hcp : cp = 0
      · -- red parent
        subst hcp
        obtain ⟨hs, himp, hk'⟩ := hk
        obtain ⟨hsb, htop⟩ := himp rfl
        have hpc : p ≠ 0 ∧ rb_is_red h p := ⟨p0, p2⟩
        cases k with
        | nil => exact absurd htop (by simp)
        | cons G k =>
          simp only [List.length_cons] at hlen
          cases G with
          | L g cg u =>
            simp only [topBlack_L] at htop
            obtain ⟨g0, g1, g2, g3, g4, g5⟩ :=
              Rep_read k g cg (.node p 0 s (.node n 0 l r)) u hrep
            simp only [parOf_L, ptr_node] at p1 g3
            obtain ⟨hu, -, hk''⟩ := hk'
            have hured := Rep_red_iff (.R g cg (.node p 0 s (.node n 0 l r)) :: k) u hrep
            by_cases hur : u.isBlack
            · -- black uncle, node is a right child of a left child: two rotations
              have e1 := rotate_left_spec (.L g cg u :: k) p 0 s n 0 l r hrep
              have e2 := set_black_spec (.L g cg u :: k) n 0 (.node p 0 s l) r e1
              have e3 := set_red_spec k g cg (.node n 1 (.node p 0 s l) r) u e2
              have e4 := rotate_right_spec k g 0 n 1 (.node p 0 s l) r u e3
              have hstep : rb_insert_color_loop (f + 1) n h = rb_insert_color_loop f p
                  (__rb_rotate_right g (rb_set_red g (rb_set_black n
                    (__rb_rotate_left p h)))) := by
                have hcond : ¬(u.ptr ≠ 0 ∧ rb_is_red h u.ptr) := by rw [hured]; simpa using hur
                rw [rb_insert_color_loop]
                simp only [n1, p1, g3, g4, p4, hpc, hcond, and_self, if_true,
                  if_false, ne_eq, not_false_eq_true]
              obtain ⟨h', T', r1, r2, r3, r4, r5, r6⟩ := ih (k.length + 1) (by omega)
                (.L n 1 (.node g 0 r u) :: k) (by simp) p s l _ f (by omega) e4
                (by
                  simp only [ctxNoRR, Tree.NoRR] at hn ⊢
                  simp at hn ⊢; tauto)
                (by
                  simp only [ctxNoRR, Tree.NoRR] at hn ⊢
                  simp at hn ⊢; tauto)
                (by
                  simp only [plug_L, plug_R, Bal_plug, Tree.Bal, Tree.bh, ctxBal] at hbal ⊢
                  obtain rfl : cg = 1 := by omega
                  simp at hbal ⊢
                  (repeat' apply And.intro) <;> first | omega | tauto)
              refine ⟨h', T', hstep.trans r1, r2, ?_, r4, r5, r6⟩
              rw [r3]; simp [inorder_plug, Tree.inorder]
            · -- red uncle: recolour and go on from the grandparent
              cases u with
              | nil => simp at hur
              | node ua cu ul ur =>
                simp only [isBlack_node, ne_eq, not_not] at hur
                subst hur
                obtain ⟨u0, u1, u2, u3, u4, u5⟩ :=
                  Rep_read (.R g cg (.node p 0 s (.node n 0 l r)) :: k) ua 0 ul ur hrep
                simp only [ptr_node] at g4
                have e1 := set_black_spec (.R g cg (.node p 0 s (.node n 0 l r)) :: k)
                  ua 0 ul ur hrep
                have e2 := set_black_spec (.L g cg (.node ua 1 ul ur) :: k)
                  p 0 s (.node n 0 l r) e1
                have e3 := set_red_spec k g cg (.node p 1 s (.node n 0 l r))
                  (.node ua 1 ul ur) e2
                have hstep : rb_insert_color_loop (f + 1) n h = rb_insert_color_loop f g
                    (rb_set_red g (rb_set_black p (rb_set_black ua h))) := by
                  have hcond : ua ≠ 0 ∧ rb_is_red h ua := ⟨u0, u2⟩
                  rw [rb_insert_color_loop]
                  simp only [n1, p1, g3, g4, hpc, hcond, and_self, if_true,
                    if_false, ne_eq, not_false_eq_true]
                obtain ⟨h', T', r1, r2, r3, r4, r5, r6⟩ := ih k.length (by omega) k le_rfl g
                  (.node p 1 s (.node n 0 l r)) (.node ua 1 ul ur) _ f (by omega) e3 hk''
                  (by
                    simp only [Tree.NoRR, isBlack_node] at hn hu ⊢
                    simp; tauto)
                  (by
                  simp only [plug_L, plug_R, Bal_plug, Tree.Bal, Tree.bh, ctxBal] at hbal ⊢
                  obtain rfl : cg = 1 := by omega
                  simp at hbal ⊢
                  (repeat' apply And.intro) <;> first | omega | tauto)
                refine ⟨h', T', hstep.trans r1, r2, ?_, r4, r5, r6⟩
                rw [r3]; simp [inorder_plug, Tree.inorder]
          | R g cg u =>
            simp only [topBlack_R] at htop
            obtain ⟨g0, g1, g2, g3, g4, g5⟩ :=
              Rep_read k g cg u (.node p 0 s (.node n 0 l r)) hrep
            simp only [parOf_R, ptr_node] at p1 g4
            obtain ⟨hu, -, hk''⟩ := hk'
            have hured := Rep_red_iff (.L g cg (.node p 0 s (.node n 0 l r)) :: k) u hrep
            have hup : u.ptr ≠ p := Rep_children_ne' k g cg u _ hrep (by simp)
            by_cases hur : u.isBlack
            · -- black uncle, node is a right child of a right child: one rotation
              have hsn : s.ptr ≠ n :=
                Rep_children_ne' (.R g cg u :: k) p 0 s (.node n 0 l r) hrep (by simp)
              have e1 := set_black_spec (.R g cg u :: k) p 0 s (.node n 0 l r) hrep
              have e2 := set_red_spec k g cg u (.node p 1 s (.node n 0 l r)) e1
              have e3 := rotate_left_spec k g 0 u p 1 s (.node n 0 l r) e2
              have hstep : rb_insert_color_loop (f + 1) n h = rb_insert_color_loop f n
                  (__rb_rotate_left g (rb_set_red g (rb_set_black p h))) := by
                have hcond : ¬(u.ptr ≠ 0 ∧ rb_is_red h u.ptr) := by rw [hured]; simpa using hur
                rw [rb_insert_color_loop]
                simp only [n1, p1, g3, g4, p3, hpc, hcond, Ne.symm hup, hsn, and_self, if_true,
                  if_false, ne_eq, not_false_eq_true]
              obtain ⟨h', T', r1, r2, r3, r4, r5, r6⟩ := ih (k.length + 1) (by omega)
                (.R p 1 (.node g 0 u s) :: k) (by simp) n l r _ f (by omega) e3
                (by
                  simp only [ctxNoRR, Tree.NoRR] at hn ⊢
                  simp at hn ⊢; tauto)
                hn
                (by
                  simp only [plug_L, plug_R, Bal_plug, Tree.Bal, Tree.bh, ctxBal] at hbal ⊢
                  obtain rfl : cg = 1 := by omega
                  simp at hbal ⊢
                  (repeat' apply And.intro) <;> first | omega | tauto)
              refine ⟨h', T', hstep.trans r1, r2, ?_, r4, r5, r6⟩
              rw [r3]; simp [inorder_plug, Tree.inorder]
            · -- red uncle: recolour and go on from the grandparent
              cases u with
              | nil => simp at hur
              | node ua cu ul ur =>
                simp only [isBlack_node, ne_eq, not_not] at hur
                subst hur
                obtain ⟨u0, u1, u2, u3, u4, u5⟩ :=
                  Rep_read (.L g cg (.node p 0 s (.node n 0 l r)) :: k) ua 0 ul ur hrep
                simp only [ptr_node] at g3 hup
                have e1 := set_black_spec (.L g cg (.node p 0 s (.node n 0 l r)) :: k)
                  ua 0 ul ur hrep
                have e2 := set_black_spec (.R g cg (.node ua 1 ul ur) :: k)
                  p 0 s (.node n 0 l r) e1
                have e3 := set_red_spec k g cg (.node ua 1 ul ur)
                  (.node p 1 s (.node n 0 l r)) e2
                have hstep : rb_insert_color_loop (f + 1) n h = rb_insert_color_loop f g
                    (rb_set_red g (rb_set_black p (rb_set_black ua h))) := by
                  have hcond : ua ≠ 0 ∧ rb_is_red h ua := ⟨u0, u2⟩
                  rw [rb_insert_color_loop]
                  simp only [n1, p1, g3, g4, hpc, hcond, Ne.symm hup, and_self, if_true,
                    if_false, ne_eq, not_false_eq_true]
                obtain ⟨h', T', r1, r2, r3, r4, r5, r6⟩ := ih k.length (by omega) k le_rfl g
                  (.node ua 1 ul ur) (.node p 1 s (.node n 0 l r)) _ f (by omega) e3 hk''
                  (by
                    simp only [Tree.NoRR, isBlack_node] at hn hu ⊢
                    simp; tauto)
                  (by
                  simp only [plug_L, plug_R, Bal_plug, Tree.Bal, Tree.bh, ctxBal] at hbal ⊢
                  obtain rfl : cg = 1 := by omega
                  simp at hbal ⊢
                  (repeat' apply And.intro) <;> first | omega | tauto)
                refine ⟨h', T', hstep.trans r1, r2, ?_, r4, r5, r6⟩
                rw [r3]; simp [inorder_plug, Tree.inorder]
      · -- black parent: the loop ends
        refine ⟨h, _, ?_, hrep, rfl, ?_, hbal, plug_ne_nil _ _ _ _ _⟩
        · simp [rb_insert_color_loop, n1, p0, rb_is_red, p2, hcp]
        · exact ((NoRR_plug _ _).2 ⟨hk, hn, fun _ => by simpa using hcp⟩).2

theorem size_eq_length (t : Tree) : t.size = t.inorder.length := by
  induction t with
  | nil => rfl
  | node a c l r ihl ihr => simp [Tree.size, Tree.inorder, ihl, ihr]; omega

theorem length_le_size (k : Ctx) : ∀ t : Tree, k.length + t.size ≤ (plug k t).size := by
  induction k with
  | nil => intro t; simp
  | cons F k ih =>
    intro t
    cases F with
    | L a c r => have := ih (.node a c t r); simp [Tree.size] at this ⊢; omega
    | R a c l => have := ih (.node a c l t); simp [Tree.size] at this ⊢; omega

/-- Holds `rb_insert_color` on a freshly linked red leaf restores the red-black
properties and keeps the sort order of the nodes. -/
theorem rb_insert_color_spec {h : Heap} (k : Ctx) (n : Nat) (fuel : Nat)
    (hfuel : k.length < fuel)
    (hrep : Rep h (plug k (.node n 0 .nil .nil))) (hrb : (plug k .nil).RB) :
    ∃ h' T', rb_insert_color fuel n h = some h' ∧ Rep h' T' ∧
      T'.inorder = (plug k (.node n 0 .nil .nil)).inorder ∧ T'.RB := by
  obtain ⟨hb, hnr, hbal⟩ := hrb
  have hk : ctxNoRR k := ((NoRR_plug k .nil).1 ⟨hb, hnr⟩).1
  have hbal' : (plug k (.node n 0 .nil .nil)).Bal := by
    rw [Bal_plug] at hbal ⊢
    simpa [Tree.Bal, Tree.bh] using hbal
  obtain ⟨h', T', r1, r2, r3, r4, r5, r6⟩ := insert_loop_spec k.length k le_rfl n .nil .nil h
    fuel hfuel hrep hk (by simp [Tree.NoRR]) hbal'
  cases T' with
  | nil => exact absurd rfl r6
  | node a c l r =>
    refine ⟨rb_set_black a h', .node a 1 l r, ?_, set_black_spec [] a c l r r2, ?_,
      RB_blacken a c l r r4 r5⟩
    · have : h'.rb_node = a := r2.1
      simp [rb_insert_color, r1, this]
    · rw [← r3]; simp [Tree.inorder]

/-- The descent of `cfs_queue` ends at an empty place of the tree, with the
nodes before it holding keys `≤ key` and the nodes after it holding keys
`> key`; `leftmost` is still set exactly when no node is before the place. -/
theorem cfs_queue_loop_spec (s : cfs_state) (key : Nat) : ∀ (t : Tree) (k : Ctx)
    (fuel lm : Nat), Rep s.heap (plug k t) → t.size < fuel →
    (∀ a ∈ ctxBefore k, s.t a ≤ key) → (∀ a ∈ ctxAfter k, key < s.t a) →
    (t.inorder.map s.t).Pairwise (· ≤ ·) → (lm ≠ 0 ↔ ctxBefore k = []) →
    ∃ k' lm', cfs_queue_loop s key fuel (linkOf k) (parOf k) lm =
        some (linkOf k', parOf k', lm') ∧ plug k' .nil = plug k t ∧
      (∀ a ∈ ctxBefore k', s.t a ≤ key) ∧ (∀ a ∈ ctxAfter k', key < s.t a) ∧
      (lm' ≠ 0 ↔ ctxBefore k' = []) := by
  intro t
  induction t with
  | nil =>
    intro k fuel lm hrep hfuel hb ha _ hlm
    obtain ⟨f, rfl⟩ : ∃ f, fuel = f + 1 := ⟨fuel - 1, by omega⟩
    have hl : deref s.heap (linkOf k) = 0 := ((Rep_plug k .nil).1 hrep).2.1
    exact ⟨k, lm, by simp [cfs_queue_loop, hl], rfl, hb, ha, hlm⟩
  | node a c l r ihl ihr =>
    intro k fuel lm hrep hfuel hB hA hsort hlm
    obtain ⟨f, rfl⟩ : ∃ f, fuel = f + 1 := ⟨fuel - 1, by omega⟩
    obtain ⟨a0, -, -, -, -, hl⟩ := Rep_read k a c l r hrep
    simp only [Tree.size] at hfuel
    simp only [Tree.inorder, List.map_append, List.map_cons, List.pairwise_append,
      List.pairwise_cons, List.mem_map, List.mem_cons, forall_exists_index, and_imp,
      forall_apply_eq_imp_iff₂, forall_eq_or_imp] at hsort
    obtain ⟨sl, ⟨sar, sr⟩, slr⟩ := hsort
    by_cases hlt : key < s.t a
    · obtain ⟨k', lm', e, hp, hb', ha', hlm'⟩ := ihl (.L a c r :: k) f lm hrep (by omega)
        (by simpa [ctxBefore] using hB)
        (by
          intro b hb
          simp only [ctxAfter, List.cons_append, List.mem_cons, List.mem_append] at hb
          rcases hb with rfl | hb | hb
          · exact hlt
          · exact lt_of_lt_of_le hlt (sar b hb)
          · exact hA b hb)
        sl (by simpa [ctxBefore] using hlm)
      refine ⟨k', lm', ?_, hp, hb', ha', hlm'⟩
      rw [cfs_queue_loop]
      simp only [hl, ne_eq, a0, not_false_eq_true, if_true, hlt]
      exact e
    · obtain ⟨k', lm', e, hp, hb', ha', hlm'⟩ := ihr (.R a c l :: k) f 0 hrep (by omega)
        (by
          intro b hb
          simp only [ctxBefore, List.mem_append, List.mem_singleton] at hb
          rcases hb with hb | hb | rfl
          · exact hB b hb
          · exact le_trans (slr b hb).1 (not_lt.1 hlt)
          · exact not_lt.1 hlt)
        (by simpa [ctxAfter] using hA)
        sr (by simp [ctxBefore])
      refine ⟨k', lm', ?_, hp, hb', ha', hlm'⟩
      rw [cfs_queue_loop]
      simp only [hl, ne_eq, a0, not_false_eq_true, if_true, hlt, if_false]
      exact e

/-- Holds `cfs_queue` puts the task into the tree after all nodes with a key `≤ t`
and before all nodes with a key `> t`, and keeps the invariant. -/
theorem cfs_queue_spec (s : cfs_state) (T : Tree) (tsk key fuel : Nat)
    (hinv : Inv s T) (h0 : tsk ≠ 0) (hnew : tsk ∉ T.inorder) (hfuel : T.size < fuel) :
    ∃ s' T' L1 L2, cfs_queue fuel tsk key s = some s' ∧ Inv s' T' ∧
      T.inorder = L1 ++ L2 ∧ T'.inorder = L1 ++ tsk :: L2 ∧
      (∀ a ∈ L1, s.t a ≤ key) ∧ (∀ a ∈ L2, key < s.t a) ∧
      s'.t = upd s.t tsk key ∧
      s'.rb_leftmost = (if L1 = [] then tsk else s.rb_leftmost) := by
  obtain ⟨hrep, hrb, hsort, hlm⟩ := hinv
  have hkeys : ∀ a ∈ T.inorder, upd s.t tsk key a = s.t a := by
    intro a ha
    have : a ≠ tsk := fun e => hnew (e ▸ ha)
    simp [upd, this]
  have hmap : T.inorder.map (upd s.t tsk key) = T.inorder.map s.t :=
    List.map_congr_left hkeys
  obtain ⟨k, lm, e, hp, hb, ha, hlmk⟩ := cfs_queue_loop_spec
    { s with t := upd s.t tsk key } key T [] fuel 1 hrep hfuel (by simp [ctxBefore])
    (by simp [ctxAfter]) (by simpa [hmap] using hsort) (by simp [ctxBefore])
  simp only [plug_nil, linkOf_nil, parOf_nil] at e hp
  have hin : T.inorder = ctxBefore k ++ ctxAfter k := by
    rw [← hp, inorder_plug]; simp [Tree.inorder]
  have hrep' : Rep s.heap (plug k .nil) := hp ▸ hrep
  have e1 := link_node_spec k tsk h0 hrep' (hp ▸ hnew)
  have hlen : k.length < fuel := by
    have := length_le_size k .nil
    rw [hp] at this
    omega
  obtain ⟨h', T', r1, r2, r3, r4⟩ := rb_insert_color_spec k tsk fuel hlen e1 (hp ▸ hrb)
  have hin' : T'.inorder = ctxBefore k ++ tsk :: ctxAfter k := by
    rw [r3, inorder_plug]; simp [Tree.inorder]
  have hbk : ∀ a ∈ ctxBefore k, s.t a ≤ key := by
    intro a ham
    have := hb a ham
    simp only [] at this
    rwa [show upd s.t tsk key a = s.t a from hkeys a (by rw [hin]; simp [ham])] at this
  have hak : ∀ a ∈ ctxAfter k, key < s.t a := by
    intro a ham
    have := ha a ham
    simp only [] at this
    rwa [show upd s.t tsk key a = s.t a from hkeys a (by rw [hin]; simp [ham])] at this
  refine ⟨{ (if lm ≠ 0 then { s with t := upd s.t tsk key, rb_leftmost := tsk }
      else { s with t := upd s.t tsk key }) with heap := h' }, T', ctxBefore k, ctxAfter k,
    ?_, ⟨r2, r4, ?_, ?_⟩, hin, hin', hbk, hak, ?_, ?_⟩
  · unfold cfs_queue
    simp only [e]
    have hheap : (if lm ≠ 0 then ({ s with t := upd s.t tsk key, rb_leftmost := tsk } : cfs_state)
        else { s with t := upd s.t tsk key }).heap = s.heap := by split_ifs <;> rfl
    simp only [hheap, r1]
  · -- the keys stay sorted
    have ht : (if lm ≠ 0 then ({ s with t := upd s.t tsk key, rb_leftmost := tsk } : cfs_state)
        else { s with t := upd s.t tsk key }).t = upd s.t tsk key := by split_ifs <;> rfl
    simp only [ht, hin']
    rw [hin] at hsort hkeys
    simp only [List.map_append, List.pairwise_append, List.mem_map, forall_exists_index,
      and_imp, forall_apply_eq_imp_iff₂, List.map_cons, List.pairwise_cons, List.mem_cons,
      forall_eq_or_imp, upd_same] at hsort ⊢
    obtain ⟨s1, s2, s3⟩ := hsort
    have k1 : ∀ a ∈ ctxBefore k, upd s.t tsk key a = s.t a :=
      fun a ham => hkeys a (by simp [ham])
    have k2 : ∀ a ∈ ctxAfter k, upd s.t tsk key a = s.t a :=
      fun a ham => hkeys a (by simp [ham])
    refine ⟨?_, ⟨?_, ?_⟩, ?_⟩
    · rw [List.map_congr_left k1]; exact s1
    · intro a ham; rw [k2 a ham]; exact le_of_lt (hak a ham)
    · rw [List.map_congr_left k2]; exact s2
    · intro a ham
      refine ⟨by rw [k1 a ham]; exact hbk a ham, ?_⟩
      intro b hbm
      rw [k1 a ham, k2 b hbm]
      exact s3 a ham b hbm
  · -- the cached leftmost node
    by_cases hl0 : lm ≠ 0
    · have hnil := hlmk.1 hl0
      right
      simp [hl0, hin', hnil]
    · have hne : ctxBefore k ≠ [] := fun hnil => hl0 (hlmk.2 hnil)
      simp only [hl0, if_false]
      rcases hlm with hlm | hlm
      · exact Or.inl hlm
      · right
        rw [hin] at hlm
        rw [hin']
        cases hcb : ctxBefore k with
        | nil => exact absurd hcb hne
        | cons x xs => simpa [hcb] using hlm
  · split_ifs <;> rfl
  · by_cases hl0 : lm ≠ 0
    · simp [hl0, hlmk.1 hl0]
    · have hne : ctxBefore k ≠ [] := fun hnil => hl0 (hlmk.2 hnil)
      simp [hl0, hne]

@[simp] theorem blacken_nil : Tree.nil.blacken = .nil := rfl
@[simp] theorem blacken_node (a c : Nat) (l r : Tree) :
    (Tree.node a c l r).blacken = .node a 1 l r := rfl

/-- The test `!x || rb_is_black(x)` on a child pointer reads the colour of the subtree. -/
theorem Rep_black_iff {h : Heap} (k : Ctx) (t : Tree) (hrep : Rep h (plug k t)) :
    (t.ptr = 0 ∨ rb_is_black h t.ptr) ↔ t.isBlack := by
  cases t with
  | nil => simp
  | node a c l r =>
    obtain ⟨a0, -, a2, -, -, -⟩ := Rep_read k a c l r hrep
    simp [rb_is_black, a0, a2]

/-- A subtree that hangs below some node is not at the root pointer. -/
theorem Rep_not_root {h : Heap} (F : Frame) (k : Ctx) (x : Tree)
    (hrep : Rep h (plug (F :: k) x)) : x.ptr ≠ h.rb_node := by
  have hz := Rep_ne_zero hrep
  have hnd := hrep.2.2
  have hroot := hrep.1
  rw [hroot]
  have hmem : (plug (F :: k) x).ptr ∈ ctxBefore (F :: k) ++ ctxAfter (F :: k) := by
    clear hz hnd hroot hrep
    induction k generalizing F x with
    | nil => cases F <;> simp [ctxBefore, ctxAfter]
    | cons G k ih =>
      cases F with
      | L a c r =>
        have := ih G (.node a c x r)
        simp only [plug_L] at this ⊢
        revert this
        cases G <;> simp [ctxBefore, ctxAfter] <;> tauto
      | R a c l =>
        have := ih G (.node a c l x)
        simp only [plug_R] at this ⊢
        revert this
        cases G <;> simp [ctxBefore, ctxAfter] <;> tauto
  rw [inorder_plug] at hz hnd
  intro e
  rw [← e] at hmem
  have hz' : 0 ∉ x.inorder := fun hm => hz (by simp [hm])
  have hd : List.Disjoint x.inorder (ctxBefore (F :: k) ++ ctxAfter (F :: k)) := by
    simp only [List.nodup_append, List.disjoint_append_left, List.disjoint_append_right] at hnd ⊢
    exact ⟨hnd.1.2.2.symm, hnd.2.2.2⟩
  have hz'' : 0 ∉ ctxBefore (F :: k) ++ ctxAfter (F :: k) := by
    intro hm; apply hz; simp only [List.mem_append] at hm ⊢; tauto
  exact ptr_not_mem x _ hz'' hd hmem

/-- The loop of `__rb_erase_color` ends at once at a red node and at the root. -/
theorem erase_exit {h : Heap} (k : Ctx) (x : Tree) (f : Nat)
    (hrep : Rep h (plug k x)) (hx : ¬ x.isBlack ∨ k = []) :
    __rb_erase_color_loop (f + 1) x.ptr (parOf k) h = some (x.ptr, h) := by
  rw [__rb_erase_color_loop]
  rcases hx with hx | rfl
  · have := (Rep_black_iff k x hrep).not.2 hx
    simp only [this, false_and, if_false]
  · have : x.ptr = h.rb_node := hrep.1.symm
    simp [this]

theorem RB_plug_iff (k : Ctx) (t : Tree) :
    (plug k t).RB ↔ (ctxNoRR k ∧ t.NoRR ∧ (¬ t.isBlack → topBlack k)) ∧ t.Bal ∧ ctxBal k t.bh := by
  unfold Tree.RB
  rw [← and_assoc, NoRR_plug, Bal_plug]

theorem RB_blacken' (T : Tree) (h : T.RB) : T.blacken.RB := by
  cases T with
  | nil => exact h
  | node a c l r => exact RB_blacken a c l r h.2.1 h.2.2

theorem NoRR_of_blacken (x : Tree) (hx : x.isBlack) (hxn : x.blacken.NoRR) : x.NoRR := by
  cases x with
  | nil => trivial
  | node a c l r => simp only [isBlack_node] at hx; simpa [Tree.NoRR, hx] using hxn

/-! ### The cases of `__rb_erase_color`, node on the left -/

/-- Black sibling with two black children: the sibling turns red, the lack of
a black node moves up to the parent. -/
theorem erase_inv_B_L (k : Ctx) (x : Tree) (p cp o co : Nat) (sl sr : Tree)
    (hk : ctxNoRR (.L p cp (.node o co sl sr) :: k))
    (hbal : ctxBal (.L p cp (.node o co sl sr) :: k) (x.bh + 1))
    (hco : co ≠ 0) (hsl : sl.isBlack) (hsr : sr.isBlack) (hxN : x.NoRR) (hxb : x.Bal) :
    ctxNoRR k ∧ ctxBal k ((Tree.node p cp x (.node o 0 sl sr)).bh + 1) ∧
      (Tree.node p cp x (.node o 0 sl sr)).blacken.NoRR ∧
      (Tree.node p cp x (.node o 0 sl sr)).Bal := by
  simp only [ctxNoRR, ctxBal, Tree.NoRR, Tree.Bal, Tree.bh, blacken_node, isBlack_node]
    at hk hbal ⊢
  obtain rfl : co = 1 := by omega
  obtain ⟨⟨-, n1, n2⟩, -, n3⟩ := hk
  obtain ⟨b1, b2, ⟨-, b3, b4, b5⟩, b6⟩ := hbal
  rw [show x.bh + cp + 1 = x.bh + 1 + cp by omega]
  refine ⟨n3, b6, ⟨by simp, hxN, ⟨fun _ => ⟨hsl, hsr⟩, n1, n2⟩⟩, b1, by omega, hxb, by omega,
    b3, b4, b5⟩

/-- Black sibling with a red far child: one rotation ends the repair. -/
theorem erase_inv_D_L (k : Ctx) (x : Tree) (p cp o co b cb : Nat) (sl srl srr : Tree)
    (hk : ctxNoRR (.L p cp (.node o co sl (.node b cb srl srr)) :: k))
    (hbal : ctxBal (.L p cp (.node o co sl (.node b cb srl srr)) :: k) (x.bh + 1))
    (hco : co ≠ 0) (hcb : cb = 0) (hxN : x.NoRR) (hxb : x.Bal) :
    (plug k (.node o cp (.node p 1 x sl) (.node b 1 srl srr))).RB := by
  rw [RB_plug_iff]
  simp only [ctxNoRR, ctxBal, Tree.NoRR, Tree.Bal, Tree.bh, blacken_node, isBlack_node]
    at hk hbal ⊢
  obtain rfl : co = 1 := by omega
  subst hcb
  obtain ⟨⟨-, n1, ⟨n4, n5, n6⟩⟩, n7, n3⟩ := hk
  obtain ⟨b1, b2, ⟨-, b3, b4, ⟨-, b7, b8, b9⟩⟩, b6⟩ := hbal
  simp only [add_zero] at b2 b3
  refine ⟨⟨n3, ⟨by simp, ⟨by simp, hxN, n1⟩, by simp, n5, n6⟩, ?_⟩, ⟨b1, by simp; omega,
    ⟨by simp, by omega, hxb, b4⟩, by simp, b7, b8, b9⟩, b6⟩
  intro hc
  simp only [ne_eq, not_not] at hc
  exact (n7 hc).2

/-- Black sibling with a red near child and a black far child: two rotations end
the repair. -/
theorem erase_inv_C_L (k : Ctx) (x : Tree) (p cp o co a ca : Nat) (sll slr sr : Tree)
    (hk : ctxNoRR (.L p cp (.node o co (.node a ca sll slr) sr) :: k))
    (hbal : ctxBal (.L p cp (.node o co (.node a ca sll slr) sr) :: k) (x.bh + 1))
    (hco : co ≠ 0) (hca : ca = 0) (hxN : x.NoRR) (hxb : x.Bal) :
    (plug k (.node a cp (.node p 1 x sll) (.node o 1 slr sr))).RB := by
  rw [RB_plug_iff]
  simp only [ctxNoRR, ctxBal, Tree.NoRR, Tree.Bal, Tree.bh, blacken_node, isBlack_node]
    at hk hbal ⊢
  obtain rfl : co = 1 := by omega
  subst hca
  obtain ⟨⟨-, ⟨n4, n5, n6⟩, n1⟩, n7, n3⟩ := hk
  obtain ⟨b1, b2, ⟨-, b3, ⟨-, b7, b8, b9⟩, b4⟩, b6⟩ := hbal
  simp only [add_zero] at b2 b3
  refine ⟨⟨n3, ⟨by simp, ⟨by simp, hxN, n5⟩, by simp, n6, n1⟩, ?_⟩, ⟨b1, by simp; omega,
    ⟨by simp, by omega, hxb, b8⟩, by simp, by omega, b9, b4⟩, b6⟩
  intro hc
  simp only [ne_eq, not_not] at hc
  exact (n7 hc).2

/-- Red sibling: after the rotation the node has a black sibling and a red parent. -/
theorem erase_inv_A_L (k : Ctx) (x : Tree) (p cp o co : Nat) (sl sr : Tree)
    (hk : ctxNoRR (.L p cp (.node o co sl sr) :: k))
    (hbal : ctxBal (.L p cp (.node o co sl sr) :: k) (x.bh + 1))
    (hco : co = 0) :
    ctxNoRR (.L p 0 sl :: .L o 1 sr :: k) ∧
    ctxBal (.L p 0 sl :: .L o 1 sr :: k) (x.bh + 1) ∧
    (∃ a ca sll slr, sl = .node a ca sll slr ∧ ca ≠ 0) := by
  simp only [ctxNoRR, ctxBal, Tree.NoRR, Tree.Bal, Tree.bh, blacken_node, isBlack_node,
    topBlack_L] at hk hbal ⊢
  subst hco
  obtain ⟨⟨n0, n1, n2⟩, n7, n3⟩ := hk
  obtain ⟨hslb, hsrb⟩ := n0 rfl
  obtain ⟨b1, b2, ⟨-, b3, b4, b5⟩, b6⟩ := hbal
  have hcp : cp ≠ 0 := fun hc => by simpa using (n7 hc).1
  obtain rfl : cp = 1 := by omega
  refine ⟨⟨n1, fun _ => ⟨hslb, by simp⟩, n2, by simp, n3⟩,
    ⟨by simp, by omega, b4, by simp, by omega, b5, by simpa using b6⟩, ?_⟩
  cases sl with
  | nil => simp [Tree.bh] at b2
  | node a ca sll slr => exact ⟨a, ca, sll, slr, rfl, by simpa using hslb⟩

set_option maxHeartbeats 1000000 in
theorem erase_black_L {h : Heap} (k : Ctx) (x : Tree) (p cp o co : Nat) (sl sr : Tree) (f : Nat)
    (hf : 1 ≤ f) (hrec : cp ≠ 0 → EraseSpec k ∧ k.length + 2 ≤ f)
    (hrep : Rep h (plug (.L p cp (.node o co sl sr) :: k) x))
    (hco : co ≠ 0) (hx : x.isBlack)
    (hk : ctxNoRR (.L p cp (.node o co sl sr) :: k))
    (hbal : ctxBal (.L p cp (.node o co sl sr) :: k) (x.bh + 1))
    (hxn : x.blacken.NoRR) (hxb : x.Bal) :
    ∃ h' k' y, __rb_erase_color_loop (f + 1) x.ptr p h = some (y.ptr, h') ∧
      Rep h' (plug k' y) ∧
      (plug k' y).inorder = (plug (.L p cp (.node o co sl sr) :: k) x).inorder ∧
      (plug k' y.blacken).RB := by
  obtain ⟨p0, p1, p2, p3, p4, p5⟩ := Rep_read k p cp x (.node o co sl sr) hrep
  obtain ⟨o0, o1, o2, o3, o4, o5⟩ := Rep_read (.R p cp x :: k) o co sl sr hrep
  simp only [ptr_node, parOf_R] at p4 o1
  have c1a : (x.ptr = 0 ∨ rb_is_black h x.ptr) := (Rep_black_iff _ x hrep).2 hx
  have c1b : x.ptr ≠ h.rb_node := Rep_not_root _ k x hrep
  have c2 : ¬ rb_is_red h o := by simp [rb_is_red, o2, hco]
  have hsl := Rep_black_iff (.L o co sr :: .R p cp x :: k) sl hrep
  have hsr := Rep_black_iff (.R o co sl :: .R p cp x :: k) sr hrep
  have hxN : x.NoRR := NoRR_of_blacken x hx hxn
  by_cases hB : sl.isBlack ∧ sr.isBlack
  · -- both children of the sibling are black: recolour and move up
    have e1 := set_red_spec (.R p cp x :: k) o co sl sr hrep
    obtain ⟨-, q1, -, -, -, -⟩ := Rep_read k p cp x (.node o 0 sl sr) e1
    have hstep : __rb_erase_color_loop (f + 1) x.ptr p h =
        __rb_erase_color_loop f p (parOf k) (rb_set_red o h) := by
      rw [__rb_erase_color_loop]
      simp only [c1a, c1b, p3, p4, c2, o3, o4, hsl, hsr, hB, and_self, if_true, if_false, q1,
        ne_eq, not_false_eq_true]
    obtain ⟨i1, i2, i3, i4⟩ := erase_inv_B_L k x p cp o co sl sr hk hbal hco hB.1 hB.2 hxN hxb
    by_cases hcp : cp = 0
    · -- the parent is red: the loop ends there
      subst hcp
      obtain ⟨f', rfl⟩ : ∃ f', f = f' + 1 := ⟨f - 1, by omega⟩
      have hex := erase_exit k (.node p 0 x (.node o 0 sl sr)) f' e1 (Or.inl (by simp))
      simp only [ptr_node] at hex
      refine ⟨_, k, .node p 0 x (.node o 0 sl sr), hstep.trans hex, e1,
        by simp [inorder_plug, Tree.inorder], ?_⟩
      rw [RB_plug_iff]
      exact ⟨⟨i1, i3, by simp⟩, ⟨by simp, i4.2⟩, by simpa [Tree.bh] using i2⟩
    · obtain ⟨hspec, hfk⟩ := hrec hcp
      obtain ⟨h', k', y, r1, r2, r3, r4⟩ := hspec (.node p cp x (.node o 0 sl sr)) _ f hfk e1
        i1 i2 i3 i4
      exact ⟨h', k', y, hstep.trans r1, r2, by rw [r3]; simp [inorder_plug, Tree.inorder], r4⟩
  · by_cases hsrB : sr.isBlack
    · -- far child black, near child red: rotate the sibling, then the parent
      have hslB : ¬ sl.isBlack := fun hc => hB ⟨hc, hsrB⟩
      cases sl with
      | nil => simp at hslB
      | node a ca sll slr =>
        simp only [isBlack_node, ne_eq, not_not] at hslB
        subst hslB
        simp only [ptr_node] at o3 hsl
        obtain ⟨a0, -, -, -, -, -⟩ :=
          Rep_read (.L o co sr :: .R p cp x :: k) a 0 sll slr hrep
        have e1 := set_black_spec (.L o co sr :: .R p cp x :: k) a 0 sll slr hrep
        have e2 := set_red_spec (.R p cp x :: k) o co (.node a 1 sll slr) sr e1
        have e3 := rotate_right_spec (.R p cp x :: k) o 0 a 1 sll slr sr e2
        obtain ⟨-, -, q2, -, q4, -⟩ := Rep_read k p cp x (.node a 1 sll (.node o 0 slr sr)) e3
        simp only [ptr_node] at q4
        have e4 := set_color_spec (.R p cp x :: k) a 1 cp sll (.node o 0 slr sr) e3
        have e5 := set_black_spec k p cp x (.node a cp sll (.node o 0 slr sr)) e4
        obtain ⟨-, -, -, -, w4, -⟩ :=
          Rep_read (.R p 1 x :: k) a cp sll (.node o 0 slr sr) e5
        simp only [ptr_node] at w4
        have e6 := set_black_spec (.R a cp sll :: .R p 1 x :: k) o 0 slr sr e5
        have e7 := rotate_left_spec k p 1 x a cp sll (.node o 1 slr sr) e6
        have hsl' : ¬ rb_is_black h a := fun hc => by simpa using hsl.1 (Or.inr hc)
        have hsr' : (sr.ptr = 0 ∨ rb_is_black h sr.ptr) := hsr.2 hsrB
        refine ⟨_, [], plug k (.node a cp (.node p 1 x sll) (.node o 1 slr sr)), ?_, e7,
          by simp [inorder_plug, Tree.inorder],
          RB_blacken' _ (erase_inv_C_L k x p cp o co a 0 sll slr sr hk hbal hco rfl hxN hxb)⟩
        rw [__rb_erase_color_loop]
        simp only [c1a, c1b, p3, p4, c2, o3, o4, hsl', hsr', a0, o0, and_self, if_true,
          if_false, ne_eq, not_false_eq_true, false_and, false_or, q2, q4, w4]
        rw [← e7.1]
    · -- far child red: rotate the parent
      cases sr with
      | nil => simp at hsrB
      | node b cb srl srr =>
        simp only [isBlack_node, ne_eq, not_not] at hsrB
        subst hsrB
        simp only [ptr_node] at o4 hsr
        obtain ⟨b0, -, -, -, -, -⟩ :=
          Rep_read (.R o co sl :: .R p cp x :: k) b 0 srl srr hrep
        have e1 := set_color_spec (.R p cp x :: k) o co cp sl (.node b 0 srl srr) hrep
        have e2 := set_black_spec k p cp x (.node o cp sl (.node b 0 srl srr)) e1
        obtain ⟨-, -, -, -, w4, -⟩ :=
          Rep_read (.R p 1 x :: k) o cp sl (.node b 0 srl srr) e2
        simp only [ptr_node] at w4
        have e3 := set_black_spec (.R o cp sl :: .R p 1 x :: k) b 0 srl srr e2
        have e4 := rotate_left_spec k p 1 x o cp sl (.node b 1 srl srr) e3
        have hsr' : ¬ rb_is_black h b := fun hc => by simpa using hsr.1 (Or.inr hc)
        refine ⟨_, [], plug k (.node o cp (.node p 1 x sl) (.node b 1 srl srr)), ?_, e4,
          by simp [inorder_plug, Tree.inorder],
          RB_blacken' _ (erase_inv_D_L k x p cp o co b 0 sl srl srr hk hbal hco rfl hxN hxb)⟩
        rw [__rb_erase_color_loop]
        simp only [c1a, c1b, p3, p4, c2, o3, o4, hsr', b0, o0, and_self, if_true,
          if_false, ne_eq, not_false_eq_true, false_and, and_false, false_or, p2, w4]
        rw [← e4.1]

set_option maxHeartbeats 1000000 in
/-- Red sibling, node on the left: the first `if` of the loop body rotates the
parent, after which the body goes on as it does for a black sibling. -/
theorem erase_red_L {h : Heap} (k : Ctx) (x : Tree) (p cp o : Nat) (sl sr : Tree) (f : Nat)
    (hf : 1 ≤ f)
    (hrep : Rep h (plug (.L p cp (.node o 0 sl sr) :: k) x)) (hx : x.isBlack)
    (hk : ctxNoRR (.L p cp (.node o 0 sl sr) :: k))
    (hbal : ctxBal (.L p cp (.node o 0 sl sr) :: k) (x.bh + 1))
    (hxn : x.blacken.NoRR) (hxb : x.Bal) :
    ∃ h' k' y, __rb_erase_color_loop (f + 1) x.ptr p h = some (y.ptr, h') ∧
      Rep h' (plug k' y) ∧
      (plug k' y).inorder = (plug (.L p cp (.node o 0 sl sr) :: k) x).inorder ∧
      (plug k' y.blacken).RB := by
  obtain ⟨p0, p1, p2, p3, p4, p5⟩ := Rep_read k p cp x (.node o 0 sl sr) hrep
  obtain ⟨o0, o1, o2, o3, o4, o5⟩ := Rep_read (.R p cp x :: k) o 0 sl sr hrep
  simp only [ptr_node, parOf_R] at p4 o1
  have c1a : (x.ptr = 0 ∨ rb_is_black h x.ptr) := (Rep_black_iff _ x hrep).2 hx
  have c1b : x.ptr ≠ h.rb_node := Rep_not_root _ k x hrep
  have c2 : rb_is_red h o := o2
  obtain ⟨i1, i2, a, ca, sll, slr, rfl, hca⟩ := erase_inv_A_L k x p cp o 0 sl sr hk hbal rfl
  have e1 := set_black_spec (.R p cp x :: k) o 0 (.node a ca sll slr) sr hrep
  have e2 := set_red_spec k p cp x (.node o 1 (.node a ca sll slr) sr) e1
  have e3 := rotate_left_spec k p 0 x o 1 (.node a ca sll slr) sr e2
  have e3' : Rep (__rb_rotate_left p (rb_set_red p (rb_set_black o h)))
      (plug (.L p 0 (.node a ca sll slr) :: .L o 1 sr :: k) x) := e3
  obtain ⟨-, -, -, q3, q4, -⟩ := Rep_read (.L o 1 sr :: k) p 0 x (.node a ca sll slr) e3
  obtain ⟨-, -, w2, -, -, -⟩ :=
    Rep_read (.R p 0 x :: .L o 1 sr :: k) a ca sll slr e3
  have d1a : (x.ptr = 0 ∨ rb_is_black (__rb_rotate_left p (rb_set_red p (rb_set_black o h)))
      x.ptr) := (Rep_black_iff _ x e3').2 hx
  have d1b : x.ptr ≠ (__rb_rotate_left p (rb_set_red p (rb_set_black o h))).rb_node :=
    Rep_not_root _ _ x e3'
  have d2 : ¬ rb_is_red (__rb_rotate_left p (rb_set_red p (rb_set_black o h)))
      ((__rb_rotate_left p (rb_set_red p (rb_set_black o h))).rb_right p) := by
    rw [q4]; simp [rb_is_red, w2, hca]
  have hstep : __rb_erase_color_loop (f + 1) x.ptr p h =
      __rb_erase_color_loop (f + 1) x.ptr p
        (__rb_rotate_left p (rb_set_red p (rb_set_black o h))) := by
    rw [__rb_erase_color_loop]
    conv_rhs => rw [__rb_erase_color_loop]
    simp only [c1a, c1b, p3, p4, c2, q3, d1a, d1b, d2, and_self, if_true, if_false, ne_eq,
      not_false_eq_true]
  obtain ⟨h', k', y, r1, r2, r3, r4⟩ := erase_black_L (.L o 1 sr :: k) x p 0 a ca sll slr f hf
    (fun hc => absurd rfl hc) e3' hca hx i1 i2 hxn hxb
  exact ⟨h', k', y, hstep.trans r1, r2, by rw [r3]; simp [inorder_plug, Tree.inorder], r4⟩

theorem erase_step_L {h : Heap} (k : Ctx) (x : Tree) (p cp : Nat) (s : Tree) (f : Nat)
    (hf : 1 ≤ f) (hrec : EraseSpec k ∧ k.length + 2 ≤ f)
    (hrep : Rep h (plug (.L p cp s :: k) x)) (hx : x.isBlack)
    (hk : ctxNoRR (.L p cp s :: k))
    (hbal : ctxBal (.L p cp s :: k) (x.bh + 1))
    (hxn : x.blacken.NoRR) (hxb : x.Bal) :
    ∃ h' k' y, __rb_erase_color_loop (f + 1) x.ptr p h = some (y.ptr, h') ∧
      Rep h' (plug k' y) ∧
      (plug k' y).inorder = (plug (.L p cp s :: k) x).inorder ∧
      (plug k' y.blacken).RB := by
  cases s with
  | nil => simp [ctxBal, Tree.bh] at hbal
  | node o co sl sr =>
    by_cases hco : co = 0
    · subst hco
      exact erase_red_L k x p cp o sl sr f hf hrep hx hk hbal hxn hxb
    · exact erase_black_L k x p cp o co sl sr f hf (fun _ => hrec) hrep hco hx hk hbal hxn hxb

/-! ### The cases of `__rb_erase_color`, node on the right -/

theorem erase_inv_B_R (k : Ctx) (x : Tree) (p cp o co : Nat) (sl sr : Tree)
    (hk : ctxNoRR (.R p cp (.node o co sl sr) :: k))
    (hbal : ctxBal (.R p cp (.node o co sl sr) :: k) (x.bh + 1))
    (hco : co ≠ 0) (hsl : sl.isBlack) (hsr : sr.isBlack) (hxN : x.NoRR) (hxb : x.Bal) :
    ctxNoRR k ∧ ctxBal k ((Tree.node p cp (.node o 0 sl sr) x).bh + 1) ∧
      (Tree.node p cp (.node o 0 sl sr) x).blacken.NoRR ∧
      (Tree.node p cp (.node o 0 sl sr) x).Bal := by
  simp only [ctxNoRR, ctxBal, Tree.NoRR, Tree.Bal, Tree.bh, blacken_node, isBlack_node]
    at hk hbal ⊢
  obtain rfl : co = 1 := by omega
  obtain ⟨⟨-, n1, n2⟩, -, n3⟩ := hk
  obtain ⟨b1, b2, ⟨-, b3, b4, b5⟩, b6⟩ := hbal
  rw [show sl.bh + 0 + cp + 1 = x.bh + 1 + cp by omega]
  refine ⟨n3, b6, ⟨by simp, ⟨fun _ => ⟨hsl, hsr⟩, n1, n2⟩, hxN⟩, b1, by omega,
    ⟨by omega, b3, b4, b5⟩, hxb⟩

theorem erase_inv_D_R (k : Ctx) (x : Tree) (p cp o co b cb : Nat) (sll slr sr : Tree)
    (hk : ctxNoRR (.R p cp (.node o co (.node b cb sll slr) sr) :: k))
    (hbal : ctxBal (.R p cp (.node o co (.node b cb sll slr) sr) :: k) (x.bh + 1))
    (hco : co ≠ 0) (hcb : cb = 0) (hxN : x.NoRR) (hxb : x.Bal) :
    (plug k (.node o cp (.node b 1 sll slr) (.node p 1 sr x))).RB := by
  rw [RB_plug_iff]
  simp only [ctxNoRR, ctxBal, Tree.NoRR, Tree.Bal, Tree.bh, blacken_node, isBlack_node]
    at hk hbal ⊢
  obtain rfl : co = 1 := by omega
  subst hcb
  obtain ⟨⟨-, ⟨n4, n5, n6⟩, n1⟩, n7, n3⟩ := hk
  obtain ⟨b1, b2, ⟨-, b3, ⟨-, b7, b8, b9⟩, b4⟩, b6⟩ := hbal
  simp only [add_zero] at b2 b3
  rw [show sll.bh + 1 + cp = x.bh + 1 + cp by omega]
  refine ⟨⟨n3, ⟨by simp, ⟨by simp, n5, n6⟩, by simp, n1, hxN⟩, ?_⟩, ⟨b1, by simp; omega,
    ⟨by simp, b7, b8, b9⟩, by simp, by omega, b4, hxb⟩, b6⟩
  intro hc
  simp only [ne_eq, not_not] at hc
  exact (n7 hc).2

theorem erase_inv_C_R (k : Ctx) (x : Tree) (p cp o co a ca : Nat) (sl srl srr : Tree)
    (hk : ctxNoRR (.R p cp (.node o co sl (.node a ca srl srr)) :: k))
    (hbal : ctxBal (.R p cp (.node o co sl (.node a ca srl srr)) :: k) (x.bh + 1))
    (hco : co ≠ 0) (hca : ca = 0) (hxN : x.NoRR) (hxb : x.Bal) :
    (plug k (.node a cp (.node o 1 sl srl) (.node p 1 srr x))).RB := by
  rw [RB_plug_iff]
  simp only [ctxNoRR, ctxBal, Tree.NoRR, Tree.Bal, Tree.bh, blacken_node, isBlack_node]
    at hk hbal ⊢
  obtain rfl : co = 1 := by omega
  subst hca
  obtain ⟨⟨-, n1, ⟨n4, n5, n6⟩⟩, n7, n3⟩ := hk
  obtain ⟨b1, b2, ⟨-, b3, b4, ⟨-, b7, b8, b9⟩⟩, b6⟩ := hbal
  simp only [add_zero] at b2 b3
  rw [show sl.bh + 1 + cp = x.bh + 1 + cp by omega]
  refine ⟨⟨n3, ⟨by simp, ⟨by simp, n1, n5⟩, by simp, n6, hxN⟩, ?_⟩, ⟨b1, by simp; omega,
    ⟨by simp, by omega, b4, b8⟩, by simp, by omega, b9, hxb⟩, b6⟩
  intro hc
  simp only [ne_eq, not_not] at hc
  exact (n7 hc).2

theorem erase_inv_A_R (k : Ctx) (x : Tree) (p cp o co : Nat) (sl sr : Tree)
    (hk : ctxNoRR (.R p cp (.node o co sl sr) :: k))
    (hbal : ctxBal (.R p cp (.node o co sl sr) :: k) (x.bh + 1))
    (hco : co = 0) :
    ctxNoRR (.R p 0 sr :: .R o 1 sl :: k) ∧
    ctxBal (.R p 0 sr :: .R o 1 sl :: k) (x.bh + 1) ∧
    (∃ a ca srl srr, sr = .node a ca srl srr ∧ ca ≠ 0) := by
  simp only [ctxNoRR, ctxBal, Tree.NoRR, Tree.Bal, Tree.bh, blacken_node, isBlack_node,
    topBlack_R] at hk hbal ⊢
  subst hco
  obtain ⟨⟨n0, n1, n2⟩, n7, n3⟩ := hk
  obtain ⟨hslb, hsrb⟩ := n0 rfl
  obtain ⟨b1, b2, ⟨-, b3, b4, b5⟩, b6⟩ := hbal
  have hcp : cp ≠ 0 := fun hc => by simpa using (n7 hc).1
  obtain rfl : cp = 1 := by omega
  refine ⟨⟨n2, fun _ => ⟨hsrb, by simp⟩, n1, by simp, n3⟩,
    ⟨by simp, by omega, b5, by simp, by omega, b4, by simpa using b6⟩, ?_⟩
  cases sr with
  | nil => simp [Tree.bh] at b2 b3; omega
  | node a ca srl srr => exact ⟨a, ca, srl, srr, rfl, by simpa using hsrb⟩

set_option maxHeartbeats 1000000 in
theorem erase_black_R {h : Heap} (k : Ctx) (x : Tree) (p cp o co : Nat) (sl sr : Tree) (f : Nat)
    (hf : 1 ≤ f) (hrec : cp ≠ 0 → EraseSpec k ∧ k.length + 2 ≤ f)
    (hrep : Rep h (plug (.R p cp (.node o co sl sr) :: k) x))
    (hco : co ≠ 0) (hx : x.isBlack)
    (hk : ctxNoRR (.R p cp (.node o co sl sr) :: k))
    (hbal : ctxBal (.R p cp (.node o co sl sr) :: k) (x.bh + 1))
    (hxn : x.blacken.NoRR) (hxb : x.Bal) :
    ∃ h' k' y, __rb_erase_color_loop (f + 1) x.ptr p h = some (y.ptr, h') ∧
      Rep h' (plug k' y) ∧
      (plug k' y).inorder = (plug (.R p cp (.node o co sl sr) :: k) x).inorder ∧
      (plug k' y.blacken).RB := by
  obtain ⟨p0, p1, p2, p3, p4, p5⟩ := Rep_read k p cp (.node o co sl sr) x hrep
  obtain ⟨o0, o1, o2, o3, o4, o5⟩ := Rep_read (.L p cp x :: k) o co sl sr hrep
  simp only [ptr_node, parOf_L] at p3 o1
  have c1a : (x.ptr = 0 ∨ rb_is_black h x.ptr) := (Rep_black_iff _ x hrep).2 hx
  have c1b : x.ptr ≠ h.rb_node := Rep_not_root _ k x hrep
  have c1c : ¬ (o = x.ptr) := fun e =>
    Rep_children_ne k p cp (.node o co sl sr) x hrep (by simp) e.symm
  have c2 : ¬ rb_is_red h o := by simp [rb_is_red, o2, hco]
  have hsl := Rep_black_iff (.L o co sr :: .L p cp x :: k) sl hrep
  have hsr := Rep_black_iff (.R o co sl :: .L p cp x :: k) sr hrep
  have hxN : x.NoRR := NoRR_of_blacken x hx hxn
  by_cases hB : sl.isBlack ∧ sr.isBlack
  · -- both children of the sibling are black: recolour and move up
    have e1 := set_red_spec (.L p cp x :: k) o co sl sr hrep
    obtain ⟨-, q1, -, -, -, -⟩ := Rep_read k p cp (.node o 0 sl sr) x e1
    have hstep : __rb_erase_color_loop (f + 1) x.ptr p h =
        __rb_erase_color_loop f p (parOf k) (rb_set_red o h) := by
      rw [__rb_erase_color_loop]
      simp only [c1a, c1b, c1c, p3, p4, c2, o3, o4, hsl, hsr, hB, and_self, if_true, if_false,
        q1, ne_eq, not_false_eq_true]
    obtain ⟨i1, i2, i3, i4⟩ := erase_inv_B_R k x p cp o co sl sr hk hbal hco hB.1 hB.2 hxN hxb
    by_cases hcp : cp = 0
    · -- the parent is red: the loop ends there
      subst hcp
      obtain ⟨f', rfl⟩ : ∃ f', f = f' + 1 := ⟨f - 1, by omega⟩
      have hex := erase_exit k (.node p 0 (.node o 0 sl sr) x) f' e1 (Or.inl (by simp))
      simp only [ptr_node] at hex
      refine ⟨_, k, .node p 0 (.node o 0 sl sr) x, hstep.trans hex, e1,
        by simp [inorder_plug, Tree.inorder], ?_⟩
      rw [RB_plug_iff]
      exact ⟨⟨i1, i3, by simp⟩, ⟨by simp, i4.2⟩, by simpa [Tree.bh] using i2⟩
    · obtain ⟨hspec, hfk⟩ := hrec hcp
      obtain ⟨h', k', y, r1, r2, r3, r4⟩ := hspec (.node p cp (.node o 0 sl sr) x) _ f hfk e1
        i1 i2 i3 i4
      exact ⟨h', k', y, hstep.trans r1, r2, by rw [r3]; simp [inorder_plug, Tree.inorder], r4⟩
  · by_cases hslB : sl.isBlack
    · -- far child black, near child red: rotate the sibling, then the parent
      have hsrB : ¬ sr.isBlack := fun hc => hB ⟨hslB, hc⟩
      cases sr with
      | nil => simp at hsrB
      | node a ca srl srr =>
        simp only [isBlack_node, ne_eq, not_not] at hsrB
        subst hsrB
        simp only [ptr_node] at o4 hsr
        obtain ⟨a0, -, -, -, -, -⟩ :=
          Rep_read (.R o co sl :: .L p cp x :: k) a 0 srl srr hrep
        have e1 := set_black_spec (.R o co sl :: .L p cp x :: k) a 0 srl srr hrep
        have e2 := set_red_spec (.L p cp x :: k) o co sl (.node a 1 srl srr) e1
        have e3 := rotate_left_spec (.L p cp x :: k) o 0 sl a 1 srl srr e2
        obtain ⟨-, -, q2, q3, -, -⟩ := Rep_read k p cp (.node a 1 (.node o 0 sl srl) srr) x e3
        simp only [ptr_node] at q3
        have e4 := set_color_spec (.L p cp x :: k) a 1 cp (.node o 0 sl srl) srr e3
        have e5 := set_black_spec k p cp (.node a cp (.node o 0 sl srl) srr) x e4
        obtain ⟨-, -, -, w3, -, -⟩ :=
          Rep_read (.L p 1 x :: k) a cp (.node o 0 sl srl) srr e5
        simp only [ptr_node] at w3
        have e6 := set_black_spec (.L a cp srr :: .L p 1 x :: k) o 0 sl srl e5
        have e7 := rotate_right_spec k p 1 a cp (.node o 1 sl srl) srr x e6
        have hsr' : ¬ rb_is_black h a := fun hc => by simpa using hsr.1 (Or.inr hc)
        have hsl' : (sl.ptr = 0 ∨ rb_is_black h sl.ptr) := hsl.2 hslB
        refine ⟨_, [], plug k (.node a cp (.node o 1 sl srl) (.node p 1 srr x)), ?_, e7,
          by simp [inorder_plug, Tree.inorder],
          RB_blacken' _ (erase_inv_C_R k x p cp o co a 0 sl srl srr hk hbal hco rfl hxN hxb)⟩
        rw [__rb_erase_color_loop]
        simp only [c1a, c1b, c1c, p3, p4, c2, o3, o4, hsl', hsr', a0, o0, and_self, if_true,
          if_false, ne_eq, not_false_eq_true, false_and, and_false, false_or, q2, q3, w3]
        rw [← e7.1]
    · -- far child red: rotate the parent
      cases sl with
      | nil => simp at hslB
      | node b cb sll slr =>
        simp only [isBlack_node, ne_eq, not_not] at hslB
        subst hslB
        simp only [ptr_node] at o3 hsl
        obtain ⟨b0, -, -, -, -, -⟩ :=
          Rep_read (.L o co sr :: .L p cp x :: k) b 0 sll slr hrep
        have e1 := set_color_spec (.L p cp x :: k) o co cp (.node b 0 sll slr) sr hrep
        have e2 := set_black_spec k p cp (.node o cp (.node b 0 sll slr) sr) x e1
        obtain ⟨-, -, -, w3, -, -⟩ :=
          Rep_read (.L p 1 x :: k) o cp (.node b 0 sll slr) sr e2
        simp only [ptr_node] at w3
        have e3 := set_black_spec (.L o cp sr :: .L p 1 x :: k) b 0 sll slr e2
        have e4 := rotate_right_spec k p 1 o cp (.node b 1 sll slr) sr x e3
        have hsl' : ¬ rb_is_black h b := fun hc => by simpa using hsl.1 (Or.inr hc)
        refine ⟨_, [], plug k (.node o cp (.node b 1 sll slr) (.node p 1 sr x)), ?_, e4,
          by simp [inorder_plug, Tree.inorder],
          RB_blacken' _ (erase_inv_D_R k x p cp o co b 0 sll slr sr hk hbal hco rfl hxN hxb)⟩
        rw [__rb_erase_color_loop]
        simp only [c1a, c1b, c1c, p3, p4, c2, o3, o4, hsl', b0, o0, and_self, if_true,
          if_false, ne_eq, not_false_eq_true, false_and, and_false, false_or, p2, w3]
        rw [← e4.1]

set_option maxHeartbeats 1000000 in
/-- Red sibling, node on the right. -/
theorem erase_red_R {h : Heap} (k : Ctx) (x : Tree) (p cp o : Nat) (sl sr : Tree) (f : Nat)
    (hf : 1 ≤ f)
    (hrep : Rep h (plug (.R p cp (.node o 0 sl sr) :: k) x)) (hx : x.isBlack)
    (hk : ctxNoRR (.R p cp (.node o 0 sl sr) :: k))
    (hbal : ctxBal (.R p cp (.node o 0 sl sr) :: k) (x.bh + 1))
    (hxn : x.blacken.NoRR) (hxb : x.Bal) :
    ∃ h' k' y, __rb_erase_color_loop (f + 1) x.ptr p h = some (y.ptr, h') ∧
      Rep h' (plug k' y) ∧
      (plug k' y).inorder = (plug (.R p cp (.node o 0 sl sr) :: k) x).inorder ∧
      (plug k' y.blacken).RB := by
  obtain ⟨p0, p1, p2, p3, p4, p5⟩ := Rep_read k p cp (.node o 0 sl sr) x hrep
  obtain ⟨o0, o1, o2, o3, o4, o5⟩ := Rep_read (.L p cp x :: k) o 0 sl sr hrep
  simp only [ptr_node, parOf_L] at p3 o1
  have c1a : (x.ptr = 0 ∨ rb_is_black h x.ptr) := (Rep_black_iff _ x hrep).2 hx
  have c1b : x.ptr ≠ h.rb_node := Rep_not_root _ k x hrep
  have c1c : ¬ (o = x.ptr) := fun e =>
    Rep_children_ne k p cp (.node o 0 sl sr) x hrep (by simp) e.symm
  have c2 : rb_is_red h o := o2
  obtain ⟨i1, i2, a, ca, srl, srr, rfl, hca⟩ := erase_inv_A_R k x p cp o 0 sl sr hk hbal rfl
  have e1 := set_black_spec (.L p cp x :: k) o 0 sl (.node a ca srl srr) hrep
  have e2 := set_red_spec k p cp (.node o 1 sl (.node a ca srl srr)) x e1
  have e3 := rotate_right_spec k p 0 o 1 sl (.node a ca srl srr) x e2
  have e3' : Rep (__rb_rotate_right p (rb_set_red p (rb_set_black o h)))
      (plug (.R p 0 (.node a ca srl srr) :: .R o 1 sl :: k) x) := e3
  obtain ⟨-, -, -, q3, q4, -⟩ := Rep_read (.R o 1 sl :: k) p 0 (.node a ca srl srr) x e3
  obtain ⟨-, -, w2, -, -, -⟩ :=
    Rep_read (.L p 0 x :: .R o 1 sl :: k) a ca srl srr e3
  simp only [ptr_node] at q3
  have d1a : (x.ptr = 0 ∨ rb_is_black (__rb_rotate_right p (rb_set_red p (rb_set_black o h)))
      x.ptr) := (Rep_black_iff _ x e3').2 hx
  have d1b : x.ptr ≠ (__rb_rotate_right p (rb_set_red p (rb_set_black o h))).rb_node :=
    Rep_not_root _ _ x e3'
  have d1c : ¬ ((__rb_rotate_right p (rb_set_red p (rb_set_black o h))).rb_left p = x.ptr) := by
    rw [q3]
    exact fun e => Rep_children_ne (.R o 1 sl :: k) p 0 (.node a ca srl srr) x e3 (by simp) e.symm
  have d2 : ¬ rb_is_red (__rb_rotate_right p (rb_set_red p (rb_set_black o h)))
      ((__rb_rotate_right p (rb_set_red p (rb_set_black o h))).rb_left p) := by
    rw [q3]; simp [rb_is_red, w2, hca]
  have hstep : __rb_erase_color_loop (f + 1) x.ptr p h =
      __rb_erase_color_loop (f + 1) x.ptr p
        (__rb_rotate_right p (rb_set_red p (rb_set_black o h))) := by
    rw [__rb_erase_color_loop]
    conv_rhs => rw [__rb_erase_color_loop]
    simp only [c1a, c1b, c1c, p3, p4, c2, d1a, d1b, d1c, d2, and_self, if_true, if_false,
      ne_eq, not_false_eq_true]
  obtain ⟨h', k', y, r1, r2, r3, r4⟩ := erase_black_R (.R o 1 sl :: k) x p 0 a ca srl srr f hf
    (fun hc => absurd rfl hc) e3' hca hx i1 i2 hxn hxb
  exact ⟨h', k', y, hstep.trans r1, r2, by rw [r3]; simp [inorder_plug, Tree.inorder], r4⟩

theorem erase_step_R {h : Heap} (k : Ctx) (x : Tree) (p cp : Nat) (s : Tree) (f : Nat)
    (hf : 1 ≤ f) (hrec : EraseSpec k ∧ k.length + 2 ≤ f)
    (hrep : Rep h (plug (.R p cp s :: k) x)) (hx : x.isBlack)
    (hk : ctxNoRR (.R p cp s :: k))
    (hbal : ctxBal (.R p cp s :: k) (x.bh + 1))
    (hxn : x.blacken.NoRR) (hxb : x.Bal) :
    ∃ h' k' y, __rb_erase_color_loop (f + 1) x.ptr p h = some (y.ptr, h') ∧
      Rep h' (plug k' y) ∧
      (plug k' y).inorder = (plug (.R p cp s :: k) x).inorder ∧
      (plug k' y.blacken).RB := by
  cases s with
  | nil => simp [ctxBal, Tree.bh] at hbal
  | node o co sl sr =>
    by_cases hco : co = 0
    · subst hco
      exact erase_red_R k x p cp o sl sr f hf hrep hx hk hbal hxn hxb
    · exact erase_black_R k x p cp o co sl sr f hf (fun _ => hrec) hrep hco hx hk hbal hxn hxb

/-- The loop of `__rb_erase_color` ends and repairs the tree, whatever the
place of the node that lacks a black node. -/
theorem erase_loop_spec : ∀ k : Ctx, EraseSpec k := by
  intro k
  induction k with
  | nil =>
    intro x h fuel hfuel hrep hk hbal hxn hxb
    obtain ⟨f, rfl⟩ : ∃ f, fuel = f + 1 := ⟨fuel - 1, by simp at hfuel; omega⟩
    refine ⟨h, [], x, erase_exit [] x f hrep (Or.inr rfl), hrep, rfl, ?_⟩
    cases x with
    | nil => exact ⟨trivial, trivial, trivial⟩
    | node a c l r => exact ⟨by simp, hxn, by simp, hxb.2⟩
  | cons F k ih =>
    intro x h fuel hfuel hrep hk hbal hxn hxb
    simp only [List.length_cons] at hfuel
    obtain ⟨f, rfl⟩ : ∃ f, fuel = f + 1 := ⟨fuel - 1, by omega⟩
    by_cases hx : x.isBlack
    · cases F with
      | L p cp s =>
        exact erase_step_L k x p cp s f (by omega) ⟨ih, by omega⟩ hrep hx hk hbal hxn hxb
      | R p cp s =>
        exact erase_step_R k x p cp s f (by omega) ⟨ih, by omega⟩ hrep hx hk hbal hxn hxb
    · have hex := erase_exit (F :: k) x f hrep (Or.inl hx)
      have hpar : parOf (F :: k) = parOf (F :: k) := rfl
      refine ⟨h, F :: k, x, hex, hrep, rfl, ?_⟩
      cases x with
      | nil => simp at hx
      | node a c l r =>
        simp only [isBlack_node, ne_eq, not_not] at hx
        subst hx
        rw [RB_plug_iff]
        refine ⟨⟨hk, hxn, by simp⟩, ⟨by simp, hxb.2⟩, by simpa [Tree.bh] using hbal⟩

theorem link_choice' {g : Heap} (k : Ctx) (n v : Nat) (hk : ShapeC g k)
    (hl : deref g (linkOf k) = n) (hn0 : n ≠ 0) (hn : n ∉ ctxBefore k ++ ctxAfter k) :
    (if parOf k ≠ 0 then
      (if g.rb_left (parOf k) = n then set_left (parOf k) v g else set_right (parOf k) v g)
     else set_root v g) = store (linkOf k) v g := by
  rw [← link_choice k n v hk hl hn0 hn]
  simp only [eq_comm]

/-- Holds `__rb_erase_color` as a whole: the loop and the final blackening. -/
theorem rb_erase_color_spec {h : Heap} (k : Ctx) (x : Tree) (fuel : Nat)
    (hfuel : k.length + 2 ≤ fuel) (hrep : Rep h (plug k x))
    (hk : ctxNoRR k) (hbal : ctxBal k (x.bh + 1)) (hxn : x.blacken.NoRR) (hxb : x.Bal) :
    ∃ h' T', __rb_erase_color fuel x.ptr (parOf k) h = some h' ∧ Rep h' T' ∧
      T'.inorder = (plug k x).inorder ∧ T'.RB := by
  obtain ⟨h1, k', y, r1, r2, r3, r4⟩ := erase_loop_spec k x h fuel hfuel hrep hk hbal hxn hxb
  unfold __rb_erase_color
  simp only [r1]
  cases y with
  | nil => exact ⟨h1, _, by simp, r2, r3, r4⟩
  | node a c l r =>
    obtain ⟨a0, -, -, -, -, -⟩ := Rep_read k' a c l r r2
    refine ⟨rb_set_black a h1, _, by simp [a0], set_black_spec k' a c l r r2, ?_, r4⟩
    rw [← r3]; simp [inorder_plug, Tree.inorder]

/-- The unlinking part of `rb_erase` for a node without a left child. -/
theorem unlink_spec_L {h : Heap} (k : Ctx) (n c : Nat) (r : Tree) (fuel : Nat)
    (hrep : Rep h (plug k (.node n c .nil r))) :
    ∃ h', rb_erase_unlink fuel n h = some (r.ptr, parOf k, c, h') ∧ Rep h' (plug k r) := by
  have hz := Rep_ne_zero hrep
  obtain ⟨n0, n1, n2, n3, n4, n5⟩ := Rep_read k n c .nil r hrep
  simp only [ptr_nil] at n3
  rw [Rep_plug] at hrep
  obtain ⟨hk, hl, hs, hnd⟩ := hrep
  obtain ⟨-, -, -, -, -, -, hr⟩ := hs
  simp only [inorder_plug, Tree.inorder, List.nodup_append, List.nodup_cons, List.mem_append,
    List.mem_cons, List.cons_append, List.disjoint_cons_right, List.disjoint_cons_left,
    List.disjoint_append_right, List.disjoint_append_left, not_or, List.append_assoc,
    List.nil_append, List.nodup_nil, List.disjoint_nil_left, List.disjoint_nil_right,
    List.not_mem_nil, not_false_eq_true, true_and, and_true] at hnd hz
  obtain ⟨dX, ⟨⟨nB, nY⟩, dB, dY, BY⟩, nX, XB, XY⟩ := hnd
  obtain ⟨zX, zn, zB, zY⟩ := hz
  have zk : 0 ∉ ctxBefore k ++ ctxAfter k := by simp [zX, zY]
  have hnk : n ∉ ctxBefore k ++ ctxAfter k := by simp [nX, nY]
  have hndk : (ctxBefore k ++ ctxAfter k).Nodup := by simp [List.nodup_append, dX, dY, XY]
  have hBk : r.ptr ∉ ctxBefore k ++ ctxAfter k := ptr_not_mem r _ zk (by simp [XB.symm, BY])
  have hpB : parOf k ∉ r.inorder := parOf_not_mem k _ zB (by simp [XB, BY.symm])
  have o1 := sameOff_reparent_if r (parOf k) h
  have hk1 := ShapeC_off k o1 (rb_node_reparent_if r (parOf k) h) (by simpa using hBk) hk
  have hl1 : deref (if r.ptr ≠ 0 then rb_set_parent r.ptr (parOf k) h else h) (linkOf k) = n := by
    refine (deref_off k o1 (rb_node_reparent_if r (parOf k) h) (fun hk' => ?_)).trans n5
    simpa using parOf_ne_ptr k r zk zB (by simp [XB, BY.symm]) (Or.inl hk')
  have hleft1 : ∀ q, (if r.ptr ≠ 0 then rb_set_parent r.ptr q h else h).rb_left = h.rb_left := by
    intro q; split_ifs <;> rfl
  refine ⟨store (linkOf k) r.ptr (if r.ptr ≠ 0 then rb_set_parent r.ptr (parOf k) h else h),
    ?_, ?_⟩
  · unfold rb_erase_unlink
    simp only [n3, true_or, if_true, n4, n1, n2]
    rw [link_choice' k n r.ptr hk1 hl1 n0 hnk]
  · rw [Rep_plug]
    refine ⟨ShapeC_store k r.ptr hndk hk1, deref_store k r.ptr _, ?_, ?_⟩
    · exact Shape_off r (parOf k) (sameOff_store k r.ptr _) (by simpa using hpB)
        (Shape_reparent_if r n (parOf k) dB hr)
    · simp only [List.nodup_append, List.disjoint_append_left, List.disjoint_append_right,
        List.append_assoc]
      exact ⟨dX, ⟨dB, dY, BY⟩, XB, XY⟩

/-- Holds `rb_erase` of a node without a left child (as the first node of the tree
is): the node is gone, the other nodes keep their order, and the tree is
red-black again. -/
theorem rb_erase_spec_L {h : Heap} (k : Ctx) (n c : Nat) (r : Tree) (fuel : Nat)
    (hfuel : k.length + 2 ≤ fuel)
    (hrep : Rep h (plug k (.node n c .nil r))) (hrb : (plug k (.node n c .nil r)).RB) :
    ∃ h' T', rb_erase fuel n h = some h' ∧ Rep h' T' ∧
      T'.inorder = ctxBefore k ++ r.inorder ++ ctxAfter k ∧ T'.RB := by
  obtain ⟨h1, u1, u2⟩ := unlink_spec_L k n c r fuel hrep
  rw [RB_plug_iff] at hrb
  obtain ⟨⟨hk, hn, htop⟩, hb, hcb⟩ := hrb
  simp only [Tree.NoRR, Tree.Bal, Tree.bh, isBlack_node] at hn hb hcb htop
  obtain ⟨hnc, -, hrn⟩ := hn
  obtain ⟨hc1, hbh, -, hrb⟩ := hb
  unfold rb_erase
  simp only [u1]
  by_cases hc : c = 0
  · subst hc
    refine ⟨h1, plug k r, by simp [RB_BLACK], u2, inorder_plug k r, ?_⟩
    rw [RB_plug_iff]
    refine ⟨⟨hk, hrn, fun hnb => absurd (hnc rfl).2 hnb⟩, hrb, ?_⟩
    rw [← hbh]; simpa using hcb
  · obtain rfl : c = 1 := by omega
    obtain ⟨h', T', r1, r2, r3, r4⟩ := rb_erase_color_spec k r fuel hfuel u2 hk
      (by rw [← hbh]; simpa using hcb)
      (by cases r with
          | nil => trivial
          | node a ca l r' => exact ⟨by simp, hrn.2⟩)
      hrb
    exact ⟨h', T', by simp [RB_BLACK, r1], r2, by rw [r3, inorder_plug], r4⟩

/-- The descent `while (n->rb_left) n = n->rb_left;` ends at the first node in
sort order of the subtree it starts from, a node without a left child. -/
theorem descend_left_spec {h : Heap} : ∀ (t : Tree) (k0 : Ctx) (fuel : Nat),
    Rep h (plug k0 t) → t ≠ .nil → t.size ≤ fuel →
    ∃ k n c r, plug k (.node n c .nil r) = plug k0 t ∧ ctxBefore k = ctxBefore k0 ∧
      descend_left h fuel t.ptr = some n := by
  intro t
  induction t with
  | nil => intro _ _ _ hne; exact absurd rfl hne
  | node a c l r ihl _ =>
    intro k0 fuel hrep _ hfuel
    simp only [Tree.size] at hfuel
    obtain ⟨f, rfl⟩ : ∃ f, fuel = f + 1 := ⟨fuel - 1, by omega⟩
    obtain ⟨a0, -, -, a3, -, -⟩ := Rep_read k0 a c l r hrep
    cases l with
    | nil =>
      refine ⟨k0, a, c, r, rfl, rfl, ?_⟩
      simp only [ptr_nil] at a3
      simp [descend_left, a3]
    | node b cb bl br =>
      obtain ⟨b0, -, -, -, -, -⟩ := Rep_read (.L a c r :: k0) b cb bl br hrep
      obtain ⟨k, n, c', r', e1, e2, e3⟩ := ihl (.L a c r :: k0) f hrep (by simp)
        (by simp only [Tree.size] at hfuel ⊢; omega)
      refine ⟨k, n, c', r', e1, by simpa [ctxBefore] using e2, ?_⟩
      simp only [ptr_node] at a3 e3 ⊢
      simp [descend_left, a3, b0, e3]

/-- Holds `cfs_dequeue` on an empty run-queue returns `NULL` and changes nothing. -/
theorem cfs_dequeue_nil (s : cfs_state) (fuel : Nat) (hinv : Inv s .nil) :
    cfs_dequeue fuel s = some (0, s) := by
  obtain ⟨hrep, -, -, hlm⟩ := hinv
  have hroot : s.heap.rb_node = 0 := hrep.1
  have hl0 : s.rb_leftmost = 0 := by
    rcases hlm with hlm | hlm
    · exact hlm
    · simp [Tree.inorder] at hlm
  simp [cfs_dequeue, first_fair, hl0, rb_first, hroot]

theorem Rep_ptr_ne_zero {h : Heap} {T : Tree} (hrep : Rep h T) (hne : T ≠ .nil) :
    h.rb_node ≠ 0 := by
  cases T with
  | nil => exact absurd rfl hne
  | node a c l r => rw [hrep.1]; exact hrep.2.1.1

/-- Holds `cfs_dequeue` on a non-empty run-queue returns the first node in sort
order and removes it; the invariant is kept. -/
theorem cfs_dequeue_spec (s : cfs_state) (T : Tree) (fuel : Nat)
    (hinv : Inv s T) (hne : T ≠ .nil) (hfuel : T.size < fuel) :
    ∃ a L s' T', T.inorder = a :: L ∧ cfs_dequeue fuel s = some (a, s') ∧ a ≠ 0 ∧
      Inv s' T' ∧ T'.inorder = L ∧ s'.t = s.t ∧ s'.rb_leftmost = 0 := by
  obtain ⟨hrep, hrb, hsort, hlm⟩ := hinv
  have hroot := Rep_ptr_ne_zero hrep hne
  obtain ⟨k, n, c, r, e1, e2, e3⟩ := descend_left_spec T [] fuel hrep hne (by omega)
  rw [← hrep.1] at e3
  simp only [plug_nil, ctxBefore] at e1 e2
  subst e1
  have hin : (plug k (.node n c .nil r)).inorder = n :: (r.inorder ++ ctxAfter k) := by
    rw [inorder_plug, e2]; simp [Tree.inorder]
  obtain ⟨n0, -, -, -, -, -⟩ := Rep_read k n c .nil r hrep
  have hlen : k.length + 2 ≤ fuel := by
    have := length_le_size k (.node n c .nil r)
    simp only [Tree.size] at this
    omega
  obtain ⟨h', T', r1, r2, r3, r4⟩ := rb_erase_spec_L k n c r fuel hlen hrep hrb
  have hff : first_fair fuel s = some n := by
    unfold first_fair
    by_cases hl0 : s.rb_leftmost = 0
    · simp [hl0, rb_first, hroot, e3]
    · rcases hlm with hlm | hlm
      · exact absurd hlm hl0
      · rw [hin] at hlm
        simp only [List.head?_cons, Option.some.injEq] at hlm
        simp [hl0, hlm]
  have hheap : (if s.rb_leftmost = n then ({ s with rb_leftmost := 0 } : cfs_state) else s).heap
      = s.heap := by split_ifs <;> rfl
  have ht : (if s.rb_leftmost = n then ({ s with rb_leftmost := 0 } : cfs_state) else s).t
      = s.t := by split_ifs <;> rfl
  have hlm' : (if s.rb_leftmost = n then ({ s with rb_leftmost := 0 } : cfs_state)
      else s).rb_leftmost = 0 := by
    split_ifs with hc
    · rfl
    · rcases hlm with hlm | hlm
      · exact hlm
      · rw [hin] at hlm
        simp only [List.head?_cons, Option.some.injEq] at hlm
        exact absurd hlm.symm hc
  refine ⟨n, r.inorder ++ ctxAfter k, { (if s.rb_leftmost = n then
      ({ s with rb_leftmost := 0 } : cfs_state) else s) with heap := h' }, T', hin, ?_, n0,
    ⟨r2, r4, ?_, Or.inl hlm'⟩, ?_, ht, hlm'⟩
  · unfold cfs_dequeue
    simp only [hff, ne_eq, n0, not_false_eq_true, if_true]
    unfold __dequeue_task_fair
    simp only [hheap, r1]
  · simp only [ht, r3, e2, List.nil_append]
    rw [hin] at hsort
    simp only [List.map_cons, List.pairwise_cons] at hsort
    exact hsort.2
  · rw [r3, e2]; simp

theorem Inv_init (s0 : cfs_state) : Inv (cfs_rqinit s0) .nil := by
  refine ⟨⟨rfl, trivial, by simp [Tree.inorder]⟩, ⟨trivial, trivial, trivial⟩, ?_, Or.inl rfl⟩
  simp [Tree.inorder]

/-- Every reachable state satisfies the invariant, with a tree that holds
exactly the queued tasks. -/
theorem Reach_inv {s : cfs_state} {q : List Nat} (hr : Reach s q) :
    ∃ T, Inv s T ∧ T.inorder.Perm q := by
  induction hr with
  | init s0 => exact ⟨.nil, Inv_init s0, by simp [Tree.inorder]⟩
  | @queue s s' q fuel tsk key _ h0 hnew hfuel hq ih =>
    obtain ⟨T, hinv, hperm⟩ := ih
    have hnT : tsk ∉ T.inorder := fun hm => hnew (hperm.mem_iff.1 hm)
    have hsz : T.size < fuel := by rw [size_eq_length, hperm.length_eq]; exact hfuel
    obtain ⟨s1, T', L1, L2, e, hinv', hT, hT', -, -, -, -⟩ :=
      cfs_queue_spec s T tsk key fuel hinv h0 hnT hsz
    rw [hq] at e
    cases e
    refine ⟨T', hinv', ?_⟩
    rw [hT']
    refine (List.perm_middle).trans (List.Perm.cons _ ?_)
    rw [← hT]; exact hperm
  | @dequeue s s' q fuel a _ hfuel hq ih =>
    obtain ⟨T, hinv, hperm⟩ := ih
    by_cases hne : T = .nil
    · subst hne
      rw [cfs_dequeue_nil s fuel hinv] at hq
      cases hq
      have hq0 : q = [] := by simpa [Tree.inorder] using hperm
      subst hq0
      exact ⟨.nil, hinv, by simp [Tree.inorder]⟩
    · have hsz : T.size < fuel := by rw [size_eq_length, hperm.length_eq]; exact hfuel
      obtain ⟨a', L, s1, T', hT, e, -, hinv', hT', -, -⟩ := cfs_dequeue_spec s T fuel hinv hne hsz
      rw [hq] at e
      cases e
      refine ⟨T', hinv', ?_⟩
      rw [hT']
      have : (T.inorder.erase a).Perm (q.erase a) := hperm.erase a
      rw [hT] at this
      simpa using this

theorem nil_of_inorder {T : Tree} (h : T.inorder = []) : T = .nil := by
  cases T with
  | nil => rfl
  | node a c l r => simp [Tree.inorder] at h

/-- Queueing a list of new tasks: all calls return, the tree then holds the
old and the new tasks, and every new task holds its key. -/
theorem queue_all_spec (fuel : Nat) : ∀ (tasks : List (Nat × Nat)) (s : cfs_state) (T : Tree),
    Inv s T → (∀ p ∈ tasks, p.1 ≠ 0) → (tasks.map Prod.fst).Nodup →
    (∀ p ∈ tasks, p.1 ∉ T.inorder) → T.size + tasks.length ≤ fuel →
    ∃ s1 T1, queue_all fuel tasks s = some s1 ∧ Inv s1 T1 ∧
      T1.inorder.Perm (T.inorder ++ tasks.map Prod.fst) ∧
      (∀ p ∈ tasks, s1.t p.1 = p.2) ∧ (∀ a ∈ T.inorder, s1.t a = s.t a) := by
  intro tasks
  induction tasks with
  | nil =>
    intro s T hinv _ _ _ _
    exact ⟨s, T, rfl, hinv, by simp, by simp, fun _ _ => rfl⟩
  | cons p rest ih =>
    intro s T hinv h0 hnd hnew hfuel
    obtain ⟨tsk, key⟩ := p
    simp only [List.map_cons, List.nodup_cons, List.mem_map, not_exists, not_and,
      List.length_cons] at hnd hfuel
    obtain ⟨s', T', L1, L2, e, hinv', hT, hT', -, -, ht, -⟩ :=
      cfs_queue_spec s T tsk key fuel hinv (h0 (tsk, key) (by simp)) (hnew (tsk, key) (by simp))
        (by omega)
    have hperm : T'.inorder.Perm (tsk :: T.inorder) := by
      rw [hT', hT]; exact List.perm_middle
    have hsz : T'.size = T.size + 1 := by
      rw [size_eq_length, size_eq_length, hperm.length_eq]; simp
    obtain ⟨s1, T1, e1, hinv1, hp1, hk1, hold1⟩ := ih s' T' hinv'
      (fun p hp => h0 p (by simp [hp])) hnd.2
      (by
        intro p hp hm
        rcases (List.mem_cons.1 (hperm.mem_iff.1 hm)) with heq | hm'
        · exact hnd.1 p hp heq
        · exact hnew p (by simp [hp]) hm')
      (by omega)
    refine ⟨s1, T1, by simp [queue_all, e, e1], hinv1, ?_, ?_, ?_⟩
    · refine hp1.trans ?_
      refine (List.Perm.append_right _ hperm).trans ?_
      simp only [List.cons_append, List.map_cons]
      exact (List.perm_middle).symm
    · intro p hp
      rcases List.mem_cons.1 hp with rfl | hp
      · rw [hold1 _ (hperm.mem_iff.2 (by simp)), ht]; simp
      · exact hk1 p hp
    · intro a ha
      rw [hold1 a (hperm.mem_iff.2 (by simp [ha])), ht]
      have : a ≠ tsk := fun e => hnew (tsk, key) (by simp) (e ▸ ha)
      simp [upd, this]

/-- Dequeueing `n` times from a tree that holds at least `n` nodes returns
its first `n` nodes in sort order. -/
theorem dequeue_n_spec (fuel : Nat) : ∀ (n : Nat) (s : cfs_state) (T : Tree),
    Inv s T → T.size < fuel → n ≤ T.size →
    ∃ s2 T2, dequeue_n fuel n s =
        some ((T.inorder.take n).map (fun a => (a, s.t a)), s2) ∧
      Inv s2 T2 ∧ T2.inorder = T.inorder.drop n ∧ s2.t = s.t := by
  intro n
  induction n with
  | zero => intro s T hinv _ _; exact ⟨s, T, by simp [dequeue_n], hinv, by simp, rfl⟩
  | succ n ih =>
    intro s T hinv hfuel hn
    have hne : T ≠ .nil := by rintro rfl; simp [Tree.size] at hn
    obtain ⟨a, L, s', T', hT, e, -, hinv', hT', ht, -⟩ := cfs_dequeue_spec s T fuel hinv hne hfuel
    have hsz : T'.size + 1 = T.size := by
      rw [size_eq_length, size_eq_length, hT, hT']; simp
    obtain ⟨s2, T2, e2, hinv2, hT2, ht2⟩ := ih s' T' hinv' (by omega) (by omega)
    refine ⟨s2, T2, ?_, hinv2, ?_, ht2.trans ht⟩
    · simp only [dequeue_n, e, e2, hT, List.take_succ_cons, List.map_cons, ht, hT']
    · rw [hT2, hT, hT']; simp

/-- C1. For every finite list of tasks with keys queued with `cfs_queue` into
a run-queue initialised by `cfs_rqinit`, the calls return, and as many calls of
`cfs_dequeue` return the tasks with keys in non-decreasing order; the returned
tasks with their keys are a permutation of the queued ones. -/
theorem cfs_dequeue_sorted (s0 : cfs_state) (tasks : List (Nat × Nat)) (fuel : Nat)
    (h0 : ∀ p ∈ tasks, p.1 ≠ 0) (hnd : (tasks.map Prod.fst).Nodup)
    (hfuel : tasks.length < fuel) :
    ∃ s1 out s2, queue_all fuel tasks (cfs_rqinit s0) = some s1 ∧
      dequeue_n fuel tasks.length s1 = some (out, s2) ∧
      (out.map Prod.snd).Sorted (· ≤ ·) ∧ out.Perm tasks ∧
      (out.map Prod.snd).Perm (tasks.map Prod.snd) := by
  obtain ⟨s1, T1, e1, hinv1, hp1, hk1, -⟩ := queue_all_spec fuel tasks (cfs_rqinit s0) .nil
    (Inv_init s0) h0 hnd (by simp [Tree.inorder]) (by simp [Tree.size]; omega)
  simp only [Tree.inorder, List.nil_append] at hp1
  have hsz : T1.size = tasks.length := by
    rw [size_eq_length, hp1.length_eq]; simp
  obtain ⟨s2, T2, e2, -, -, -⟩ := dequeue_n_spec fuel tasks.length s1 T1 hinv1 (by omega)
    (by omega)
  have htake : T1.inorder.take tasks.length = T1.inorder := by
    rw [← hsz, size_eq_length]; simp
  rw [htake] at e2
  have hperm : (T1.inorder.map (fun a => (a, s1.t a))).Perm tasks := by
    have h1 := hp1.map (fun a => (a, s1.t a))
    refine h1.trans ?_
    rw [List.map_map]
    have : ∀ p ∈ tasks, ((fun a => (a, s1.t a)) ∘ Prod.fst) p = p := by
      intro p hp
      simp only [Function.comp]
      rw [hk1 p hp]
    rw [List.map_congr_left this]
    simp
  refine ⟨s1, _, s2, e1, e2, ?_, hperm, hperm.map _⟩
  simp only [List.map_map]
  exact hinv1.2.2.1

/-- The memory holds at most one tree. -/
theorem Shape_unique {h : Heap} : ∀ (T T' : Tree) (par par' : Nat),
    Shape h T par → Shape h T' par' → T.ptr = T'.ptr → T = T' := by
  intro T
  induction T with
  | nil =>
    intro T' par par' _ h2 hp
    cases T' with
    | nil => rfl
    | node a c l r => exact absurd hp.symm h2.1
  | node a c l r ihl ihr =>
    intro T' par par' h1 h2 hp
    cases T' with
    | nil => exact absurd hp h1.1
    | node a' c' l' r' =>
      simp only [ptr_node] at hp
      subst hp
      obtain ⟨-, -, x2, x3, x4, x5, x6⟩ := h1
      obtain ⟨-, -, y2, y3, y4, y5, y6⟩ := h2
      have e1 := ihl l' a a x5 y5 (x3.symm.trans y3)
      have e2 := ihr r' a a x6 y6 (x4.symm.trans y4)
      rw [e1, e2, ← x2, ← y2]

theorem Rep_unique {h : Heap} {T T' : Tree} (h1 : Rep h T) (h2 : Rep h T') : T' = T :=
  (Shape_unique T T' 0 0 h1.2.1 h2.2.1 (h1.1.symm.trans h2.1)).symm

theorem Bal_paths : ∀ t : Tree, t.Bal → ∀ p ∈ t.paths, p.count RB_BLACK = t.bh := by
  intro t
  induction t with
  | nil => intro _ p hp; simp [Tree.paths] at hp; simp [hp, Tree.bh]
  | node a c l r ihl ihr =>
    intro hb p hp
    obtain ⟨hc, hbh, hl, hr⟩ := hb
    simp only [Tree.paths, List.mem_map, List.mem_append] at hp
    obtain ⟨p', hp', rfl⟩ := hp
    have hcount : p'.count RB_BLACK = l.bh := by
      rcases hp' with hp' | hp'
      · exact ihl hl p' hp'
      · rw [hbh]; exact ihr hr p' hp'
    have hcount' : List.count 1 p' = l.bh := hcount
    simp only [List.count_cons, Tree.bh, RB_BLACK, hcount']
    have : c = 0 ∨ c = 1 := by omega
    rcases this with rfl | rfl <;> simp

theorem Bal_subtrees : ∀ t : Tree, t.Bal → ∀ S ∈ t.subtrees, S.Bal := by
  intro t
  induction t with
  | nil => intro _ S hS; simp [Tree.subtrees] at hS; subst hS; trivial
  | node a c l r ihl ihr =>
    intro hb S hS
    simp only [Tree.subtrees, List.mem_cons, List.mem_append] at hS
    rcases hS with rfl | hS | hS
    · exact hb
    · exact ihl hb.2.2.1 S hS
    · exact ihr hb.2.2.2 S hS

/-- C2. After every sequence of `cfs_queue` and `cfs_dequeue` calls from
`cfs_rqinit` the memory holds a (unique) tree of the queued tasks that has the
red-black properties: the root, if any, is black; no red node has a red child;
and in the tree below every node all paths down to the leaves hold the same
number of black nodes. -/
theorem cfs_red_black {s : cfs_state} {q : List Nat} (hr : Reach s q) :
    ∃ T, Rep s.heap T ∧ (∀ T', Rep s.heap T' → T' = T) ∧ T.inorder.Perm q ∧
      T.isBlack ∧ T.NoRR ∧
      (∀ S ∈ T.subtrees, ∀ p ∈ S.paths, ∀ p' ∈ S.paths,
        p.count RB_BLACK = p'.count RB_BLACK) ∧
      T.Bal := by
  obtain ⟨T, ⟨hrep, hrb, -, -⟩, hperm⟩ := Reach_inv hr
  refine ⟨T, hrep, fun T' h' => Rep_unique hrep h', hperm, hrb.1, hrb.2.1, ?_, hrb.2.2⟩
  intro S hS p hp p' hp'
  have hb := Bal_subtrees T hrb.2.2 S hS
  rw [Bal_paths S hb p hp, Bal_paths S hb p' hp']

theorem BST_of_sorted (key : Nat → Nat) : ∀ t : Tree,
    (t.inorder.map key).Pairwise (· ≤ ·) → t.BST key := by
  intro t
  induction t with
  | nil => intro _; trivial
  | node a c l r ihl ihr =>
    intro hs
    simp only [Tree.inorder, List.map_append, List.map_cons, List.pairwise_append,
      List.pairwise_cons, List.mem_map, List.mem_cons, forall_exists_index, and_imp,
      forall_apply_eq_imp_iff₂, forall_eq_or_imp] at hs
    obtain ⟨sl, ⟨sar, sr⟩, slr⟩ := hs
    exact ⟨fun b hb => (slr b hb).1, sar, ihl sl, ihr sr⟩

theorem Shape_links {h : Heap} : ∀ (t : Tree) (par : Nat), Shape h t par →
    (t ≠ .nil → h.rb_parent t.ptr = par) ∧
    ∀ a ∈ t.inorder,
      (h.rb_left a ≠ 0 → h.rb_left a ∈ t.inorder ∧ h.rb_parent (h.rb_left a) = a) ∧
      (h.rb_right a ≠ 0 → h.rb_right a ∈ t.inorder ∧ h.rb_parent (h.rb_right a) = a) := by
  intro t
  induction t with
  | nil => intro _ _; exact ⟨fun hne => absurd rfl hne, fun a ha => by simp [Tree.inorder] at ha⟩
  | node b c l r ihl ihr =>
    intro par hs
    obtain ⟨b0, b1, b2, b3, b4, b5, b6⟩ := hs
    obtain ⟨l1, l2⟩ := ihl b b5
    obtain ⟨r1, r2⟩ := ihr b b6
    refine ⟨fun _ => b1, ?_⟩
    intro a ha
    simp only [Tree.inorder, List.mem_append, List.mem_cons] at ha ⊢
    rcases ha with ha | rfl | ha
    · obtain ⟨x1, x2⟩ := l2 a ha
      exact ⟨fun hne => ⟨Or.inl (x1 hne).1, (x1 hne).2⟩,
        fun hne => ⟨Or.inl (x2 hne).1, (x2 hne).2⟩⟩
    · constructor
      · intro hne
        rw [b3] at hne ⊢
        cases l with
        | nil => exact absurd rfl hne
        | node x cx xl xr =>
          exact ⟨Or.inl (by simp [Tree.inorder]), l1 (by simp)⟩
      · intro hne
        rw [b4] at hne ⊢
        cases r with
        | nil => exact absurd rfl hne
        | node x cx xl xr =>
          exact ⟨Or.inr (Or.inr (by simp [Tree.inorder])), r1 (by simp)⟩
    · obtain ⟨x1, x2⟩ := r2 a ha
      exact ⟨fun hne => ⟨Or.inr (Or.inr (x1 hne).1), (x1 hne).2⟩,
        fun hne => ⟨Or.inr (Or.inr (x2 hne).1), (x2 hne).2⟩⟩

/-- C3. After every sequence of `cfs_queue` and `cfs_dequeue` calls from
`cfs_rqinit` the memory holds a tree of the queued tasks that is a binary
search tree on the key `t` (left subtree `≤` node `≤` right subtree at every
node, so the keys are non-decreasing in sort order), and the parent pointers
are consistent with the child pointers. -/
theorem cfs_bst {s : cfs_state} {q : List Nat} (hr : Reach s q) :
    ∃ T, Rep s.heap T ∧ T.inorder.Perm q ∧ T.BST s.t ∧
      (T.inorder.map s.t).Sorted (· ≤ ·) ∧ ParentLinks s.heap T.inorder := by
  obtain ⟨T, ⟨hrep, -, hsort, -⟩, hperm⟩ := Reach_inv hr
  refine ⟨T, hrep, hperm, BST_of_sorted s.t T hsort, hsort, ?_⟩
  obtain ⟨l1, l2⟩ := Shape_links T 0 hrep.2.1
  refine ⟨fun hne => ?_, l2⟩
  have : T ≠ .nil := by
    rintro rfl
    exact hne hrep.1
  rw [hrep.1]
  exact l1 this

/-- C4. In a reachable state with at least one queued task `cfs_dequeue`
returns a queued task whose key is `≤` the key of every queued task, and
removes exactly that node: the tree afterwards holds the nodes of the tree
before, less the returned one, and no key has changed. -/
theorem cfs_dequeue_min {s : cfs_state} {q : List Nat} (hr : Reach s q) (hq : q ≠ [])
    (fuel : Nat) (hfuel : q.length < fuel) :
    ∃ a s', cfs_dequeue fuel s = some (a, s') ∧ a ≠ 0 ∧ a ∈ q ∧ (∀ b ∈ q, s.t a ≤ s.t b) ∧
      s'.t = s.t ∧
      ∃ T T', Rep s.heap T ∧ Rep s'.heap T' ∧ T.inorder.Perm q ∧
        T'.inorder = T.inorder.erase a ∧
        (T'.inorder : Multiset Nat) = (T.inorder : Multiset Nat).erase a := by
  obtain ⟨T, hinv, hperm⟩ := Reach_inv hr
  have hne : T ≠ .nil := by
    rintro rfl
    exact hq (by simpa [Tree.inorder] using hperm)
  have hsz : T.size < fuel := by rw [size_eq_length, hperm.length_eq]; exact hfuel
  obtain ⟨a, L, s', T', hT, e, a0, hinv', hT', ht, -⟩ := cfs_dequeue_spec s T fuel hinv hne hsz
  have hsort := hinv.2.2.1
  rw [hT] at hsort
  simp only [List.map_cons, List.pairwise_cons, List.mem_map, forall_exists_index, and_imp,
    forall_apply_eq_imp_iff₂] at hsort
  have herase : T'.inorder = T.inorder.erase a := by rw [hT', hT]; simp
  refine ⟨a, s', e, a0, hperm.mem_iff.1 (by rw [hT]; simp), ?_, ht, T, T', hinv.1, hinv'.1,
    hperm, herase, ?_⟩
  · intro b hb
    have hb' : b ∈ a :: L := by rw [← hT]; exact hperm.mem_iff.2 hb
    rcases List.mem_cons.1 hb' with rfl | hb'
    · exact le_refl _
    · exact hsort.1 b hb'
  · rw [herase]; rfl

theorem Rep_parOf_ne {h : Heap} (k : Ctx) (n c : Nat) (l r : Tree)
    (hrep : Rep h (plug k (.node n c l r))) : parOf k ≠ n := by
  have hz := Rep_ne_zero hrep
  have hnd := hrep.2.2
  simp only [inorder_plug, Tree.inorder, List.nodup_append, List.nodup_cons, List.mem_append,
    List.mem_cons, List.cons_append, List.disjoint_cons_right, List.disjoint_cons_left,
    List.disjoint_append_right, List.disjoint_append_left, not_or, List.append_assoc] at hnd hz
  obtain ⟨dX, ⟨dA, ⟨⟨nB, nY⟩, dB, dY, BY⟩, nA, AB, AY⟩, XA, nX, XB, XY⟩ := hnd
  have := parOf_not_mem k [n] (by simpa using hz.2.2.1) (by simp [nX, nY])
  simpa using this

/-- The climbing loop of `rb_next` ends at the first node after the place it
starts from, or at `NULL` when there is none. -/
theorem rb_next_up_spec {h : Heap} : ∀ (k : Ctx) (t : Tree) (fuel : Nat),
    Rep h (plug k t) → t ≠ .nil → k.length < fuel →
    rb_next_up h fuel t.ptr = some ((ctxAfter k).head?.getD 0) := by
  intro k
  induction k with
  | nil =>
    intro t fuel hrep hne hfuel
    obtain ⟨f, rfl⟩ : ∃ f, fuel = f + 1 := ⟨fuel - 1, by omega⟩
    cases t with
    | nil => exact absurd rfl hne
    | node a c l r =>
      obtain ⟨-, a1, -, -, -, -⟩ := Rep_read [] a c l r hrep
      simp only [parOf_nil] at a1
      simp [rb_next_up, a1, ctxAfter]
  | cons F k ih =>
    intro t fuel hrep hne hfuel
    simp only [List.length_cons] at hfuel
    obtain ⟨f, rfl⟩ : ∃ f, fuel = f + 1 := ⟨fuel - 1, by omega⟩
    have hpar : h.rb_parent t.ptr = parOf (F :: k) := by
      cases t with
      | nil => exact absurd rfl hne
      | node a c l r => exact (Rep_read (F :: k) a c l r hrep).2.1
    cases F with
    | L a c r =>
      obtain ⟨a0, -, -, -, a4, -⟩ := Rep_read k a c t r hrep
      have hne' : r.ptr ≠ t.ptr := Rep_children_ne k a c t r hrep hne
      simp only [parOf_L] at hpar
      rw [rb_next_up]
      simp [hpar, a0, a4, Ne.symm hne', ctxAfter]
    | R a c l =>
      obtain ⟨a0, -, -, -, a4, -⟩ := Rep_read k a c l t hrep
      simp only [parOf_R] at hpar
      have := ih (.node a c l t) f hrep (by simp) (by omega)
      simp only [ptr_node] at this
      rw [rb_next_up]
      simp [hpar, a0, a4, this, ctxAfter]

theorem descend_left_head {h : Heap} (t : Tree) (k0 : Ctx) (fuel : Nat)
    (hrep : Rep h (plug k0 t)) (hne : t ≠ .nil) (hfuel : t.size ≤ fuel) :
    descend_left h fuel t.ptr = some (t.inorder.head?.getD 0) := by
  obtain ⟨k, n, c, r, e1, e2, e3⟩ := descend_left_spec t k0 fuel hrep hne hfuel
  have hin := congrArg Tree.inorder e1
  rw [inorder_plug, inorder_plug, e2] at hin
  simp only [Tree.inorder, List.nil_append, List.append_assoc, List.cons_append,
    List.append_cancel_left_eq] at hin
  cases t with
  | nil => exact absurd rfl hne
  | node a c' l' r' =>
    rw [e3]
    cases hl : (Tree.node a c' l' r').inorder with
    | nil => simp [Tree.inorder] at hl
    | cons x xs =>
      rw [hl] at hin
      simp only [List.cons_append, List.cons.injEq] at hin
      simp [hin.1]

/-- Holds `rb_next` yields the next node in sort order, `NULL` after the last. -/
theorem rb_next_spec {h : Heap} (k : Ctx) (n c : Nat) (l r : Tree) (fuel : Nat)
    (hrep : Rep h (plug k (.node n c l r))) (hfuel : (plug k (.node n c l r)).size < fuel) :
    rb_next fuel h n = some ((r.inorder ++ ctxAfter k).head?.getD 0) := by
  obtain ⟨n0, n1, -, -, n4, -⟩ := Rep_read k n c l r hrep
  have hpn := Rep_parOf_ne k n c l r hrep
  have hsz := length_le_size k (.node n c l r)
  simp only [Tree.size] at hsz
  unfold rb_next
  rw [n1, if_neg hpn, n4]
  cases r with
  | nil =>
    have := rb_next_up_spec k (.node n c l .nil) fuel hrep (by simp) (by omega)
    simpa [Tree.inorder] using this
  | node b cb bl br =>
    obtain ⟨b0, -, -, -, -, -⟩ := Rep_read (.R n c l :: k) b cb bl br hrep
    have := descend_left_head (.node b cb bl br) (.R n c l :: k) fuel hrep (by simp) (by omega)
    simp only [ptr_node] at this ⊢
    rw [if_pos b0, this]
    cases hl : (Tree.node b cb bl br).inorder with
    | nil => simp [Tree.inorder] at hl
    | cons x xs => simp

theorem mem_decomp (a : Nat) : ∀ (t : Tree) (k0 : Ctx), a ∈ t.inorder →
    ∃ k c l r, plug k0 t = plug k (.node a c l r) := by
  intro t
  induction t with
  | nil => intro _ ha; simp [Tree.inorder] at ha
  | node b c l r ihl ihr =>
    intro k0 ha
    simp only [Tree.inorder, List.mem_append, List.mem_cons] at ha
    rcases ha with ha | rfl | ha
    · exact ihl (.L b c r :: k0) ha
    · exact ⟨k0, c, l, r, rfl⟩
    · exact ihr (.R b c l :: k0) ha

theorem split_unique {α : Type} : ∀ (l1 l3 l2 l4 : List α) (a : α),
    (l1 ++ a :: l2).Nodup → l1 ++ a :: l2 = l3 ++ a :: l4 → l2 = l4 := by
  intro l1
  induction l1 with
  | nil =>
    intro l3 l2 l4 a hnd he
    cases l3 with
    | nil => simpa using he
    | cons x xs =>
      simp only [List.nil_append, List.cons_append, List.cons.injEq] at he
      obtain ⟨rfl, rfl⟩ := he
      simp at hnd
  | cons y ys ih =>
    intro l3 l2 l4 a hnd he
    cases l3 with
    | nil =>
      simp only [List.nil_append, List.cons_append, List.cons.injEq] at he
      obtain ⟨rfl, he⟩ := he
      simp at hnd
    | cons x xs =>
      simp only [List.cons_append, List.cons.injEq] at he
      exact ih xs l2 l4 a (by simp at hnd ⊢; tauto) he.2

/-- The walk along `rb_next` from a node visits the node and all nodes after
it, in sort order. -/
theorem rb_walk_spec {h : Heap} (T : Tree) (fuel : Nat) (hrep : Rep h T)
    (hfuel : T.size < fuel) : ∀ (post pre : List Nat) (n steps : Nat),
    T.inorder = pre ++ n :: post → post.length + 1 < steps →
    rb_walk fuel h steps n = some (n :: post) := by
  intro post
  induction post with
  | nil =>
    intro pre n steps hT hsteps
    obtain ⟨st, rfl⟩ : ∃ st, steps = st + 2 := ⟨steps - 2, by simp at hsteps; omega⟩
    obtain ⟨k, c, l, r, e⟩ := mem_decomp n T [] (by rw [hT]; simp)
    simp only [plug_nil] at e
    subst e
    have hn0 : n ≠ 0 := (Rep_read k n c l r hrep).1
    have hnext := rb_next_spec k n c l r fuel hrep hfuel
    have hpost : r.inorder ++ ctxAfter k = [] := by
      have hin := inorder_plug k (.node n c l r)
      rw [hT] at hin
      simp only [Tree.inorder, List.append_assoc, List.cons_append] at hin
      have hnd := hrep.2.2
      rw [hT] at hnd
      have := split_unique pre (ctxBefore k ++ l.inorder) [] (r.inorder ++ ctxAfter k) n hnd
        (by rw [hin]; simp)
      exact this.symm
    rw [hpost] at hnext
    simp [rb_walk, hn0, hnext]
  | cons m post ih =>
    intro pre n steps hT hsteps
    simp only [List.length_cons] at hsteps
    obtain ⟨st, rfl⟩ : ∃ st, steps = st + 1 := ⟨steps - 1, by omega⟩
    obtain ⟨k, c, l, r, e⟩ := mem_decomp n T [] (by rw [hT]; simp)
    simp only [plug_nil] at e
    subst e
    have hn0 : n ≠ 0 := (Rep_read k n c l r hrep).1
    have hnext := rb_next_spec k n c l r fuel hrep hfuel
    have hpost : r.inorder ++ ctxAfter k = m :: post := by
      have hin := inorder_plug k (.node n c l r)
      rw [hT] at hin
      simp only [Tree.inorder, List.append_assoc, List.cons_append] at hin
      have hnd := hrep.2.2
      rw [hT] at hnd
      have := split_unique pre (ctxBefore k ++ l.inorder) (m :: post) (r.inorder ++ ctxAfter k)
        n hnd (by rw [hin]; simp)
      exact this.symm
    rw [hpost] at hnext
    have hrec := ih (pre ++ [n]) m st (by rw [hT]; simp) (by omega)
    simp only [List.head?_cons, Option.getD_some] at hnext
    rw [rb_walk]
    simp [hn0, hnext, hrec]

/-- The full traversal visits exactly the nodes of the tree, in sort order. -/
theorem rb_traverse_spec {h : Heap} (T : Tree) (fuel : Nat) (hrep : Rep h T)
    (hfuel : T.size < fuel) : rb_traverse fuel h = some T.inorder := by
  unfold rb_traverse rb_first
  by_cases hne : T = .nil
  · subst hne
    have : h.rb_node = 0 := hrep.1
    obtain ⟨f, rfl⟩ : ∃ f, fuel = f + 1 := ⟨fuel - 1, by omega⟩
    simp [this, rb_walk, Tree.inorder]
  · have hroot := Rep_ptr_ne_zero hrep hne
    have hd := descend_left_head T [] fuel hrep hne (by omega)
    rw [← hrep.1] at hd
    simp only [hroot, if_false, hd]
    cases hl : T.inorder with
    | nil => exact absurd (nil_of_inorder hl) hne
    | cons x xs =>
      simp only [List.head?_cons, Option.getD_some]
      refine rb_walk_spec T fuel hrep hfuel xs [] x fuel (by simpa using hl) ?_
      have := size_eq_length T
      rw [hl] at this
      simp only [List.length_cons] at this
      omega

/-- C5. After `n` calls of `cfs_queue` with distinct tasks on a fresh
run-queue, the full traversal (`rb_first`, then `rb_next` until `NULL`) visits
exactly `n` nodes, each queued task exactly once; and after `n` calls of
`cfs_dequeue` the tree is empty (`root->rb_node` is `NULL`). -/
theorem cfs_traverse_count (s0 : cfs_state) (tasks : List (Nat × Nat)) (fuel : Nat)
    (h0 : ∀ p ∈ tasks, p.1 ≠ 0) (hnd : (tasks.map Prod.fst).Nodup)
    (hfuel : tasks.length < fuel) :
    ∃ s1 visited out s2, queue_all fuel tasks (cfs_rqinit s0) = some s1 ∧
      rb_traverse fuel s1.heap = some visited ∧ visited.length = tasks.length ∧
      visited.Nodup ∧ visited.Perm (tasks.map Prod.fst) ∧
      dequeue_n fuel tasks.length s1 = some (out, s2) ∧ s2.heap.rb_node = 0 := by
  obtain ⟨s1, T1, e1, hinv1, hp1, -, -⟩ := queue_all_spec fuel tasks (cfs_rqinit s0) .nil
    (Inv_init s0) h0 hnd (by simp [Tree.inorder]) (by simp [Tree.size]; omega)
  simp only [Tree.inorder, List.nil_append] at hp1
  have hsz : T1.size = tasks.length := by
    rw [size_eq_length, hp1.length_eq]; simp
  obtain ⟨s2, T2, e2, hinv2, hT2, -⟩ := dequeue_n_spec fuel tasks.length s1 T1 hinv1 (by omega)
    (by omega)
  have hT2nil : T2 = .nil := by
    apply nil_of_inorder
    rw [hT2, ← hsz, size_eq_length]; simp
  subst hT2nil
  refine ⟨s1, T1.inorder, _, s2, e1, rb_traverse_spec T1 fuel hinv1.1 (by omega), ?_,
    hinv1.1.2.2, hp1, e2, hinv2.1.1⟩
  rw [← size_eq_length, hsz]

/-! ## The occupancy bitmap -/

theorem lnot_lt (x : Nat) (hx : x < 2 ^ 64) : lnot x < 2 ^ 64 :=
  Nat.xor_lt_two_pow hx (by decide)

theorem testBit_lnot (x i : Nat) (hi : i < 64) : (lnot x).testBit i = !x.testBit i := by
  unfold lnot BITS_X_LONG
  rw [Nat.testBit_xor, Nat.testBit_two_pow_sub_one]
  simp [hi]

theorem test_bit_set_bit (nr k : Nat) (addr : Nat → Nat) :
    test_bit k (__set_bit nr addr) = (decide (k = nr) || test_bit k addr) := by
  unfold test_bit __set_bit BITS_X_LONG
  by_cases hw : k / 64 = nr / 64
  · rw [hw, upd_same, Nat.testBit_or, Nat.one_shiftLeft, Nat.testBit_two_pow]
    by_cases hb : nr % 64 = k % 64
    · have : k = nr := by omega
      simp [hb, this]
    · have : k ≠ nr := by omega
      simp [hb, this]
  · have : k ≠ nr := fun e => hw (by rw [e])
    simp [upd, hw, this]

theorem test_bit_clear_bit (nr k : Nat) (addr : Nat → Nat) :
    test_bit k (__clear_bit nr addr) = (decide (k ≠ nr) && test_bit k addr) := by
  unfold test_bit __clear_bit BITS_X_LONG
  by_cases hw : k / 64 = nr / 64
  · rw [hw, upd_same, Nat.testBit_and, testBit_lnot _ _ (Nat.mod_lt _ (by decide)),
      Nat.one_shiftLeft, Nat.testBit_two_pow]
    by_cases hb : nr % 64 = k % 64
    · have : k = nr := by omega
      simp [hb, this]
    · have : k ≠ nr := by omega
      simp [hb, this]
  · have : k ≠ nr := fun e => hw (by rw [e])
    simp [upd, hw, this]

theorem set_bit_lt (nr : Nat) (addr : Nat → Nat) (h : ∀ w, addr w < 2 ^ 64) :
    ∀ w, __set_bit nr addr w < 2 ^ 64 := by
  intro w
  unfold __set_bit upd BITS_X_LONG
  split_ifs
  · refine Nat.or_lt_two_pow (h _) ?_
    rw [Nat.one_shiftLeft]
    exact Nat.pow_lt_pow_right (by decide) (Nat.mod_lt _ (by decide))
  · exact h w

theorem clear_bit_lt (nr : Nat) (addr : Nat → Nat) (h : ∀ w, addr w < 2 ^ 64) :
    ∀ w, __clear_bit nr addr w < 2 ^ 64 := by
  intro w
  unfold __clear_bit upd
  split_ifs
  · exact lt_of_le_of_lt Nat.and_le_left (h _)
  · exact h w

/-- The bit search finds the first set bit at or after `i`, if there is one
among the next `n` bits. -/
theorem ffs_from_spec (w : Nat) : ∀ (n i : Nat), (∃ j, i ≤ j ∧ j < i + n ∧ w.testBit j) →
    w.testBit (ffs_from w n i) ∧ i ≤ ffs_from w n i ∧ ffs_from w n i < i + n ∧
    ∀ j, i ≤ j → j < ffs_from w n i → w.testBit j = false := by
  intro n
  induction n with
  | zero => rintro i ⟨j, h1, h2, -⟩; omega
  | succ n ih =>
    rintro i ⟨j, h1, h2, h3⟩
    by_cases hi : w.testBit i
    · have e : ffs_from w (n + 1) i = i := by simp [ffs_from, hi]
      rw [e]
      exact ⟨hi, le_refl _, by omega, fun j hj1 hj2 => by omega⟩
    · have e : ffs_from w (n + 1) i = ffs_from w n (i + 1) := by simp [ffs_from, hi]
      rw [e]
      have hji : j ≠ i := fun e => hi (e ▸ h3)
      obtain ⟨r1, r2, r3, r4⟩ := ih (i + 1) ⟨j, by omega, by omega, h3⟩
      refine ⟨r1, by omega, by omega, ?_⟩
      intro j' hj1 hj2
      by_cases e : j' = i
      · subst e; simpa using hi
      · exact r4 j' (by omega) hj2

/-- Holds `__ffs` of a non-zero 64-bit word is the index of its lowest set bit. -/
theorem ffs_spec (w : Nat) (h0 : w ≠ 0) (hw : w < 2 ^ 64) :
    w.testBit (__ffs w) ∧ __ffs w < 64 ∧ ∀ j, j < __ffs w → w.testBit j = false := by
  obtain ⟨j, hj⟩ := Nat.ne_zero_implies_bit_true h0
  have hj64 : j < 64 := by
    by_contra hc
    have := Nat.testBit_implies_ge hj
    have : 2 ^ 64 ≤ 2 ^ j := Nat.pow_le_pow_right (by decide) (by omega)
    omega
  obtain ⟨r1, -, r3, r4⟩ := ffs_from_spec w 64 0 ⟨j, by omega, by omega, hj⟩
  exact ⟨r1, by simpa using r3, fun j' hj' => r4 j' (by omega) hj'⟩

/-- What the loop of `rel_ffs` yields: the first of the `n` words it scans
(`map[i]` under `mask`, then the following words, wrapping, in full) that is not
`0` gives the result; `MAX_RQ` if all are `0`. -/
theorem rel_ffs_loop_char (s : tr_state) : ∀ (n i mask : Nat), i < 4 →
    (∃ m, m < n ∧ s.map ((i + m) % 4) &&& (if m = 0 then mask else lnot 0) ≠ 0 ∧
      (∀ m', m' < m → s.map ((i + m') % 4) &&& (if m' = 0 then mask else lnot 0) = 0) ∧
      rel_ffs_loop s n i mask = ((i + m) % 4) * 64 +
        __ffs (s.map ((i + m) % 4) &&& (if m = 0 then mask else lnot 0))) ∨
    ((∀ m, m < n → s.map ((i + m) % 4) &&& (if m = 0 then mask else lnot 0) = 0) ∧
      rel_ffs_loop s n i mask = 256) := by
  intro n
  induction n with
  | zero => intro i mask _; right; exact ⟨fun m hm => by omega, rfl⟩
  | succ n ih =>
    intro i mask hi
    have hi0 : (i + 0) % 4 = i := by omega
    have hi1 : i % 4 = i := by omega
    by_cases hv : s.map i &&& mask ≠ 0
    · left
      refine ⟨0, by omega, by simpa [hi1] using hv, fun m' hm' => by omega, ?_⟩
      simp [rel_ffs_loop, hv, BITS_X_LONG, hi1]
    · have hv0 : s.map i &&& mask = 0 := by simpa using hv
      have hstep : rel_ffs_loop s (n + 1) i mask = rel_ffs_loop s n ((i + 1) % 4) (lnot 0) := by
        simp [rel_ffs_loop, hv0, MAP_LONGS, MAX_RQ, BITS_X_LONG]
      have hidx : ∀ m, ((i + 1) % 4 + m) % 4 = (i + (m + 1)) % 4 := fun m => by omega
      have hmask : ∀ m, (if m = 0 then lnot 0 else lnot 0) = (if m + 1 = 0 then mask else lnot 0) :=
        fun m => by simp
      rcases ih ((i + 1) % 4) (lnot 0) (by omega) with ⟨m, h1, h2, h3, h4⟩ | ⟨h1, h2⟩
      · left
        refine ⟨m + 1, by omega, ?_, ?_, ?_⟩
        · rw [hidx, hmask] at h2; exact h2
        · intro m' hm'
          cases m' with
          | zero => simpa [hi1] using hv0
          | succ m'' =>
            have := h3 m'' (by omega)
            rw [hidx, hmask] at this; exact this
        · rw [hstep, h4, hidx, hmask]
      · right
        refine ⟨?_, hstep.trans h2⟩
        intro m' hm'
        cases m' with
        | zero => simpa [hi1] using hv0
        | succ m'' =>
          have := h1 m'' (by omega)
          rw [hidx, hmask] at this; exact this

theorem and_eq_zero_testBit {x y : Nat} (h : x &&& y = 0) (k : Nat) :
    (x.testBit k && y.testBit k) = false := by
  rw [← Nat.testBit_and, h]; simp

theorem testBit_first_mask (b k : Nat) (hk : k < 64) :
    (lnot ((1 <<< b) - 1)).testBit k = decide (b ≤ k) := by
  rw [testBit_lnot _ _ hk, Nat.one_shiftLeft, Nat.testBit_two_pow_sub_one]
  by_cases h : k < b <;> simp [h]
  omega

theorem testBit_full_mask (k : Nat) (hk : k < 64) : (lnot 0).testBit k = true := by
  rw [testBit_lnot _ _ hk]; simp

theorem testBit_mask (b m k : Nat) (hk : k < 64) :
    (if m = 0 then lnot ((1 <<< b) - 1) else lnot 0).testBit k = decide (m = 0 → b ≤ k) := by
  by_cases hm : m = 0
  · simp [hm, testBit_first_mask b k hk]
  · simp [hm, testBit_full_mask k hk]

theorem and_mask_lt (x : Nat) (hx : x < 2 ^ 64) (mask : Nat) : x &&& mask < 2 ^ 64 :=
  lt_of_le_of_lt Nat.and_le_left hx

/-! ## The slot lists -/

@[simp] theorem lupd_same (f : lptr → lptr) (a v : lptr) : lupd f a v a = v := by
  simp [lupd]

theorem lupd_of_ne (f : lptr → lptr) {a x : lptr} (v : lptr) (hx : x ≠ a) :
    lupd f a v x = f x := by
  simp [lupd, hx]

theorem Chain_congr {s s' : tr_state} : ∀ (l : List Nat) (p e : lptr),
    s'.next p = s.next p → (∀ a ∈ l, s'.next (.task a) = s.next (.task a)) →
    (∀ a ∈ l, s'.prev (.task a) = s.prev (.task a)) → s'.prev e = s.prev e →
    Chain s p l e → Chain s' p l e := by
  intro l
  induction l with
  | nil => intro p e h1 _ _ h4 hc; exact ⟨h1.trans hc.1, h4.trans hc.2⟩
  | cons a l ih =>
    intro p e h1 h2 h3 h4 hc
    obtain ⟨c1, c2, c3⟩ := hc
    refine ⟨h1.trans c1, (h3 a (by simp)).trans c2, ?_⟩
    exact ih (.task a) e (h2 a (by simp)) (fun x hx => h2 x (by simp [hx]))
      (fun x hx => h3 x (by simp [hx])) h4 c3

theorem Chain_prev {s : tr_state} : ∀ (l : List Nat) (p e : lptr),
    Chain s p l e → s.prev e = lastPtr p l := by
  intro l
  induction l with
  | nil => intro p e hc; exact hc.2
  | cons a l ih => intro p e hc; exact ih (.task a) e hc.2.2

theorem lastPtr_cases (p : lptr) (l : List Nat) :
    lastPtr p l = p ∧ l = [] ∨ ∃ a ∈ l, lastPtr p l = .task a := by
  induction l generalizing p with
  | nil => left; exact ⟨rfl, rfl⟩
  | cons a l ih =>
    right
    rcases ih (.task a) with ⟨h1, h2⟩ | ⟨b, hb, h⟩
    · exact ⟨a, by simp, h1⟩
    · exact ⟨b, by simp [hb], h⟩

/-- Holds `list_add_tail` appends the new task to the list of its slot. -/
theorem Chain_add_tail {s : tr_state} (new i : Nat) : ∀ (l : List Nat) (p : lptr),
    Chain s p l (.head i) → p ≠ .task new → (∀ x ∈ l, p ≠ .task x) → new ∉ l → l.Nodup →
    ∀ s' : tr_state,
    s'.next = lupd (lupd s.next (.task new) (.head i)) (lastPtr p l) (.task new) →
    s'.prev = lupd (lupd s.prev (.head i) (.task new)) (.task new) (lastPtr p l) →
    Chain s' p (l ++ [new]) (.head i) := by
  intro l
  induction l with
  | nil =>
    intro p hc hp _ _ _ s' hn hpv
    simp only [lastPtr] at hn hpv
    refine ⟨by rw [hn]; simp, by rw [hpv]; simp, ?_, ?_⟩
    · rw [hn, lupd_of_ne _ _ (Ne.symm hp)]; simp
    · rw [hpv, lupd_of_ne _ _ (by simp)]; simp
  | cons a l ih =>
    intro p hc hp hpl hnew hnd s' hn hpv
    obtain ⟨c1, c2, c3⟩ := hc
    simp only [List.mem_cons, not_or] at hnew
    simp only [List.nodup_cons] at hnd
    simp only [lastPtr] at hn hpv
    have hlast : lastPtr (.task a) l ≠ p := by
      rcases lastPtr_cases (.task a) l with ⟨h1, -⟩ | ⟨b, hb, h⟩
      · rw [h1]; exact Ne.symm (hpl a (by simp))
      · rw [h]; exact Ne.symm (hpl b (by simp [hb]))
    refine ⟨?_, ?_, ?_⟩
    · rw [hn, lupd_of_ne _ _ (Ne.symm hlast), lupd_of_ne _ _ hp]; exact c1
    · rw [hpv, lupd_of_ne _ _ (by simpa using Ne.symm hnew.1), lupd_of_ne _ _ (by simp)]; exact c2
    · exact ih (.task a) c3 (by simpa using Ne.symm hnew.1)
        (fun x hx e => hnd.1 (by cases e; exact hx)) hnew.2 hnd.2 s' hn hpv

/-- Holds `list_del` of the first task of a slot list leaves the rest of the list. -/
theorem Chain_del_first {s : tr_state} (i a : Nat) (l : List Nat)
    (hc : Chain s (.head i) (a :: l) (.head i)) (hnd : (a :: l).Nodup) :
    Chain (list_del (.task a) s) (.head i) l (.head i) := by
  obtain ⟨c1, c2, c3⟩ := hc
  simp only [List.nodup_cons] at hnd
  have hnext : (list_del (.task a) s).next =
      lupd (lupd s.next (.head i) (s.next (.task a))) (.task a) .null := by
    simp [list_del, __list_del, c2]
  have hprev : (list_del (.task a) s).prev =
      lupd (lupd s.prev (s.next (.task a)) (.head i)) (.task a) .null := by
    simp [list_del, __list_del, c2]
  cases l with
  | nil =>
    obtain ⟨d1, d2⟩ := c3
    refine ⟨?_, ?_⟩
    · rw [hnext, lupd_of_ne _ _ (by simp), lupd_same, d1]
    · rw [hprev, lupd_of_ne _ _ (by simp), d1, lupd_same]
  | cons b l =>
    obtain ⟨d1, d2, d3⟩ := c3
    simp only [List.mem_cons, not_or, List.nodup_cons] at hnd
    obtain ⟨⟨hab, hal⟩, hbl, hl⟩ := hnd
    refine ⟨?_, ?_, ?_⟩
    · rw [hnext, lupd_of_ne _ _ (by simp), lupd_same, d1]
    · rw [hprev, lupd_of_ne _ _ (by simpa using Ne.symm hab), d1, lupd_same]
    · refine Chain_congr l (.task b) (.head i) ?_ ?_ ?_ ?_ d3
      · rw [hnext, lupd_of_ne _ _ (by simpa using Ne.symm hab), lupd_of_ne _ _ (by simp)]
      · intro x hx
        have hxa : x ≠ a := fun e => hal (e ▸ hx)
        rw [hnext, lupd_of_ne _ _ (by simpa using hxa), lupd_of_ne _ _ (by simp)]
      · intro x hx
        have hxa : x ≠ a := fun e => hal (e ▸ hx)
        have hxb : x ≠ b := fun e => hbl (e ▸ hx)
        rw [hprev, lupd_of_ne _ _ (by simpa using hxa), d1,
          lupd_of_ne _ _ (by simpa using hxb)]
      · rw [hprev, lupd_of_ne _ _ (by simp), d1, lupd_of_ne _ _ (by simp)]

/-- The stores of `list_del` on the first task of slot `i` do not touch the
list of another slot. -/
theorem Chain_del_other {s : tr_state} (i j a : Nat) (l lj : List Nat) (hij : j ≠ i)
    (hc : Chain s (.head i) (a :: l) (.head i))
    (hj : Chain s (.head j) lj (.head j)) (hd : List.Disjoint lj (a :: l)) :
    Chain (list_del (.task a) s) (.head j) lj (.head j) := by
  obtain ⟨c1, c2, c3⟩ := hc
  have hnext : (list_del (.task a) s).next =
      lupd (lupd s.next (.head i) (s.next (.task a))) (.task a) .null := by
    simp [list_del, __list_del, c2]
  have hprev : (list_del (.task a) s).prev =
      lupd (lupd s.prev (s.next (.task a)) (.head i)) (.task a) .null := by
    simp [list_del, __list_del, c2]
  have hn : s.next (.task a) = .head i ∨ ∃ b ∈ l, s.next (.task a) = .task b := by
    cases l with
    | nil => exact Or.inl c3.1
    | cons b l => exact Or.inr ⟨b, by simp, c3.1⟩
  have hna : ∀ x ∈ lj, x ≠ a := fun x hx e => hd hx (by simp [e])
  have hnn : ∀ x ∈ lj, lptr.task x ≠ s.next (.task a) := by
    intro x hx e
    rcases hn with h | ⟨b, hb, h⟩
    · rw [h] at e; cases e
    · rw [h] at e; cases e; exact hd hx (by simp [hb])
  have hhn : lptr.head j ≠ s.next (.task a) := by
    intro e
    rcases hn with h | ⟨b, hb, h⟩
    · rw [h] at e; cases e; exact hij rfl
    · rw [h] at e; cases e
  refine Chain_congr lj (.head j) (.head j) ?_ ?_ ?_ ?_ hj
  · rw [hnext, lupd_of_ne _ _ (by simp), lupd_of_ne _ _ (by simpa using hij)]
  · intro x hx
    rw [hnext, lupd_of_ne _ _ (by simpa using hna x hx), lupd_of_ne _ _ (by simp)]
  · intro x hx
    rw [hprev, lupd_of_ne _ _ (by simpa using hna x hx), lupd_of_ne _ _ (hnn x hx)]
  · rw [hprev, lupd_of_ne _ _ (by simp), lupd_of_ne _ _ hhn]

theorem list_add_tail_next (new i : Nat) (s : tr_state) :
    (list_add_tail (.task new) (.head i) s).next =
      lupd (lupd s.next (.task new) (.head i)) (s.prev (.head i)) (.task new) := rfl

theorem list_add_tail_prev (new i : Nat) (s : tr_state) :
    (list_add_tail (.task new) (.head i) s).prev =
      lupd (lupd s.prev (.head i) (.task new)) (.task new) (s.prev (.head i)) := rfl

/-- The stores of `list_add_tail` into slot `i` do not touch the list of
another slot. -/
theorem Chain_add_other {s : tr_state} (i j new : Nat) (l lj : List Nat) (hij : j ≠ i)
    (hc : Chain s (.head i) l (.head i))
    (hj : Chain s (.head j) lj (.head j)) (hd : List.Disjoint lj l) (hnew : new ∉ lj) :
    Chain (list_add_tail (.task new) (.head i) s) (.head j) lj (.head j) := by
  have hP := Chain_prev l (.head i) (.head i) hc
  have hna : ∀ x ∈ lj, x ≠ new := fun x hx e => hnew (e ▸ hx)
  have hnP : ∀ x ∈ lj, lptr.task x ≠ s.prev (.head i) := by
    intro x hx e
    rw [hP] at e
    rcases lastPtr_cases (.head i) l with ⟨h1, -⟩ | ⟨b, hb, h⟩
    · rw [h1] at e; cases e
    · rw [h] at e; cases e; exact hd hx hb
  have hhP : lptr.head j ≠ s.prev (.head i) := by
    intro e
    rw [hP] at e
    rcases lastPtr_cases (.head i) l with ⟨h1, -⟩ | ⟨b, hb, h⟩
    · rw [h1] at e; cases e; exact hij rfl
    · rw [h] at e; cases e
  refine Chain_congr lj (.head j) (.head j) ?_ ?_ ?_ ?_ hj
  · rw [list_add_tail_next, lupd_of_ne _ _ hhP, lupd_of_ne _ _ (by simp)]
  · intro x hx
    rw [list_add_tail_next, lupd_of_ne _ _ (hnP x hx), lupd_of_ne _ _ (by simpa using hna x hx)]
  · intro x hx
    rw [list_add_tail_prev, lupd_of_ne _ _ (by simpa using hna x hx), lupd_of_ne _ _ (by simp)]
  · rw [list_add_tail_prev, lupd_of_ne _ _ (by simp), lupd_of_ne _ _ (by simpa using hij)]

/-- Holds `list_add_tail` appends the new task to the list of its slot. -/
theorem Chain_add_tail' {s : tr_state} (new i : Nat) (l : List Nat)
    (hc : Chain s (.head i) l (.head i)) (hnew : new ∉ l) (hnd : l.Nodup) :
    Chain (list_add_tail (.task new) (.head i) s) (.head i) (l ++ [new]) (.head i) := by
  have hP := Chain_prev l (.head i) (.head i) hc
  exact Chain_add_tail new i l (.head i) hc (by simp) (fun x _ => by simp) hnew hnd _
    (by rw [list_add_tail_next, hP]) (by rw [list_add_tail_prev, hP])

/-- A slot list is empty, as `list_empty` sees it, exactly when it holds no task. -/
theorem list_empty_iff {s : tr_state} (i : Nat) (l : List Nat)
    (hc : Chain s (.head i) l (.head i)) : list_empty (.head i) s ↔ l = [] := by
  unfold list_empty
  cases l with
  | nil => simp [hc.1]
  | cons a l => simp [hc.1]

theorem rel_ffs_eq (s : tr_state) :
    rel_ffs s = rel_ffs_loop s 4 (s.ibase / 64) (lnot ((1 <<< (s.ibase % 64)) - 1)) := rfl

/-- Holds `rel_ffs` yields `MAX_RQ` or the index of a set bit. -/
theorem rel_ffs_sound (s : tr_state) (hib : s.ibase < MAX_RQ)
    (hw : ∀ w, w < MAP_LONGS → s.map w < 2 ^ 64) :
    rel_ffs s = MAX_RQ ∨ (rel_ffs s < MAX_RQ ∧ test_bit (rel_ffs s) s.map = true) := by
  simp only [MAX_RQ, MAP_LONGS, BITS_X_LONG] at hib hw ⊢
  norm_num at hw
  rw [rel_ffs_eq]
  rcases rel_ffs_loop_char s 4 (s.ibase / 64) (lnot ((1 <<< (s.ibase % 64)) - 1)) (by omega)
    with ⟨m, h1, h2, -, h4⟩ | ⟨-, h2⟩
  · right
    have hlt := and_mask_lt (s.map ((s.ibase / 64 + m) % 4)) (hw _ (by omega))
      (if m = 0 then lnot ((1 <<< (s.ibase % 64)) - 1) else lnot 0)
    obtain ⟨f1, f2, -⟩ := ffs_spec _ h2 hlt
    rw [Nat.testBit_and] at f1
    simp only [Bool.and_eq_true] at f1
    rw [h4]
    refine ⟨by omega, ?_⟩
    unfold test_bit BITS_X_LONG
    have e1 : ((s.ibase / 64 + m) % 4 * 64 + __ffs (s.map ((s.ibase / 64 + m) % 4) &&&
        if m = 0 then lnot ((1 <<< (s.ibase % 64)) - 1) else lnot 0)) / 64 =
        (s.ibase / 64 + m) % 4 := by omega
    have e2 : ((s.ibase / 64 + m) % 4 * 64 + __ffs (s.map ((s.ibase / 64 + m) % 4) &&&
        if m = 0 then lnot ((1 <<< (s.ibase % 64)) - 1) else lnot 0)) % 64 =
        __ffs (s.map ((s.ibase / 64 + m) % 4) &&&
        if m = 0 then lnot ((1 <<< (s.ibase % 64)) - 1) else lnot 0) := by omega
    rw [e1, e2]
    exact f1.1
  · left; exact h2

theorem set_bit_lt' (nr : Nat) (addr : Nat → Nat) (h : ∀ w, w < MAP_LONGS → addr w < 2 ^ 64)
    (_hnr : nr < MAX_RQ) : ∀ w, w < MAP_LONGS → __set_bit nr addr w < 2 ^ 64 := by
  intro w hw
  unfold __set_bit upd BITS_X_LONG
  simp only [MAX_RQ, MAP_LONGS, BITS_X_LONG] at hw h
  norm_num at hw h
  split_ifs
  · refine Nat.or_lt_two_pow (h _ (by omega)) ?_
    rw [Nat.one_shiftLeft]
    exact Nat.pow_lt_pow_right (by decide) (Nat.mod_lt _ (by decide))
  · exact h w hw

theorem clear_bit_lt' (nr : Nat) (addr : Nat → Nat) (h : ∀ w, w < MAP_LONGS → addr w < 2 ^ 64)
    (_hnr : nr < MAX_RQ) : ∀ w, w < MAP_LONGS → __clear_bit nr addr w < 2 ^ 64 := by
  intro w hw
  unfold __clear_bit upd BITS_X_LONG
  simp only [MAX_RQ, MAP_LONGS, BITS_X_LONG] at hw h
  norm_num at hw h
  split_ifs
  · exact lt_of_le_of_lt Nat.and_le_left (h _ (by omega))
  · exact h w hw

theorem Chain_ext {s s' : tr_state} (hn : s'.next = s.next) (hp : s'.prev = s.prev)
    (l : List Nat) (p e : lptr) (hc : Chain s p l e) : Chain s' p l e :=
  Chain_congr l p e (by rw [hn]) (fun _ _ => by rw [hn]) (fun _ _ => by rw [hp]) (by rw [hp]) hc

/-- The initialisation loop makes the slot heads `i .. i+n-1` empty lists. -/
theorem tr_rqinit_loop_spec : ∀ (n i : Nat) (s : tr_state),
    (∀ j, (tr_rqinit_loop n i s).next (.head j) =
      if i ≤ j ∧ j < i + n then .head j else s.next (.head j)) ∧
    (∀ j, (tr_rqinit_loop n i s).prev (.head j) =
      if i ≤ j ∧ j < i + n then .head j else s.prev (.head j)) ∧
    (tr_rqinit_loop n i s).ibase = s.ibase ∧ (tr_rqinit_loop n i s).tbase = s.tbase ∧
    (tr_rqinit_loop n i s).map = s.map ∧ (tr_rqinit_loop n i s).t = s.t := by
  intro n
  induction n with
  | zero =>
    intro i s
    refine ⟨fun j => ?_, fun j => ?_, rfl, rfl, rfl, rfl⟩
    · have : ¬ (i ≤ j ∧ j < i + 0) := by omega
      simp only [tr_rqinit_loop, this, if_false]
    · have : ¬ (i ≤ j ∧ j < i + 0) := by omega
      simp only [tr_rqinit_loop, this, if_false]
  | succ n ih =>
    intro i s
    obtain ⟨h1, h2, h3, h4, h5, h6⟩ := ih (i + 1) (INIT_LIST_HEAD (.head i) s)
    simp only [tr_rqinit_loop]
    refine ⟨fun j => ?_, fun j => ?_, h3, h4, h5, h6⟩
    · rw [h1 j]
      by_cases hj : j = i
      · subst hj; simp [INIT_LIST_HEAD]
      · have e1 : (i + 1 ≤ j ∧ j < i + 1 + n) ↔ (i ≤ j ∧ j < i + (n + 1)) := by omega
        simp only [e1]
        split_ifs
        · rfl
        · simp [INIT_LIST_HEAD, lupd, hj]
    · rw [h2 j]
      by_cases hj : j = i
      · subst hj; simp [INIT_LIST_HEAD]
      · have e1 : (i + 1 ≤ j ∧ j < i + 1 + n) ↔ (i ≤ j ∧ j < i + (n + 1)) := by omega
        simp only [e1]
        split_ifs
        · rfl
        · simp [INIT_LIST_HEAD, lupd, hj]

theorem test_bit_zero_map (i : Nat) (m : Nat → Nat) (hi : i < MAX_RQ) :
    test_bit i (fun w => if w < MAP_LONGS then 0 else m w) = false := by
  unfold test_bit
  simp only [MAX_RQ, MAP_LONGS, BITS_X_LONG] at hi ⊢
  have : i / 64 < 256 / 64 := by omega
  simp [this]

theorem TrInv_init_aux (X : tr_state) (t0 : Nat → Nat) (ht : ∀ a, t0 a < 2 ^ 64)
    (h1 : ∀ j, j < MAX_RQ → X.next (.head j) = .head j)
    (h2 : ∀ j, j < MAX_RQ → X.prev (.head j) = .head j)
    (h3 : X.ibase = 0) (h4 : X.tbase = 0) (h6 : X.t = t0) :
    TrInv { X with map := fun i => if i < MAP_LONGS then 0 else X.map i } (fun _ => []) := by
  refine ⟨?_, ?_, ?_, ?_, ?_, ?_, fun _ => List.nodup_nil, fun _ _ _ => by simp, fun _ _ => rfl⟩
  · show X.ibase < MAX_RQ; rw [h3]; decide
  · show X.tbase < 2 ^ 64; rw [h4]; decide
  · intro a; show X.t a < 2 ^ 64; rw [h6]; exact ht a
  · intro w hw; show (if w < MAP_LONGS then 0 else X.map w) < 2 ^ 64
    simp only [hw, if_true]; decide
  · intro i hi
    exact ⟨h1 i hi, h2 i hi⟩
  · intro i hi
    simp only [ne_eq, not_true_eq_false, iff_false, Bool.not_eq_true]
    exact test_bit_zero_map i _ hi

/-- Holds `tr_rqinit` establishes the invariant, with every slot empty. -/
theorem TrInv_init (s0 : tr_state) (ht : ∀ a, s0.t a < 2 ^ 64) :
    TrInv (tr_rqinit s0) (fun _ => []) := by
  obtain ⟨h1, h2, h3, h4, h5, h6⟩ := tr_rqinit_loop_spec MAX_RQ 0
    { { s0 with ibase := 0 } with tbase := 0 }
  generalize hX : tr_rqinit_loop MAX_RQ 0 { { s0 with ibase := 0 } with tbase := 0 } = X
    at h1 h2 h3 h4 h5 h6
  have e : tr_rqinit s0 = { X with map := fun i => if i < MAP_LONGS then 0 else X.map i } := by
    unfold tr_rqinit
    rw [← hX]
  rw [e]
  refine TrInv_init_aux X s0.t ht (fun j hj => ?_) (fun j hj => ?_) h3 h4 h6
  · have hc : (0 ≤ j ∧ j < 0 + MAX_RQ) := ⟨Nat.zero_le _, by omega⟩
    rw [h1 j, if_pos hc]
  · have hc : (0 ≤ j ∧ j < 0 + MAX_RQ) := ⟨Nat.zero_le _, by omega⟩
    rw [h2 j, if_pos hc]

theorem tr_queue_ibase (tsk t : Nat) (s : tr_state) : (tr_queue tsk t s).ibase = s.ibase := by
  unfold tr_queue; split_ifs <;> rfl

theorem tr_queue_tbase (tsk t : Nat) (s : tr_state) :
    (tr_queue tsk t s).tbase = if s.tbase = 0 then s.t tsk else s.tbase := by
  unfold tr_queue; split_ifs <;> rfl

theorem tr_queue_t (tsk t : Nat) (s : tr_state) : (tr_queue tsk t s).t = upd s.t tsk t := by
  unfold tr_queue; split_ifs <;> rfl

theorem tr_queue_map (tsk t : Nat) (s : tr_state) :
    (tr_queue tsk t s).map = __set_bit (tr_queue_idx tsk t s) s.map := by
  unfold tr_queue tr_queue_idx; split_ifs <;> rfl

theorem tr_queue_next (tsk t : Nat) (s : tr_state) :
    (tr_queue tsk t s).next =
      (list_add_tail (.task tsk) (.head (tr_queue_idx tsk t s)) s).next := by
  unfold tr_queue tr_queue_idx; split_ifs <;> rfl

theorem tr_queue_prev (tsk t : Nat) (s : tr_state) :
    (tr_queue tsk t s).prev =
      (list_add_tail (.task tsk) (.head (tr_queue_idx tsk t s)) s).prev := by
  unfold tr_queue tr_queue_idx; split_ifs <;> rfl

theorem tr_queue_idx_lt (tsk t : Nat) (s : tr_state) : tr_queue_idx tsk t s < MAX_RQ := by
  unfold tr_queue_idx
  exact Nat.and_lt_two_pow _ (by decide : RQ_MASK < 2 ^ 8)

/-- Holds `tr_queue` keeps the invariant and appends the task to the list of its slot. -/
theorem tr_queue_spec (s : tr_state) (L : Nat → List Nat) (tsk key : Nat)
    (hI : TrInv s L) (hn : ∀ i, tsk ∉ L i) (hk : key < 2 ^ 64) :
    TrInv (tr_queue tsk key s)
      (fun j => if j = tr_queue_idx tsk key s then L j ++ [tsk] else L j) := by
  obtain ⟨i1, i2, i3, i4, i5, i6, i7, i8, i9⟩ := hI
  have hlt := tr_queue_idx_lt tsk key s
  generalize hidx : tr_queue_idx tsk key s = idx at hlt
  refine ⟨?_, ?_, ?_, ?_, ?_, ?_, ?_, ?_, ?_⟩
  · rw [tr_queue_ibase]; exact i1
  · rw [tr_queue_tbase]; split_ifs
    · exact i3 tsk
    · exact i2
  · intro a; rw [tr_queue_t]; unfold upd; split_ifs
    · exact hk
    · exact i3 a
  · rw [tr_queue_map, hidx]; exact set_bit_lt' idx s.map i4 hlt
  · intro i hi
    refine @Chain_ext (list_add_tail (.task tsk) (.head idx) s) _
      (by rw [tr_queue_next, hidx]) (by rw [tr_queue_prev, hidx]) _ _ _ ?_
    by_cases h : i = idx
    · subst h; simp only [if_true]
      exact Chain_add_tail' tsk i (L i) (i5 i hi) (hn i) (i7 i)
    · simp only [h, if_false]
      exact Chain_add_other idx i tsk (L idx) (L i) h (i5 idx hlt) (i5 i hi) (i8 i idx h) (hn i)
  · intro i hi
    rw [tr_queue_map, hidx, test_bit_set_bit]
    by_cases h : i = idx
    · simp [h]
    · simp [h, i6 i hi]
  · intro i
    by_cases h : i = idx
    · simp only [h, if_true]
      exact List.Nodup.append (i7 idx) (List.nodup_singleton _) (by simpa using hn idx)
    · simp only [h, if_false]; exact i7 i
  · intro i j hij
    by_cases h : i = idx <;> by_cases h' : j = idx
    · exact absurd (h.trans h'.symm) hij
    · simp only [h, h', if_true, if_false, List.disjoint_append_left, List.singleton_disjoint]
      exact ⟨i8 idx j (fun e => h' e.symm), hn j⟩
    · simp only [h, h', if_true, if_false, List.disjoint_append_right, List.disjoint_singleton]
      exact ⟨i8 i idx h, hn i⟩
    · simp only [h, h', if_false]; exact i8 i j hij
  · intro i hi
    have : i ≠ idx := by omega
    simp only [this, if_false]; exact i9 i hi

theorem tr_dequeue_null (s : tr_state) (h : rel_ffs s = MAX_RQ) :
    tr_dequeue s = (.null, { s with tbase := 0 }) := by
  unfold tr_dequeue; simp only [h, if_true]

theorem tr_dequeue_fst (s : tr_state) (h : rel_ffs s ≠ MAX_RQ) :
    (tr_dequeue s).1 = s.next (.head (rel_ffs s)) := by
  unfold tr_dequeue; simp only [h, if_false]

theorem tr_dequeue_ibase (s : tr_state) (h : rel_ffs s ≠ MAX_RQ) :
    (tr_dequeue s).2.ibase = rel_ffs s := by
  unfold tr_dequeue; simp only [h, if_false]

theorem tr_dequeue_t (s : tr_state) : (tr_dequeue s).2.t = s.t := by
  by_cases h : rel_ffs s = MAX_RQ
  · rw [tr_dequeue_null s h]
  · unfold tr_dequeue; simp only [h, if_false]; split_ifs <;> rfl

theorem tr_dequeue_tbase_lt (s : tr_state) : (tr_dequeue s).2.tbase < 2 ^ 64 := by
  by_cases h : rel_ffs s = MAX_RQ
  · rw [tr_dequeue_null s h]; show 0 < 2 ^ 64; decide
  · unfold tr_dequeue; simp only [h, if_false]
    exact Nat.mod_lt _ (by decide)

theorem tr_dequeue_next (s : tr_state) (h : rel_ffs s ≠ MAX_RQ) :
    (tr_dequeue s).2.next = (list_del (s.next (.head (rel_ffs s))) s).next := by
  unfold tr_dequeue; simp only [h, if_false]; split_ifs <;> rfl

theorem tr_dequeue_prev (s : tr_state) (h : rel_ffs s ≠ MAX_RQ) :
    (tr_dequeue s).2.prev = (list_del (s.next (.head (rel_ffs s))) s).prev := by
  unfold tr_dequeue; simp only [h, if_false]; split_ifs <;> rfl

theorem tr_dequeue_map (s : tr_state) (h : rel_ffs s ≠ MAX_RQ) :
    (tr_dequeue s).2.map =
      if list_empty (.head (rel_ffs s)) (list_del (s.next (.head (rel_ffs s))) s)
      then __clear_bit (rel_ffs s) s.map else s.map := by
  unfold tr_dequeue; simp only [h, if_false]; split_ifs <;> rfl

/-- Holds `tr_dequeue` keeps the invariant: it returns `NULL` and leaves the lists
alone, or it returns the first task of the slot that `rel_ffs` found. -/
theorem tr_dequeue_spec (s : tr_state) (L : Nat → List Nat) (hI : TrInv s L) :
    (rel_ffs s = MAX_RQ ∧ (tr_dequeue s).1 = .null ∧ TrInv (tr_dequeue s).2 L) ∨
    (∃ a l, rel_ffs s < MAX_RQ ∧ L (rel_ffs s) = a :: l ∧ (tr_dequeue s).1 = .task a ∧
      TrInv (tr_dequeue s).2 (fun j => if j = rel_ffs s then l else L j)) := by
  obtain ⟨i1, i2, i3, i4, i5, i6, i7, i8, i9⟩ := hI
  rcases rel_ffs_sound s i1 i4 with h | ⟨hlt, hbit⟩
  · left
    refine ⟨h, by rw [tr_dequeue_null s h], ?_⟩
    rw [tr_dequeue_null s h]
    exact ⟨i1, by show 0 < 2 ^ 64; decide, i3, i4,
      fun i hi => @Chain_ext s { s with tbase := 0 } rfl rfl _ _ _ (i5 i hi),
      i6, i7, i8, i9⟩
  · right
    have hne : rel_ffs s ≠ MAX_RQ := by omega
    generalize hidx : rel_ffs s = idx at hlt hbit hne
    have hL : L idx ≠ [] := (i6 idx hlt).1 hbit
    obtain ⟨a, l, hal⟩ := List.exists_cons_of_ne_nil hL
    have hc := i5 idx hlt
    rw [hal] at hc
    have hnx : s.next (.head idx) = .task a := hc.1
    have hnd : (a :: l).Nodup := hal ▸ i7 idx
    have hcl : Chain (list_del (.task a) s) (.head idx) l (.head idx) :=
      Chain_del_first idx a l hc hnd
    have hem := list_empty_iff idx l hcl
    have hmap : (tr_dequeue s).2.map =
        if l = [] then __clear_bit idx s.map else s.map := by
      rw [tr_dequeue_map s (by rw [hidx]; exact hne), hidx, hnx]
      by_cases hl : l = []
      · rw [if_pos (hem.2 hl), if_pos hl]
      · rw [if_neg (fun h => hl (hem.1 h)), if_neg hl]
    have hne' : rel_ffs s ≠ MAX_RQ := by rw [hidx]; exact hne
    refine ⟨a, l, hlt, hal, by rw [tr_dequeue_fst s hne', hidx, hnx], ?_, ?_, ?_, ?_, ?_, ?_,
      ?_, ?_, ?_⟩
    · rw [tr_dequeue_ibase s hne', hidx]; exact hlt
    · exact tr_dequeue_tbase_lt s
    · intro x; rw [tr_dequeue_t]; exact i3 x
    · rw [hmap]; split_ifs
      · exact clear_bit_lt' idx s.map i4 hlt
      · exact i4
    · intro i hi
      refine @Chain_ext (list_del (.task a) s) _
        (by rw [tr_dequeue_next s hne', hidx, hnx]) (by rw [tr_dequeue_prev s hne', hidx, hnx])
        _ _ _ ?_
      by_cases h : i = idx
      · subst h; simp only [if_true]; exact hcl
      · simp only [h, if_false]
        exact Chain_del_other idx i a l (L i) h hc (i5 i hi) (hal ▸ i8 i idx h)
    · intro i hi
      rw [hmap]
      by_cases h : i = idx
      · subst h
        by_cases hl : l = []
        · simp [hl, test_bit_clear_bit]
        · simp [hl, hbit]
      · by_cases hl : l = []
        · simp [hl, test_bit_clear_bit, h, i6 i hi]
        · simp [hl, h, i6 i hi]
    · intro i
      by_cases h : i = idx
      · simp only [h, if_true]; exact (List.nodup_cons.1 hnd).2
      · simp only [h, if_false]; exact i7 i
    · intro i j hij
      have sub : l ⊆ L idx := by rw [hal]; exact List.subset_cons_self a l
      by_cases h : i = idx <;> by_cases h' : j = idx
      · exact absurd (h.trans h'.symm) hij
      · simp only [h, h', if_true, if_false]
        exact List.disjoint_of_subset_left sub (i8 idx j (fun e => h' e.symm))
      · simp only [h, h', if_true, if_false]
        exact List.disjoint_of_subset_right sub (i8 i idx h)
      · simp only [h, h', if_false]; exact i8 i j hij
    · intro i hi
      have : i ≠ idx := by omega
      simp only [this, if_false]; exact i9 i hi

theorem mem_slots_queue (L : Nat → List Nat) (idx tsk : Nat) (Q : List Nat)
    (hm : ∀ a, a ∈ Q ↔ ∃ i, a ∈ L i) (a : Nat) :
    a ∈ tsk :: Q ↔ ∃ i, a ∈ (if i = idx then L i ++ [tsk] else L i) := by
  constructor
  · intro ha
    rcases List.mem_cons.1 ha with rfl | ha
    · exact ⟨idx, by simp⟩
    · obtain ⟨i, hi⟩ := (hm a).1 ha
      refine ⟨i, ?_⟩
      by_cases h : i = idx
      · simp only [h, if_true]; rw [← h]; exact List.mem_append_left _ hi
      · simp only [h, if_false]; exact hi
  · rintro ⟨i, hi⟩
    by_cases h : i = idx
    · simp only [h, if_true] at hi
      rcases List.mem_append.1 hi with hi | hi
      · exact List.mem_cons_of_mem _ ((hm a).2 ⟨_, hi⟩)
      · rw [List.mem_singleton.1 hi]; exact List.mem_cons_self _ _
    · simp only [h, if_false] at hi
      exact List.mem_cons_of_mem _ ((hm a).2 ⟨_, hi⟩)

theorem mem_slots_dequeue (L : Nat → List Nat) (idx a : Nat) (l Q : List Nat) (hnd : Q.Nodup)
    (hm : ∀ x, x ∈ Q ↔ ∃ i, x ∈ L i) (hal : L idx = a :: l) (hndl : (a :: l).Nodup)
    (i8 : ∀ i j, i ≠ j → List.Disjoint (L i) (L j)) (x : Nat) :
    x ∈ Q.erase a ↔ ∃ i, x ∈ (if i = idx then l else L i) := by
  rw [hnd.mem_erase_iff]
  constructor
  · rintro ⟨hxa, hx⟩
    obtain ⟨i, hi⟩ := (hm x).1 hx
    refine ⟨i, ?_⟩
    by_cases h : i = idx
    · simp only [h, if_true]
      rw [h, hal] at hi
      rcases List.mem_cons.1 hi with e | hi
      · exact absurd e hxa
      · exact hi
    · simp only [h, if_false]; exact hi
  · rintro ⟨i, hi⟩
    by_cases h : i = idx
    · simp only [h, if_true] at hi
      refine ⟨?_, (hm x).2 ⟨idx, by rw [hal]; exact List.mem_cons_of_mem _ hi⟩⟩
      rintro rfl
      exact (List.nodup_cons.1 hndl).1 hi
    · simp only [h, if_false] at hi
      refine ⟨?_, (hm x).2 ⟨i, hi⟩⟩
      rintro rfl
      exact i8 i idx h hi (by rw [hal]; exact List.mem_cons_self _ _)

/-- Every reachable state of the timed ring satisfies the invariant, and the
tasks in the slot lists are the queued ones. -/
theorem TrReach_inv {s : tr_state} {q : List Nat} (hr : TrReach s q) :
    ∃ L, TrInv s L ∧ q.Nodup ∧ ∀ a, a ∈ q ↔ ∃ i, a ∈ L i := by
  induction hr with
  | init s0 h0 => exact ⟨fun _ => [], TrInv_init s0 h0, List.nodup_nil, by simp⟩
  | @queue s q tsk key _ hq hk ih =>
    obtain ⟨L, hI, hnd, hm⟩ := ih
    have hn : ∀ i, tsk ∉ L i := fun i hi => hq ((hm tsk).2 ⟨i, hi⟩)
    exact ⟨_, tr_queue_spec s L tsk key hI hn hk, List.nodup_cons.2 ⟨hq, hnd⟩,
      mem_slots_queue L _ tsk q hm⟩
  | @dequeue s q _ ih =>
    obtain ⟨L, hI, hnd, hm⟩ := ih
    rcases tr_dequeue_spec s L hI with ⟨-, h1, h2⟩ | ⟨a, l, hlt, hal, h1, h2⟩
    · rw [h1]; exact ⟨L, h2, hnd, hm⟩
    · rw [h1]
      obtain ⟨i1, i2, i3, i4, i5, i6, i7, i8, i9⟩ := hI
      exact ⟨_, h2, hnd.erase a,
        mem_slots_dequeue L _ a l q hnd hm hal (hal ▸ i7 (rel_ffs s)) i8⟩

/-- C8. In every state of the timed ring reached from `tr_rqinit` by calls of
`tr_queue` and `tr_dequeue`, for every slot index `i < MAX_RQ`, bit `i` of
`rq->map` is set if and only if the list `rq->tsks[i]` is not empty. -/
theorem tr_bitmap_lists {s : tr_state} {q : List Nat} (hr : TrReach s q) (i : Nat)
    (hi : i < MAX_RQ) : test_bit i s.map = true ↔ ¬ list_empty (.head i) s := by
  obtain ⟨L, hI, -, -⟩ := TrReach_inv hr
  obtain ⟨-, -, -, -, i5, i6, -⟩ := hI
  rw [i6 i hi, list_empty_iff i (L i) (i5 i hi)]

theorem masked_bit (s : tr_state) (m j : Nat) (hj : s.ibase ≤ j)
    (hm : j / 64 = s.ibase / 64 + m) (h4 : s.ibase / 64 + m < 4) :
    (s.map ((s.ibase / 64 + m) % 4) &&&
      (if m = 0 then lnot ((1 <<< (s.ibase % 64)) - 1) else lnot 0)).testBit (j % 64) =
    test_bit j s.map := by
  rw [Nat.testBit_and, testBit_mask _ _ _ (Nat.mod_lt _ (by decide))]
  have e : (s.ibase / 64 + m) % 4 = j / 64 := by omega
  have hd : decide (m = 0 → s.ibase % 64 ≤ j % 64) = true := by
    simp only [decide_eq_true_eq]; intro h0; omega
  rw [hd, Bool.and_true, e]
  rfl

/-- When no bit below `ibase` is set, `rel_ffs` finds the lowest set bit of the map. -/
theorem rel_ffs_min (s : tr_state) (hib : s.ibase < MAX_RQ)
    (hw : ∀ w, w < MAP_LONGS → s.map w < 2 ^ 64)
    (hlow : ∀ j, j < s.ibase → test_bit j s.map = false) :
    (rel_ffs s = MAX_RQ ∧ ∀ j, j < MAX_RQ → test_bit j s.map = false) ∨
    (rel_ffs s < MAX_RQ ∧ test_bit (rel_ffs s) s.map = true ∧
      ∀ j, j < rel_ffs s → test_bit j s.map = false) := by
  simp only [MAX_RQ, MAP_LONGS, BITS_X_LONG] at hib hw ⊢
  norm_num at hw
  rw [rel_ffs_eq]
  rcases rel_ffs_loop_char s 4 (s.ibase / 64) (lnot ((1 <<< (s.ibase % 64)) - 1)) (by omega)
    with ⟨m, h1, h2, h3, h4⟩ | ⟨h1, h2⟩
  · right
    have hlt := and_mask_lt (s.map ((s.ibase / 64 + m) % 4)) (hw _ (by omega))
      (if m = 0 then lnot ((1 <<< (s.ibase % 64)) - 1) else lnot 0)
    obtain ⟨f1, f2, f3⟩ := ffs_spec _ h2 hlt
    generalize hf : __ffs (s.map ((s.ibase / 64 + m) % 4) &&&
        if m = 0 then lnot ((1 <<< (s.ibase % 64)) - 1) else lnot 0) = f at f1 f2 f3 h4
    have hwrap : s.ibase / 64 + m < 4 := by
      by_contra hc
      have hb : test_bit ((s.ibase / 64 + m) % 4 * 64 + f) s.map = false :=
        hlow _ (by omega)
      rw [Nat.testBit_and] at f1
      simp only [Bool.and_eq_true] at f1
      unfold test_bit BITS_X_LONG at hb
      have e1 : ((s.ibase / 64 + m) % 4 * 64 + f) / 64 = (s.ibase / 64 + m) % 4 := by omega
      have e2 : ((s.ibase / 64 + m) % 4 * 64 + f) % 64 = f := by omega
      rw [e1, e2, f1.1] at hb
      exact Bool.noConfusion hb
    have hmod : (s.ibase / 64 + m) % 4 = s.ibase / 64 + m := Nat.mod_eq_of_lt hwrap
    rw [h4, hmod]
    have hbitr : test_bit ((s.ibase / 64 + m) * 64 + f) s.map = true := by
      rw [Nat.testBit_and] at f1
      simp only [Bool.and_eq_true] at f1
      unfold test_bit BITS_X_LONG
      have e1 : ((s.ibase / 64 + m) * 64 + f) / 64 = s.ibase / 64 + m := by omega
      have e2 : ((s.ibase / 64 + m) * 64 + f) % 64 = f := by omega
      rw [e1, e2, ← hmod]
      exact f1.1
    refine ⟨by omega, hbitr, ?_⟩
    intro j hj
    by_cases hji : j < s.ibase
    · exact hlow j hji
    · have hm' : j / 64 = s.ibase / 64 + (j / 64 - s.ibase / 64) := by omega
      by_cases hlt' : j / 64 - s.ibase / 64 < m
      · rw [← masked_bit s (j / 64 - s.ibase / 64) j (by omega) hm' (by omega),
          h3 _ hlt']
        exact Nat.zero_testBit _
      · have em : j / 64 - s.ibase / 64 = m := by omega
        rw [← masked_bit s m j (by omega) (by omega) hwrap]
        exact f3 _ (by omega)
  · left
    refine ⟨h2, ?_⟩
    intro j hj
    by_cases hji : j < s.ibase
    · exact hlow j hji
    · have hm' : j / 64 = s.ibase / 64 + (j / 64 - s.ibase / 64) := by omega
      rw [← masked_bit s (j / 64 - s.ibase / 64) j (by omega) hm' (by omega),
        h1 _ (by omega)]
      exact Nat.zero_testBit _

theorem and_RQ_MASK (x : Nat) : x &&& RQ_MASK = x % 256 :=
  Nat.and_pow_two_sub_one_eq_mod x 8

/-- On a ring with `ibase = 0` and `tbase = 0`, a task with `t = 0` and a key
below the horizon goes to slot `key / NS_SLOT`. -/
theorem tr_queue_idx_fresh (tsk key : Nat) (s : tr_state) (hi : s.ibase = 0)
    (htb : s.tbase = 0) (ht : s.t tsk = 0) (hk : key < MAX_RQ * NS_SLOT) :
    tr_queue_idx tsk key s = key / NS_SLOT := by
  unfold tr_queue_idx
  simp only [htb, ht, hi, if_true, and_RQ_MASK]
  simp only [MAX_RQ, NS_SLOT] at hk ⊢
  have e1 : (key + 2 ^ 64 - 0) % 2 ^ 64 = key := by omega
  have e2 : key / (5 * 1000000) < 256 := by omega
  have e3 : key / (5 * 1000000) % 2 ^ 32 = key / (5 * 1000000) := by omega
  rw [e1, e3, if_neg (by omega)]
  omega

theorem tr_dequeue_n_succ (n : Nat) (s : tr_state) :
    (tr_dequeue_n (n + 1) s).1 = (tr_dequeue s).1 :: (tr_dequeue_n n (tr_dequeue s).2).1 := rfl

/-- Queueing fresh tasks with keys below the horizon into a ring whose
`ibase` and `tbase` are `0` files each task in slot `key / NS_SLOT`. -/
theorem tr_queue_all_spec : ∀ (tasks : List (Nat × Nat)) (s : tr_state) (L : Nat → List Nat)
    (Q : List Nat), TrInv s L → s.ibase = 0 → s.tbase = 0 → (∀ a, a ∉ Q → s.t a = 0) →
    (∀ a, a ∈ Q ↔ ∃ j, a ∈ L j) → Q.Nodup → (∀ j a, a ∈ L j → s.t a / NS_SLOT = j) →
    (tasks.map Prod.fst).Nodup → (∀ p ∈ tasks, p.1 ∉ Q) →
    (∀ p ∈ tasks, p.2 < MAX_RQ * NS_SLOT) →
    ∃ (L' : Nat → List Nat) (Q' : List Nat), TrInv (tr_queue_all tasks s) L' ∧ (tr_queue_all tasks s).ibase = 0 ∧
      Q'.Nodup ∧ Q'.Perm (Q ++ tasks.map Prod.fst) ∧ (∀ a, a ∈ Q' ↔ ∃ j, a ∈ L' j) ∧
      (∀ j a, a ∈ L' j → (tr_queue_all tasks s).t a / NS_SLOT = j) ∧
      (∀ p ∈ tasks, (tr_queue_all tasks s).t p.1 = p.2) ∧
      (∀ a ∈ Q, (tr_queue_all tasks s).t a = s.t a) ∧
      (∀ j, L' j = L j ++ (tasks.filter (fun p => p.2 / NS_SLOT = j)).map Prod.fst) := by
  intro tasks
  induction tasks with
  | nil =>
    intro s L Q hI hi _ _ hm hnd hs _ _ _
    exact ⟨L, Q, hI, hi, hnd, by simp, hm, hs, by simp, fun _ _ => rfl, by simp⟩
  | cons p rest ih =>
    obtain ⟨tsk, key⟩ := p
    intro s L Q hI hi htb hz hm hnd hs hnt hnq hk
    have hq : tsk ∉ Q := hnq (tsk, key) (List.mem_cons_self _ _)
    have hkey : key < MAX_RQ * NS_SLOT := hk (tsk, key) (List.mem_cons_self _ _)
    have hidx := tr_queue_idx_fresh tsk key s hi htb (hz tsk hq) hkey
    have hn : ∀ i, tsk ∉ L i := fun i h => hq ((hm tsk).2 ⟨i, h⟩)
    have hI1 := tr_queue_spec s L tsk key hI hn
      (lt_trans hkey (by simp only [MAX_RQ, NS_SLOT]; decide))
    simp only [List.map_cons, List.nodup_cons] at hnt
    obtain ⟨L', Q', c1, c2, c3, c4, c5, c6, c7, c8, c9⟩ := ih (tr_queue tsk key s) _ (tsk :: Q) hI1
      (by rw [tr_queue_ibase]; exact hi)
      (by rw [tr_queue_tbase, if_pos htb]; exact hz tsk hq)
      (by
        intro a ha
        simp only [List.mem_cons, not_or] at ha
        rw [tr_queue_t, upd_of_ne _ key ha.1]
        exact hz a ha.2)
      (mem_slots_queue L _ tsk Q hm)
      (List.nodup_cons.2 ⟨hq, hnd⟩)
      (by
        intro j a ha
        rw [tr_queue_t]
        by_cases hj : j = tr_queue_idx tsk key s
        · simp only [hj, if_true] at ha
          rcases List.mem_append.1 ha with ha | ha
          · have : a ≠ tsk := fun e => hn _ (e ▸ ha)
            rw [upd_of_ne _ key this, hj]; exact hs _ a ha
          · rw [List.mem_singleton.1 ha, upd_same, hj, hidx]
        · simp only [hj, if_false] at ha
          have : a ≠ tsk := fun e => hn _ (e ▸ ha)
          rw [upd_of_ne _ key this]; exact hs _ a ha)
      hnt.2
      (by
        intro p hp h
        rcases List.mem_cons.1 h with e | h
        · exact hnt.1 (e ▸ List.mem_map_of_mem Prod.fst hp)
        · exact hnq p (List.mem_cons_of_mem _ hp) h)
      (fun p hp => hk p (List.mem_cons_of_mem _ hp))
    refine ⟨L', Q', c1, c2, c3, ?_, c5, c6, ?_, ?_, ?_⟩
    · refine c4.trans ?_
      simp only [List.map_cons, List.cons_append]
      exact List.perm_middle.symm
    · intro p hp
      rcases List.mem_cons.1 hp with rfl | hp
      · show (tr_queue_all rest (tr_queue tsk key s)).t tsk = key
        rw [c8 tsk (List.mem_cons_self _ _), tr_queue_t, upd_same]
      · exact c7 p hp
    · intro a ha
      show (tr_queue_all rest (tr_queue tsk key s)).t a = s.t a
      have : a ≠ tsk := fun e => hq (e ▸ ha)
      rw [c8 a (List.mem_cons_of_mem _ ha), tr_queue_t, upd_of_ne _ key this]
    · intro j
      rw [c9 j, hidx]
      by_cases hj : j = key / NS_SLOT
      · subst hj
        simp [List.filter_cons]
      · have hj' : ¬ key / NS_SLOT = j := fun e => hj e.symm
        simp [List.filter_cons, hj, hj']

/-- When the slots below `ibase` are empty, `n` calls of `tr_dequeue` on a
ring holding `n` tasks return all of them, slot by slot in rising order. -/
theorem tr_dequeue_n_spec : ∀ (n : Nat) (s : tr_state) (L : Nat → List Nat) (Q : List Nat)
    (key : Nat → Nat), TrInv s L → (∀ j, j < s.ibase → L j = []) → Q.Nodup →
    (∀ a, a ∈ Q ↔ ∃ j, a ∈ L j) → (∀ j a, a ∈ L j → key a / NS_SLOT = j) → Q.length = n →
    ∃ out : List Nat, (tr_dequeue_n n s).1 = out.map lptr.task ∧ out.Perm Q ∧
      (out.map (fun a => key a / NS_SLOT)).Sorted (· ≤ ·) ∧
      (∀ a ∈ out, s.ibase ≤ key a / NS_SLOT) ∧
      (∀ j, out.filter (fun a => key a / NS_SLOT = j) = L j) ∧
      ∃ L' : Nat → List Nat, TrInv (tr_dequeue_n n s).2 L' ∧ ∀ j, L' j = [] := by
  intro n
  induction n with
  | zero =>
    intro s L Q key hI _ _ hm _ hlen
    have : Q = [] := List.length_eq_zero.1 hlen
    subst this
    have he : ∀ j, L j = [] := by
      intro j
      refine List.eq_nil_iff_forall_not_mem.2 ?_
      intro a ha
      exact List.not_mem_nil _ ((hm a).2 ⟨j, ha⟩)
    refine ⟨[], rfl, List.Perm.refl _, List.sorted_nil, by simp, ?_, L, hI, he⟩
    intro j
    rw [List.filter_nil]
    exact (he j).symm
  | succ n ih =>
    intro s L Q key hI hlow hnd hm hs hlen
    have hI' := hI
    obtain ⟨i1, i2, i3, i4, i5, i6, i7, i8, i9⟩ := hI
    have hbl : ∀ j, j < s.ibase → test_bit j s.map = false := by
      intro j hj
      have := (i6 j (by omega)).not.2 (by simp [hlow j hj])
      simpa using this
    obtain ⟨x, hx⟩ : ∃ x, x ∈ Q := by
      cases Q with
      | nil => simp at hlen
      | cons x _ => exact ⟨x, List.mem_cons_self _ _⟩
    obtain ⟨jx, hjx⟩ := (hm x).1 hx
    have hjlt : jx < MAX_RQ := by
      by_contra hc
      rw [i9 jx (by omega)] at hjx
      exact List.not_mem_nil _ hjx
    have hbx : test_bit jx s.map = true := (i6 jx hjlt).2 (List.ne_nil_of_mem hjx)
    rcases rel_ffs_min s i1 i4 hbl with ⟨-, hall⟩ | ⟨hlt, hbit, hmin⟩
    · rw [hall jx hjlt] at hbx
      exact Bool.noConfusion hbx
    · rcases tr_dequeue_spec s L hI' with ⟨h, -, -⟩ | ⟨a, l, -, hal, h1, h2⟩
      · omega
      · have hge : s.ibase ≤ rel_ffs s := by
          by_contra hc
          rw [hbl _ (by omega)] at hbit
          exact Bool.noConfusion hbit
        have hka : key a / NS_SLOT = rel_ffs s :=
          hs _ a (by rw [hal]; exact List.mem_cons_self _ _)
        have haQ : a ∈ Q := (hm a).2 ⟨_, by rw [hal]; exact List.mem_cons_self _ _⟩
        obtain ⟨out, o1, o2, o3, o4, o5, o6⟩ := ih (tr_dequeue s).2 _ (Q.erase a) key h2
          (by
            intro j hj
            rw [tr_dequeue_ibase s (by omega)] at hj
            have hne : j ≠ rel_ffs s := by omega
            simp only [hne, if_false]
            by_contra hc
            have := (i6 j (by omega)).2 hc
            rw [hmin j hj] at this
            exact Bool.noConfusion this)
          (hnd.erase a)
          (mem_slots_dequeue L _ a l Q hnd hm hal (hal ▸ i7 (rel_ffs s)) i8)
          (by
            intro j b hb
            by_cases hj : j = rel_ffs s
            · simp only [hj, if_true] at hb
              rw [hj]; exact hs _ b (by rw [hal]; exact List.mem_cons_of_mem _ hb)
            · simp only [hj, if_false] at hb
              exact hs _ b hb)
          (by rw [List.length_erase_of_mem haQ, hlen]; rfl)
        rw [tr_dequeue_ibase s (by omega)] at o4
        refine ⟨a :: out, ?_, ?_, ?_, ?_, ?_, o6⟩
        · rw [tr_dequeue_n_succ, h1, o1]; rfl
        · exact (List.Perm.cons a o2).trans (List.perm_cons_erase haQ).symm
        · simp only [List.map_cons, List.sorted_cons, List.mem_map, forall_exists_index,
            and_imp, forall_apply_eq_imp_iff₂]
          exact ⟨fun b hb => by rw [hka]; exact o4 b hb, o3⟩
        · intro b hb
          rcases List.mem_cons.1 hb with rfl | hb
          · rw [hka]; exact hge
          · exact le_trans hge (o4 b hb)
        · intro j
          rw [List.filter_cons, o5 j]
          by_cases hj : j = rel_ffs s
          · have e : key a / NS_SLOT = j := by rw [hka, hj]
            simp only [e, decide_True, if_true, hj]
            exact hal.symm
          · have e : ¬ key a / NS_SLOT = j := by rw [hka]; exact fun h => hj h.symm
            simp only [e, decide_False, hj, if_false, Bool.false_eq_true]

theorem tr_rqinit_fields (s0 : tr_state) :
    (tr_rqinit s0).ibase = 0 ∧ (tr_rqinit s0).tbase = 0 ∧ (tr_rqinit s0).t = s0.t := by
  obtain ⟨-, -, h3, h4, -, h6⟩ := tr_rqinit_loop_spec MAX_RQ 0
    { { s0 with ibase := 0 } with tbase := 0 }
  generalize hX : tr_rqinit_loop MAX_RQ 0 { { s0 with ibase := 0 } with tbase := 0 } = X
    at h3 h4 h6
  have e : tr_rqinit s0 = { X with map := fun i => if i < MAP_LONGS then 0 else X.map i } := by
    unfold tr_rqinit
    rw [← hX]
  rw [e]
  exact ⟨h3, h4, h6⟩

/-- The run on a fresh ring: fresh tasks with keys below the horizon are all
returned, slot by slot in rising order, each slot in queueing order. -/
theorem tr_fresh_run (s0 : tr_state) (tasks : List (Nat × Nat))
    (h0 : ∀ a, s0.t a = 0) (hnd : (tasks.map Prod.fst).Nodup)
    (hk : ∀ p ∈ tasks, p.2 < MAX_RQ * NS_SLOT) :
    ∃ out : List (Nat × Nat),
      (tr_dequeue_n tasks.length (tr_queue_all tasks (tr_rqinit s0))).1 =
        out.map (fun p => lptr.task p.1) ∧
      out.Perm tasks ∧ (out.map (fun p => p.2 / NS_SLOT)).Sorted (· ≤ ·) ∧
      ∀ j, out.filter (fun p => p.2 / NS_SLOT = j) =
        tasks.filter (fun p => p.2 / NS_SLOT = j) := by
  have hI := TrInv_init s0 (fun a => by rw [h0 a]; decide)
  obtain ⟨f1, f2, f3⟩ := tr_rqinit_fields s0
  obtain ⟨L, Q, c1, c2, c3, c4, c5, c6, c7, -, c9⟩ := tr_queue_all_spec tasks (tr_rqinit s0)
    (fun _ => []) [] hI f1 f2 (fun a _ => by rw [f3]; exact h0 a) (by simp) List.nodup_nil
    (by simp) hnd (by simp) hk
  have hlen : Q.length = tasks.length := by
    rw [List.Perm.length_eq c4]; simp
  obtain ⟨out, o1, o2, o3, -, o5, -⟩ := tr_dequeue_n_spec tasks.length
    (tr_queue_all tasks (tr_rqinit s0)) L Q (tr_queue_all tasks (tr_rqinit s0)).t c1
    (by intro j hj; omega) c3 c5 c6 hlen
  have hp : out.Perm (tasks.map Prod.fst) := o2.trans (by simpa using c4)
  have hfix : ∀ (l : List (Nat × Nat)), (∀ p ∈ l, p ∈ tasks) →
      (l.map Prod.fst).map (fun a => (a, (tr_queue_all tasks (tr_rqinit s0)).t a)) = l := by
    intro l hl
    rw [List.map_map]
    have : l.map ((fun a => (a, (tr_queue_all tasks (tr_rqinit s0)).t a)) ∘ Prod.fst) =
        l.map id := by
      refine List.map_congr_left ?_
      intro p hp'
      show (p.1, (tr_queue_all tasks (tr_rqinit s0)).t p.1) = p
      rw [c7 p (hl p hp')]
    rw [this, List.map_id]
  refine ⟨out.map (fun a => (a, (tr_queue_all tasks (tr_rqinit s0)).t a)), ?_, ?_, ?_, ?_⟩
  · rw [o1, List.map_map]; rfl
  · refine (hp.map _).trans ?_
    rw [hfix tasks (fun _ h => h)]
  · rw [List.map_map]
    exact o3
  · intro j
    rw [List.filter_map]
    have e : (fun p : Nat × Nat => decide (p.2 / NS_SLOT = j)) ∘
        (fun a => (a, (tr_queue_all tasks (tr_rqinit s0)).t a)) =
        (fun a => decide ((tr_queue_all tasks (tr_rqinit s0)).t a / NS_SLOT = j)) := rfl
    rw [e, o5 j, c9 j, List.nil_append]
    exact hfix _ (fun p hp' => List.mem_of_mem_filter hp')

/-- C7 (amended). Tasks with `t = 0` and keys below the horizon
`MAX_RQ * NS_SLOT`, queued with `tr_queue` into a ring fresh from `tr_rqinit`,
are all returned by as many calls of `tr_dequeue`, in non-decreasing order of
their slot `key / NS_SLOT`; the tasks of one slot are returned in the order in
which they were queued. -/
theorem tr_dequeue_slot_sorted (s0 : tr_state) (tasks : List (Nat × Nat))
    (h0 : ∀ a, s0.t a = 0) (hnd : (tasks.map Prod.fst).Nodup)
    (hk : ∀ p ∈ tasks, p.2 < MAX_RQ * NS_SLOT) :
    ∃ out : List (Nat × Nat),
      (tr_dequeue_n tasks.length (tr_queue_all tasks (tr_rqinit s0))).1 =
        out.map (fun p => lptr.task p.1) ∧
      out.Perm tasks ∧ (out.map (fun p => p.2 / NS_SLOT)).Sorted (· ≤ ·) ∧
      ∀ j, out.filter (fun p => p.2 / NS_SLOT = j) =
        tasks.filter (fun p => p.2 / NS_SLOT = j) :=
  tr_fresh_run s0 tasks h0 hnd hk

theorem masked_bit_wrap (s : tr_state) (m j : Nat)
    (hjw : j / 64 = (s.ibase / 64 + m) % 4) (hjb : m = 0 → s.ibase % 64 ≤ j % 64) :
    (s.map ((s.ibase / 64 + m) % 4) &&&
      (if m = 0 then lnot ((1 <<< (s.ibase % 64)) - 1) else lnot 0)).testBit (j % 64) =
    test_bit j s.map := by
  rw [Nat.testBit_and, testBit_mask _ _ _ (Nat.mod_lt _ (by decide))]
  have hd : decide (m = 0 → s.ibase % 64 ≤ j % 64) = true := by
    simp only [decide_eq_true_eq]; exact hjb
  rw [hd, Bool.and_true, ← hjw]
  rfl

/-- What `rel_ffs` finds is a set bit, the first one in ring order from `ibase`. -/
theorem rel_ffs_first (s : tr_state) (hib : s.ibase < MAX_RQ)
    (hw : ∀ w, w < MAP_LONGS → s.map w < 2 ^ 64) (hlt : rel_ffs s < MAX_RQ) :
    test_bit (rel_ffs s) s.map = true ∧
    ∀ j, j < MAX_RQ →
      (j + MAX_RQ - s.ibase) % MAX_RQ < (rel_ffs s + MAX_RQ - s.ibase) % MAX_RQ →
      test_bit j s.map = false := by
  simp only [MAX_RQ, MAP_LONGS, BITS_X_LONG] at hib hw hlt ⊢
  norm_num at hw
  rw [rel_ffs_eq] at hlt ⊢
  rcases rel_ffs_loop_char s 4 (s.ibase / 64) (lnot ((1 <<< (s.ibase % 64)) - 1)) (by omega)
    with ⟨m, h1, h2, h3, h4⟩ | ⟨-, h2⟩
  · have hmlt := and_mask_lt (s.map ((s.ibase / 64 + m) % 4)) (hw _ (by omega))
      (if m = 0 then lnot ((1 <<< (s.ibase % 64)) - 1) else lnot 0)
    obtain ⟨f1, f2, f3⟩ := ffs_spec _ h2 hmlt
    generalize hf : __ffs (s.map ((s.ibase / 64 + m) % 4) &&&
        if m = 0 then lnot ((1 <<< (s.ibase % 64)) - 1) else lnot 0) = f at f1 f2 f3 h4
    rw [h4]
    have hmask : m = 0 → s.ibase % 64 ≤ f := by
      have := f1
      rw [Nat.testBit_and, testBit_mask _ _ _ f2] at this
      simp only [Bool.and_eq_true, decide_eq_true_eq] at this
      exact this.2
    have hbit : test_bit ((s.ibase / 64 + m) % 4 * 64 + f) s.map = true := by
      rw [← masked_bit_wrap s m ((s.ibase / 64 + m) % 4 * 64 + f) (by omega)
        (fun h0 => by have := hmask h0; omega)]
      have e2 : ((s.ibase / 64 + m) % 4 * 64 + f) % 64 = f := by omega
      rw [e2]; exact f1
    refine ⟨hbit, ?_⟩
    intro j hj hr
    have hjw : j / 64 = (s.ibase / 64 + (j / 64 + 4 - s.ibase / 64) % 4) % 4 := by omega
    by_cases hun : (j / 64 + 4 - s.ibase / 64) % 4 = 0 ∧ j % 64 < s.ibase % 64
    · exfalso
      by_cases hm0 : m = 0
      · have := hmask hm0
        subst hm0
        omega
      · omega
    · by_cases hlt' : (j / 64 + 4 - s.ibase / 64) % 4 < m
      · rw [← masked_bit_wrap s _ j hjw (fun h0 => by omega), h3 _ hlt']
        exact Nat.zero_testBit _
      · have hmj : (j / 64 + 4 - s.ibase / 64) % 4 = m := by
          by_contra hne
          by_cases hm0 : m = 0
          · omega
          · omega
        have hjf : j % 64 < f := by
          by_cases hm0 : m = 0
          · have := hmask hm0
            omega
          · omega
        rw [← masked_bit_wrap s m j (by omega) (fun h0 => by omega)]
        exact f3 _ hjf
  · rw [h2] at hlt
    omega

/-- C17. For every bitmap of 64-bit words and every `ibase < MAX_RQ`: when
`rel_ffs` returns `idx < MAX_RQ`, bit `idx` is set, and no slot `j` that comes
before `idx` in ring order from `ibase`, that is with
`(j - ibase) mod MAX_RQ < (idx - ibase) mod MAX_RQ`, has its bit set. -/
theorem rel_ffs_ring_first (s : tr_state) (hib : s.ibase < MAX_RQ)
    (hw : ∀ w, w < MAP_LONGS → s.map w < 2 ^ 64) (hlt : rel_ffs s < MAX_RQ) :
    test_bit (rel_ffs s) s.map = true ∧
    ∀ j, j < MAX_RQ →
      (j + MAX_RQ - s.ibase) % MAX_RQ < (rel_ffs s + MAX_RQ - s.ibase) % MAX_RQ →
      test_bit j s.map = false :=
  rel_ffs_first s hib hw hlt

/-- A set bit that the scan of `rel_ffs` covers (one not in the part of the
word of `ibase` below bit `ibase % 64`) makes `rel_ffs` find a slot, the first
one in ring order from `ibase`. -/
theorem rel_ffs_scan (s : tr_state) (hib : s.ibase < MAX_RQ)
    (hw : ∀ w, w < MAP_LONGS → s.map w < 2 ^ 64) (j : Nat) (hj : j < MAX_RQ)
    (hbit : test_bit j s.map = true)
    (hscan : (j + MAX_RQ - s.ibase) % MAX_RQ + s.ibase % 64 < MAX_RQ) :
    rel_ffs s < MAX_RQ ∧ test_bit (rel_ffs s) s.map = true ∧
    (rel_ffs s + MAX_RQ - s.ibase) % MAX_RQ ≤ (j + MAX_RQ - s.ibase) % MAX_RQ := by
  have hlt : rel_ffs s < MAX_RQ := by
    simp only [MAX_RQ, MAP_LONGS, BITS_X_LONG] at hib hw hj hscan ⊢
    norm_num at hw
    rw [rel_ffs_eq]
    rcases rel_ffs_loop_char s 4 (s.ibase / 64) (lnot ((1 <<< (s.ibase % 64)) - 1)) (by omega)
      with ⟨m, h1, h2, h3, h4⟩ | ⟨h1, -⟩
    · have hmlt := and_mask_lt (s.map ((s.ibase / 64 + m) % 4)) (hw _ (by omega))
        (if m = 0 then lnot ((1 <<< (s.ibase % 64)) - 1) else lnot 0)
      obtain ⟨-, f2, -⟩ := ffs_spec _ h2 hmlt
      rw [h4]
      omega
    · exfalso
      have hjw : j / 64 = (s.ibase / 64 + (j / 64 + 4 - s.ibase / 64) % 4) % 4 := by omega
      have h0 := h1 ((j / 64 + 4 - s.ibase / 64) % 4) (by omega)
      have hb := masked_bit_wrap s _ j hjw (fun h0 => by omega)
      rw [h0, Nat.zero_testBit, hbit] at hb
      exact absurd hb (by decide)
  obtain ⟨h1, h2⟩ := rel_ffs_first s hib hw hlt
  refine ⟨hlt, h1, ?_⟩
  by_contra hc
  have := h2 j hj (by omega)
  rw [hbit] at this
  exact absurd this (by decide)

/-- With `tbase ≠ 0`, a key at or after `tbase` whose distance in slots fits
32 bits goes to the clamped relative slot, counted from `ibase` round the ring. -/
theorem tr_queue_idx_window (tsk key : Nat) (s : tr_state) (htb : s.tbase ≠ 0)
    (hk : key < 2 ^ 64) (hle : s.tbase ≤ key) (hq : (key - s.tbase) / NS_SLOT < 2 ^ 32) :
    tr_queue_idx tsk key s =
      (min ((key - s.tbase) / NS_SLOT) (MAX_RQ - 1) + s.ibase) % MAX_RQ := by
  unfold tr_queue_idx
  simp only [htb, if_false, and_RQ_MASK]
  have e1 : (key + 2 ^ 64 - s.tbase) % 2 ^ 64 = key - s.tbase := by omega
  rw [e1, Nat.mod_eq_of_lt hq]
  simp only [MAX_RQ]
  generalize (key - s.tbase) / NS_SLOT = r
  split_ifs <;> omega

/-- C18. On a well-formed ring with `tbase ≠ 0`, for a task that is not queued
and a 64-bit key with `tbase ≤ key` and `(key - tbase) / NS_SLOT < 2^32`,
`tr_queue` stores the key in the task, appends the task at the tail of slot
`(min ((key - tbase) / NS_SLOT) (MAX_RQ - 1) + ibase) mod MAX_RQ`, sets the bit
of that slot, and changes no other slot list, no other bit, no other task's
`t`, and neither `ibase` nor `tbase`. -/
theorem tr_queue_appends (s : tr_state) (L : Nat → List Nat) (tsk key : Nat)
    (hI : TrInv s L) (hn : ∀ i, tsk ∉ L i) (htb : s.tbase ≠ 0) (hk : key < 2 ^ 64)
    (hle : s.tbase ≤ key) (hq : (key - s.tbase) / NS_SLOT < 2 ^ 32) :
    (tr_queue tsk key s).t = upd s.t tsk key ∧
    TrInv (tr_queue tsk key s)
      (fun j => if j = (min ((key - s.tbase) / NS_SLOT) (MAX_RQ - 1) + s.ibase) % MAX_RQ
        then L j ++ [tsk] else L j) ∧
    (∀ i, test_bit i (tr_queue tsk key s).map =
      (decide (i = (min ((key - s.tbase) / NS_SLOT) (MAX_RQ - 1) + s.ibase) % MAX_RQ) ||
        test_bit i s.map)) ∧
    (tr_queue tsk key s).ibase = s.ibase ∧ (tr_queue tsk key s).tbase = s.tbase := by
  have hidx := tr_queue_idx_window tsk key s htb hk hle hq
  have hspec := tr_queue_spec s L tsk key hI hn hk
  rw [hidx] at hspec
  refine ⟨tr_queue_t tsk key s, hspec, ?_, tr_queue_ibase tsk key s, ?_⟩
  · intro i
    rw [tr_queue_map, hidx, test_bit_set_bit]
  · rw [tr_queue_tbase, if_neg htb]

theorem tr_dequeue_tbase (s : tr_state) (h : rel_ffs s ≠ MAX_RQ) :
    (tr_dequeue s).2.tbase =
      (s.tbase + NS_SLOT * (((rel_ffs s + 2 ^ 32 - s.ibase) % 2 ^ 32) &&& RQ_MASK)) % 2 ^ 64 := by
  unfold tr_dequeue; simp only [h, if_false]; split_ifs <;> rfl

/-- C20. On a well-formed ring in which `tr_dequeue` finds a task in slot
`i = rel_ffs(rq)`: the returned task is the head of the list of slot `i`; after
the call that list is its former tail and every other slot list is unchanged,
`ibase` is `i`, and `tbase` is the old `tbase` plus
`((i - old ibase) mod MAX_RQ) * NS_SLOT` in 64-bit arithmetic (exactly that sum
when it is below `2^64`). -/
theorem tr_dequeue_advance (s : tr_state) (L : Nat → List Nat) (hI : TrInv s L)
    (hlt : rel_ffs s < MAX_RQ) :
    ∃ a l, L (rel_ffs s) = a :: l ∧ (tr_dequeue s).1 = .task a ∧
      TrInv (tr_dequeue s).2 (fun j => if j = rel_ffs s then l else L j) ∧
      (tr_dequeue s).2.ibase = rel_ffs s ∧
      (tr_dequeue s).2.tbase =
        (s.tbase + ((rel_ffs s + MAX_RQ - s.ibase) % MAX_RQ) * NS_SLOT) % 2 ^ 64 ∧
      (s.tbase + ((rel_ffs s + MAX_RQ - s.ibase) % MAX_RQ) * NS_SLOT < 2 ^ 64 →
        (tr_dequeue s).2.tbase =
          s.tbase + ((rel_ffs s + MAX_RQ - s.ibase) % MAX_RQ) * NS_SLOT) ∧
      (tr_dequeue s).2.t = s.t := by
  have hne : rel_ffs s ≠ MAX_RQ := by omega
  have hib : s.ibase < MAX_RQ := hI.1
  have hd : ((rel_ffs s + 2 ^ 32 - s.ibase) % 2 ^ 32) &&& RQ_MASK =
      (rel_ffs s + MAX_RQ - s.ibase) % MAX_RQ := by
    rw [and_RQ_MASK]
    simp only [MAX_RQ] at hlt hib ⊢
    omega
  have htb : (tr_dequeue s).2.tbase =
      (s.tbase + ((rel_ffs s + MAX_RQ - s.ibase) % MAX_RQ) * NS_SLOT) % 2 ^ 64 := by
    rw [tr_dequeue_tbase s hne, hd, Nat.mul_comm]
  rcases tr_dequeue_spec s L hI with ⟨h, -, -⟩ | ⟨a, l, -, hal, h1, h2⟩
  · exact absurd h hne
  · exact ⟨a, l, hal, h1, h2, tr_dequeue_ibase s hne, htb,
      fun hlt' => by rw [htb, Nat.mod_eq_of_lt hlt'], tr_dequeue_t s⟩

/-- With every slot list empty, `rel_ffs` finds nothing. -/
theorem rel_ffs_empty (s : tr_state) (L : Nat → List Nat) (hI : TrInv s L)
    (he : ∀ j, L j = []) : rel_ffs s = MAX_RQ := by
  obtain ⟨i1, -, -, i4, -, i6, -⟩ := hI
  rcases rel_ffs_sound s i1 i4 with h | ⟨hlt, hbit⟩
  · exact h
  · exact absurd (he _) ((i6 _ hlt).1 hbit)

/-- C16. On a ring reached from `tr_rqinit` with no task queued, `tr_dequeue`
returns `NULL`, sets `tbase` to `0`, and leaves `ibase`, all list pointers
(every slot list), the bitmap and the tasks' fields unchanged. -/
theorem tr_dequeue_empty {s : tr_state} (hr : TrReach s []) :
    (tr_dequeue s).1 = .null ∧ (tr_dequeue s).2.tbase = 0 ∧
    (tr_dequeue s).2.ibase = s.ibase ∧ (tr_dequeue s).2.next = s.next ∧
    (tr_dequeue s).2.prev = s.prev ∧ (tr_dequeue s).2.map = s.map ∧
    (tr_dequeue s).2.t = s.t := by
  obtain ⟨L, hI, -, hm⟩ := TrReach_inv hr
  have he : ∀ j, L j = [] := by
    intro j
    refine List.eq_nil_iff_forall_not_mem.2 ?_
    intro a ha
    exact List.not_mem_nil _ ((hm a).2 ⟨j, ha⟩)
  rw [tr_dequeue_null s (rel_ffs_empty s L hI he)]
  exact ⟨rfl, rfl, rfl, rfl, rfl, rfl, rfl⟩

/-- C15. On a run-queue reached from `cfs_rqinit` with no task queued (fresh,
or with every queued task dequeued again), `cfs_dequeue` returns `NULL` for any
fuel and leaves the memory as it is (no erase); the tree is empty and
`rb_leftmost` is `NULL`. -/
theorem cfs_dequeue_empty {s : cfs_state} (hr : Reach s []) (fuel : Nat) :
    cfs_dequeue fuel s = some (0, s) ∧ s.heap.rb_node = 0 ∧ s.rb_leftmost = 0 := by
  obtain ⟨T, hinv, hperm⟩ := Reach_inv hr
  have hT : T = .nil := nil_of_inorder (List.perm_nil.1 hperm)
  subst hT
  refine ⟨cfs_dequeue_nil s fuel hinv, hinv.1.1, ?_⟩
  rcases hinv.2.2.2 with h | h
  · exact h
  · simp [Tree.inorder] at h

theorem filter_lt_succ {α : Type} (f : α → Nat) : ∀ (l : List α),
    (l.map f).Sorted (· ≤ ·) → ∀ N, l.filter (fun a => f a < N + 1) =
      l.filter (fun a => f a < N) ++ l.filter (fun a => f a = N) := by
  intro l
  induction l with
  | nil => intro _ N; rfl
  | cons a l ih =>
    intro hs N
    simp only [List.map_cons, List.sorted_cons, List.mem_map, forall_exists_index, and_imp,
      forall_apply_eq_imp_iff₂] at hs
    have ih' := ih hs.2 N
    rcases Nat.lt_trichotomy (f a) N with h | h | h
    · have h1 : f a < N + 1 := by omega
      have h2 : ¬ f a = N := by omega
      simp only [List.filter_cons, h1, h, h2, decide_True, decide_False, if_true, if_false,
        Bool.false_eq_true, List.cons_append, ih']
    · have h1 : f a < N + 1 := by omega
      have h2 : ¬ f a < N := by omega
      have h3 : l.filter (fun a => decide (f a < N)) = [] := by
        rw [List.filter_eq_nil_iff]
        intro b hb
        have := hs.1 b hb
        simp only [decide_eq_true_eq]
        omega
      rw [h3, List.nil_append] at ih'
      simp only [List.filter_cons, h1, h, h2, decide_True, decide_False, if_true, if_false,
        Bool.false_eq_true, ih', h3, List.nil_append]
      simp
    · have h1 : ¬ f a < N + 1 := by omega
      have h2 : ¬ f a < N := by omega
      have h3 : ¬ f a = N := by omega
      simp only [List.filter_cons, h1, h2, h3, decide_False, if_false, Bool.false_eq_true, ih']

/-- A list sorted by `f` is the concatenation of its parts with `f = 0`,
`f = 1`, ... -/
theorem sorted_filter_eq_flatMap {α : Type} (f : α → Nat) (l : List α)
    (hs : (l.map f).Sorted (· ≤ ·)) : ∀ N, l.filter (fun a => f a < N) =
      (List.range N).flatMap (fun j => l.filter (fun a => f a = j)) := by
  intro N
  induction N with
  | zero => simp
  | succ N ih =>
    rw [filter_lt_succ f l hs N, ih, List.range_succ, List.flatMap_append]
    simp

/-- C12. For fresh tasks (`t = 0`) with keys below the horizon, queued into a
ring fresh from `tr_rqinit`, as many calls of `tr_dequeue` return exactly the
stable bucket sort of the queueing sequence by window index `key / NS_SLOT`:
a permutation of the tasks in non-decreasing window index, the tasks of one
window in queueing order. -/
theorem tr_dequeue_bucket_sort (s0 : tr_state) (tasks : List (Nat × Nat))
    (h0 : ∀ a, s0.t a = 0) (hnd : (tasks.map Prod.fst).Nodup)
    (hk : ∀ p ∈ tasks, p.2 < MAX_RQ * NS_SLOT) :
    (tr_dequeue_n tasks.length (tr_queue_all tasks (tr_rqinit s0))).1 =
      (stable_bucket_sort tasks).map (fun p => lptr.task p.1) ∧
    (stable_bucket_sort tasks).Perm tasks ∧
    ((stable_bucket_sort tasks).map (fun p => p.2 / NS_SLOT)).Sorted (· ≤ ·) ∧
    ∀ j, (stable_bucket_sort tasks).filter (fun p => p.2 / NS_SLOT = j) =
      tasks.filter (fun p => p.2 / NS_SLOT = j) := by
  obtain ⟨out, h1, h2, h3, h4⟩ := tr_fresh_run s0 tasks h0 hnd hk
  have hall : ∀ p ∈ out, decide (p.2 / NS_SLOT < MAX_RQ) = true := by
    intro p hp
    simp only [decide_eq_true_eq]
    exact Nat.div_lt_of_lt_mul (by rw [Nat.mul_comm]; exact hk p (h2.mem_iff.1 hp))
  have e : out = stable_bucket_sort tasks := by
    have := sorted_filter_eq_flatMap (fun p : Nat × Nat => p.2 / NS_SLOT) out h3 MAX_RQ
    rw [List.filter_eq_self.2 hall] at this
    rw [this]
    unfold stable_bucket_sort
    congr 1
    funext j
    exact h4 j
  rw [← e]
  exact ⟨h1, h2, h3, h4⟩

/-- Queueing new tasks with any 64-bit keys keeps the invariant and `ibase`. -/
theorem tr_queue_all_inv : ∀ (tasks : List (Nat × Nat)) (s : tr_state) (L : Nat → List Nat)
    (Q : List Nat), TrInv s L → Q.Nodup → (∀ a, a ∈ Q ↔ ∃ j, a ∈ L j) →
    (tasks.map Prod.fst).Nodup → (∀ p ∈ tasks, p.1 ∉ Q) → (∀ p ∈ tasks, p.2 < 2 ^ 64) →
    ∃ (L' : Nat → List Nat) (Q' : List Nat), TrInv (tr_queue_all tasks s) L' ∧
      (tr_queue_all tasks s).ibase = s.ibase ∧ Q'.Nodup ∧
      Q'.Perm (Q ++ tasks.map Prod.fst) ∧ (∀ a, a ∈ Q' ↔ ∃ j, a ∈ L' j) := by
  intro tasks
  induction tasks with
  | nil =>
    intro s L Q hI hnd hm _ _ _
    exact ⟨L, Q, hI, rfl, hnd, by simp, hm⟩
  | cons p rest ih =>
    obtain ⟨tsk, key⟩ := p
    intro s L Q hI hnd hm hnt hnq hk
    have hq : tsk ∉ Q := hnq (tsk, key) (List.mem_cons_self _ _)
    have hn : ∀ i, tsk ∉ L i := fun i h => hq ((hm tsk).2 ⟨i, h⟩)
    have hI1 := tr_queue_spec s L tsk key hI hn (hk (tsk, key) (List.mem_cons_self _ _))
    simp only [List.map_cons, List.nodup_cons] at hnt
    obtain ⟨L', Q', c1, c2, c3, c4, c5⟩ := ih (tr_queue tsk key s) _ (tsk :: Q) hI1
      (List.nodup_cons.2 ⟨hq, hnd⟩) (mem_slots_queue L _ tsk Q hm) hnt.2
      (by
        intro p hp h
        rcases List.mem_cons.1 h with e | h
        · exact hnt.1 (e ▸ List.mem_map_of_mem Prod.fst hp)
        · exact hnq p (List.mem_cons_of_mem _ hp) h)
      (fun p hp => hk p (List.mem_cons_of_mem _ hp))
    refine ⟨L', Q', c1, ?_, c3, ?_, c5⟩
    · show (tr_queue_all rest (tr_queue tsk key s)).ibase = s.ibase
      rw [c2, tr_queue_ibase]
    · refine c4.trans ?_
      simp only [List.map_cons, List.cons_append]
      exact List.perm_middle.symm

theorem tr_dequeue_n_snd_succ (n : Nat) (s : tr_state) :
    (tr_dequeue_n (n + 1) s).2 = (tr_dequeue_n n (tr_dequeue s).2).2 := rfl

/-- On a well-formed ring with all slot lists empty, every word of the map is `0`. -/
theorem map_zero_of_empty (s : tr_state) (L : Nat → List Nat) (hI : TrInv s L)
    (he : ∀ j, L j = []) : ∀ w, w < MAP_LONGS → s.map w = 0 := by
  obtain ⟨-, -, -, i4, -, i6, -⟩ := hI
  intro w hw
  apply Nat.eq_of_testBit_eq
  intro k
  rw [Nat.zero_testBit]
  by_cases hk : k < 64
  · have hlt : w * 64 + k < MAX_RQ := by
      simp only [MAP_LONGS, MAX_RQ, BITS_X_LONG] at hw ⊢
      omega
    have hb : test_bit (w * 64 + k) s.map = false := by
      have := (i6 _ hlt).not.2 (by simp [he])
      simpa using this
    unfold test_bit BITS_X_LONG at hb
    have e1 : (w * 64 + k) / 64 = w := by omega
    have e2 : (w * 64 + k) % 64 = k := by omega
    rw [e1, e2] at hb
    exact hb
  · exact Nat.testBit_eq_false_of_lt
      (lt_of_lt_of_le (i4 w hw) (Nat.pow_le_pow_right (by decide) (by omega)))

/-- C14. For every list of distinct tasks with 64-bit keys, queued with
`tr_queue` into a ring fresh from `tr_rqinit`, as many calls of `tr_dequeue`
return each queued task exactly once; afterwards every word of the bitmap is
`0`, every slot list is empty, and one more `tr_dequeue` returns `NULL`. -/
theorem tr_queue_dequeue_all (s0 : tr_state) (tasks : List (Nat × Nat))
    (h0 : ∀ a, s0.t a < 2 ^ 64) (hnd : (tasks.map Prod.fst).Nodup)
    (hk : ∀ p ∈ tasks, p.2 < 2 ^ 64) :
    ∃ out : List Nat,
      (tr_dequeue_n tasks.length (tr_queue_all tasks (tr_rqinit s0))).1 =
        out.map lptr.task ∧
      out.Perm (tasks.map Prod.fst) ∧ out.Nodup ∧
      (∀ w, w < MAP_LONGS →
        (tr_dequeue_n tasks.length (tr_queue_all tasks (tr_rqinit s0))).2.map w = 0) ∧
      (∀ i, i < MAX_RQ → list_empty (.head i)
        (tr_dequeue_n tasks.length (tr_queue_all tasks (tr_rqinit s0))).2) ∧
      (tr_dequeue
        (tr_dequeue_n tasks.length (tr_queue_all tasks (tr_rqinit s0))).2).1 = .null := by
  have hI := TrInv_init s0 h0
  obtain ⟨f1, -, -⟩ := tr_rqinit_fields s0
  obtain ⟨L, Q, c1, c2, c3, c4, c5⟩ := tr_queue_all_inv tasks (tr_rqinit s0) (fun _ => []) []
    hI List.nodup_nil (by simp) hnd (by simp) hk
  rw [f1] at c2
  have hlen : Q.length = tasks.length := by
    rw [List.Perm.length_eq c4]; simp
  have hp : Q.Perm (tasks.map Prod.fst) := by simpa using c4
  -- the slot that holds a queued task
  obtain ⟨slot, hsl⟩ : ∃ slot : Nat → Nat, ∀ j a, a ∈ L j → slot a = j := by
    classical
    refine ⟨fun a => if h : ∃ j, a ∈ L j then Classical.choose h else 0, ?_⟩
    intro j a ha
    have hex : ∃ j, a ∈ L j := ⟨j, ha⟩
    simp only [hex, dite_true]
    by_contra hne
    exact c1.2.2.2.2.2.2.2.1 _ _ hne (Classical.choose_spec hex) ha
  have hslot : ∀ j a, a ∈ L j → slot a * NS_SLOT / NS_SLOT = j := by
    intro j a ha
    rw [Nat.mul_div_cancel _ (by decide : 0 < NS_SLOT)]
    exact hsl j a ha
  obtain ⟨out, o1, o2, -, -, -, L', hI', he⟩ := tr_dequeue_n_spec tasks.length
    (tr_queue_all tasks (tr_rqinit s0)) L Q (fun a => slot a * NS_SLOT) c1
    (by intro j hj; omega) c3 c5 hslot hlen
  refine ⟨out, o1, o2.trans hp, (o2.nodup_iff).2 c3, map_zero_of_empty _ L' hI' he, ?_, ?_⟩
  · intro i hi
    exact (list_empty_iff i (L' i) (hI'.2.2.2.2.1 i hi)).2 (he i)
  · rw [tr_dequeue_null _ (rel_ffs_empty _ L' hI' he)]

theorem Reach_cfs_one : Reach cfs_one [1] :=
  Reach.queue 2 1 50 (Reach.init cfs_zero) (by decide) (by decide) (by decide) rfl

theorem Reach_cfs_two : Reach cfs_two [2, 1] :=
  Reach.queue 3 2 10 Reach_cfs_one (by decide) (by decide) (by decide) rfl

set_option maxRecDepth 100000 in
theorem TrReach_base10 : TrReach tr_base10 [] :=
  TrReach.dequeue (TrReach.queue 1 (10 * NS_SLOT)
    (TrReach.init tr_zero (fun _ => by show 0 < 2 ^ 64; decide)) (by decide) (by decide))

/-- Instance of C1 at the five tasks `cfs_tasks5`, with fuel `6`. -/
theorem cfs_dequeue_sorted_witness :
    (∀ p ∈ cfs_tasks5, p.1 ≠ 0) ∧ (cfs_tasks5.map Prod.fst).Nodup ∧ cfs_tasks5.length < 6 ∧
    ∃ s1 out s2, queue_all 6 cfs_tasks5 (cfs_rqinit cfs_zero) = some s1 ∧
      dequeue_n 6 cfs_tasks5.length s1 = some (out, s2) ∧
      (out.map Prod.snd).Sorted (· ≤ ·) ∧ out.Perm cfs_tasks5 ∧
      (out.map Prod.snd).Perm (cfs_tasks5.map Prod.snd) :=
  ⟨by decide, by decide, by decide,
    cfs_dequeue_sorted cfs_zero cfs_tasks5 6 (by decide) (by decide) (by decide)⟩

/-- Instance of C2 at the run-queue `cfs_two`, which holds the tasks `2` and `1`. -/
theorem cfs_red_black_witness :
    ∃ T, Rep cfs_two.heap T ∧ (∀ T', Rep cfs_two.heap T' → T' = T) ∧ T.inorder.Perm [2, 1] ∧
      T.isBlack ∧ T.NoRR ∧
      (∀ S ∈ T.subtrees, ∀ p ∈ S.paths, ∀ p' ∈ S.paths,
        p.count RB_BLACK = p'.count RB_BLACK) ∧
      T.Bal :=
  cfs_red_black Reach_cfs_two

/-- Instance of C3 at the run-queue `cfs_two`, which holds the tasks `2` and `1`. -/
theorem cfs_bst_witness :
    ∃ T, Rep cfs_two.heap T ∧ T.inorder.Perm [2, 1] ∧ T.BST cfs_two.t ∧
      (T.inorder.map cfs_two.t).Sorted (· ≤ ·) ∧ ParentLinks cfs_two.heap T.inorder :=
  cfs_bst Reach_cfs_two

/-- Instance of C4 at the run-queue `cfs_two`, with fuel `3`. -/
theorem cfs_dequeue_min_witness :
    ∃ a s', cfs_dequeue 3 cfs_two = some (a, s') ∧ a ≠ 0 ∧ a ∈ [2, 1] ∧
      (∀ b ∈ [2, 1], cfs_two.t a ≤ cfs_two.t b) ∧ s'.t = cfs_two.t ∧
      ∃ T T', Rep cfs_two.heap T ∧ Rep s'.heap T' ∧ T.inorder.Perm [2, 1] ∧
        T'.inorder = T.inorder.erase a ∧
        (T'.inorder : Multiset Nat) = (T.inorder : Multiset Nat).erase a :=
  cfs_dequeue_min Reach_cfs_two (by decide) 3 (by decide)

/-- Instance of C5 at the five tasks `cfs_tasks5`, with fuel `6`. -/
theorem cfs_traverse_count_witness :
    (∀ p ∈ cfs_tasks5, p.1 ≠ 0) ∧ (cfs_tasks5.map Prod.fst).Nodup ∧ cfs_tasks5.length < 6 ∧
    ∃ s1 visited out s2, queue_all 6 cfs_tasks5 (cfs_rqinit cfs_zero) = some s1 ∧
      rb_traverse 6 s1.heap = some visited ∧ visited.length = cfs_tasks5.length ∧
      visited.Nodup ∧ visited.Perm (cfs_tasks5.map Prod.fst) ∧
      dequeue_n 6 cfs_tasks5.length s1 = some (out, s2) ∧ s2.heap.rb_node = 0 :=
  ⟨by decide, by decide, by decide,
    cfs_traverse_count cfs_zero cfs_tasks5 6 (by decide) (by decide) (by decide)⟩

set_option maxRecDepth 100000 in
/-- C6. The ring `tr_wrapped` is reached from `tr_rqinit` by `tr_queue`,
`tr_dequeue`, `tr_queue`; task `2` is queued in slot `5` and the bit of slot
`5` is set, yet `tr_dequeue` returns `NULL` (and resets `tbase`). -/
theorem tr_dequeue_misses_wrapped_slot :
    TrReach tr_wrapped [2] ∧ tr_base10.ibase = 10 ∧ tr_base10.tbase = 50000000 ∧
    tr_queue_idx 2 (50000000 + 251 * NS_SLOT) tr_base10 = 5 ∧
    test_bit 5 tr_wrapped.map = true ∧ tr_wrapped.next (.head 5) = .task 2 ∧
    rel_ffs tr_wrapped = MAX_RQ ∧
    (tr_dequeue tr_wrapped).1 = .null ∧ (tr_dequeue tr_wrapped).2.tbase = 0 :=
  ⟨TrReach.queue 2 (50000000 + 251 * NS_SLOT) TrReach_base10 (by decide) (by decide),
    by decide, by decide, by decide, by decide, by decide, by decide, by decide, by decide⟩

set_option maxRecDepth 100000 in
/-- C7, counterexample to the order by key. Tasks `1` and `2` with the keys `6` and `5`, both
below the horizon, queued in this order into a fresh ring, are returned by
`tr_dequeue` as task `1` (key `6`), then task `2` (key `5`). -/
theorem tr_dequeue_same_slot_fifo :
    6 < MAX_RQ * NS_SLOT ∧ 5 < MAX_RQ * NS_SLOT ∧ tr_zero.t 1 = 0 ∧ tr_zero.t 2 = 0 ∧
    (tr_dequeue_n 2 (tr_queue_all [(1, 6), (2, 5)] (tr_rqinit tr_zero))).1 =
      [.task 1, .task 2] ∧
    (tr_dequeue_n 2 (tr_queue_all [(1, 6), (2, 5)] (tr_rqinit tr_zero))).2.t 1 = 6 ∧
    (tr_dequeue_n 2 (tr_queue_all [(1, 6), (2, 5)] (tr_rqinit tr_zero))).2.t 2 = 5 :=
  ⟨by decide, by decide, rfl, rfl, by decide, by decide, by decide⟩

set_option maxRecDepth 100000 in
/-- Instance of the amended C7 at the three tasks `tr_tasks3`. -/
theorem tr_dequeue_slot_sorted_witness :
    (∀ a, tr_zero.t a = 0) ∧ (tr_tasks3.map Prod.fst).Nodup ∧
    (∀ p ∈ tr_tasks3, p.2 < MAX_RQ * NS_SLOT) ∧
    ∃ out : List (Nat × Nat),
      (tr_dequeue_n tr_tasks3.length (tr_queue_all tr_tasks3 (tr_rqinit tr_zero))).1 =
        out.map (fun p => lptr.task p.1) ∧
      out.Perm tr_tasks3 ∧ (out.map (fun p => p.2 / NS_SLOT)).Sorted (· ≤ ·) ∧
      ∀ j, out.filter (fun p => p.2 / NS_SLOT = j) =
        tr_tasks3.filter (fun p => p.2 / NS_SLOT = j) :=
  ⟨fun _ => rfl, by decide, by decide,
    tr_dequeue_slot_sorted tr_zero tr_tasks3 (fun _ => rfl) (by decide) (by decide)⟩

set_option maxRecDepth 100000 in
/-- Instance of C8 at the ring `tr_wrapped` and slot `5`. -/
theorem tr_bitmap_lists_witness :
    5 < MAX_RQ ∧ (test_bit 5 tr_wrapped.map = true ↔ ¬ list_empty (.head 5) tr_wrapped) :=
  ⟨by decide, tr_bitmap_lists
    (TrReach.queue 2 (50000000 + 251 * NS_SLOT) TrReach_base10 (by decide) (by decide)) 5
    (by decide)⟩

set_option maxRecDepth 100000 in
/-- C9. In the reachable ring `tr_base10` (`ibase = 10`, `tbase = 50000000`) the
64-bit key `tbase + 2^32 * NS_SLOT` lies beyond the horizon, and `tr_queue`
puts the task in slot `10`, not in the last slot `(10 + MAX_RQ - 1) % MAX_RQ = 9`. -/
theorem tr_queue_far_key_slot :
    TrReach tr_base10 [] ∧ tr_base10.ibase = 10 ∧ tr_base10.tbase = 50000000 ∧
    50000000 + 2 ^ 32 * NS_SLOT < 2 ^ 64 ∧
    tr_base10.tbase + MAX_RQ * NS_SLOT ≤ 50000000 + 2 ^ 32 * NS_SLOT ∧
    (tr_base10.ibase + MAX_RQ - 1) % MAX_RQ = 9 ∧
    tr_queue_idx 2 (50000000 + 2 ^ 32 * NS_SLOT) tr_base10 = 10 ∧
    (tr_queue 2 (50000000 + 2 ^ 32 * NS_SLOT) tr_base10).next (.head 10) = .task 2 ∧
    (tr_queue 2 (50000000 + 2 ^ 32 * NS_SLOT) tr_base10).next (.head 9) = .head 9 ∧
    test_bit 10 (tr_queue 2 (50000000 + 2 ^ 32 * NS_SLOT) tr_base10).map = true ∧
    test_bit 9 (tr_queue 2 (50000000 + 2 ^ 32 * NS_SLOT) tr_base10).map = false :=
  ⟨TrReach_base10, by decide, by decide, by decide, by decide, by decide, by decide, by decide,
    by decide, by decide, by decide⟩

set_option maxRecDepth 100000 in
/-- C10, counterexample. A fresh ring has `tbase = 0`; after `tr_queue` of
one task with `t = 0` and key `100`, `tbase` is `0`, not `100`. -/
theorem tr_queue_fresh_tbase :
    (tr_rqinit tr_zero).tbase = 0 ∧ (tr_rqinit tr_zero).t 1 = 0 ∧
    (tr_queue 1 100 (tr_rqinit tr_zero)).tbase = 0 ∧
    (tr_queue 1 100 (tr_rqinit tr_zero)).t 1 = 100 :=
  ⟨by decide, by decide, by decide, by decide⟩

/-- C10 (amended). On a ring whose `tbase` is `0`, `tr_queue(tsk, rq, k)` sets
`tbase` to the value that `tsk->t` held before the call (the stand-in for
`sched_clock()`); `tsk->t` itself becomes `k`. -/
theorem tr_queue_sets_tbase (tsk k : Nat) (s : tr_state) (h : s.tbase = 0) :
    (tr_queue tsk k s).tbase = s.t tsk ∧ (tr_queue tsk k s).t tsk = k := by
  rw [tr_queue_tbase, if_pos h, tr_queue_t, upd_same]
  exact ⟨rfl, rfl⟩

set_option maxRecDepth 100000 in
/-- Instance of the amended C10 at the ring `tr_drained`, where task `1` has
`t = 10 * NS_SLOT` from its earlier queueing. -/
theorem tr_queue_sets_tbase_witness :
    tr_drained.tbase = 0 ∧ tr_drained.t 1 = 50000000 ∧
    (tr_queue 1 100 tr_drained).tbase = tr_drained.t 1 ∧
    (tr_queue 1 100 tr_drained).t 1 = 100 :=
  ⟨by decide, by decide, tr_queue_sets_tbase 1 100 tr_drained (by decide)⟩

set_option maxRecDepth 100000 in
theorem Reach_cfs_emptied : Reach cfs_emptied [] :=
  Reach.dequeue 2 1 Reach_cfs_one (by decide) rfl

set_option maxRecDepth 100000 in
theorem TrInv_base10 : TrInv tr_base10 (fun _ => []) := by
  obtain ⟨L, hI, -, hm⟩ := TrReach_inv TrReach_base10
  have : L = fun _ => [] := by
    funext j
    refine List.eq_nil_iff_forall_not_mem.2 ?_
    intro a ha
    exact List.not_mem_nil _ ((hm a).2 ⟨j, ha⟩)
  rw [← this]
  exact hI

set_option maxRecDepth 100000 in
theorem TrInv_queued1 : TrInv tr_queued1 (fun j => if j = 10 then [] ++ [1] else []) := by
  have h := tr_queue_spec (tr_rqinit tr_zero) (fun _ => []) 1 (10 * NS_SLOT)
    (TrInv_init tr_zero (fun _ => by show 0 < 2 ^ 64; decide)) (by simp) (by decide)
  rw [show tr_queue_idx 1 (10 * NS_SLOT) (tr_rqinit tr_zero) = 10 by decide] at h
  exact h

set_option maxRecDepth 100000 in
/-- C11. The ring `tr_base10` is reached from `tr_rqinit` and holds no task
(`ibase = 10`, `tbase = 50000000`); after `tr_queue` of task `3` with the key
`tbase + 254 * NS_SLOT`, which goes to slot `8`, `tr_dequeue` returns `NULL`
instead of task `3`. -/
theorem tr_queue_dequeue_null :
    TrReach tr_base10 [] ∧ tr_base10.ibase = 10 ∧ tr_base10.tbase = 50000000 ∧
    tr_queue_idx 3 (50000000 + 254 * NS_SLOT) tr_base10 = 8 ∧
    (tr_queue 3 (50000000 + 254 * NS_SLOT) tr_base10).next (.head 8) = .task 3 ∧
    rel_ffs (tr_queue 3 (50000000 + 254 * NS_SLOT) tr_base10) = MAX_RQ ∧
    (tr_dequeue (tr_queue 3 (50000000 + 254 * NS_SLOT) tr_base10)).1 = .null :=
  ⟨TrReach_base10, by decide, by decide, by decide, by decide, by decide, by decide⟩

set_option maxRecDepth 100000 in
/-- Instance of C12 at the three tasks `tr_tasks3`. -/
theorem tr_dequeue_bucket_sort_witness :
    (∀ a, tr_zero.t a = 0) ∧ (tr_tasks3.map Prod.fst).Nodup ∧
    (∀ p ∈ tr_tasks3, p.2 < MAX_RQ * NS_SLOT) ∧
    (tr_dequeue_n tr_tasks3.length (tr_queue_all tr_tasks3 (tr_rqinit tr_zero))).1 =
      (stable_bucket_sort tr_tasks3).map (fun p => lptr.task p.1) ∧
    (stable_bucket_sort tr_tasks3).Perm tr_tasks3 ∧
    ((stable_bucket_sort tr_tasks3).map (fun p => p.2 / NS_SLOT)).Sorted (· ≤ ·) ∧
    ∀ j, (stable_bucket_sort tr_tasks3).filter (fun p => p.2 / NS_SLOT = j) =
      tr_tasks3.filter (fun p => p.2 / NS_SLOT = j) :=
  ⟨fun _ => rfl, by decide, by decide,
    tr_dequeue_bucket_sort tr_zero tr_tasks3 (fun _ => rfl) (by decide) (by decide)⟩

set_option maxRecDepth 100000 in
/-- C13. In the reachable ring `tr_wrapped` task `2`, queued in slot `5` with a
key inside the current window, has its key in the window of slot `5`
(`r = 251`); after `tr_dequeue`, which returns `NULL` and sets `tbase` to `0`,
task `2` is still queued in slot `5` and its key `1305000000` is not in
`[tbase + 251 * NS_SLOT, tbase + 252 * NS_SLOT)` any more. -/
theorem tr_window_lost :
    TrReach tr_wrapped [2] ∧ 50000000 + 251 * NS_SLOT < tr_base10.tbase + MAX_RQ * NS_SLOT ∧
    tr_wrapped.next (.head 5) = .task 2 ∧ tr_in_window tr_wrapped 5 2 ∧
    TrReach (tr_dequeue tr_wrapped).2 [2] ∧
    (tr_dequeue tr_wrapped).2.next (.head 5) = .task 2 ∧
    (tr_dequeue tr_wrapped).2.ibase = 10 ∧ (tr_dequeue tr_wrapped).2.tbase = 0 ∧
    (tr_dequeue tr_wrapped).2.t 2 = 1305000000 ∧
    decide (tr_in_window (tr_dequeue tr_wrapped).2 5 2) = false :=
  ⟨TrReach.queue 2 (50000000 + 251 * NS_SLOT) TrReach_base10 (by decide) (by decide),
    by decide, by decide, by decide,
    TrReach.dequeue
      (TrReach.queue 2 (50000000 + 251 * NS_SLOT) TrReach_base10 (by decide) (by decide)),
    by decide, by decide, by decide, by decide, by decide⟩

set_option maxRecDepth 100000 in
/-- Instance of C14 at the three tasks `tr_tasks_any`. -/
theorem tr_queue_dequeue_all_witness :
    (∀ a, tr_zero.t a < 2 ^ 64) ∧ (tr_tasks_any.map Prod.fst).Nodup ∧
    (∀ p ∈ tr_tasks_any, p.2 < 2 ^ 64) ∧
    ∃ out : List Nat,
      (tr_dequeue_n tr_tasks_any.length (tr_queue_all tr_tasks_any (tr_rqinit tr_zero))).1 =
        out.map lptr.task ∧
      out.Perm (tr_tasks_any.map Prod.fst) ∧ out.Nodup ∧
      (∀ w, w < MAP_LONGS →
        (tr_dequeue_n tr_tasks_any.length
          (tr_queue_all tr_tasks_any (tr_rqinit tr_zero))).2.map w = 0) ∧
      (∀ i, i < MAX_RQ → list_empty (.head i)
        (tr_dequeue_n tr_tasks_any.length (tr_queue_all tr_tasks_any (tr_rqinit tr_zero))).2) ∧
      (tr_dequeue
        (tr_dequeue_n tr_tasks_any.length
          (tr_queue_all tr_tasks_any (tr_rqinit tr_zero))).2).1 = .null :=
  ⟨fun _ => by show 0 < 2 ^ 64; decide, by decide, by decide,
    tr_queue_dequeue_all tr_zero tr_tasks_any (fun _ => by show 0 < 2 ^ 64; decide)
      (by decide) (by decide)⟩

/-- Instance of C15 at the run-queue `cfs_emptied`, with fuel `1`. -/
theorem cfs_dequeue_empty_witness :
    cfs_dequeue 1 cfs_emptied = some (0, cfs_emptied) ∧ cfs_emptied.heap.rb_node = 0 ∧
    cfs_emptied.rb_leftmost = 0 :=
  cfs_dequeue_empty Reach_cfs_emptied 1

/-- Instance of C16 at the ring `tr_base10`. -/
theorem tr_dequeue_empty_witness :
    (tr_dequeue tr_base10).1 = .null ∧ (tr_dequeue tr_base10).2.tbase = 0 ∧
    (tr_dequeue tr_base10).2.ibase = tr_base10.ibase ∧
    (tr_dequeue tr_base10).2.next = tr_base10.next ∧
    (tr_dequeue tr_base10).2.prev = tr_base10.prev ∧
    (tr_dequeue tr_base10).2.map = tr_base10.map ∧
    (tr_dequeue tr_base10).2.t = tr_base10.t :=
  tr_dequeue_empty TrReach_base10

set_option maxRecDepth 100000 in
/-- Instance of C17 at the ring `tr_wrapped2` (`ibase = 10`, slots `5` and `70`
occupied), where `rel_ffs` returns `70`. -/
theorem rel_ffs_ring_first_witness :
    tr_wrapped2.ibase < MAX_RQ ∧ (∀ w, w < MAP_LONGS → tr_wrapped2.map w < 2 ^ 64) ∧
    rel_ffs tr_wrapped2 < MAX_RQ ∧ rel_ffs tr_wrapped2 = 70 ∧
    test_bit (rel_ffs tr_wrapped2) tr_wrapped2.map = true ∧
    ∀ j, j < MAX_RQ →
      (j + MAX_RQ - tr_wrapped2.ibase) % MAX_RQ <
        (rel_ffs tr_wrapped2 + MAX_RQ - tr_wrapped2.ibase) % MAX_RQ →
      test_bit j tr_wrapped2.map = false :=
  ⟨by decide, by decide, by decide, by decide,
    rel_ffs_ring_first tr_wrapped2 (by decide) (by decide) (by decide)⟩

set_option maxRecDepth 100000 in
/-- Instance of C18 at the empty ring `tr_base10`, task `2` and the key
`tbase + 3 * NS_SLOT + 9`. -/
theorem tr_queue_appends_witness :
    TrInv tr_base10 (fun _ => []) ∧ tr_base10.tbase ≠ 0 ∧ 65000009 < 2 ^ 64 ∧
    tr_base10.tbase ≤ 65000009 ∧ (65000009 - tr_base10.tbase) / NS_SLOT < 2 ^ 32 ∧
    (tr_queue 2 65000009 tr_base10).t = upd tr_base10.t 2 65000009 ∧
    TrInv (tr_queue 2 65000009 tr_base10)
      (fun j => if j = (min ((65000009 - tr_base10.tbase) / NS_SLOT) (MAX_RQ - 1) +
          tr_base10.ibase) % MAX_RQ
        then (fun _ => []) j ++ [2] else (fun _ => []) j) ∧
    (∀ i, test_bit i (tr_queue 2 65000009 tr_base10).map =
      (decide (i = (min ((65000009 - tr_base10.tbase) / NS_SLOT) (MAX_RQ - 1) +
          tr_base10.ibase) % MAX_RQ) ||
        test_bit i tr_base10.map)) ∧
    (tr_queue 2 65000009 tr_base10).ibase = tr_base10.ibase ∧
    (tr_queue 2 65000009 tr_base10).tbase = tr_base10.tbase :=
  ⟨TrInv_base10, by decide, by decide, by decide, by decide,
    tr_queue_appends tr_base10 (fun _ => []) 2 65000009 TrInv_base10 (by simp) (by decide)
      (by decide) (by decide) (by decide)⟩

set_option maxRecDepth 100000 in
/-- C19. In the reachable ring `tr_base10` (`ibase = 10`, `tbase = 50000000`)
the key `49999999` is earlier than `tbase`; `tr_queue` puts the task in slot
`9`, the last slot of the ring from `ibase`, not in the base slot `10`. -/
theorem tr_queue_early_key_slot :
    TrReach tr_base10 [] ∧ tr_base10.ibase = 10 ∧ tr_base10.tbase = 50000000 ∧
    49999999 < tr_base10.tbase ∧
    ((49999999 + 2 ^ 64 - tr_base10.tbase) % 2 ^ 64 / NS_SLOT) % 2 ^ 32 = 4266874773 ∧
    tr_queue_idx 2 49999999 tr_base10 = 9 ∧
    (tr_queue 2 49999999 tr_base10).next (.head 9) = .task 2 ∧
    (tr_queue 2 49999999 tr_base10).next (.head 10) = .head 10 ∧
    test_bit 9 (tr_queue 2 49999999 tr_base10).map = true ∧
    test_bit 10 (tr_queue 2 49999999 tr_base10).map = false :=
  ⟨TrReach_base10, by decide, by decide, by decide, by decide, by decide, by decide, by decide,
    by decide, by decide⟩

set_option maxRecDepth 100000 in
/-- Instance of C20 at the ring `tr_queued1`, where task `1` sits in slot `10`. -/
theorem tr_dequeue_advance_witness :
    TrInv tr_queued1 (fun j => if j = 10 then [] ++ [1] else []) ∧
    rel_ffs tr_queued1 < MAX_RQ ∧
    ∃ a l, (fun j => if j = 10 then [] ++ [1] else []) (rel_ffs tr_queued1) = a :: l ∧
      (tr_dequeue tr_queued1).1 = .task a ∧
      TrInv (tr_dequeue tr_queued1).2
        (fun j => if j = rel_ffs tr_queued1 then l
          else (fun j => if j = 10 then [] ++ [1] else []) j) ∧
      (tr_dequeue tr_queued1).2.ibase = rel_ffs tr_queued1 ∧
      (tr_dequeue tr_queued1).2.tbase =
        (tr_queued1.tbase +
          ((rel_ffs tr_queued1 + MAX_RQ - tr_queued1.ibase) % MAX_RQ) * NS_SLOT) % 2 ^ 64 ∧
      (tr_queued1.tbase +
          ((rel_ffs tr_queued1 + MAX_RQ - tr_queued1.ibase) % MAX_RQ) * NS_SLOT < 2 ^ 64 →
        (tr_dequeue tr_queued1).2.tbase =
          tr_queued1.tbase +
            ((rel_ffs tr_queued1 + MAX_RQ - tr_queued1.ibase) % MAX_RQ) * NS_SLOT) ∧
      (tr_dequeue tr_queued1).2.t = tr_queued1.t :=
  ⟨TrInv_queued1, by decide, tr_dequeue_advance tr_queued1 _ TrInv_queued1 (by decide)⟩

theorem tr_dequeue_tbase_ring (s : tr_state) (hib : s.ibase < MAX_RQ)
    (hlt : rel_ffs s < MAX_RQ) :
    (tr_dequeue s).2.tbase =
      (s.tbase + ((rel_ffs s + MAX_RQ - s.ibase) % MAX_RQ) * NS_SLOT) % 2 ^ 64 := by
  have hd : ((rel_ffs s + 2 ^ 32 - s.ibase) % 2 ^ 32) &&& RQ_MASK =
      (rel_ffs s + MAX_RQ - s.ibase) % MAX_RQ := by
    rw [and_RQ_MASK]
    simp only [MAX_RQ] at hlt hib ⊢
    omega
  rw [tr_dequeue_tbase s (by omega), hd, Nat.mul_comm]

/-- C21 (amended). On every ring reached from `tr_rqinit`: (a) a `tr_dequeue`
that returns `NULL` leaves `tbase = 0`; (b) with no task queued `tr_dequeue`
returns `NULL` and leaves `tbase = 0`; (c) after a `tr_dequeue` that returned
`NULL`, the next `tr_queue(tsk, rq, t)` sets `tbase` to the value that
`tsk->t` had before the call, for every task and key; (d) a `tr_dequeue` that
returns a task, also the last queued one, leaves `tbase` at the old `tbase`
plus `((idx - ibase) mod MAX_RQ) * NS_SLOT` in 64-bit arithmetic, for
`idx = rel_ffs(rq)`. -/
theorem tr_dequeue_null_tbase {s : tr_state} {q : List Nat} (hr : TrReach s q) :
    ((tr_dequeue s).1 = .null → (tr_dequeue s).2.tbase = 0) ∧
    (q = [] → (tr_dequeue s).1 = .null ∧ (tr_dequeue s).2.tbase = 0) ∧
    ((tr_dequeue s).1 = .null → ∀ tsk key : Nat,
      (tr_queue tsk key (tr_dequeue s).2).tbase = s.t tsk) ∧
    (∀ a, (tr_dequeue s).1 = .task a → (tr_dequeue s).2.tbase =
      (s.tbase + ((rel_ffs s + MAX_RQ - s.ibase) % MAX_RQ) * NS_SLOT) % 2 ^ 64) := by
  obtain ⟨L, hI, -, hm⟩ := TrReach_inv hr
  have hnull0 : (tr_dequeue s).1 = .null → (tr_dequeue s).2.tbase = 0 := by
    intro hnull
    rcases tr_dequeue_spec s L hI with ⟨h, -, -⟩ | ⟨a, l, -, -, h1, -⟩
    · rw [tr_dequeue_null s h]
    · rw [h1] at hnull
      exact lptr.noConfusion hnull
  refine ⟨hnull0, ?_, ?_, ?_⟩
  · intro hq
    subst hq
    have he : ∀ j, L j = [] := by
      intro j
      refine List.eq_nil_iff_forall_not_mem.2 ?_
      intro a ha
      exact List.not_mem_nil _ ((hm a).2 ⟨j, ha⟩)
    rw [tr_dequeue_null s (rel_ffs_empty s L hI he)]
    exact ⟨rfl, rfl⟩
  · intro hnull tsk key
    rw [tr_queue_tbase, if_pos (hnull0 hnull), tr_dequeue_t]
  · intro a ha
    rcases tr_dequeue_spec s L hI with ⟨h, h1, -⟩ | ⟨-, -, hlt, -, -, -⟩
    · rw [h1] at ha
      exact lptr.noConfusion ha
    · exact tr_dequeue_tbase_ring s hI.1 hlt

/-- C29. On every ring reached from `tr_rqinit`: `ibase < MAX_RQ`, so the first
word `rel_ffs` reads is inside `map[]`; the slot index `tr_queue` writes to is
below `MAX_RQ` for every state, task and key (also keys below `tbase` and
quotients beyond 32 bits); `rel_ffs` returns at most `MAX_RQ`, and when it is
not `MAX_RQ` it is a valid index of `tsks[]` whose word is inside `map[]`. -/
theorem tr_index_bounds {s : tr_state} {q : List Nat} (hr : TrReach s q) :
    s.ibase < MAX_RQ ∧ s.ibase / BITS_X_LONG < MAP_LONGS ∧
    (∀ (s' : tr_state) (tsk key : Nat), tr_queue_idx tsk key s' < MAX_RQ) ∧
    rel_ffs s ≤ MAX_RQ ∧
    (rel_ffs s ≠ MAX_RQ → rel_ffs s < MAX_RQ ∧ rel_ffs s / BITS_X_LONG < MAP_LONGS) ∧
    (tr_dequeue s).2.ibase < MAX_RQ := by
  obtain ⟨L, hI, -, -⟩ := TrReach_inv hr
  obtain ⟨L', hI', -, -⟩ := TrReach_inv (TrReach.dequeue hr)
  have hib := hI.1
  have hs := rel_ffs_sound s hI.1 hI.2.2.2.1
  refine ⟨hib, ?_, fun s' tsk key => tr_queue_idx_lt tsk key s', ?_, ?_, hI'.1⟩
  · simp only [MAX_RQ, BITS_X_LONG, MAP_LONGS] at hib ⊢
    omega
  · rcases hs with h | ⟨h, -⟩
    · exact le_of_eq h
    · exact le_of_lt h
  · intro hne
    rcases hs with h | ⟨h, -⟩
    · exact absurd h hne
    · refine ⟨h, ?_⟩
      simp only [MAX_RQ, BITS_X_LONG, MAP_LONGS] at h ⊢
      omega

/-- C22. In every run-queue state reached from `cfs_rqinit`, `rb_leftmost` is
`NULL` or the first node of the tree in sort order (its leftmost node), the
descent `rb_first` returns that leftmost node (`NULL` for the empty tree), and
the cached lookup `first_fair` returns exactly what `rb_first` returns. -/
theorem cfs_leftmost_cache {s : cfs_state} {q : List Nat} (hr : Reach s q) (fuel : Nat)
    (hfuel : q.length < fuel) :
    ∃ T, Rep s.heap T ∧ T.inorder.Perm q ∧
      (s.rb_leftmost = 0 ∨ T.inorder.head? = some s.rb_leftmost) ∧
      rb_first fuel s.heap = some (T.inorder.head?.getD 0) ∧
      first_fair fuel s = rb_first fuel s.heap := by
  obtain ⟨T, hinv, hperm⟩ := Reach_inv hr
  obtain ⟨hrep, -, -, hlm⟩ := hinv
  have hsz : T.size < fuel := by rw [size_eq_length, hperm.length_eq]; exact hfuel
  have hfirst : rb_first fuel s.heap = some (T.inorder.head?.getD 0) := by
    by_cases hne : T = .nil
    · subst hne
      have hroot : s.heap.rb_node = 0 := hrep.1
      simp [rb_first, hroot, Tree.inorder]
    · have hroot := Rep_ptr_ne_zero hrep hne
      have := descend_left_head T [] fuel hrep hne (by omega)
      rw [← hrep.1] at this
      simp only [rb_first, hroot, if_false]
      exact this
  refine ⟨T, hrep, hperm, hlm, hfirst, ?_⟩
  rw [hfirst]
  unfold first_fair
  by_cases h0 : s.rb_leftmost = 0
  · simp only [h0, ne_eq, not_true_eq_false, if_false]
    exact hfirst
  · rcases hlm with h | h
    · exact absurd h h0
    · simp only [ne_eq, h0, not_false_eq_true, if_true, h, Option.getD_some]

/-- C23. In every reachable run-queue state, for a new task and any key,
`cfs_queue` returns; if the key is strictly smaller than the key of every
queued task (also when none is queued) the new node is the first in sort order
and `rb_leftmost` is set to it; otherwise `rb_leftmost` is left unchanged. -/
theorem cfs_queue_leftmost {s : cfs_state} {q : List Nat} (hr : Reach s q)
    (tsk key fuel : Nat) (h0 : tsk ≠ 0) (hnew : tsk ∉ q) (hfuel : q.length < fuel) :
    ∃ s' T', cfs_queue fuel tsk key s = some s' ∧ Rep s'.heap T' ∧
      T'.inorder.Perm (tsk :: q) ∧
      ((∀ a ∈ q, key < s.t a) → s'.rb_leftmost = tsk ∧ T'.inorder.head? = some tsk) ∧
      (¬ (∀ a ∈ q, key < s.t a) → s'.rb_leftmost = s.rb_leftmost ∧
        T'.inorder.head? ≠ some tsk) := by
  obtain ⟨T, hinv, hperm⟩ := Reach_inv hr
  have hnT : tsk ∉ T.inorder := fun hm => hnew (hperm.mem_iff.1 hm)
  have hsz : T.size < fuel := by rw [size_eq_length, hperm.length_eq]; exact hfuel
  obtain ⟨s1, T', L1, L2, e, hinv', hT, hT', hL1, hL2, -, hlm⟩ :=
    cfs_queue_spec s T tsk key fuel hinv h0 hnT hsz
  refine ⟨s1, T', e, hinv'.1, ?_, ?_, ?_⟩
  · rw [hT']
    refine (List.perm_middle).trans (List.Perm.cons _ ?_)
    rw [← hT]; exact hperm
  · intro hall
    have hnil : L1 = [] := by
      refine List.eq_nil_iff_forall_not_mem.2 ?_
      intro a ha
      have h1 := hL1 a ha
      have h2 := hall a (hperm.mem_iff.1 (by rw [hT]; exact List.mem_append_left _ ha))
      omega
    rw [hlm, if_pos hnil, hT', hnil]
    exact ⟨rfl, rfl⟩
  · intro hnall
    have hne : L1 ≠ [] := by
      intro hnil
      apply hnall
      intro a ha
      have : a ∈ T.inorder := hperm.mem_iff.2 ha
      rw [hT, hnil] at this
      exact hL2 a this
    rw [hlm, if_neg hne, hT']
    refine ⟨rfl, ?_⟩
    obtain ⟨x, l, hx⟩ := List.exists_cons_of_ne_nil hne
    rw [hx]
    simp only [List.cons_append, List.head?_cons, ne_eq, Option.some.injEq]
    rintro rfl
    exact hnT (by rw [hT, hx]; exact List.mem_cons_self _ _)

/-- In every reachable state the tree holds the queued tasks without
repetition, and two queued tasks with equal keys stand in the sort order of the
tree in the order in which they were queued (`q` lists the queued tasks, the
latest first). -/
theorem Reach_fifo {s : cfs_state} {q : List Nat} (hr : Reach s q) :
    ∃ T, Inv s T ∧ T.inorder.Perm q ∧ q.Nodup ∧
      ∀ a b, List.Sublist [b, a] q → s.t a = s.t b → List.Sublist [a, b] T.inorder := by
  induction hr with
  | init s0 => exact ⟨.nil, Inv_init s0, by simp [Tree.inorder], List.nodup_nil, by simp⟩
  | @queue s s' q fuel tsk key _ h0 hnew hfuel hq ih =>
    obtain ⟨T, hinv, hperm, hnd, hfifo⟩ := ih
    have hnT : tsk ∉ T.inorder := fun hm => hnew (hperm.mem_iff.1 hm)
    have hsz : T.size < fuel := by rw [size_eq_length, hperm.length_eq]; exact hfuel
    obtain ⟨s1, T', L1, L2, e, hinv', hT, hT', hL1, hL2, ht, -⟩ :=
      cfs_queue_spec s T tsk key fuel hinv h0 hnT hsz
    rw [hq] at e
    cases e
    refine ⟨T', hinv', ?_, List.nodup_cons.2 ⟨hnew, hnd⟩, ?_⟩
    · rw [hT']
      refine (List.perm_middle).trans (List.Perm.cons _ ?_)
      rw [← hT]; exact hperm
    · intro a b hab hk
      rw [hT']
      have hsub : List.Sublist (L1 ++ L2) (L1 ++ tsk :: L2) :=
        List.Sublist.append_left (List.sublist_cons_self tsk L2) L1
      rw [ht] at hk
      cases hab with
      | cons _ h =>
        -- both were queued before `tsk`
        have ha : a ∈ q := h.subset (by simp)
        have hb : b ∈ q := h.subset (by simp)
        have ha' : a ≠ tsk := fun e => hnew (e ▸ ha)
        have hb' : b ≠ tsk := fun e => hnew (e ▸ hb)
        rw [upd_of_ne _ key ha', upd_of_ne _ key hb'] at hk
        have := hfifo a b h hk
        rw [hT] at this
        exact this.trans hsub
      | cons₂ _ h =>
        -- `b` is `tsk`, queued last
        have ha : a ∈ q := h.subset (by simp)
        have ha' : a ≠ tsk := fun e => hnew (e ▸ ha)
        rw [upd_of_ne _ key ha', upd_same] at hk
        have haT : a ∈ L1 ++ L2 := by rw [← hT]; exact hperm.mem_iff.2 ha
        have haL1 : a ∈ L1 := by
          rcases List.mem_append.1 haT with h1 | h2
          · exact h1
          · have := hL2 a h2
            omega
        have h1 : List.Sublist [a] L1 := List.singleton_sublist.2 haL1
        have h2 : List.Sublist [tsk] (tsk :: L2) :=
          List.Sublist.cons₂ tsk (List.nil_sublist L2)
        exact List.Sublist.append h1 h2
  | @dequeue s s' q fuel x _ hfuel hq ih =>
    obtain ⟨T, hinv, hperm, hnd, hfifo⟩ := ih
    by_cases hne : T = .nil
    · subst hne
      rw [cfs_dequeue_nil s fuel hinv] at hq
      cases hq
      have hq0 : q = [] := by simpa [Tree.inorder] using hperm
      subst hq0
      exact ⟨.nil, hinv, by simp [Tree.inorder], List.nodup_nil, by simp⟩
    · have hsz : T.size < fuel := by rw [size_eq_length, hperm.length_eq]; exact hfuel
      obtain ⟨a', L, s1, T', hT, e, -, hinv', hT', ht, -⟩ :=
        cfs_dequeue_spec s T fuel hinv hne hsz
      rw [hq] at e
      cases e
      refine ⟨T', hinv', ?_, hnd.erase x, ?_⟩
      · rw [hT']
        have : (T.inorder.erase x).Perm (q.erase x) := hperm.erase x
        rw [hT] at this
        simpa using this
      · intro a b hab hk
        rw [ht] at hk
        have hab' : List.Sublist [b, a] q := hab.trans (List.erase_sublist x q)
        have := hfifo a b hab' hk
        rw [hT] at this
        rw [hT']
        have ha : a ∈ q.erase x := hab.subset (by simp)
        have hax : a ≠ x := (hnd.mem_erase_iff.1 ha).1
        cases this with
        | cons _ h => exact h
        | cons₂ _ h => exact absurd rfl hax

/-- C28. In every reachable run-queue state (`q` lists the queued tasks, the
latest first): when `a` was queued before `b` and both have the same key,
`cfs_dequeue` returns a task that is not `b`; afterwards either `a` is the task
just returned, or `a` and `b` are both still queued in the same order with
their keys unchanged. So `b` is never dequeued before `a`. -/
theorem cfs_fifo_ties {s : cfs_state} {q : List Nat} (hr : Reach s q) (fuel : Nat)
    (hfuel : q.length < fuel) (a b : Nat) (hab : List.Sublist [b, a] q)
    (hk : s.t a = s.t b) :
    ∃ x s', cfs_dequeue fuel s = some (x, s') ∧ Reach s' (q.erase x) ∧ x ≠ b ∧
      s'.t = s.t ∧ (x = a ∨ List.Sublist [b, a] (q.erase x)) := by
  obtain ⟨T, hinv, hperm, hnd, hfifo⟩ := Reach_fifo hr
  have haq : a ∈ q := hab.subset (by simp)
  have hbq : b ∈ q := hab.subset (by simp)
  have hne : T ≠ .nil := by
    rintro rfl
    have := hperm.mem_iff.2 haq
    simp [Tree.inorder] at this
  have hsz : T.size < fuel := by rw [size_eq_length, hperm.length_eq]; exact hfuel
  obtain ⟨x, L, s1, T', hT, e, -, -, -, ht, -⟩ := cfs_dequeue_spec s T fuel hinv hne hsz
  have hndT : T.inorder.Nodup := hperm.nodup_iff.2 hnd
  have hneab : a ≠ b := by
    rintro rfl
    have : ([a, a] : List Nat).Nodup := hab.nodup hnd
    simp at this
  have hxb : x ≠ b := by
    rintro rfl
    have h1 := hfifo a x hab hk
    rw [hT] at h1 hndT
    cases h1 with
    | cons _ h =>
      have : x ∈ L := h.subset (by simp)
      exact (List.nodup_cons.1 hndT).1 this
    | cons₂ _ h => exact hneab rfl
  refine ⟨x, s1, e, Reach.dequeue fuel x hr hfuel e, hxb, ht, ?_⟩
  by_cases hxa : x = a
  · exact Or.inl hxa
  · right
    have := hab.erase x
    rwa [List.erase_of_not_mem (by simp [hxa, hxb])] at this

theorem Bal_pow_bh : ∀ T : Tree, T.Bal → 2 ^ T.bh ≤ T.size + 1 := by
  intro T
  induction T with
  | nil => intro _; simp [Tree.bh, Tree.size]
  | node a c l r ihl ihr =>
    intro hb
    obtain ⟨hc, hlr, hl, hr⟩ := hb
    have h1 := ihl hl
    have h2 := ihr hr
    rw [hlr] at h1
    simp only [Tree.bh, Tree.size]
    have h3 : 2 ^ (l.bh + c) ≤ 2 ^ (r.bh + 1) := by
      rw [hlr]
      exact Nat.pow_le_pow_right (by decide) (by omega)
    rw [Nat.pow_succ] at h3
    omega

theorem RB_height_bh : ∀ T : Tree, T.NoRR → T.Bal →
    (T.isBlack → T.height ≤ 2 * T.bh) ∧ T.height ≤ 2 * T.bh + 1 := by
  intro T
  induction T with
  | nil => intro _ _; simp [Tree.height, Tree.bh]
  | node a c l r ihl ihr =>
    intro hn hb
    obtain ⟨hc, hlr, hbl, hbr⟩ := hb
    obtain ⟨hred, hnl, hnr⟩ := hn
    obtain ⟨l1, l2⟩ := ihl hnl hbl
    obtain ⟨r1, r2⟩ := ihr hnr hbr
    simp only [Tree.height, Tree.bh, Tree.isBlack]
    by_cases h0 : c = 0
    · obtain ⟨kl, kr⟩ := hred h0
      have := l1 kl
      have := r1 kr
      subst h0
      refine ⟨fun h => absurd rfl h, ?_⟩
      rcases Nat.le_total l.height r.height with h | h
      · rw [Nat.max_eq_right h]; omega
      · rw [Nat.max_eq_left h]; omega
    · have hc1 : c = 1 := by omega
      subst hc1
      have key : max l.height r.height + 1 ≤ 2 * (l.bh + 1) := by
        rcases Nat.le_total l.height r.height with h | h
        · rw [Nat.max_eq_right h]; omega
        · rw [Nat.max_eq_left h]; omega
      exact ⟨fun _ => key, by omega⟩

/-- A red-black tree with `n` nodes has height at most `2 * log2 (n + 1)`. -/
theorem RB_height_log (T : Tree) (h : T.RB) : T.height ≤ 2 * Nat.log 2 (T.size + 1) := by
  obtain ⟨hb, hn, hbal⟩ := h
  have h1 := (RB_height_bh T hn hbal).1 hb
  have h2 := Bal_pow_bh T hbal
  have h3 : T.bh ≤ Nat.log 2 (T.size + 1) := Nat.le_log_of_pow_le (by decide) h2
  omega

theorem descend_left_mono (h : Heap) : ∀ (f f' n x : Nat), f ≤ f' →
    descend_left h f n = some x → descend_left h f' n = some x := by
  intro f
  induction f with
  | zero => intro f' n x _ h0; simp [descend_left] at h0
  | succ f ih =>
    intro f' n x hle h0
    obtain ⟨g, rfl⟩ : ∃ g, f' = g + 1 := ⟨f' - 1, by omega⟩
    simp only [descend_left] at h0 ⊢
    split_ifs at h0 ⊢ with hl
    · exact ih g _ x (by omega) h0
    · exact h0

/-- The descent to the leftmost node visits at most `height` nodes. -/
theorem descend_left_height {h : Heap} : ∀ (t : Tree) (k0 : Ctx),
    Rep h (plug k0 t) → t ≠ .nil → ∃ x, descend_left h t.height t.ptr = some x := by
  intro t
  induction t with
  | nil => intro _ _ hne; exact absurd rfl hne
  | node a c l r ihl _ =>
    intro k0 hrep _
    obtain ⟨-, -, -, hl, -, -⟩ := Rep_read k0 a c l r hrep
    simp only [Tree.height, ptr_node, descend_left, hl]
    cases l with
    | nil => exact ⟨a, by simp⟩
    | node b cb lb rb =>
      have hb : (Tree.node b cb lb rb).ptr ≠ 0 := by
        obtain ⟨b0, -⟩ := Rep_read (.L a c r :: k0) b cb lb rb hrep
        simpa using b0
      obtain ⟨x, hx⟩ := ihl (.L a c r :: k0) hrep (by simp)
      refine ⟨x, ?_⟩
      rw [if_pos hb]
      exact descend_left_mono h _ _ _ x (Nat.le_max_left _ _) hx

theorem cfs_queue_loop_height (s : cfs_state) (key : Nat) : ∀ (t : Tree) (k : Ctx)
    (fuel lm : Nat), Rep s.heap (plug k t) → t.height < fuel →
    ∃ r, cfs_queue_loop s key fuel (linkOf k) (parOf k) lm = some r := by
  intro t
  induction t with
  | nil =>
    intro k fuel lm hrep hfuel
    obtain ⟨f, rfl⟩ : ∃ f, fuel = f + 1 := ⟨fuel - 1, by omega⟩
    have hl : deref s.heap (linkOf k) = 0 := ((Rep_plug k .nil).1 hrep).2.1
    exact ⟨(linkOf k, parOf k, lm), by simp [cfs_queue_loop, hl]⟩
  | node a c l r ihl ihr =>
    intro k fuel lm hrep hfuel
    obtain ⟨f, rfl⟩ : ∃ f, fuel = f + 1 := ⟨fuel - 1, by omega⟩
    obtain ⟨a0, -, -, -, -, hl⟩ := Rep_read k a c l r hrep
    simp only [Tree.height] at hfuel
    have h1 : l.height < f := by
      have := Nat.le_max_left l.height r.height; omega
    have h2 : r.height < f := by
      have := Nat.le_max_right l.height r.height; omega
    by_cases hlt : key < s.t a
    · obtain ⟨r', e⟩ := ihl (.L a c r :: k) f lm hrep h1
      refine ⟨r', ?_⟩
      simp only [linkOf_L, parOf_L] at e
      simp [cfs_queue_loop, hl, a0, hlt, e]
    · obtain ⟨r', e⟩ := ihr (.R a c l :: k) f 0 hrep h2
      refine ⟨r', ?_⟩
      simp only [linkOf_R, parOf_R] at e
      simp [cfs_queue_loop, hl, a0, hlt, e]

theorem height_le_size : ∀ T : Tree, T.height ≤ T.size := by
  intro T
  induction T with
  | nil => exact Nat.le_refl _
  | node a c l r ihl ihr =>
    simp only [Tree.height, Tree.size]
    rcases Nat.le_total l.height r.height with h | h
    · rw [Nat.max_eq_right h]; omega
    · rw [Nat.max_eq_left h]; omega

/-- C26. After every sequence of `cfs_queue` and `cfs_dequeue` calls from
`cfs_rqinit`, the tree of the `n` queued tasks has height at most
`2 * log2 (n + 1)` (here with the integer part of the logarithm, which is the
stronger bound); so the descent of `cfs_queue`, for any keys, ends within
`2 * log2 (n + 1)` visited nodes plus the final look at the empty link, and the
descent of `rb_first` returns the leftmost node within `2 * log2 (n + 1)`
visited nodes. -/
theorem cfs_height_log {s : cfs_state} {q : List Nat} (hr : Reach s q) :
    ∃ T, Rep s.heap T ∧ T.inorder.Perm q ∧ T.height ≤ 2 * Nat.log 2 (q.length + 1) ∧
      (∀ (t' : Nat → Nat) (key : Nat), ∃ r,
        cfs_queue_loop { s with t := t' } key (2 * Nat.log 2 (q.length + 1) + 1)
          .root 0 1 = some r) ∧
      rb_first (2 * Nat.log 2 (q.length + 1)) s.heap = some (T.inorder.head?.getD 0) := by
  obtain ⟨T, hinv, hperm⟩ := Reach_inv hr
  obtain ⟨hrep, hrb, -, -⟩ := hinv
  have hsz : T.size = q.length := by rw [size_eq_length, hperm.length_eq]
  have hh : T.height ≤ 2 * Nat.log 2 (q.length + 1) := by
    rw [← hsz]; exact RB_height_log T hrb
  refine ⟨T, hrep, hperm, hh, ?_, ?_⟩
  · intro t' key
    have hrep' : Rep ({ s with t := t' } : cfs_state).heap (plug [] T) := hrep
    obtain ⟨r, e⟩ := cfs_queue_loop_height { s with t := t' } key T []
      (2 * Nat.log 2 (q.length + 1) + 1) 1 hrep' (by omega)
    exact ⟨r, e⟩
  · by_cases hne : T = .nil
    · subst hne
      have hroot : s.heap.rb_node = 0 := hrep.1
      simp [rb_first, hroot, Tree.inorder]
    · have hroot := Rep_ptr_ne_zero hrep hne
      have hrep' : Rep s.heap (plug [] T) := hrep
      obtain ⟨x, hx⟩ := descend_left_height T [] hrep' hne
      have h1 := descend_left_mono s.heap _ T.size _ x (height_le_size T) hx
      rw [descend_left_head T [] T.size hrep' hne (Nat.le_refl _)] at h1
      cases h1
      have h2 := descend_left_mono s.heap _ _ _ _ hh hx
      rw [← hrep.1] at h2
      simp only [rb_first, hroot, if_false]
      exact h2

/-- The unlinking part of `rb_erase` for a node with a left child and no
right child. -/
theorem unlink_spec_R {h : Heap} (k : Ctx) (n c : Nat) (l : Tree) (fuel : Nat)
    (hl0 : l ≠ .nil) (hrep : Rep h (plug k (.node n c l .nil))) :
    ∃ h', rb_erase_unlink fuel n h = some (l.ptr, parOf k, c, h') ∧ Rep h' (plug k l) := by
  have hz := Rep_ne_zero hrep
  obtain ⟨n0, n1, n2, n3, n4, n5⟩ := Rep_read k n c l .nil hrep
  simp only [ptr_nil] at n4
  rw [Rep_plug] at hrep
  obtain ⟨hk, hl, hs, hnd⟩ := hrep
  obtain ⟨-, -, -, -, -, hr, -⟩ := hs
  have hlp : l.ptr ≠ 0 := by
    cases l with
    | nil => exact absurd rfl hl0
    | node b cb lb rb => exact hr.1
  simp only [inorder_plug, Tree.inorder, List.nodup_append, List.nodup_cons, List.mem_append,
    List.mem_cons, List.cons_append, List.disjoint_cons_right, List.disjoint_cons_left,
    List.disjoint_append_right, List.disjoint_append_left, not_or, List.append_assoc,
    List.nil_append, List.append_nil, List.nodup_nil, List.disjoint_nil_left,
    List.disjoint_nil_right, List.not_mem_nil, not_false_eq_true, true_and, and_true]
    at hnd hz
  obtain ⟨dX, ⟨dB, ⟨nY, dY⟩, nB, BY⟩, XB, nX, XY⟩ := hnd
  obtain ⟨zX, zB, zn, zY⟩ := hz
  have zk : 0 ∉ ctxBefore k ++ ctxAfter k := by simp [zX, zY]
  have hnk : n ∉ ctxBefore k ++ ctxAfter k := by simp [nX, nY]
  have hndk : (ctxBefore k ++ ctxAfter k).Nodup := by simp [List.nodup_append, dX, dY, XY]
  have hBk : l.ptr ∉ ctxBefore k ++ ctxAfter k := ptr_not_mem l _ zk (by simp [XB.symm, BY])
  have hpB : parOf k ∉ l.inorder := parOf_not_mem k _ zB (by simp [XB, BY.symm])
  have o1 := sameOff_reparent_if l (parOf k) h
  have hk1 := ShapeC_off k o1 (rb_node_reparent_if l (parOf k) h) (by simpa using hBk) hk
  have hl1 : deref (if l.ptr ≠ 0 then rb_set_parent l.ptr (parOf k) h else h) (linkOf k) = n := by
    refine (deref_off k o1 (rb_node_reparent_if l (parOf k) h) (fun hk' => ?_)).trans n5
    simpa using parOf_ne_ptr k l zk zB (by simp [XB, BY.symm]) (Or.inl hk')
  refine ⟨store (linkOf k) l.ptr (if l.ptr ≠ 0 then rb_set_parent l.ptr (parOf k) h else h),
    ?_, ?_⟩
  · unfold rb_erase_unlink
    simp only [n3, n4, or_true, if_true, n1, n2, hlp, if_false]
    rw [link_choice' k n l.ptr hk1 hl1 n0 hnk]
  · rw [Rep_plug]
    refine ⟨ShapeC_store k l.ptr hndk hk1, deref_store k l.ptr _, ?_, ?_⟩
    · exact Shape_off l (parOf k) (sameOff_store k l.ptr _) (by simpa using hpB)
        (Shape_reparent_if l n (parOf k) dB hr)
    · simp only [List.nodup_append, List.disjoint_append_left, List.disjoint_append_right,
        List.append_assoc]
      exact ⟨dX, ⟨dB, dY, BY⟩, XB, XY⟩

/-- Holds `rb_erase` of a node with a left child and no right child. -/
theorem rb_erase_spec_R {h : Heap} (k : Ctx) (n c : Nat) (l : Tree) (fuel : Nat)
    (hl0 : l ≠ .nil) (hfuel : k.length + 2 ≤ fuel)
    (hrep : Rep h (plug k (.node n c l .nil))) (hrb : (plug k (.node n c l .nil)).RB) :
    ∃ h' T', rb_erase fuel n h = some h' ∧ Rep h' T' ∧
      T'.inorder = ctxBefore k ++ l.inorder ++ ctxAfter k ∧ T'.RB := by
  obtain ⟨h1, u1, u2⟩ := unlink_spec_R k n c l fuel hl0 hrep
  rw [RB_plug_iff] at hrb
  obtain ⟨⟨hk, hn, htop⟩, hb, hcb⟩ := hrb
  simp only [Tree.NoRR, Tree.Bal, Tree.bh, isBlack_node] at hn hb hcb htop
  obtain ⟨hnc, hln, -⟩ := hn
  obtain ⟨hc1, hbh, hlb, -⟩ := hb
  unfold rb_erase
  simp only [u1]
  by_cases hc : c = 0
  · subst hc
    refine ⟨h1, plug k l, by simp [RB_BLACK], u2, inorder_plug k l, ?_⟩
    rw [RB_plug_iff]
    refine ⟨⟨hk, hln, fun hnb => absurd (hnc rfl).1 hnb⟩, hlb, ?_⟩
    simpa using hcb
  · obtain rfl : c = 1 := by omega
    obtain ⟨h', T', r1, r2, r3, r4⟩ := rb_erase_color_spec k l fuel hfuel u2 hk hcb
      (by cases l with
          | nil => trivial
          | node a ca l' r' => exact ⟨by simp, hln.2⟩)
      hlb
    exact ⟨h', T', by simp [RB_BLACK, r1], r2, by rw [r3, inorder_plug], r4⟩

theorem plug_append (k1 k2 : Ctx) : ∀ t : Tree, plug (k1 ++ k2) t = plug k2 (plug k1 t) := by
  induction k1 with
  | nil => intro t; rfl
  | cons F k ih =>
    intro t
    cases F with
    | L a c r => simp only [List.cons_append, plug_L, ih]
    | R a c l => simp only [List.cons_append, plug_R, ih]

/-- The descent `while (n->rb_left) n = n->rb_left;` from the root of `t`
ends at a node without a left child that is reached by left links only. -/
theorem descend_left_spec_L {h : Heap} : ∀ (t : Tree) (k0 : Ctx) (fuel : Nat),
    Rep h (plug k0 t) → t ≠ .nil → t.size ≤ fuel →
    ∃ kr m cm rm, (∀ F ∈ kr, ∃ a c r, F = Frame.L a c r) ∧
      t = plug kr (.node m cm .nil rm) ∧ descend_left h fuel t.ptr = some m := by
  intro t
  induction t with
  | nil => intro _ _ _ hne; exact absurd rfl hne
  | node a c l r ihl _ =>
    intro k0 fuel hrep _ hfuel
    simp only [Tree.size] at hfuel
    obtain ⟨f, rfl⟩ : ∃ f, fuel = f + 1 := ⟨fuel - 1, by omega⟩
    obtain ⟨-, -, -, hl, -, -⟩ := Rep_read k0 a c l r hrep
    cases l with
    | nil =>
      refine ⟨[], a, c, r, by simp, rfl, ?_⟩
      simp only [ptr_nil] at hl
      simp [descend_left, hl]
    | node b cb lb rb =>
      have hb : b ≠ 0 := (Rep_read (.L a c r :: k0) b cb lb rb hrep).1
      obtain ⟨kr, m, cm, rm, h1, h2, h3⟩ := ihl (.L a c r :: k0) f hrep (by simp)
        (by omega)
      refine ⟨kr ++ [.L a c r], m, cm, rm, ?_, ?_, ?_⟩
      · intro F hF
        rcases List.mem_append.1 hF with hF | hF
        · exact h1 F hF
        · exact ⟨a, c, r, by simpa using hF⟩
      · rw [plug_append, ← h2]; rfl
      · simp only [ptr_node] at hl h3 ⊢
        simp only [descend_left, hl, ne_eq, hb, not_false_eq_true, if_true]
        exact h3

/-- The second half of the two-children case of `rb_erase`: the node `m`, not
in the tree, takes the place of the node `n` (parent pointer, colour and both
children), and the link to `n` and the parent pointers of the children are
redirected to `m`. -/
theorem transplant_spec {h : Heap} (k : Ctx) (n c : Nat) (l r : Tree) (m : Nat) (hm0 : m ≠ 0)
    (hl0 : l ≠ .nil) (hrep : Rep h (plug k (.node n c l r)))
    (hm : m ∉ (plug k (.node n c l r)).inorder) :
    Rep (if r.ptr ≠ 0 then
          rb_set_parent r.ptr m (rb_set_parent l.ptr m (store (linkOf k) m
            (set_left m l.ptr (set_right m r.ptr (rb_set_color m c
              (rb_set_parent m (parOf k) h))))))
         else rb_set_parent l.ptr m (store (linkOf k) m
            (set_left m l.ptr (set_right m r.ptr (rb_set_color m c
              (rb_set_parent m (parOf k) h))))))
      (plug k (.node m c l r)) := by
  have hz := Rep_ne_zero hrep
  rw [Rep_plug] at hrep ⊢
  obtain ⟨hk, hl, hs, hnd⟩ := hrep
  obtain ⟨n0, n1, n2, n3, n4, n5, n6⟩ := hs
  simp only [inorder_plug, Tree.inorder, List.nodup_append, List.nodup_cons, List.mem_append,
    List.mem_cons, List.cons_append, List.disjoint_cons_right, List.disjoint_cons_left,
    List.disjoint_append_right, List.disjoint_append_left, not_or, List.append_assoc]
    at hnd hz hm
  obtain ⟨dX, ⟨dA, ⟨⟨nB, nY⟩, dB, dY, BY⟩, nA, AB, AY⟩, XA, nX, XB, XY⟩ := hnd
  obtain ⟨zX, zA, zn, zB, zY⟩ := hz
  obtain ⟨mX, mA, mn, mB, mY⟩ := hm
  have zk : 0 ∉ ctxBefore k ++ ctxAfter k := by simp [zX, zY]
  have hmk : m ∉ ctxBefore k ++ ctxAfter k := by simp [mX, mY]
  have hndk : (ctxBefore k ++ ctxAfter k).Nodup := by simp [List.nodup_append, dX, dY, XY]
  have hpA : parOf k ∉ l.inorder := parOf_not_mem k _ zA (by simp [XA, AY.symm])
  have hpB : parOf k ∉ r.inorder := parOf_not_mem k _ zB (by simp [XB, BY.symm])
  have hAk : l.ptr ∉ ctxBefore k ++ ctxAfter k := ptr_not_mem l _ zk (by simp [XA.symm, AY])
  have hBk : r.ptr ∉ ctxBefore k ++ ctxAfter k := ptr_not_mem r _ zk (by simp [XB.symm, BY])
  have hAB : l.ptr ∉ r.inorder := ptr_not_mem l _ zB AB
  have hBA : r.ptr ∉ l.inorder := ptr_not_mem r _ zA AB.symm
  have hmA : m ≠ l.ptr := by
    have := ptr_not_mem l [m] (by simpa using Ne.symm hm0) (by simpa using mA)
    simpa [eq_comm] using this
  have hmB : m ≠ r.ptr := by
    have := ptr_not_mem r [m] (by simpa using Ne.symm hm0) (by simpa using mB)
    simpa [eq_comm] using this
  have hpm : parOf k ≠ m := by
    intro e
    cases k with
    | nil => exact hm0 e.symm
    | cons F k => exact hmk (by rw [← e]; cases F <;> simp [ctxBefore, ctxAfter])
  have hpAp : k ≠ [] → parOf k ≠ l.ptr := fun hk' =>
    parOf_ne_ptr k l zk zA (by simp [XA, AY.symm]) (Or.inl hk')
  have hpBp : k ≠ [] → parOf k ≠ r.ptr := fun hk' =>
    parOf_ne_ptr k r zk zB (by simp [XB, BY.symm]) (Or.inl hk')
  -- the memory after the four stores into `m`
  have o5 := (((sameOff_set_parent m (parOf k) h).append
    (sameOff_set_color m c _)).append (sameOff_set_right m r.ptr _)).append
    (sameOff_set_left m l.ptr _)
  have hk5 := ShapeC_off k o5 rfl (by simp; exact ⟨mX, mY⟩) hk
  have hk6 := ShapeC_store k m hndk hk5
  have o6 := sameOff_store k m (set_left m l.ptr (set_right m r.ptr (rb_set_color m c
    (rb_set_parent m (parOf k) h))))
  have o7 := sameOff_set_parent l.ptr m (store (linkOf k) m (set_left m l.ptr
    (set_right m r.ptr (rb_set_color m c (rb_set_parent m (parOf k) h)))))
  have o8 := sameOff_reparent_if r m (rb_set_parent l.ptr m (store (linkOf k) m
    (set_left m l.ptr (set_right m r.ptr (rb_set_color m c (rb_set_parent m (parOf k) h))))))
  have hroot8 : (if r.ptr ≠ 0 then
          rb_set_parent r.ptr m (rb_set_parent l.ptr m (store (linkOf k) m
            (set_left m l.ptr (set_right m r.ptr (rb_set_color m c
              (rb_set_parent m (parOf k) h))))))
         else rb_set_parent l.ptr m (store (linkOf k) m
            (set_left m l.ptr (set_right m r.ptr (rb_set_color m c
              (rb_set_parent m (parOf k) h)))))).rb_node =
      (store (linkOf k) m (set_left m l.ptr (set_right m r.ptr (rb_set_color m c
        (rb_set_parent m (parOf k) h))))).rb_node := by
    rw [rb_node_reparent_if r m]; rfl
  have o78 := o7.append o8
  have o68 := o6.append o78
  have hk8 := ShapeC_off k o78 hroot8 (by
    simp only [List.cons_append, List.nil_append, List.disjoint_cons_left,
      List.disjoint_nil_left, and_true]
    exact ⟨hAk, hBk⟩) hk6
  have hl8 := (deref_off k o78 hroot8 (fun hk' => by
    simp [hpAp hk', hpBp hk'])).trans (deref_store k m _)
  -- the fields of `m`
  obtain ⟨q1, q2, q3, q4⟩ := o68 m (by simp [hpm.symm, hmA, hmB])
  -- the two subtrees
  have sA5 : Shape _ l n := Shape_off l n o5 (by simp [mA]) n5
  have sA6 : Shape _ l n := Shape_off l n o6 (by simpa using hpA) sA5
  have sA7 := Shape_reparent l n m dA sA6 hl0
  have sA8 : Shape _ l m := Shape_off l m o8 (by simpa using hBA) sA7
  have sB5 : Shape _ r n := Shape_off r n o5 (by simp [mB]) n6
  have sB6 : Shape _ r n := Shape_off r n o6 (by simpa using hpB) sB5
  have sB7 : Shape _ r n := Shape_off r n o7 (by simpa using hAB) sB6
  have sB8 := Shape_reparent_if r n m dB sB7
  refine ⟨hk8, hl8, ⟨hm0, ?_, ?_, ?_, ?_, sA8, sB8⟩, ?_⟩
  · rw [q1]; simp
  · rw [q2]; simp
  · rw [q3]; simp
  · rw [q4]; simp
  · simp only [Tree.inorder, List.nodup_append, List.nodup_cons, List.mem_append,
      List.mem_cons, List.cons_append, List.disjoint_cons_right, List.disjoint_cons_left,
      List.disjoint_append_right, List.disjoint_append_left, not_or, List.append_assoc]
    exact ⟨dX, ⟨dA, ⟨⟨mB, mY⟩, dB, dY, BY⟩, mA, AB, AY⟩, XA, mX, XB, XY⟩

/-- The first half of the two-children case of `rb_erase`: the node `m`, which
has no left child, is taken out of the tree; its right subtree takes its place. -/
theorem detach_spec {h : Heap} (k : Ctx) (m cm : Nat) (rm : Tree)
    (hrep : Rep h (plug k (.node m cm .nil rm))) :
    Rep (store (linkOf k) rm.ptr (if rm.ptr ≠ 0 then rb_set_parent rm.ptr (parOf k) h else h))
      (plug k rm) := by
  have hz := Rep_ne_zero hrep
  obtain ⟨n0, n1, n2, n3, n4, n5⟩ := Rep_read k m cm .nil rm hrep
  rw [Rep_plug] at hrep
  obtain ⟨hk, hl, hs, hnd⟩ := hrep
  obtain ⟨-, -, -, -, -, -, hr⟩ := hs
  simp only [inorder_plug, Tree.inorder, List.nodup_append, List.nodup_cons, List.mem_append,
    List.mem_cons, List.cons_append, List.disjoint_cons_right, List.disjoint_cons_left,
    List.disjoint_append_right, List.disjoint_append_left, not_or, List.append_assoc,
    List.nil_append, List.nodup_nil, List.disjoint_nil_left, List.disjoint_nil_right,
    List.not_mem_nil, not_false_eq_true, true_and, and_true] at hnd hz
  obtain ⟨dX, ⟨⟨nB, nY⟩, dB, dY, BY⟩, nX, XB, XY⟩ := hnd
  obtain ⟨zX, zn, zB, zY⟩ := hz
  have zk : 0 ∉ ctxBefore k ++ ctxAfter k := by simp [zX, zY]
  have hndk : (ctxBefore k ++ ctxAfter k).Nodup := by simp [List.nodup_append, dX, dY, XY]
  have hBk : rm.ptr ∉ ctxBefore k ++ ctxAfter k := ptr_not_mem rm _ zk (by simp [XB.symm, BY])
  have hpB : parOf k ∉ rm.inorder := parOf_not_mem k _ zB (by simp [XB, BY.symm])
  have o1 := sameOff_reparent_if rm (parOf k) h
  have hk1 := ShapeC_off k o1 (rb_node_reparent_if rm (parOf k) h) (by simpa using hBk) hk
  rw [Rep_plug]
  refine ⟨ShapeC_store k rm.ptr hndk hk1, deref_store k rm.ptr _, ?_, ?_⟩
  · exact Shape_off rm (parOf k) (sameOff_store k rm.ptr _) (by simpa using hpB)
      (Shape_reparent_if rm m (parOf k) dB hr)
  · simp only [List.nodup_append, List.disjoint_append_left, List.disjoint_append_right,
      List.append_assoc]
    exact ⟨dX, ⟨dB, dY, BY⟩, XB, XY⟩

/-- The choice `if (parent == old) parent->rb_right = child; else parent->rb_left = child;`
is the store into the link that holds the successor. -/
theorem succ_link_choice (kr k : Ctx) (n c : Nat) (l : Tree) (m : Nat) (v : Nat) (g : Heap)
    (hkr : ∀ F ∈ kr, ∃ a c r, F = Frame.L a c r)
    (hn : n ∉ ctxAfter (kr ++ .R n c l :: k)) :
    (if parOf (kr ++ .R n c l :: k) = n
      then (set_right (parOf (kr ++ .R n c l :: k)) v g, m)
      else (set_left (parOf (kr ++ .R n c l :: k)) v g, parOf (kr ++ .R n c l :: k))) =
    (store (linkOf (kr ++ .R n c l :: k)) v g, parOf (kr ++ .R m c l :: k)) := by
  cases kr with
  | nil => simp [store]
  | cons F kr' =>
    obtain ⟨a, ca, ra, rfl⟩ := hkr F (List.mem_cons_self _ _)
    have han : a ≠ n := by
      rintro rfl
      exact hn (by simp [ctxAfter])
    simp [store, han]

theorem ctxAfter_append (k1 k2 : Ctx) : ctxAfter (k1 ++ k2) = ctxAfter k1 ++ ctxAfter k2 := by
  induction k1 with
  | nil => rfl
  | cons F k ih => cases F <;> simp [ctxAfter, ih]

theorem ctxBefore_append (k1 k2 : Ctx) :
    ctxBefore (k1 ++ k2) = ctxBefore k2 ++ ctxBefore k1 := by
  induction k1 with
  | nil => simp [ctxBefore]
  | cons F k ih => cases F <;> simp [ctxBefore, ih]

/-- The unlinking part of `rb_erase` for a node `n` with two children: the
successor `m`, the leftmost node of the right subtree, is taken out and put in
the place of `n`. -/
theorem unlink_spec_2 {h : Heap} (k : Ctx) (n c : Nat) (l : Tree) (kr : Ctx) (m cm : Nat)
    (rm : Tree) (fuel : Nat) (hl0 : l ≠ .nil)
    (hkr : ∀ F ∈ kr, ∃ a c r, F = Frame.L a c r)
    (hrep : Rep h (plug (kr ++ .R n c l :: k) (.node m cm .nil rm)))
    (hdesc : descend_left h fuel (plug kr (.node m cm .nil rm)).ptr = some m) :
    ∃ h', rb_erase_unlink fuel n h = some (rm.ptr, parOf (kr ++ .R m c l :: k), cm, h') ∧
      Rep h' (plug (kr ++ .R m c l :: k) rm) := by
  have hrepn : Rep h (plug k (.node n c l (plug kr (.node m cm .nil rm)))) := by
    have := hrep
    rw [plug_append] at this
    exact this
  obtain ⟨n0, n1, n2, n3, n4, n5⟩ := Rep_read k n c l _ hrepn
  obtain ⟨m0, m1, m2, m3, m4, m5⟩ := Rep_read _ m cm .nil rm hrep
  have hlp : l.ptr ≠ 0 := by
    cases l with
    | nil => exact absurd rfl hl0
    | node b cb lb rb => exact (Rep_read (.L n c _ :: k) b cb lb rb hrepn).1
  have hrp : (plug kr (.node m cm .nil rm)).ptr ≠ 0 := by
    have hne := plug_ne_nil kr m cm .nil rm
    cases hr : plug kr (.node m cm .nil rm) with
    | nil => exact absurd hr hne
    | node b cb lb rb =>
      rw [hr] at hrepn
      exact (Rep_read (.R n c l :: k) b cb lb rb hrepn).1
  -- distinctness
  have hnd := hrep.2.2
  rw [inorder_plug] at hnd
  have hnA : n ∉ ctxAfter (kr ++ .R n c l :: k) := by
    have h1 : n ∈ ctxBefore (kr ++ .R n c l :: k) := by
      rw [ctxBefore_append]; simp [ctxBefore]
    intro h2
    exact (List.nodup_append.1 hnd).2.2 (List.mem_append_left _ h1) h2
  have hmn : m ≠ n := by
    rintro rfl
    have h1 : m ∈ ctxBefore (kr ++ .R m c l :: k) := by
      rw [ctxBefore_append]; simp [ctxBefore]
    have h2 := (List.nodup_append.1 (List.nodup_append.1 hnd).1).2.2 h1
      (by simp [Tree.inorder] : m ∈ (Tree.node m cm .nil rm).inorder)
    exact h2
  -- the memory after the successor is taken out
  have hrep2 := detach_spec _ m cm rm hrep
  have hrep2n : Rep (store (linkOf (kr ++ .R n c l :: k)) rm.ptr
      (if rm.ptr ≠ 0 then rb_set_parent rm.ptr (parOf (kr ++ .R n c l :: k)) h else h))
      (plug k (.node n c l (plug kr rm))) := by
    have := hrep2
    rw [plug_append] at this
    exact this
  obtain ⟨-, e1, e2, e3, e4, e5⟩ := Rep_read k n c l _ hrep2n
  have hmT : m ∉ (plug k (.node n c l (plug kr rm))).inorder := by
    have e : plug k (.node n c l (plug kr rm)) = plug (kr ++ .R n c l :: k) rm := by
      rw [plug_append]; rfl
    rw [e, inorder_plug]
    simp only [Tree.inorder, List.nil_append, List.append_assoc, List.cons_append] at hnd
    intro hm
    have hnd' := hnd
    rw [List.nodup_append] at hnd'
    obtain ⟨-, hnd2, hdis⟩ := hnd'
    rw [List.nodup_cons] at hnd2
    rcases List.mem_append.1 hm with hm | hm
    · rcases List.mem_append.1 hm with hm | hm
      · exact hdis hm (List.mem_cons_self _ _)
      · exact hnd2.1 (List.mem_append_left _ hm)
    · exact hnd2.1 (List.mem_append_right _ hm)
  have hfin := transplant_spec k n c l (plug kr rm) m m0 hl0 hrep2n hmT
  -- the reads of the fields of `old` after the stores into `node`
  obtain ⟨hk2, hl2, -, hnd2⟩ := (Rep_plug k _).1 hrep2n
  have hz2 := Rep_ne_zero hrep2n
  have hmk : m ∉ ctxBefore k ++ ctxAfter k := by
    intro hm
    apply hmT
    rw [inorder_plug]
    rcases List.mem_append.1 hm with hm | hm
    · exact List.mem_append_left _ (List.mem_append_left _ hm)
    · exact List.mem_append_right _ hm
  have hnk : n ∉ ctxBefore k ++ ctxAfter k := by
    have : (ctxBefore k ++ (Tree.node n c l (plug kr rm)).inorder ++ ctxAfter k).Nodup := hnd2
    simp only [Tree.inorder, List.nodup_append, List.nodup_cons, List.mem_append,
      List.mem_cons, List.cons_append, List.disjoint_cons_right, List.disjoint_cons_left,
      List.disjoint_append_right, List.disjoint_append_left, not_or, List.append_assoc] at this
    obtain ⟨dX, ⟨dA, ⟨⟨nB, nY⟩, dB, dY, BY⟩, nA, AB, AY⟩, XA, nX, XB, XY⟩ := this
    simp [nX, nY]
  have hpm : parOf k ≠ m := by
    intro e
    cases k with
    | nil => exact m0 e.symm
    | cons F k => exact hmk (by rw [← e]; cases F <;> simp [ctxBefore, ctxAfter])
  have hpn : parOf k ≠ n := by
    intro e
    cases k with
    | nil => exact n0 e.symm
    | cons F k => exact hnk (by rw [← e]; cases F <;> simp [ctxBefore, ctxAfter])
  have o5 := (((sameOff_set_parent m (parOf k) (store (linkOf (kr ++ .R n c l :: k)) rm.ptr
      (if rm.ptr ≠ 0 then rb_set_parent rm.ptr (parOf (kr ++ .R n c l :: k)) h else h))).append
    (sameOff_set_color m c _)).append (sameOff_set_right m (plug kr rm).ptr _)).append
    (sameOff_set_left m l.ptr _)
  have hk5 := ShapeC_off k o5 rfl (by simpa using hmk) hk2
  have hl5 := (deref_off k o5 rfl (fun _ => by simp [hpm])).trans e5
  have o6 := sameOff_store k m (set_left m l.ptr (set_right m (plug kr rm).ptr
    (rb_set_color m c (rb_set_parent m (parOf k) (store (linkOf (kr ++ .R n c l :: k)) rm.ptr
      (if rm.ptr ≠ 0 then rb_set_parent rm.ptr (parOf (kr ++ .R n c l :: k)) h else h))))))
  obtain ⟨-, -, q3, q4⟩ := o6 n (by simpa using hpn.symm)
  have hnl : n ≠ l.ptr := by
    intro e
    have := hrep2n.2.2
    rw [inorder_plug] at this
    have hl1 : l.ptr ∈ l.inorder := by
      cases l with
      | nil => exact absurd rfl hl0
      | node b cb lb rb => simp [Tree.inorder]
    simp only [Tree.inorder, List.nodup_append, List.nodup_cons, List.mem_append,
      List.mem_cons, List.cons_append, List.disjoint_cons_right, List.disjoint_cons_left,
      List.disjoint_append_right, List.disjoint_append_left, not_or, List.append_assoc] at this
    obtain ⟨dX, ⟨dA, ⟨⟨nB, nY⟩, dB, dY, BY⟩, nA, AB, AY⟩, XA, nX, XB, XY⟩ := this
    exact nA (e ▸ hl1)
  refine ⟨_, ?_, by rw [plug_append]; exact hfin⟩
  unfold rb_erase_unlink
  simp only [n3, n4, hlp, hrp, or_self, if_false, hdesc, m1, m2, m4]
  rw [succ_link_choice kr k n c l m rm.ptr _ hkr hnA]
  simp only [rb_color_rb_set_parent, rb_color_rb_set_color, rb_parent_rb_set_color,
    rb_parent_rb_set_parent, rb_right_rb_set_color, rb_right_rb_set_parent,
    rb_left_rb_set_color, rb_left_rb_set_parent, rb_left_set_right, rb_right_set_right,
    rb_parent_set_right, rb_parent_set_left, rb_left_set_left, rb_right_set_left,
    e1, e2, e3, e4, upd_of_ne _ _ (Ne.symm hmn), upd_of_ne _ _ hnl]
  have hlc := link_choice' k n m hk5 hl5 n0 hnk
  simp only [rb_left_set_left, rb_left_set_right, rb_left_rb_set_color,
    rb_left_rb_set_parent] at hlc
  rw [hlc]
  simp only [q3, q4, rb_left_set_left, rb_right_set_left, rb_right_set_right,
    rb_left_set_right, rb_right_rb_set_parent, rb_left_rb_set_color, rb_left_rb_set_parent,
    rb_right_rb_set_color, upd_of_ne _ _ (Ne.symm hmn), upd_of_ne _ _ hnl, e3, e4]

theorem topBlack_rename (kr k : Ctx) (n m c : Nat) (l : Tree) :
    topBlack (kr ++ .R n c l :: k) ↔ topBlack (kr ++ .R m c l :: k) := by
  cases kr with
  | nil => exact Iff.rfl
  | cons F kr => cases F <;> exact Iff.rfl

theorem ctxNoRR_rename (k : Ctx) (n m c : Nat) (l : Tree) : ∀ kr : Ctx,
    ctxNoRR (kr ++ .R n c l :: k) ↔ ctxNoRR (kr ++ .R m c l :: k) := by
  intro kr
  induction kr with
  | nil => exact Iff.rfl
  | cons F kr ih =>
    cases F with
    | L a ca ra =>
      show (ra.NoRR ∧ (ca = 0 → ra.isBlack ∧ topBlack (kr ++ .R n c l :: k)) ∧
        ctxNoRR (kr ++ .R n c l :: k)) ↔ (ra.NoRR ∧
        (ca = 0 → ra.isBlack ∧ topBlack (kr ++ .R m c l :: k)) ∧ ctxNoRR (kr ++ .R m c l :: k))
      rw [ih, topBlack_rename kr k n m c l]
    | R a ca la =>
      show (la.NoRR ∧ (ca = 0 → la.isBlack ∧ topBlack (kr ++ .R n c l :: k)) ∧
        ctxNoRR (kr ++ .R n c l :: k)) ↔ (la.NoRR ∧
        (ca = 0 → la.isBlack ∧ topBlack (kr ++ .R m c l :: k)) ∧ ctxNoRR (kr ++ .R m c l :: k))
      rw [ih, topBlack_rename kr k n m c l]

theorem ctxBal_rename (k : Ctx) (n m c : Nat) (l : Tree) : ∀ (kr : Ctx) (x : Nat),
    ctxBal (kr ++ .R n c l :: k) x ↔ ctxBal (kr ++ .R m c l :: k) x := by
  intro kr
  induction kr with
  | nil => intro x; exact Iff.rfl
  | cons F kr ih =>
    intro x
    cases F with
    | L a ca ra =>
      show (ca ≤ 1 ∧ ra.bh = x ∧ ra.Bal ∧ ctxBal (kr ++ .R n c l :: k) (x + ca)) ↔
        (ca ≤ 1 ∧ ra.bh = x ∧ ra.Bal ∧ ctxBal (kr ++ .R m c l :: k) (x + ca))
      rw [ih]
    | R a ca la =>
      show (ca ≤ 1 ∧ la.bh = x ∧ la.Bal ∧ ctxBal (kr ++ .R n c l :: k) (x + ca)) ↔
        (ca ≤ 1 ∧ la.bh = x ∧ la.Bal ∧ ctxBal (kr ++ .R m c l :: k) (x + ca))
      rw [ih]

theorem ctxBefore_allL : ∀ kr : Ctx, (∀ F ∈ kr, ∃ a c r, F = Frame.L a c r) →
    ctxBefore kr = [] := by
  intro kr
  induction kr with
  | nil => intro _; rfl
  | cons F kr ih =>
    intro hkr
    obtain ⟨a, c, r, rfl⟩ := hkr F (List.mem_cons_self _ _)
    simp only [ctxBefore]
    exact ih (fun G hG => hkr G (List.mem_cons_of_mem _ hG))

/-- Holds `rb_erase` of a node `n` with two children, whose successor is `m`. -/
theorem rb_erase_spec_2 {h : Heap} (k : Ctx) (n c : Nat) (l : Tree) (kr : Ctx) (m cm : Nat)
    (rm : Tree) (fuel : Nat) (hl0 : l ≠ .nil)
    (hkr : ∀ F ∈ kr, ∃ a c r, F = Frame.L a c r)
    (hfuel : (kr ++ .R m c l :: k).length + 2 ≤ fuel)
    (hrep : Rep h (plug (kr ++ .R n c l :: k) (.node m cm .nil rm)))
    (hdesc : descend_left h fuel (plug kr (.node m cm .nil rm)).ptr = some m)
    (hrb : (plug (kr ++ .R n c l :: k) (.node m cm .nil rm)).RB) :
    ∃ h' T', rb_erase fuel n h = some h' ∧ Rep h' T' ∧
      T'.inorder = (plug (kr ++ .R m c l :: k) rm).inorder ∧ T'.RB := by
  obtain ⟨h1, u1, u2⟩ := unlink_spec_2 k n c l kr m cm rm fuel hl0 hkr hrep hdesc
  rw [RB_plug_iff] at hrb
  obtain ⟨⟨hk, hn, htop⟩, hb, hcb⟩ := hrb
  rw [ctxNoRR_rename k n m c l kr] at hk
  rw [topBlack_rename kr k n m c l] at htop
  rw [ctxBal_rename k n m c l kr] at hcb
  simp only [Tree.NoRR, Tree.Bal, Tree.bh, isBlack_node] at hn hb hcb htop
  obtain ⟨hnc, -, hrn⟩ := hn
  obtain ⟨hc1, hbh, -, hrmb⟩ := hb
  unfold rb_erase
  simp only [u1]
  by_cases hc : cm = 0
  · subst hc
    refine ⟨h1, _, by simp [RB_BLACK], u2, rfl, ?_⟩
    rw [RB_plug_iff]
    refine ⟨⟨hk, hrn, fun hnb => absurd (hnc rfl).2 hnb⟩, hrmb, ?_⟩
    rw [← hbh]; simpa using hcb
  · obtain rfl : cm = 1 := by omega
    obtain ⟨h', T', r1, r2, r3, r4⟩ := rb_erase_color_spec _ rm fuel hfuel u2 hk
      (by rw [← hbh]; simpa using hcb)
      (by cases rm with
          | nil => trivial
          | node a ca l' r' => exact ⟨by simp, hrn.2⟩)
      hrmb
    exact ⟨h', T', by simp [RB_BLACK, r1], r2, r3, r4⟩

/-- Holds `rb_erase` of any node of a red-black tree: the node is gone, the other
nodes keep their order, and the tree is red-black again. -/
theorem rb_erase_spec {h : Heap} (k : Ctx) (n c : Nat) (l r : Tree) (fuel : Nat)
    (hfuel : (plug k (.node n c l r)).size < fuel)
    (hrep : Rep h (plug k (.node n c l r))) (hrb : (plug k (.node n c l r)).RB) :
    ∃ h' T', rb_erase fuel n h = some h' ∧ Rep h' T' ∧
      T'.inorder = ctxBefore k ++ l.inorder ++ r.inorder ++ ctxAfter k ∧ T'.RB := by
  have hlen := length_le_size k (.node n c l r)
  simp only [Tree.size] at hlen
  by_cases hl0 : l = .nil
  · subst hl0
    obtain ⟨h', T', e1, e2, e3, e4⟩ := rb_erase_spec_L k n c r fuel (by omega) hrep hrb
    exact ⟨h', T', e1, e2, by rw [e3]; simp [Tree.inorder], e4⟩
  · by_cases hr0 : r = .nil
    · subst hr0
      obtain ⟨h', T', e1, e2, e3, e4⟩ := rb_erase_spec_R k n c l fuel hl0 (by omega) hrep hrb
      exact ⟨h', T', e1, e2, by rw [e3]; simp [Tree.inorder], e4⟩
    · have hrep' : Rep h (plug (.R n c l :: k) r) := hrep
      obtain ⟨kr, m, cm, rm, hkr, hr, hd⟩ := descend_left_spec_L r (.R n c l :: k) fuel hrep'
        hr0 (by omega)
      rw [hr] at hd
      subst hr
      have e : plug k (.node n c l (plug kr (.node m cm .nil rm))) =
          plug (kr ++ .R n c l :: k) (.node m cm .nil rm) := by
        rw [plug_append]; rfl
      rw [e] at hrep hrb hfuel
      have hlen2 := length_le_size (kr ++ .R n c l :: k) (.node m cm .nil rm)
      simp only [Tree.size] at hlen2
      obtain ⟨h', T', e1, e2, e3, e4⟩ := rb_erase_spec_2 k n c l kr m cm rm fuel hl0 hkr
        (by simp only [List.length_append, List.length_cons] at hlen2 ⊢; omega) hrep hd hrb
      refine ⟨h', T', e1, e2, ?_, e4⟩
      rw [e3, inorder_plug, inorder_plug, ctxBefore_append, ctxAfter_append,
        ctxBefore_allL kr hkr]
      simp [ctxBefore, ctxAfter, Tree.inorder]

theorem sorted_of_BST (key : Nat → Nat) : ∀ t : Tree, t.BST key →
    (t.inorder.map key).Pairwise (· ≤ ·) := by
  intro t
  induction t with
  | nil => intro _; simp [Tree.inorder]
  | node a c l r ihl ihr =>
    intro hb
    obtain ⟨h1, h2, h3, h4⟩ := hb
    simp only [Tree.inorder, List.map_append, List.map_cons, List.pairwise_append,
      List.pairwise_cons, List.mem_map, List.mem_cons, forall_exists_index, and_imp,
      forall_apply_eq_imp_iff₂, forall_eq_or_imp]
    refine ⟨ihl h3, ⟨h2, ihr h4⟩, ?_⟩
    intro x hx
    exact ⟨h1 x hx, fun y hy => le_trans (h1 x hx) (h2 y hy)⟩

/-- Holds `rb_erase` of any node of a red-black search tree: the node is gone, the
tree is a red-black search tree again. -/
theorem rb_erase_mem {h : Heap} (T : Tree) (key : Nat → Nat) (n fuel : Nat)
    (hrep : Rep h T) (hrb : T.RB) (hbst : T.BST key) (hn : n ∈ T.inorder)
    (hfuel : T.size < fuel) :
    ∃ h' T', rb_erase fuel n h = some h' ∧ Rep h' T' ∧ T'.RB ∧ T'.BST key ∧
      T'.inorder = T.inorder.erase n := by
  obtain ⟨k, c, l, r, e⟩ := mem_decomp n T [] hn
  simp only [plug_nil] at e
  subst e
  obtain ⟨h', T', e1, e2, e3, e4⟩ := rb_erase_spec k n c l r fuel hfuel hrep hrb
  have hnd := hrep.2.2
  have hin : (plug k (.node n c l r)).inorder =
      (ctxBefore k ++ l.inorder) ++ n :: (r.inorder ++ ctxAfter k) := by
    rw [inorder_plug]; simp [Tree.inorder]
  have her : (plug k (.node n c l r)).inorder.erase n =
      ctxBefore k ++ l.inorder ++ r.inorder ++ ctxAfter k := by
    rw [hin] at hnd ⊢
    have hnot : n ∉ ctxBefore k ++ l.inorder := by
      intro hm
      exact (List.nodup_append.1 hnd).2.2 hm (List.mem_cons_self _ _)
    rw [List.erase_append_right _ hnot, List.erase_cons_head]
    simp
  refine ⟨h', T', e1, e2, e4, ?_, by rw [e3, her]⟩
  apply BST_of_sorted
  rw [e3, ← her]
  exact ((sorted_of_BST key _ hbst).sublist
    ((List.erase_sublist n _).map key))

/-- C25. For every tree in memory that has the red-black properties and is a
binary search tree for the keys `key`, and every node `n` of it (without
children, with one child or with two), `rb_erase` returns, given more fuel
than there are nodes; the memory then holds a tree that again has the
red-black properties and is a binary search tree, and whose nodes in sort
order are those of the tree before with exactly `n` removed. -/
theorem rb_erase_any {h : Heap} (T : Tree) (key : Nat → Nat) (n fuel : Nat)
    (hrep : Rep h T) (hrb : T.RB) (hbst : T.BST key) (hn : n ∈ T.inorder)
    (hfuel : T.size < fuel) :
    ∃ h' T', rb_erase fuel n h = some h' ∧ Rep h' T' ∧ T'.RB ∧ T'.BST key ∧
      T'.inorder = T.inorder.erase n :=
  rb_erase_mem T key n fuel hrep hrb hbst hn hfuel

/-- C24. In every reachable run-queue state, for every queued task `p` and
more fuel than queued tasks, `__dequeue_task_fair` returns; afterwards
`rb_leftmost` is `NULL` if `p` was the cached leftmost node and is unchanged
otherwise (the tree then holds the queued tasks less `p`). And `cfs_dequeue`
on a non-empty run-queue returns a task and leaves `rb_leftmost = NULL`. -/
theorem cfs_dequeue_leftmost {s : cfs_state} {q : List Nat} (hr : Reach s q) (fuel : Nat)
    (hfuel : q.length < fuel) :
    (∀ p ∈ q, ∃ s' T', __dequeue_task_fair fuel p s = some s' ∧
      s'.rb_leftmost = (if s.rb_leftmost = p then 0 else s.rb_leftmost) ∧
      Rep s'.heap T' ∧ T'.inorder.Perm (q.erase p)) ∧
    (q ≠ [] → ∃ a s', cfs_dequeue fuel s = some (a, s') ∧ a ≠ 0 ∧ s'.rb_leftmost = 0) := by
  obtain ⟨T, hinv, hperm⟩ := Reach_inv hr
  have hsz : T.size < fuel := by rw [size_eq_length, hperm.length_eq]; exact hfuel
  refine ⟨?_, ?_⟩
  · intro p hp
    obtain ⟨hrep, hrb, hsort, -⟩ := hinv
    obtain ⟨h', T', e1, e2, -, -, e5⟩ := rb_erase_mem T s.t p fuel hrep hrb
      (BST_of_sorted s.t T hsort) (hperm.mem_iff.2 hp) hsz
    have hheap : (if s.rb_leftmost = p then { s with rb_leftmost := 0 } else s).heap = s.heap := by
      split_ifs <;> rfl
    refine ⟨{ (if s.rb_leftmost = p then { s with rb_leftmost := 0 } else s) with heap := h' },
      T', ?_, ?_, e2, ?_⟩
    · unfold __dequeue_task_fair
      simp only [hheap, e1]
    · show (if s.rb_leftmost = p then { s with rb_leftmost := 0 } else s).rb_leftmost = _
      split_ifs <;> rfl
    · rw [e5]; exact hperm.erase p
  · intro hq
    have hne : T ≠ .nil := by
      rintro rfl
      exact hq (by simpa [Tree.inorder] using hperm)
    obtain ⟨a, L, s', T', -, e, a0, -, -, -, hl⟩ := cfs_dequeue_spec s T fuel hinv hne hsz
    exact ⟨a, s', e, a0, hl⟩

theorem or_eq_zero_iff (a b : Nat) : a ||| b = 0 ↔ a = 0 ∧ b = 0 := by
  constructor
  · intro h
    have hb : ∀ i, a.testBit i = false ∧ b.testBit i = false := by
      intro i
      have := congrArg (fun x => Nat.testBit x i) h
      simp only [Nat.testBit_or, Nat.zero_testBit, Bool.or_eq_false_iff] at this
      exact this
    exact ⟨Nat.zero_of_testBit_eq_false (fun i => (hb i).1),
      Nat.zero_of_testBit_eq_false (fun i => (hb i).2)⟩
  · rintro ⟨rfl, rfl⟩
    rfl

theorem or_bytes_spec (mem : Nat → Nat) : ∀ (k z p : Nat),
    (or_bytes mem k (z, p)).2 = p + k ∧
    ((or_bytes mem k (z, p)).1 = 0 ↔ z = 0 ∧ ∀ i, i < k → mem (p + i) = 0) := by
  intro k
  induction k with
  | zero => intro z p; simp [or_bytes]
  | succ k ih =>
    intro z p
    obtain ⟨h1, h2⟩ := ih (z ||| mem p) (p + 1)
    simp only [or_bytes]
    refine ⟨by rw [h1]; omega, ?_⟩
    rw [h2, or_eq_zero_iff]
    constructor
    · rintro ⟨⟨hz, hm⟩, hr⟩
      refine ⟨hz, fun i hi => ?_⟩
      cases i with
      | zero => exact hm
      | succ j =>
        have := hr j (by omega)
        rwa [show p + 1 + j = p + (j + 1) by omega] at this
    · rintro ⟨hz, hr⟩
      refine ⟨⟨hz, hr 0 (by omega)⟩, fun i hi => ?_⟩
      have := hr (i + 1) (by omega)
      rwa [show p + (i + 1) = p + 1 + i by omega] at this

theorem read_u64_eq_zero (mem : Nat → Nat) (p : Nat) :
    read_u64 mem p = 0 ↔ ∀ i, i < 8 → mem (p + i) = 0 := by
  unfold read_u64
  constructor
  · intro h i hi
    have h0 : mem p = 0 ∧ mem (p + 1) = 0 ∧ mem (p + 2) = 0 ∧ mem (p + 3) = 0 ∧
        mem (p + 4) = 0 ∧ mem (p + 5) = 0 ∧ mem (p + 6) = 0 ∧ mem (p + 7) = 0 := by
      norm_num at h
      omega
    obtain ⟨a0, a1, a2, a3, a4, a5, a6, a7⟩ := h0
    interval_cases i <;> assumption
  · intro h
    have a0 := h 0 (by omega)
    have a1 := h 1 (by omega)
    have a2 := h 2 (by omega)
    have a3 := h 3 (by omega)
    have a4 := h 4 (by omega)
    have a5 := h 5 (by omega)
    have a6 := h 6 (by omega)
    have a7 := h 7 (by omega)
    simp only [Nat.add_zero] at a0
    rw [a0, a1, a2, a3, a4, a5, a6, a7]
    norm_num

theorem read_u32_eq_zero (mem : Nat → Nat) (p : Nat) :
    read_u32 mem p = 0 ↔ ∀ i, i < 4 → mem (p + i) = 0 := by
  unfold read_u32
  constructor
  · intro h i hi
    have h0 : mem p = 0 ∧ mem (p + 1) = 0 ∧ mem (p + 2) = 0 ∧ mem (p + 3) = 0 := by
      norm_num at h
      omega
    obtain ⟨a0, a1, a2, a3⟩ := h0
    interval_cases i <;> assumption
  · intro h
    have a0 := h 0 (by omega)
    have a1 := h 1 (by omega)
    have a2 := h 2 (by omega)
    have a3 := h 3 (by omega)
    simp only [Nat.add_zero] at a0
    rw [a0, a1, a2, a3]
    norm_num

theorem forall_lt_add (P : Nat → Prop) (p a b : Nat) :
    (∀ i, i < a + b → P (p + i)) ↔ (∀ i, i < a → P (p + i)) ∧ (∀ i, i < b → P (p + a + i)) := by
  constructor
  · intro h
    refine ⟨fun i hi => h i (by omega), fun i hi => ?_⟩
    have := h (a + i) (by omega)
    rwa [show p + (a + i) = p + a + i by omega] at this
  · rintro ⟨h1, h2⟩ i hi
    by_cases hia : i < a
    · exact h1 i hia
    · have := h2 (i - a) (by omega)
      rwa [show p + a + (i - a) = p + i by omega] at this

theorem memiszero_words_spec (mem : Nat → Nat) (t : Nat) : ∀ (fuel p j : Nat),
    t = p + 8 * j → j < fuel →
    memiszero_words mem t fuel p =
      some (if ∀ i, i < 8 * j → mem (p + i) = 0 then some t else none) := by
  intro fuel
  induction fuel with
  | zero => intro p j _ hj; omega
  | succ f ih =>
    intro p j ht hj
    simp only [memiszero_words]
    by_cases hlt : p < t
    · obtain ⟨j', rfl⟩ : ∃ j', j = j' + 1 := ⟨j - 1, by omega⟩
      rw [if_pos hlt]
      have hsplit := forall_lt_add (fun a => mem a = 0) p 8 (8 * j')
      rw [show 8 * (j' + 1) = 8 + 8 * j' by omega]
      simp only [hsplit]
      by_cases hr : read_u64 mem p ≠ 0
      · rw [if_pos hr]
        have : ¬ ∀ i, i < 8 → mem (p + i) = 0 := fun h => hr ((read_u64_eq_zero mem p).2 h)
        simp [this]
      · rw [if_neg hr, ih (p + 8) j' (by omega) (by omega)]
        have h8 : ∀ i, i < 8 → mem (p + i) = 0 :=
          (read_u64_eq_zero mem p).1 (by simpa using hr)
        simp only [iff_true_intro h8, true_and]
    · have hj0 : j = 0 := by omega
      subst hj0
      rw [if_neg hlt]
      simp only [Nat.mul_zero, Nat.add_zero] at ht
      simp [ht]

theorem memiszero_words_32_spec (mem : Nat → Nat) (t : Nat) : ∀ (fuel p j : Nat),
    t = p + 4 * j → j < fuel →
    memiszero_words_32 mem t fuel p =
      some (if ∀ i, i < 4 * j → mem (p + i) = 0 then some t else none) := by
  intro fuel
  induction fuel with
  | zero => intro p j _ hj; omega
  | succ f ih =>
    intro p j ht hj
    simp only [memiszero_words_32]
    by_cases hlt : p < t
    · obtain ⟨j', rfl⟩ : ∃ j', j = j' + 1 := ⟨j - 1, by omega⟩
      rw [if_pos hlt]
      have hsplit := forall_lt_add (fun a => mem a = 0) p 4 (4 * j')
      rw [show 4 * (j' + 1) = 4 + 4 * j' by omega]
      simp only [hsplit]
      by_cases hr : read_u32 mem p ≠ 0
      · rw [if_pos hr]
        have : ¬ ∀ i, i < 4 → mem (p + i) = 0 := fun h => hr ((read_u32_eq_zero mem p).2 h)
        simp [this]
      · rw [if_neg hr, ih (p + 4) j' (by omega) (by omega)]
        have h4 : ∀ i, i < 4 → mem (p + i) = 0 :=
          (read_u32_eq_zero mem p).1 (by simpa using hr)
        simp only [iff_true_intro h4, true_and]
    · have hj0 : j = 0 := by omega
      subst hj0
      rw [if_neg hlt]
      simp only [Nat.mul_zero, Nat.add_zero] at ht
      simp [ht]

/-- The reference loop returns `1` exactly when all bytes are zero. -/
theorem memiszero_loop_go_spec (mem : Nat → Nat) (t : Nat) : ∀ (fuel p j : Nat),
    t = p + j → j < fuel → memiszero_loop_go mem t fuel p = some (all_zero mem p j) := by
  intro fuel
  induction fuel with
  | zero => intro p j _ hj; omega
  | succ f ih =>
    intro p j ht hj
    simp only [memiszero_loop_go, all_zero]
    by_cases hlt : p < t
    · obtain ⟨j', rfl⟩ : ∃ j', j = j' + 1 := ⟨j - 1, by omega⟩
      rw [if_pos hlt]
      have hsplit := forall_lt_add (fun a => mem a = 0) p 1 j'
      rw [show j' + 1 = 1 + j' by omega]
      simp only [hsplit]
      by_cases hr : mem p ≠ 0
      · rw [if_pos hr]
        have : ¬ ∀ i, i < 1 → mem (p + i) = 0 := fun h => hr (by simpa using h 0 (by omega))
        simp only [iff_false_intro this, false_and, if_false]
      · rw [if_neg hr, ih (p + 1) j' (by omega) (by omega)]
        have h1 : ∀ i, i < 1 → mem (p + i) = 0 := by
          intro i hi
          obtain rfl : i = 0 := by omega
          simpa using hr
        simp only [iff_true_intro h1, true_and, all_zero]
    · have hj0 : j = 0 := by omega
      subst hj0
      rw [if_neg hlt]
      simp

theorem and_lnot_low (x j : Nat) (hx : x < 2 ^ 64) (hj : j ≤ 64) :
    x &&& lnot (2 ^ j - 1) = (x >>> j) <<< j := by
  apply Nat.eq_of_testBit_eq
  intro i
  rw [Nat.testBit_and, Nat.testBit_shiftLeft, Nat.testBit_shiftRight]
  by_cases hi : i < 64
  · rw [testBit_lnot _ _ hi, Nat.testBit_two_pow_sub_one]
    by_cases hij : i < j
    · have : ¬ i ≥ j := by omega
      simp [hij, this]
    · have : i ≥ j := by omega
      simp [hij, this]
  · have hx0 : x.testBit i = false :=
      Nat.testBit_eq_false_of_lt (lt_of_lt_of_le hx (Nat.pow_le_pow_right (by decide) (by omega)))
    have hx1 : x.testBit (j + (i - j)) = false := by
      rw [show j + (i - j) = i by omega]; exact hx0
    simp [hx0, hx1]

theorem and_lnot_7 (x : Nat) (hx : x < 2 ^ 64) : x &&& lnot 7 = x - x % 8 := by
  have := and_lnot_low x 3 hx (by decide)
  rw [show (2 : Nat) ^ 3 - 1 = 7 by decide] at this
  rw [this, Nat.shiftLeft_eq, Nat.shiftRight_eq_div_pow]
  norm_num
  omega

theorem and_lnot_3 (x : Nat) (hx : x < 2 ^ 64) : x &&& lnot 3 = x - x % 4 := by
  have := and_lnot_low x 2 hx (by decide)
  rw [show (2 : Nat) ^ 2 - 1 = 3 by decide] at this
  rw [this, Nat.shiftLeft_eq, Nat.shiftRight_eq_div_pow]
  norm_num
  omega

theorem and_7 (x : Nat) : x &&& 7 = x % 8 := Nat.and_pow_two_sub_one_eq_mod x 3

theorem and_3 (x : Nat) : x &&& 3 = x % 4 := Nat.and_pow_two_sub_one_eq_mod x 2

theorem memiszero_bytes_spec (mem : Nat → Nat) (n z p : Nat) (hn : n < 8) :
    memiszero_bytes mem n z p = if z = 0 ∧ ∀ i, i < n → mem (p + i) = 0 then 1 else 0 := by
  have key : ∀ k, (if (or_bytes mem k (z, p)).1 = 0 then 1 else 0) =
      if z = 0 ∧ ∀ i, i < k → mem (p + i) = 0 then 1 else 0 :=
    fun k => if_congr (or_bytes_spec mem k z p).2 rfl rfl
  unfold memiszero_bytes
  interval_cases n
  · exact key 0
  · exact key 1
  · exact key 2
  · exact key 3
  · exact key 4
  · exact key 5
  · exact key 6
  · exact key 7

theorem memiszero_bytes_32_spec (mem : Nat → Nat) (n z p : Nat) (hn : n < 4) :
    memiszero_bytes_32 mem n z p = if z = 0 ∧ ∀ i, i < n → mem (p + i) = 0 then 1 else 0 := by
  have key : ∀ k, (if (or_bytes mem k (z, p)).1 = 0 then 1 else 0) =
      if z = 0 ∧ ∀ i, i < k → mem (p + i) = 0 then 1 else 0 :=
    fun k => if_congr (or_bytes_spec mem k z p).2 rfl rfl
  unfold memiszero_bytes_32
  interval_cases n
  · exact key 0
  · exact key 1
  · exact key 2
  · exact key 3

theorem memiszero_rest_spec (mem : Nat → Nat) (fuel t n p j : Nat)
    (ht : t = p + 8 * j) (hj : j < fuel) (hn : n < 8) :
    memiszero_rest mem fuel t n 0 p = some (all_zero mem p (8 * j + n)) := by
  unfold memiszero_rest
  rw [memiszero_words_spec mem t fuel p j ht hj]
  unfold all_zero
  simp only [forall_lt_add (fun a => mem a = 0) p (8 * j) n]
  by_cases h : ∀ i, i < 8 * j → mem (p + i) = 0
  · simp only [iff_true_intro h, if_true, true_and]
    rw [memiszero_bytes_spec mem n 0 t hn, ht]
    simp
  · simp only [iff_false_intro h, if_false, false_and]

theorem memiszero_rest_32_spec (mem : Nat → Nat) (fuel t n p j : Nat)
    (ht : t = p + 4 * j) (hj : j < fuel) (hn : n < 4) :
    memiszero_rest_32 mem fuel t n 0 p = some (all_zero mem p (4 * j + n)) := by
  unfold memiszero_rest_32
  rw [memiszero_words_32_spec mem t fuel p j ht hj]
  unfold all_zero
  simp only [forall_lt_add (fun a => mem a = 0) p (4 * j) n]
  by_cases h : ∀ i, i < 4 * j → mem (p + i) = 0
  · simp only [iff_true_intro h, if_true, true_and]
    rw [memiszero_bytes_32_spec mem n 0 t hn, ht]
    simp
  · simp only [iff_false_intro h, if_false, false_and]

/-- The head bytes of `memiszero`, the test `if (z) return 0;`, and the rest. -/
theorem memiszero_head_spec (mem : Nat → Nat) (fuel t n p k j : Nat)
    (ht : t = p + k + 8 * j) (hj : j < fuel) (hn : n < 8) :
    (if (or_bytes mem k (0, p)).1 ≠ 0 then some 0
     else memiszero_rest mem fuel t n (or_bytes mem k (0, p)).1 (or_bytes mem k (0, p)).2) =
      some (all_zero mem p (k + (8 * j + n))) := by
  obtain ⟨e2, e1⟩ := or_bytes_spec mem k 0 p
  unfold all_zero
  simp only [forall_lt_add (fun a => mem a = 0) p k (8 * j + n)]
  by_cases h : (or_bytes mem k (0, p)).1 = 0
  · have hk : ∀ i, i < k → mem (p + i) = 0 := (e1.1 h).2
    rw [if_neg (by simpa using h), h, e2, memiszero_rest_spec mem fuel t n (p + k) j ht hj hn]
    simp only [iff_true_intro hk, true_and, all_zero]
  · have hk : ¬ ∀ i, i < k → mem (p + i) = 0 := fun hk => h (e1.2 ⟨rfl, hk⟩)
    rw [if_pos h]
    simp only [iff_false_intro hk, false_and, if_false]

theorem memiszero_32_head_spec (mem : Nat → Nat) (fuel t n p k j : Nat)
    (ht : t = p + k + 4 * j) (hj : j < fuel) (hn : n < 4) :
    (if (or_bytes mem k (0, p)).1 ≠ 0 then some 0
     else memiszero_rest_32 mem fuel t n (or_bytes mem k (0, p)).1 (or_bytes mem k (0, p)).2) =
      some (all_zero mem p (k + (4 * j + n))) := by
  obtain ⟨e2, e1⟩ := or_bytes_spec mem k 0 p
  unfold all_zero
  simp only [forall_lt_add (fun a => mem a = 0) p k (4 * j + n)]
  by_cases h : (or_bytes mem k (0, p)).1 = 0
  · have hk : ∀ i, i < k → mem (p + i) = 0 := (e1.1 h).2
    rw [if_neg (by simpa using h), h, e2, memiszero_rest_32_spec mem fuel t n (p + k) j ht hj hn]
    simp only [iff_true_intro hk, true_and, all_zero]
  · have hk : ¬ ∀ i, i < k → mem (p + i) = 0 := fun hk => h (e1.2 ⟨rfl, hk⟩)
    rw [if_pos h]
    simp only [iff_false_intro hk, false_and, if_false]

theorem memiszero_spec (mem : Nat → Nat) (fuel p n : Nat) (hp : p + n < 2 ^ 64)
    (hfuel : n < fuel) : memiszero mem fuel p n = some (all_zero mem p n) := by
  unfold memiszero
  by_cases h8 : n < 8
  · simp only [h8, if_true]
    rw [memiszero_bytes_spec mem n 0 p h8]
    simp [all_zero]
  · simp only [h8, if_false]
    rw [Nat.mod_eq_of_lt hp, and_lnot_7 _ hp, and_7, and_7]
    have hn : (p + n) % 8 < 8 := Nat.mod_lt _ (by decide)
    obtain ⟨a, ha⟩ : ∃ a, p % 8 = a := ⟨_, rfl⟩
    have ha8 : a < 8 := ha ▸ Nat.mod_lt _ (by decide)
    rw [ha]
    interval_cases a
    · have := memiszero_rest_spec mem fuel (p + n - (p + n) % 8) ((p + n) % 8) p (n / 8)
        (by omega) (by omega) hn
      rw [show 8 * (n / 8) + (p + n) % 8 = n by omega] at this
      exact this
    · have := memiszero_head_spec mem fuel (p + n - (p + n) % 8) ((p + n) % 8) p 7 ((n - 7) / 8)
        (by omega) (by omega) hn
      rw [show 7 + (8 * ((n - 7) / 8) + (p + n) % 8) = n by omega] at this
      exact this
    · have := memiszero_head_spec mem fuel (p + n - (p + n) % 8) ((p + n) % 8) p 6 ((n - 6) / 8)
        (by omega) (by omega) hn
      rw [show 6 + (8 * ((n - 6) / 8) + (p + n) % 8) = n by omega] at this
      exact this
    · have := memiszero_head_spec mem fuel (p + n - (p + n) % 8) ((p + n) % 8) p 5 ((n - 5) / 8)
        (by omega) (by omega) hn
      rw [show 5 + (8 * ((n - 5) / 8) + (p + n) % 8) = n by omega] at this
      exact this
    · have := memiszero_head_spec mem fuel (p + n - (p + n) % 8) ((p + n) % 8) p 4 ((n - 4) / 8)
        (by omega) (by omega) hn
      rw [show 4 + (8 * ((n - 4) / 8) + (p + n) % 8) = n by omega] at this
      exact this
    · have := memiszero_head_spec mem fuel (p + n - (p + n) % 8) ((p + n) % 8) p 3 ((n - 3) / 8)
        (by omega) (by omega) hn
      rw [show 3 + (8 * ((n - 3) / 8) + (p + n) % 8) = n by omega] at this
      exact this
    · have := memiszero_head_spec mem fuel (p + n - (p + n) % 8) ((p + n) % 8) p 2 ((n - 2) / 8)
        (by omega) (by omega) hn
      rw [show 2 + (8 * ((n - 2) / 8) + (p + n) % 8) = n by omega] at this
      exact this
    · have := memiszero_head_spec mem fuel (p + n - (p + n) % 8) ((p + n) % 8) p 1 ((n - 1) / 8)
        (by omega) (by omega) hn
      rw [show 1 + (8 * ((n - 1) / 8) + (p + n) % 8) = n by omega] at this
      exact this

theorem memiszero_32_spec (mem : Nat → Nat) (fuel p n : Nat) (hp : p + n < 2 ^ 64)
    (hfuel : n < fuel) : memiszero_32 mem fuel p n = some (all_zero mem p n) := by
  unfold memiszero_32
  by_cases h4 : n < 4
  · simp only [h4, if_true]
    rw [memiszero_bytes_32_spec mem n 0 p h4]
    simp [all_zero]
  · simp only [h4, if_false]
    rw [Nat.mod_eq_of_lt hp, and_lnot_3 _ hp, and_3, and_3]
    have hn : (p + n) % 4 < 4 := Nat.mod_lt _ (by decide)
    obtain ⟨a, ha⟩ : ∃ a, p % 4 = a := ⟨_, rfl⟩
    have ha4 : a < 4 := ha ▸ Nat.mod_lt _ (by decide)
    rw [ha]
    interval_cases a
    · have := memiszero_rest_32_spec mem fuel (p + n - (p + n) % 4) ((p + n) % 4) p (n / 4)
        (by omega) (by omega) hn
      rw [show 4 * (n / 4) + (p + n) % 4 = n by omega] at this
      exact this
    · have := memiszero_32_head_spec mem fuel (p + n - (p + n) % 4) ((p + n) % 4) p 3
        ((n - 3) / 4) (by omega) (by omega) hn
      rw [show 3 + (4 * ((n - 3) / 4) + (p + n) % 4) = n by omega] at this
      exact this
    · have := memiszero_32_head_spec mem fuel (p + n - (p + n) % 4) ((p + n) % 4) p 2
        ((n - 2) / 4) (by omega) (by omega) hn
      rw [show 2 + (4 * ((n - 2) / 4) + (p + n) % 4) = n by omega] at this
      exact this
    · have := memiszero_32_head_spec mem fuel (p + n - (p + n) % 4) ((p + n) % 4) p 1
        ((n - 1) / 4) (by omega) (by omega) hn
      rw [show 1 + (4 * ((n - 1) / 4) + (p + n) % 4) = n by omega] at this
      exact this

theorem memiszero_loop_spec (mem : Nat → Nat) (fuel p n : Nat) (hfuel : n < fuel) :
    memiszero_loop mem fuel p n = some (all_zero mem p n) :=
  memiszero_loop_go_spec mem (p + n) fuel p n rfl hfuel

theorem all_zero_last_byte_set (p n : Nat) (hn : 0 < n) : all_zero (last_byte_set p n) p n = 0 := by
  unfold all_zero
  rw [if_neg]
  intro h
  have := h (n - 1) (by omega)
  simp only [last_byte_set] at this
  rw [if_pos (by omega)] at this
  exact absurd this (by decide)

/-- C27: for a buffer of `n` bytes at `p` that lies in the address space
(`p + n < 2 ^ 64`), whatever the alignment of `p` and whatever `n`, and with
fuel for the loops, the reference `memiszero_loop` returns `1` if all `n`
bytes are zero and `0` otherwise, and `memiszero` and `memiszero_32` return
what `memiszero_loop` returns; for a buffer that is zero except for its last
byte all three return `0`. -/
theorem memiszero_equiv (mem : Nat → Nat) (fuel p n : Nat) (hp : p + n < 2 ^ 64)
    (hfuel : n < fuel) :
    memiszero_loop mem fuel p n = some (all_zero mem p n) ∧
    memiszero mem fuel p n = memiszero_loop mem fuel p n ∧
    memiszero_32 mem fuel p n = memiszero_loop mem fuel p n ∧
    (0 < n → memiszero_loop (last_byte_set p n) fuel p n = some 0 ∧
      memiszero (last_byte_set p n) fuel p n = some 0 ∧
      memiszero_32 (last_byte_set p n) fuel p n = some 0) := by
  refine ⟨memiszero_loop_spec mem fuel p n hfuel, ?_, ?_, fun hn => ⟨?_, ?_, ?_⟩⟩
  · rw [memiszero_spec mem fuel p n hp hfuel, memiszero_loop_spec mem fuel p n hfuel]
  · rw [memiszero_32_spec mem fuel p n hp hfuel, memiszero_loop_spec mem fuel p n hfuel]
  · rw [memiszero_loop_spec _ fuel p n hfuel, all_zero_last_byte_set p n hn]
  · rw [memiszero_spec _ fuel p n hp hfuel, all_zero_last_byte_set p n hn]
  · rw [memiszero_32_spec _ fuel p n hp hfuel, all_zero_last_byte_set p n hn]

theorem sum_map_succ_at (f g : Nat → Nat) (idx : Nat) : ∀ n, idx < n →
    (∀ i, i ≠ idx → f i = g i) → f idx = g idx + 1 →
    ((List.range n).map f).sum = ((List.range n).map g).sum + 1 := by
  intro n
  induction n with
  | zero => intro h; omega
  | succ n ih =>
    intro hlt hne hidx
    rw [List.range_succ, List.map_append, List.map_append, List.sum_append, List.sum_append]
    simp only [List.map_cons, List.map_nil, List.sum_cons, List.sum_nil, Nat.add_zero]
    by_cases h : idx = n
    · have : (List.range n).map f = (List.range n).map g := by
        apply List.map_congr_left
        intro i hi
        exact hne i (by have := List.mem_range.1 hi; omega)
      rw [this, ← h, hidx]
      omega
    · rw [ih (by omega) hne hidx, hne n (fun e => h e.symm)]
      omega

theorem tr_nr_queued_succ (L L' : Nat → List Nat) (idx : Nat) (hidx : idx < MAX_RQ)
    (hne : ∀ i, i ≠ idx → L' i = L i) (h : (L' idx).length = (L idx).length + 1) :
    tr_nr_queued L' = tr_nr_queued L + 1 := by
  unfold tr_nr_queued
  exact sum_map_succ_at _ _ idx MAX_RQ hidx (fun i hi => by simp only [hne i hi]) h

theorem TrInv_set_t (s : tr_state) (L : Nat → List Nat) (a v : Nat) (hI : TrInv s L)
    (hv : v < 2 ^ 64) : TrInv { s with t := upd s.t a v } L := by
  obtain ⟨i1, i2, i3, i4, i5, i6, i7, i8, i9⟩ := hI
  refine ⟨i1, i2, ?_, i4,
    fun i hi => @Chain_ext s { s with t := upd s.t a v } rfl rfl _ _ _ (i5 i hi),
    i6, i7, i8, i9⟩
  intro x
  show upd s.t a v x < 2 ^ 64
  unfold upd
  split_ifs
  · exact hv
  · exact i3 x

/-- With `tbase` equal to the field `t` of the task, the test of `tbase`
against `0` in `tr_queue` makes no difference. -/
theorem tr_queue_idx_same (tsk key : Nat) (s : tr_state) (hst : s.tbase = s.t tsk)
    (hk : key < 2 ^ 64) (hle : s.tbase ≤ key) (hq : (key - s.tbase) / NS_SLOT < MAX_RQ) :
    tr_queue_idx tsk key s = ((key - s.tbase) / NS_SLOT + s.ibase) % MAX_RQ := by
  unfold tr_queue_idx
  simp only [← hst, ite_self, and_RQ_MASK]
  have e1 : (key + 2 ^ 64 - s.tbase) % 2 ^ 64 = key - s.tbase := by omega
  rw [e1]
  simp only [MAX_RQ] at hq ⊢
  generalize (key - s.tbase) / NS_SLOT = r at hq
  rw [Nat.mod_eq_of_lt (by omega : r < 2 ^ 32), if_neg (by omega)]
  omega

/-- One round of the first loop of `tr_test` keeps its invariant: the task
goes to slot `r`, the value of `rand() % times`. -/
theorem tr_fill_step (tasks : Nat) (s : tr_state) (L : Nat → List Nat) (i r : Nat)
    (hr : r < MAX_RQ) (h : TrFillInv tasks s L i) :
    TrFillInv tasks
      (tr_queue (tasks + i) ((r * NS_SLOT) % 2 ^ 64) { s with t := upd s.t (tasks + i) 0 })
      (fun j => if j = r then L j ++ [tasks + i] else L j) (i + 1) := by
  obtain ⟨hI, htb, hib, hL, hcnt, -⟩ := h
  have hI1 := TrInv_set_t s L (tasks + i) 0 hI (by decide)
  have hkey : r * NS_SLOT % 2 ^ 64 = r * NS_SLOT :=
    Nat.mod_eq_of_lt (by simp only [MAX_RQ, NS_SLOT] at hr ⊢; omega)
  have hnew : ∀ j, tasks + i ∉ L j := fun j hj => by
    obtain ⟨⟨k, hk, e⟩, -, -⟩ := hL j _ hj
    omega
  generalize hs1 : ({ s with t := upd s.t (tasks + i) 0 } : tr_state) = s1 at hI1 ⊢
  have h1t : s1.t = upd s.t (tasks + i) 0 := by rw [← hs1]
  have h1b : s1.tbase = 0 := by rw [← hs1]; exact htb
  have h1i : s1.ibase = 0 := by rw [← hs1]; exact hib
  have h1z : s1.t (tasks + i) = 0 := by rw [h1t, upd_same]
  have hidx : tr_queue_idx (tasks + i) (r * NS_SLOT) s1 = r := by
    rw [tr_queue_idx_fresh _ _ s1 h1i h1b h1z
      (Nat.mul_lt_mul_of_pos_right hr (by decide))]
    exact Nat.mul_div_cancel _ (by decide)
  have hspec := tr_queue_spec s1 L (tasks + i) (r * NS_SLOT) hI1 hnew
    (by simp only [MAX_RQ, NS_SLOT] at hr ⊢; omega)
  rw [hidx] at hspec
  rw [hkey]
  refine ⟨hspec, ?_, ?_, ?_, ?_, fun _ => ⟨r, tasks + i, by simp⟩⟩
  · rw [tr_queue_tbase, if_pos h1b, h1z]
  · rw [tr_queue_ibase, h1i]
  · intro j a ha
    beta_reduce at ha
    rw [tr_queue_t, h1t]
    by_cases hj : j = r
    · rw [if_pos hj] at ha
      rcases List.mem_append.1 ha with ha | ha
      · obtain ⟨⟨k, hk, e⟩, e2, e3⟩ := hL j a ha
        refine ⟨⟨k, by omega, e⟩, ?_, e3⟩
        rw [upd_of_ne _ _ (by omega), upd_of_ne _ _ (by omega)]
        exact e2
      · rw [List.mem_singleton.1 ha, upd_same, hj]
        exact ⟨⟨i, by omega, rfl⟩, rfl, hr⟩
    · rw [if_neg hj] at ha
      obtain ⟨⟨k, hk, e⟩, e2, e3⟩ := hL j a ha
      refine ⟨⟨k, by omega, e⟩, ?_, e3⟩
      rw [upd_of_ne _ _ (by omega), upd_of_ne _ _ (by omega)]
      exact e2
  · rw [tr_nr_queued_succ L _ r hr (fun j hj => by simp only [hj, if_false])
      (by simp), hcnt]

/-- The first loop of `tr_test` keeps its invariant. -/
theorem tr_test_fill_spec (tasks : Nat) (rnd : Nat → Nat) : ∀ (n i : Nat) (s : tr_state)
    (L : Nat → List Nat), TrFillInv tasks s L i →
    ∃ L', TrFillInv tasks (tr_test_fill tasks MAX_RQ rnd n i s) L' (i + n) := by
  intro n
  induction n with
  | zero => intro i s L h; exact ⟨L, h⟩
  | succ n ih =>
    intro i s L h
    have hstep := tr_fill_step tasks s L i (rnd i % MAX_RQ) (Nat.mod_lt _ (by decide)) h
    obtain ⟨L', hL'⟩ := ih (i + 1) _ _ hstep
    refine ⟨L', ?_⟩
    rw [show i + (n + 1) = i + 1 + n by omega]
    exact hL'

/-- One round of the second loop of `tr_test`: with the invariant, `tr_dequeue`
returns a task, the one with the lowest key, whose key is the new `tbase`; the
task is queued again 36 slots ahead, and the invariant holds afterwards. -/
theorem tr_round_spec (s : tr_state) (L : Nat → List Nat) (B n : Nat) (hn : n < 2 ^ 31)
    (h : TrLoopInv s L B n) :
    ∃ a B' L', (tr_dequeue s).1 = .task a ∧
      (tr_dequeue s).2.tbase = B' * NS_SLOT ∧ (tr_dequeue s).2.t a = B' * NS_SLOT ∧
      (tr_dequeue s).2.ibase = B' % MAX_RQ ∧ B' ≤ 255 + 36 * n ∧
      tr_queue_idx a ((B' + 36) * NS_SLOT) (tr_dequeue s).2 = (B' + 36) % MAX_RQ ∧
      TrLoopInv (tr_queue a ((B' + 36) * NS_SLOT) (tr_dequeue s).2) L' B' (n + 1) ∧
      tr_nr_queued L' = tr_nr_queued L := by
  obtain ⟨hI, htb, hib, hB, hL, j0, a0, A0, ha0, ht0, hA0⟩ := h
  have hI' := hI
  obtain ⟨i1, i2, i3, i4, i5, i6, i7, i8, i9⟩ := hI'
  obtain ⟨A0', e1, e2, e3, e4, e5⟩ := hL j0 a0 ha0
  have hAA : A0' = A0 :=
    Nat.eq_of_mul_eq_mul_right (by decide : 0 < NS_SLOT) (by rw [← e1, ht0])
  subst hAA
  have hj0 : j0 < MAX_RQ := by rw [e5]; exact Nat.mod_lt _ (by decide)
  have hb0 : test_bit j0 s.map = true := (i6 j0 hj0).2 (List.ne_nil_of_mem ha0)
  obtain ⟨hlt, -, -⟩ := rel_ffs_scan s i1 i4 j0 hj0 hb0
    (by simp only [MAX_RQ] at *; omega)
  have hfirst := (rel_ffs_first s i1 i4 hlt).2
  have htbase := tr_dequeue_tbase_ring s i1 hlt
  have hibase := tr_dequeue_ibase s (by omega)
  have hdt := tr_dequeue_t s
  rcases tr_dequeue_spec s L hI with ⟨h, -, -⟩ | ⟨a, l, -, hal, hfst, hI1⟩
  · omega
  generalize hs1 : (tr_dequeue s).2 = s1 at htbase hibase hdt hI1 ⊢
  generalize hidx : rel_ffs s = idx at hlt hfirst htbase hibase hal hI1
  have hamem : a ∈ L idx := by rw [hal]; exact List.mem_cons_self _ _
  obtain ⟨Aa, a1, a2, a3, a4, a5⟩ := hL idx a hamem
  -- the returned task has the lowest key
  have hmin : ∀ j x, x ∈ L j → ∀ A, B ≤ A → A < B + MAX_RQ → j = A % MAX_RQ → Aa ≤ A := by
    intro j x hx A h1 h2 h3
    by_contra hc
    have hjlt : j < MAX_RQ := by rw [h3]; exact Nat.mod_lt _ (by decide)
    have := hfirst j hjlt (by simp only [MAX_RQ] at *; omega)
    rw [(i6 j hjlt).2 (List.ne_nil_of_mem hx)] at this
    exact absurd this (by decide)
  have hAlt : Aa * NS_SLOT < 2 ^ 64 := by simp only [NS_SLOT]; omega
  have hd : (idx + MAX_RQ - s.ibase) % MAX_RQ = Aa - B := by
    simp only [MAX_RQ] at *; omega
  have h1tb : s1.tbase = Aa * NS_SLOT := by
    rw [htbase, hd, htb, ← Nat.add_mul, show B + (Aa - B) = Aa by omega,
      Nat.mod_eq_of_lt hAlt]
  have h1t : s1.t a = Aa * NS_SLOT := by rw [hdt]; exact a1
  have h1i : s1.ibase = Aa % MAX_RQ := by rw [hibase]; exact a5
  have hklt : (Aa + 36) * NS_SLOT < 2 ^ 64 := by simp only [NS_SLOT]; omega
  have hsub : (Aa + 36) * NS_SLOT - s1.tbase = 36 * NS_SLOT := by
    rw [h1tb, Nat.add_mul]; omega
  have hqidx : tr_queue_idx a ((Aa + 36) * NS_SLOT) s1 = (Aa + 36) % MAX_RQ := by
    rw [tr_queue_idx_same a _ s1 (by rw [h1tb, h1t]) hklt
      (by rw [h1tb]; exact Nat.mul_le_mul_right _ (by omega))
      (by rw [hsub, Nat.mul_div_cancel _ (by decide : 0 < NS_SLOT)]; decide),
      hsub, Nat.mul_div_cancel _ (by decide : 0 < NS_SLOT), h1i]
    simp only [MAX_RQ]; omega
  have hnd := i7 idx
  rw [hal, List.nodup_cons] at hnd
  have hnotin : ∀ j, a ∉ (if j = idx then l else L j) := by
    intro j
    by_cases hj : j = idx
    · rw [if_pos hj]; exact hnd.1
    · rw [if_neg hj]
      exact fun hm => i8 j idx hj hm hamem
  have hsubL : ∀ j x, x ∈ (if j = idx then l else L j) → x ∈ L j := by
    intro j x hx
    by_cases hj : j = idx
    · rw [if_pos hj] at hx; rw [hj, hal]; exact List.mem_cons_of_mem _ hx
    · rw [if_neg hj] at hx; exact hx
  have hspec := tr_queue_spec s1 _ a ((Aa + 36) * NS_SLOT) hI1 hnotin hklt
  rw [hqidx] at hspec
  have hi2 : (Aa + 36) % MAX_RQ < MAX_RQ := Nat.mod_lt _ (by decide)
  refine ⟨a, Aa, _, hfst, h1tb, h1t, h1i, a4, hqidx,
    ⟨hspec, ?_, ?_, by omega, ?_, ?_⟩, ?_⟩
  · rw [tr_queue_tbase]
    split_ifs
    · exact h1t
    · exact h1tb
  · rw [tr_queue_ibase, h1i]
  · intro j x hx
    rw [tr_queue_t, hdt]
    have hold : x ∈ (if j = idx then l else L j) → ∃ A,
        upd s.t a ((Aa + 36) * NS_SLOT) x = A * NS_SLOT ∧ Aa ≤ A ∧ A < Aa + MAX_RQ ∧
        A ≤ 255 + 36 * (n + 1) ∧ j = A % MAX_RQ := by
      intro hx1
      have hxa : x ≠ a := fun e => hnotin j (e ▸ hx1)
      obtain ⟨A, b1, b2, b3, b4, b5⟩ := hL j x (hsubL j x hx1)
      refine ⟨A, by rw [upd_of_ne _ _ hxa]; exact b1,
        hmin j x (hsubL j x hx1) A b2 b3 b5, by omega, by omega, b5⟩
    by_cases hj : j = (Aa + 36) % MAX_RQ
    · rw [if_pos hj] at hx
      rcases List.mem_append.1 hx with hx | hx
      · exact hold hx
      · rw [List.mem_singleton.1 hx, upd_same]
        exact ⟨Aa + 36, rfl, by omega, by simp only [MAX_RQ]; omega, by omega, hj⟩
    · rw [if_neg hj] at hx
      exact hold hx
  · refine ⟨(Aa + 36) % MAX_RQ, a, Aa + 36, by simp, ?_, by simp only [MAX_RQ]; omega⟩
    rw [tr_queue_t, upd_same]
  · have c1 : tr_nr_queued L = tr_nr_queued (fun j => if j = idx then l else L j) + 1 :=
      tr_nr_queued_succ _ L idx hlt (fun j hj => by simp only [hj, if_false])
        (by simp [hal])
    rw [tr_nr_queued_succ (fun j => if j = idx then l else L j) _ ((Aa + 36) % MAX_RQ) hi2
      (fun j hj => by simp only [hj, if_false]) (by simp), c1]

theorem tr_test_round_eq (times : Nat) (s : tr_state) (a : Nat)
    (h : (tr_dequeue s).1 = .task a) :
    tr_test_round times s = some (tr_queue a
      (((tr_dequeue s).2.t a + ((times / 7) * NS_SLOT) % 2 ^ 64) % 2 ^ 64) (tr_dequeue s).2) := by
  unfold tr_test_round
  simp only [h]

theorem tr_test_key (B n : Nat) (hB : B ≤ 255 + 36 * n) (hn : n < 2 ^ 31) :
    (B * NS_SLOT + ((MAX_RQ / 7) * NS_SLOT) % 2 ^ 64) % 2 ^ 64 = (B + 36) * NS_SLOT := by
  have : MAX_RQ / 7 = 36 := by decide
  rw [this]
  simp only [NS_SLOT]
  omega

/-- The second loop of `tr_test` runs through, keeps its invariant and the
number of queued tasks. -/
theorem tr_test_loop_spec : ∀ (i : Nat) (s : tr_state) (L : Nat → List Nat) (B n : Nat),
    TrLoopInv s L B n → n + i ≤ 2 ^ 31 →
    ∃ s' L' B', tr_test_loop MAX_RQ i s = some s' ∧ TrLoopInv s' L' B' (n + i) ∧
      tr_nr_queued L' = tr_nr_queued L := by
  intro i
  induction i with
  | zero => intro s L B n h _; exact ⟨s, L, B, rfl, h, rfl⟩
  | succ i ih =>
    intro s L B n h hle
    have hn : n < 2 ^ 31 := by omega
    obtain ⟨a, B', L', r1, -, r3, -, r5, -, r7, r8⟩ := tr_round_spec s L B n hn h
    have hround := tr_test_round_eq MAX_RQ s a r1
    rw [r3, tr_test_key B' n r5 hn] at hround
    obtain ⟨s', L'', B'', q1, q2, q3⟩ := ih _ L' B' (n + 1) r7 (by omega)
    refine ⟨s', L'', B'', ?_, ?_, by rw [q3, r8]⟩
    · simp only [tr_test_loop, hround]
      exact q1
    · rw [show n + (i + 1) = n + 1 + i by omega]
      exact q2

/-- After the first loop of `tr_test` the invariant of the second loop holds. -/
theorem tr_test_filled (s0 : tr_state) (tasks ntasks : Nat) (rnd : Nat → Nat)
    (ht0 : ∀ a, s0.t a < 2 ^ 64) (hn : 1 ≤ ntasks) :
    ∃ L, TrLoopInv (tr_test_fill tasks MAX_RQ rnd ntasks 0 (tr_rqinit s0)) L 0 0 ∧
      tr_nr_queued L = ntasks := by
  obtain ⟨f1, f2, -⟩ := tr_rqinit_fields s0
  have h0 : TrFillInv tasks (tr_rqinit s0) (fun _ => []) 0 := by
    refine ⟨TrInv_init s0 ht0, f2, f1, fun j a ha => absurd ha (List.not_mem_nil a), ?_,
      fun h => absurd h (lt_irrefl 0)⟩
    unfold tr_nr_queued
    simp
  obtain ⟨L, hI, htb, hib, hL, hcnt, hex⟩ := tr_test_fill_spec tasks rnd ntasks 0 _ _ h0
  rw [Nat.zero_add] at hL hcnt hex
  generalize tr_test_fill tasks MAX_RQ rnd ntasks 0 (tr_rqinit s0) = s at hI htb hib hL
  obtain ⟨j, a, ha⟩ := hex (by omega)
  refine ⟨L, ⟨hI, by rw [htb, Nat.zero_mul], by rw [hib, Nat.zero_mod], by omega, ?_, ?_⟩, hcnt⟩
  · intro j a ha
    obtain ⟨-, e2, e3⟩ := hL j a ha
    refine ⟨j, e2, by omega, by omega, ?_, (Nat.mod_eq_of_lt e3).symm⟩
    simp only [MAX_RQ] at e3
    omega
  · obtain ⟨-, e2, e3⟩ := hL j a ha
    exact ⟨j, a, j, ha, e2, by omega⟩

/-- C30. In `tr_test` with `ntasks ≥ 1`, `times = MAX_RQ`, any values of
`rand()` and a number of rounds that fits an `int`: after every number `i` of
rounds of the second loop the run has not gone wrong, the slot lists of the ring
hold `ntasks` tasks, the next `tr_dequeue` returns a task (so does every
`tr_dequeue` of the loop), and the key `tsk->t + (times / 7) * NS_SLOT` of the
requeue is `tbase + 36 * NS_SLOT`, which lies in `[tbase, tbase + MAX_RQ * NS_SLOT)`
and goes to the slot 36 places after `ibase`; `tr_queue` leaves `tbase` as it is. -/
theorem tr_test_safe (s0 : tr_state) (tasks ntasks loops : Nat) (rnd : Nat → Nat)
    (ht0 : ∀ a, s0.t a < 2 ^ 64) (hn : 1 ≤ ntasks) (hl : loops < 2 ^ 31) :
    ∀ i, i ≤ loops → ∃ s L tsk key,
      tr_test tasks ntasks MAX_RQ i rnd s0 = some s ∧ TrInv s L ∧ tr_nr_queued L = ntasks ∧
      (tr_dequeue s).1 = .task tsk ∧
      key = ((tr_dequeue s).2.t tsk + ((MAX_RQ / 7) * NS_SLOT) % 2 ^ 64) % 2 ^ 64 ∧
      tr_test_round MAX_RQ s = some (tr_queue tsk key (tr_dequeue s).2) ∧
      (tr_dequeue s).2.tbase ≤ key ∧ key < (tr_dequeue s).2.tbase + MAX_RQ * NS_SLOT ∧
      key = (tr_dequeue s).2.tbase + 36 * NS_SLOT ∧
      (tr_queue tsk key (tr_dequeue s).2).tbase = (tr_dequeue s).2.tbase ∧
      tr_queue_idx tsk key (tr_dequeue s).2 = ((tr_dequeue s).2.ibase + 36) % MAX_RQ := by
  intro i hi
  obtain ⟨L0, h0, hc0⟩ := tr_test_filled s0 tasks ntasks rnd ht0 hn
  obtain ⟨s, L, B, q1, q2, q3⟩ := tr_test_loop_spec i _ L0 0 0 h0 (by omega)
  rw [Nat.zero_add] at q2
  have hi31 : i < 2 ^ 31 := by omega
  obtain ⟨a, B', L', r1, r2, r3, r4, r5, r6, r7, -⟩ := tr_round_spec s L B i hi31 q2
  have hkey := tr_test_key B' i r5 hi31
  have hround := tr_test_round_eq MAX_RQ s a r1
  rw [r3, hkey] at hround
  refine ⟨s, L, a, (B' + 36) * NS_SLOT, q1, q2.1, by rw [q3, hc0], r1, by rw [r3, hkey],
    hround, ?_, ?_, ?_, ?_, ?_⟩
  · rw [r2]; exact Nat.mul_le_mul_right _ (by omega)
  · rw [r2, ← Nat.add_mul]
    exact Nat.mul_lt_mul_of_pos_right (by simp only [MAX_RQ]; omega) (by decide)
  · rw [r2, Nat.add_mul]
  · rw [r7.2.1, r2]
  · rw [r6, r4]
    simp only [MAX_RQ]; omega

theorem Reach_cfs_three : Reach cfs_three [3, 2, 1] :=
  Reach.queue 4 3 70 Reach_cfs_two (by decide) (by decide) (by decide) rfl

theorem Reach_cfs_tied : Reach cfs_tied [2, 1] :=
  Reach.queue 3 2 50 Reach_cfs_one (by decide) (by decide) (by decide) rfl

theorem Rep_cfs_three : Rep cfs_three.heap tree_three :=
  ⟨by decide,
    ⟨by decide, by decide, by decide, by decide, by decide,
      ⟨by decide, by decide, by decide, by decide, by decide, trivial, trivial⟩,
      ⟨by decide, by decide, by decide, by decide, by decide, trivial, trivial⟩⟩,
    by decide⟩

theorem RB_tree_three : tree_three.RB := by
  simp [tree_three, Tree.RB, Tree.isBlack, Tree.NoRR, Tree.Bal, Tree.bh]

theorem BST_tree_three : tree_three.BST cfs_three.t := by
  refine ⟨?_, ?_, ⟨?_, ?_, trivial, trivial⟩, ⟨?_, ?_, trivial, trivial⟩⟩
  all_goals simp only [Tree.inorder, List.nil_append, List.mem_singleton, List.not_mem_nil,
    forall_eq, false_imp_iff, implies_true, List.append_nil, List.mem_cons, or_false]
  all_goals decide

set_option maxRecDepth 100000 in
/-- C21, counterexample. The ring `tr_queued1` is reached from `tr_rqinit` and
holds task `1` only; `tr_dequeue` returns task `1`, and the ring `tr_base10`
that it leaves is reached, holds no task and has `tbase = 50000000`, which is
not `0`; a task queued next does not change `tbase`. -/
theorem tr_dequeue_last_tbase :
    TrReach tr_queued1 [1] ∧ (tr_dequeue tr_queued1).1 = .task 1 ∧
    (tr_dequeue tr_queued1).2.tbase = 50000000 ∧
    TrReach tr_base10 [] ∧ tr_base10.tbase = 50000000 ∧
    (tr_queue 2 (50000000 + 251 * NS_SLOT) tr_base10).tbase = 50000000 :=
  ⟨TrReach.queue 1 (10 * NS_SLOT)
      (TrReach.init tr_zero (fun _ => by show 0 < 2 ^ 64; decide)) (by decide) (by decide),
    by decide, by decide, TrReach_base10, by decide, by decide⟩

set_option maxRecDepth 100000 in
/-- Instance of the amended C21 at the ring `tr_base10`, which holds no task. -/
theorem tr_dequeue_null_tbase_witness :
    ((tr_dequeue tr_base10).1 = .null → (tr_dequeue tr_base10).2.tbase = 0) ∧
    (([] : List Nat) = [] → (tr_dequeue tr_base10).1 = .null ∧
      (tr_dequeue tr_base10).2.tbase = 0) ∧
    ((tr_dequeue tr_base10).1 = .null → ∀ tsk key : Nat,
      (tr_queue tsk key (tr_dequeue tr_base10).2).tbase = tr_base10.t tsk) ∧
    (∀ a, (tr_dequeue tr_base10).1 = .task a → (tr_dequeue tr_base10).2.tbase =
      (tr_base10.tbase + ((rel_ffs tr_base10 + MAX_RQ - tr_base10.ibase) % MAX_RQ) * NS_SLOT)
        % 2 ^ 64) :=
  tr_dequeue_null_tbase TrReach_base10

/-- Instance of C22 at the run-queue `cfs_two`, with fuel `3`. -/
theorem cfs_leftmost_cache_witness :
    ∃ T, Rep cfs_two.heap T ∧ T.inorder.Perm [2, 1] ∧
      (cfs_two.rb_leftmost = 0 ∨ T.inorder.head? = some cfs_two.rb_leftmost) ∧
      rb_first 3 cfs_two.heap = some (T.inorder.head?.getD 0) ∧
      first_fair 3 cfs_two = rb_first 3 cfs_two.heap :=
  cfs_leftmost_cache Reach_cfs_two 3 (by decide)

/-- Instance of C23 at the run-queue `cfs_two`, for task `3` with key `5`
and fuel `4`. -/
theorem cfs_queue_leftmost_witness :
    ∃ s' T', cfs_queue 4 3 5 cfs_two = some s' ∧ Rep s'.heap T' ∧
      T'.inorder.Perm (3 :: [2, 1]) ∧
      ((∀ a ∈ [2, 1], 5 < cfs_two.t a) → s'.rb_leftmost = 3 ∧ T'.inorder.head? = some 3) ∧
      (¬ (∀ a ∈ [2, 1], 5 < cfs_two.t a) → s'.rb_leftmost = cfs_two.rb_leftmost ∧
        T'.inorder.head? ≠ some 3) :=
  cfs_queue_leftmost Reach_cfs_two 3 5 4 (by decide) (by decide) (by decide)

/-- Instance of C24 at the run-queue `cfs_two`, with fuel `3`. -/
theorem cfs_dequeue_leftmost_witness :
    (∀ p ∈ [2, 1], ∃ s' T', __dequeue_task_fair 3 p cfs_two = some s' ∧
      s'.rb_leftmost = (if cfs_two.rb_leftmost = p then 0 else cfs_two.rb_leftmost) ∧
      Rep s'.heap T' ∧ T'.inorder.Perm ([2, 1].erase p)) ∧
    ([2, 1] ≠ [] → ∃ a s', cfs_dequeue 3 cfs_two = some (a, s') ∧ a ≠ 0 ∧
      s'.rb_leftmost = 0) :=
  cfs_dequeue_leftmost Reach_cfs_two 3 (by decide)

/-- Instance of C25 at the tree of `cfs_three` and its root `1`, which has two
children, with fuel `4`. -/
theorem rb_erase_any_witness :
    ∃ h' T', rb_erase 4 1 cfs_three.heap = some h' ∧ Rep h' T' ∧ T'.RB ∧
      T'.BST cfs_three.t ∧ T'.inorder = tree_three.inorder.erase 1 :=
  rb_erase_any tree_three cfs_three.t 1 4 Rep_cfs_three RB_tree_three BST_tree_three
    (by decide) (by decide)

/-- Instance of C26 at the run-queue `cfs_three`, which holds three tasks. -/
theorem cfs_height_log_witness :
    ∃ T, Rep cfs_three.heap T ∧ T.inorder.Perm [3, 2, 1] ∧
      T.height ≤ 2 * Nat.log 2 ([3, 2, 1].length + 1) ∧
      (∀ (t' : Nat → Nat) (key : Nat), ∃ r,
        cfs_queue_loop { cfs_three with t := t' } key
          (2 * Nat.log 2 ([3, 2, 1].length + 1) + 1) .root 0 1 = some r) ∧
      rb_first (2 * Nat.log 2 ([3, 2, 1].length + 1)) cfs_three.heap =
        some (T.inorder.head?.getD 0) :=
  cfs_height_log Reach_cfs_three

/-- Instance of C27 at a buffer of `20` bytes at the address `1001`, zero
except for its last byte, with fuel `21`. -/
theorem memiszero_equiv_witness :
    1001 + 20 < 2 ^ 64 ∧ 20 < 21 ∧
    memiszero_loop (last_byte_set 1001 20) 21 1001 20 =
      some (all_zero (last_byte_set 1001 20) 1001 20) ∧
    memiszero (last_byte_set 1001 20) 21 1001 20 =
      memiszero_loop (last_byte_set 1001 20) 21 1001 20 ∧
    memiszero_32 (last_byte_set 1001 20) 21 1001 20 =
      memiszero_loop (last_byte_set 1001 20) 21 1001 20 ∧
    (0 < 20 → memiszero_loop (last_byte_set 1001 20) 21 1001 20 = some 0 ∧
      memiszero (last_byte_set 1001 20) 21 1001 20 = some 0 ∧
      memiszero_32 (last_byte_set 1001 20) 21 1001 20 = some 0) :=
  ⟨by decide, by decide, memiszero_equiv (last_byte_set 1001 20) 21 1001 20 (by decide)
    (by decide)⟩

/-- Instance of C28 at the run-queue `cfs_tied`, where task `1` was queued
before task `2` with the same key `50`, with fuel `3`. -/
theorem cfs_fifo_ties_witness :
    ∃ x s', cfs_dequeue 3 cfs_tied = some (x, s') ∧ Reach s' ([2, 1].erase x) ∧ x ≠ 2 ∧
      s'.t = cfs_tied.t ∧ (x = 1 ∨ List.Sublist [2, 1] ([2, 1].erase x)) :=
  cfs_fifo_ties Reach_cfs_tied 3 (by decide) 1 2 (List.Sublist.refl _) (by decide)

set_option maxRecDepth 100000 in
/-- Instance of C29 at the ring `tr_base10`. -/
theorem tr_index_bounds_witness :
    tr_base10.ibase < MAX_RQ ∧ tr_base10.ibase / BITS_X_LONG < MAP_LONGS ∧
    (∀ (s' : tr_state) (tsk key : Nat), tr_queue_idx tsk key s' < MAX_RQ) ∧
    rel_ffs tr_base10 ≤ MAX_RQ ∧
    (rel_ffs tr_base10 ≠ MAX_RQ →
      rel_ffs tr_base10 < MAX_RQ ∧ rel_ffs tr_base10 / BITS_X_LONG < MAP_LONGS) ∧
    (tr_dequeue tr_base10).2.ibase < MAX_RQ :=
  tr_index_bounds TrReach_base10

/-- Instance of C30 for two tasks at the addresses `1` and `2`, the values
`300 + 7 * i` of `rand()`, and the ring after `3` of `5` rounds. -/
theorem tr_test_safe_witness :
    ∃ s L tsk key,
      tr_test 1 2 MAX_RQ 3 (fun i => 300 + 7 * i) tr_zero = some s ∧ TrInv s L ∧
      tr_nr_queued L = 2 ∧
      (tr_dequeue s).1 = .task tsk ∧
      key = ((tr_dequeue s).2.t tsk + ((MAX_RQ / 7) * NS_SLOT) % 2 ^ 64) % 2 ^ 64 ∧
      tr_test_round MAX_RQ s = some (tr_queue tsk key (tr_dequeue s).2) ∧
      (tr_dequeue s).2.tbase ≤ key ∧ key < (tr_dequeue s).2.tbase + MAX_RQ * NS_SLOT ∧
      key = (tr_dequeue s).2.tbase + 36 * NS_SLOT ∧
      (tr_queue tsk key (tr_dequeue s).2).tbase = (tr_dequeue s).2.tbase ∧
      tr_queue_idx tsk key (tr_dequeue s).2 = ((tr_dequeue s).2.ibase + 36) % MAX_RQ :=
  tr_test_safe tr_zero 1 2 5 (fun i => 300 + 7 * i) (fun _ => by show 0 < 2 ^ 64; decide)
    (by decide) (by decide) 3 (by decide)

end SmartQueue
